import Mathlib

/-! # Shallow embedding and verified properties of the course programs

The file embeds Triple DES (`src/p5/TDES.c`), the command line of `tcrypt`
(`src/p5/tcrypt.c`), the segment tree (`src/p6/segTree.c`), the selection loop of the
sort program (`src/p6/sort.c`), the date functions of the rental database
(`src/p4/database.c`) and the date and float checks of the data cleaner (`src/p2/data.c`).
All definitions come first, the lemmas and the properties follow.  Triple DES comes first.

Bytes (`unsigned char`) are natural numbers below 256, buffers are lists of
bytes, and a C function that writes through a pointer returns the new contents
of the buffer it was given.  The `int` lengths and bit indices of the source
are natural numbers (bit indices are 1-based and every caller passes `idx ≥ 1`),
and the length of a buffer handed to a function fits in an `int`.  Where the source
computes a new length in `int` and the result can exceed `INT_MAX` (the padded length
in `encryptTDES`, the number of tree nodes in `addST`), the signed overflow is undefined
behaviour and the function of the model ends without a result.  Apart from that,
`malloc` and `realloc` are assumed to succeed.
`for` loops are folds over the list of values the loop variable takes.
-/

namespace TDES

/-! ## Constants of `magic.h` and `TDESinternal.h` -/

/-- Number of bits in a byte (`TDESinternal.h`). -/
def BYTE_SIZE : Nat := 8

/-- Modelled from the spec: `magic.h` is not among the sources; a block is 64 bits. -/
def BLOCK_BITS : Nat := 64

/-- Modelled from the spec: `magic.h` is not among the sources; a half block is 32 bits. -/
def HALF_BLOCK_BITS : Nat := 32

/-- Modelled from the spec: `magic.h` is not among the sources; a subkey is 48 bits. -/
def SUBKEY_BITS : Nat := 48

/-- Modelled from the spec: `magic.h` is not among the sources; the halves C and D of
the key schedule are 28 bits. -/
def HALF_SUBKEY_BITS : Nat := 28

/-- Modelled from the spec: `magic.h` is not among the sources; a key schedule has 17
slots, slot 0 unused and slots 1..16 holding the round subkeys. -/
def ROUND_COUNT : Nat := 17

/-- Modelled from the spec: `magic.h` is not among the sources; there are 8 S-boxes. -/
def SBOX_COUNT : Nat := 8

/-- Modelled from the spec: `magic.h` is not among the sources; an S-box reads 6 bits. -/
def SBOX_INPUT_BITS : Nat := 6

/-- Modelled from the spec: `magic.h` is not among the sources; an S-box yields 4 bits. -/
def SBOX_OUTPUT_BITS : Nat := 4

/-- The macro `ROUND_TO_BYTES( bits )` of `TDESinternal.h`. -/
def ROUND_TO_BYTES (bits : Nat) : Nat := (bits + BYTE_SIZE - 1) / BYTE_SIZE

/-- Number of bytes in a DES block. -/
def BLOCK_BYTES : Nat := ROUND_TO_BYTES BLOCK_BITS

/-- Number of bytes in the left or right half of a block. -/
def HALF_BLOCK_BYTES : Nat := ROUND_TO_BYTES HALF_BLOCK_BITS

/-- Number of bytes holding the 28-bit values C and D. -/
def HALF_SUBKEY_BYTES : Nat := ROUND_TO_BYTES HALF_SUBKEY_BITS

/-- Number of bytes holding one subkey. -/
def SUBKEY_BYTES : Nat := ROUND_TO_BYTES SUBKEY_BITS

/-- Number of halves used when combining subkeys (`TDES.c`). -/
def NUM_HALVES : Nat := 2

/-- Number of DES key parts used in Triple DES (`TDES.c`). -/
def NUM_KEY_PARTS : Nat := 3

/-- A full byte value with all bits set (`TDES.c`). -/
def FULL_BYTE : Nat := 0xFF

/-- Mask for the upper 4 bits of a byte (`TDES.c`). -/
def UPPER_MASK : Nat := 0xF0

/-- Mask for the lower 4 bits of a byte (`TDES.c`). -/
def LOWER_MASK : Nat := 0x0F

/-- Modelled from the spec: `magic.h` is not among the sources; the left half of the
standard DES initial permutation IP. -/
def leftInitialPerm : List Nat :=
  [58, 50, 42, 34, 26, 18, 10, 2,
   60, 52, 44, 36, 28, 20, 12, 4,
   62, 54, 46, 38, 30, 22, 14, 6,
   64, 56, 48, 40, 32, 24, 16, 8]

/-- Modelled from the spec: `magic.h` is not among the sources; the right half of the
standard DES initial permutation IP. -/
def rightInitialPerm : List Nat :=
  [57, 49, 41, 33, 25, 17, 9, 1,
   59, 51, 43, 35, 27, 19, 11, 3,
   61, 53, 45, 37, 29, 21, 13, 5,
   63, 55, 47, 39, 31, 23, 15, 7]

/-- Modelled from the spec: `magic.h` is not among the sources; the standard DES final
permutation, the inverse of IP. -/
def finalPerm : List Nat :=
  [40, 8, 48, 16, 56, 24, 64, 32,
   39, 7, 47, 15, 55, 23, 63, 31,
   38, 6, 46, 14, 54, 22, 62, 30,
   37, 5, 45, 13, 53, 21, 61, 29,
   36, 4, 44, 12, 52, 20, 60, 28,
   35, 3, 43, 11, 51, 19, 59, 27,
   34, 2, 42, 10, 50, 18, 58, 26,
   33, 1, 41, 9, 49, 17, 57, 25]

/-- Modelled from the spec: `magic.h` is not among the sources; the left half of the
standard DES permuted choice PC-1. -/
def leftSubkeyPerm : List Nat :=
  [57, 49, 41, 33, 25, 17, 9,
   1, 58, 50, 42, 34, 26, 18,
   10, 2, 59, 51, 43, 35, 27,
   19, 11, 3, 60, 52, 44, 36]

/-- Modelled from the spec: `magic.h` is not among the sources; the right half of the
standard DES permuted choice PC-1. -/
def rightSubkeyPerm : List Nat :=
  [63, 55, 47, 39, 31, 23, 15,
   7, 62, 54, 46, 38, 30, 22,
   14, 6, 61, 53, 45, 37, 29,
   21, 13, 5, 28, 20, 12, 4]

/-- Modelled from the spec: `magic.h` is not among the sources; the standard DES
permuted choice PC-2. -/
def subkeyPerm : List Nat :=
  [14, 17, 11, 24, 1, 5,
   3, 28, 15, 6, 21, 10,
   23, 19, 12, 4, 26, 8,
   16, 7, 27, 20, 13, 2,
   41, 52, 31, 37, 47, 55,
   30, 40, 51, 45, 33, 48,
   44, 49, 39, 56, 34, 53,
   46, 42, 50, 36, 29, 32]

/-- Modelled from the spec: `magic.h` is not among the sources; the left-rotation count
of each round, 1 for rounds 1, 2, 9 and 16 and 2 for the others (index 0 unused). -/
def subkeyShiftSchedule : List Nat :=
  [0, 1, 1, 2, 2, 2, 2, 2, 2, 1, 2, 2, 2, 2, 2, 2, 1]

/-- Modelled from the spec: `magic.h` is not among the sources; the standard DES
expansion E. -/
def expandedRSelector : List Nat :=
  [32, 1, 2, 3, 4, 5,
   4, 5, 6, 7, 8, 9,
   8, 9, 10, 11, 12, 13,
   12, 13, 14, 15, 16, 17,
   16, 17, 18, 19, 20, 21,
   20, 21, 22, 23, 24, 25,
   24, 25, 26, 27, 28, 29,
   28, 29, 30, 31, 32, 1]

/-- Modelled from the spec: `magic.h` is not among the sources; the standard DES
permutation P. -/
def fFunctionPerm : List Nat :=
  [16, 7, 20, 21, 29, 12, 28, 17,
   1, 15, 23, 26, 5, 18, 31, 10,
   2, 8, 24, 14, 32, 27, 3, 9,
   19, 13, 30, 6, 22, 11, 4, 25]

/-- Modelled from the spec: `magic.h` is not among the sources; the eight standard DES
S-boxes, indexed `[idx][row][col]`. -/
def sBoxTable : List (List (List Nat)) :=
  [[[14, 4, 13, 1, 2, 15, 11, 8, 3, 10, 6, 12, 5, 9, 0, 7],
    [0, 15, 7, 4, 14, 2, 13, 1, 10, 6, 12, 11, 9, 5, 3, 8],
    [4, 1, 14, 8, 13, 6, 2, 11, 15, 12, 9, 7, 3, 10, 5, 0],
    [15, 12, 8, 2, 4, 9, 1, 7, 5, 11, 3, 14, 10, 0, 6, 13]],
   [[15, 1, 8, 14, 6, 11, 3, 4, 9, 7, 2, 13, 12, 0, 5, 10],
    [3, 13, 4, 7, 15, 2, 8, 14, 12, 0, 1, 10, 6, 9, 11, 5],
    [0, 14, 7, 11, 10, 4, 13, 1, 5, 8, 12, 6, 9, 3, 2, 15],
    [13, 8, 10, 1, 3, 15, 4, 2, 11, 6, 7, 12, 0, 5, 14, 9]],
   [[10, 0, 9, 14, 6, 3, 15, 5, 1, 13, 12, 7, 11, 4, 2, 8],
    [13, 7, 0, 9, 3, 4, 6, 10, 2, 8, 5, 14, 12, 11, 15, 1],
    [13, 6, 4, 9, 8, 15, 3, 0, 11, 1, 2, 12, 5, 10, 14, 7],
    [1, 10, 13, 0, 6, 9, 8, 7, 4, 15, 14, 3, 11, 5, 2, 12]],
   [[7, 13, 14, 3, 0, 6, 9, 10, 1, 2, 8, 5, 11, 12, 4, 15],
    [13, 8, 11, 5, 6, 15, 0, 3, 4, 7, 2, 12, 1, 10, 14, 9],
    [10, 6, 9, 0, 12, 11, 7, 13, 15, 1, 3, 14, 5, 2, 8, 4],
    [3, 15, 0, 6, 10, 1, 13, 8, 9, 4, 5, 11, 12, 7, 2, 14]],
   [[2, 12, 4, 1, 7, 10, 11, 6, 8, 5, 3, 15, 13, 0, 14, 9],
    [14, 11, 2, 12, 4, 7, 13, 1, 5, 0, 15, 10, 3, 9, 8, 6],
    [4, 2, 1, 11, 10, 13, 7, 8, 15, 9, 12, 5, 6, 3, 0, 14],
    [11, 8, 12, 7, 1, 14, 2, 13, 6, 15, 0, 9, 10, 4, 5, 3]],
   [[12, 1, 10, 15, 9, 2, 6, 8, 0, 13, 3, 4, 14, 7, 5, 11],
    [10, 15, 4, 2, 7, 12, 9, 5, 6, 1, 13, 14, 0, 11, 3, 8],
    [9, 14, 15, 5, 2, 8, 12, 3, 7, 0, 4, 10, 1, 13, 11, 6],
    [4, 3, 2, 12, 9, 5, 15, 10, 11, 14, 1, 7, 6, 0, 8, 13]],
   [[4, 11, 2, 14, 15, 0, 8, 13, 3, 12, 9, 7, 5, 10, 6, 1],
    [13, 0, 11, 7, 4, 9, 1, 10, 14, 3, 5, 12, 2, 15, 8, 6],
    [1, 4, 11, 13, 12, 3, 7, 14, 10, 15, 6, 8, 0, 5, 9, 2],
    [6, 11, 13, 8, 1, 4, 10, 7, 9, 5, 0, 15, 14, 2, 3, 12]],
   [[13, 2, 8, 4, 6, 15, 11, 1, 10, 9, 3, 14, 5, 0, 12, 7],
    [1, 15, 13, 8, 10, 3, 7, 4, 12, 5, 6, 11, 0, 14, 9, 2],
    [7, 11, 4, 1, 9, 12, 14, 2, 0, 6, 10, 13, 15, 3, 5, 8],
    [2, 1, 14, 7, 4, 10, 8, 13, 15, 12, 9, 0, 3, 5, 6, 11]]]

/-! ## Bit access and permutation -/

/-- The function `getBit` of `TDES.c`: the bit at 1-based index `idx`, most significant
bit of byte 0 first. -/
def getBit (data : List Nat) (idx : Nat) : Nat :=
  let idx := idx - 1
  let bytIndex := idx / BYTE_SIZE
  let bitIndex := (BYTE_SIZE - 1) - (idx % BYTE_SIZE)
  (data.getD bytIndex 0 >>> bitIndex) &&& 1

/-- The function `putBit` of `TDES.c`: set (`val` non-zero) or clear the bit at 1-based
index `idx`.  On a byte, `&= ~( 1 << bitIndex )` keeps the low eight bits of the
complement, that is `0xFF ^ ( 1 << bitIndex )`. -/
def putBit (data : List Nat) (idx : Nat) (val : Nat) : List Nat :=
  let idx := idx - 1
  let bytIndex := idx / BYTE_SIZE
  let bitIndex := (BYTE_SIZE - 1) - (idx % BYTE_SIZE)
  if val ≠ 0 then
    data.set bytIndex (data.getD bytIndex 0 ||| (1 <<< bitIndex))
  else
    data.set bytIndex (data.getD bytIndex 0 &&& (FULL_BYTE ^^^ (1 <<< bitIndex)))

/-- The function `permute` of `TDES.c`: clear the first `ceil(n/8)` bytes of `output`,
copy bit `perm[i]` of `input` to bit `i + 1` of `output` for `i < n`, and mask the
unused bits of the last byte. -/
def permute (output input : List Nat) (perm : List Nat) (n : Nat) : List Nat :=
  let output := (List.range ((n + BYTE_SIZE - 1) / BYTE_SIZE)).foldl
    (fun out i => out.set i 0) output
  let output := (List.range n).foldl
    (fun out i => putBit out (i + 1) (getBit input (perm.getD i 0))) output
  let bits := n % BYTE_SIZE
  if bits ≠ 0 then
    let index := (n - 1) / BYTE_SIZE
    let p := (FULL_BYTE <<< (BYTE_SIZE - bits)) &&& FULL_BYTE
    output.set index (output.getD index 0 &&& p)
  else
    output

/-! ## Key schedule -/

/-- The static function `rotateLeft` of `TDES.c`: rotate the first 28 bits of `bits`
left by `shift` positions, one position at a time. -/
def rotateLeft (bits : List Nat) (shift : Nat) : List Nat :=
  (List.range shift).foldl (fun bits _ =>
    let first := getBit bits 1
    let bits := (List.range' 1 (HALF_SUBKEY_BITS - 1)).foldl
      (fun bits i => putBit bits i (getBit bits (i + 1))) bits
    putBit bits HALF_SUBKEY_BITS first) bits

/-- The function `generateSubkeys` of `TDES.c`: `K` is the schedule array handed in by
the caller, the result is the array with slots 1..16 written. -/
def generateSubkeys (K : List (List Nat)) (key : List Nat) : List (List Nat) :=
  let C := List.replicate HALF_SUBKEY_BYTES 0
  let D := List.replicate HALF_SUBKEY_BYTES 0
  let C := permute C key leftSubkeyPerm HALF_SUBKEY_BITS
  let D := permute D key rightSubkeyPerm HALF_SUBKEY_BITS
  let C := C.set (HALF_SUBKEY_BYTES - 1) (C.getD (HALF_SUBKEY_BYTES - 1) 0 &&& UPPER_MASK)
  let D := D.set (HALF_SUBKEY_BYTES - 1) (D.getD (HALF_SUBKEY_BYTES - 1) 0 &&& UPPER_MASK)
  let st := (List.range' 1 (ROUND_COUNT - 1)).foldl
    (fun (st : List Nat × List Nat × List (List Nat)) round =>
      let shift := subkeyShiftSchedule.getD round 0
      let C := rotateLeft st.1 shift
      let D := rotateLeft st.2.1 shift
      let comb := ROUND_TO_BYTES (HALF_SUBKEY_BITS * NUM_HALVES)
      let CD := List.replicate comb 0
      let CD := (List.range' 1 HALF_SUBKEY_BITS).foldl
        (fun CD i => putBit CD i (getBit C i)) CD
      let CD := (List.range' 1 HALF_SUBKEY_BITS).foldl
        (fun CD i => putBit CD (i + HALF_SUBKEY_BITS) (getBit D i)) CD
      (C, D, st.2.2.set round (permute (st.2.2.getD round []) CD subkeyPerm SUBKEY_BITS)))
    (C, D, K)
  st.2.2

/-! ## Round function -/

/-- The function `sBox` of `TDES.c`: the S-box value selected by bits
`idx * 6 + 1 .. idx * 6 + 6` of `input`, stored in the high nibble of `output[ 0 ]`. -/
def sBox (output input : List Nat) (idx : Nat) : List Nat :=
  let start := idx * SBOX_INPUT_BITS + 1
  let bits := (List.range SBOX_INPUT_BITS).foldl
    (fun bits i => (bits <<< 1) ||| getBit input (start + i)) 0
  let row := (((bits >>> (SBOX_INPUT_BITS - 1)) &&& 0x1) <<< 1) ||| (bits &&& 0x1)
  let col := (bits >>> 1) &&& LOWER_MASK
  let sboxVal := ((sBoxTable.getD idx []).getD row []).getD col 0
  output.set 0 ((sboxVal <<< SBOX_OUTPUT_BITS) % 256)

/-- The function `fFunction` of `TDES.c`: expansion, key mixing, S-boxes and the
permutation P; `result` is the caller's output buffer. -/
def fFunction (result R K : List Nat) : List Nat :=
  let expandedR := List.replicate SUBKEY_BYTES 0
  let expandedR := permute expandedR R expandedRSelector SUBKEY_BITS
  let B := (List.range SUBKEY_BYTES).map (fun i => expandedR.getD i 0 ^^^ K.getD i 0)
  let sBoxOutput := List.replicate HALF_BLOCK_BYTES 0
  let sBoxOutput := (List.range SBOX_COUNT).foldl (fun sBoxOutput i =>
    let temp := sBox [0] B i
    let n := temp.getD 0 0 >>> SBOX_OUTPUT_BITS
    (List.range SBOX_OUTPUT_BITS).foldl (fun sBoxOutput j =>
      let value := (n >>> (SBOX_OUTPUT_BITS - 1 - j)) &&& 1
      putBit sBoxOutput (i * SBOX_OUTPUT_BITS + j + 1) value) sBoxOutput) sBoxOutput
  permute result sBoxOutput fFunctionPerm HALF_BLOCK_BITS

/-! ## Block cipher -/

/-- The body shared by the last part of `encryptBlock` and `decryptBlock`: combine the
final halves `R` then `L`, apply the final permutation and copy the 8 bytes back into
`block`. -/
def finishBlock (block L R : List Nat) : List Nat :=
  let combinedBlock := List.replicate BLOCK_BYTES 0
  let combinedBlock := (List.range' 1 HALF_BLOCK_BITS).foldl
    (fun cb i => putBit cb i (getBit R i)) combinedBlock
  let combinedBlock := (List.range' 1 HALF_BLOCK_BITS).foldl
    (fun cb i => putBit cb (i + HALF_BLOCK_BITS) (getBit L i)) combinedBlock
  let finOutput := List.replicate BLOCK_BYTES 0
  let finOutput := permute finOutput combinedBlock finalPerm BLOCK_BITS
  (List.range BLOCK_BYTES).foldl (fun block i => block.set i (finOutput.getD i 0)) block

/-- One pass of the round loop of `encryptBlock` / `decryptBlock` with subkey `k`:
the new right half is `L ^ f(R, k)` and the new left half is the old `R`. -/
def feistelRound (st : List Nat × List Nat) (k : List Nat) : List Nat × List Nat :=
  let fOut := List.replicate HALF_BLOCK_BYTES 0
  let fOut := fFunction fOut st.2 k
  let rNext := (List.range HALF_BLOCK_BYTES).map (fun i => st.1.getD i 0 ^^^ fOut.getD i 0)
  let L := (List.range HALF_BLOCK_BYTES).foldl (fun L i => L.set i (st.2.getD i 0)) st.1
  let R := (List.range HALF_BLOCK_BYTES).foldl (fun R i => R.set i (rNext.getD i 0)) st.2
  (L, R)

/-- The function `encryptBlock` of `TDES.c`; the result is the new content of `block`. -/
def encryptBlock (block : List Nat) (K : List (List Nat)) : List Nat :=
  let L := List.replicate HALF_BLOCK_BYTES 0
  let R := List.replicate HALF_BLOCK_BYTES 0
  let L := permute L block leftInitialPerm HALF_BLOCK_BITS
  let R := permute R block rightInitialPerm HALF_BLOCK_BITS
  let st := (List.range' 1 (ROUND_COUNT - 1)).foldl
    (fun st round => feistelRound st (K.getD round [])) (L, R)
  finishBlock block st.1 st.2

/-- The function `decryptBlock` of `TDES.c`; the result is the new content of `block`. -/
def decryptBlock (block : List Nat) (K : List (List Nat)) : List Nat :=
  let L := List.replicate HALF_BLOCK_BYTES 0
  let R := List.replicate HALF_BLOCK_BYTES 0
  let L := permute L block leftInitialPerm HALF_BLOCK_BITS
  let R := permute R block rightInitialPerm HALF_BLOCK_BITS
  let st := (List.range' 1 (ROUND_COUNT - 1)).foldl
    (fun st round => feistelRound st (K.getD (ROUND_COUNT - round) [])) (L, R)
  finishBlock block st.1 st.2

/-! ## Triple DES over a whole buffer -/

/-- The largest value of the type `int` (`limits.h`, 32-bit `int`). -/
def INT_MAX : Nat := 2147483647

/-- The outcomes of `encryptTDES` / `decryptTDES` that return no buffer: the message written
to standard error before `exit( EXIT_FAILURE )`, or the overflow of the padded length. -/
inductive TDESError where
  /-- The message "Invalid key length". -/
  | invalidKeyLength
  /-- The message "Invalid encrypted data length". -/
  | invalidCiphertextLength
  /-- The message "Invalid padding". -/
  | invalidPadding
  /-- No message: the sum `inputLen + padCount` is above `INT_MAX`, so the addition in
  `int totalLength = inputLen + padCount` overflows (undefined behaviour); where the sum
  wraps to a negative number, `malloc( totalLength )` returns `NULL` and `encryptTDES`
  calls `exit( EXIT_FAILURE )`. -/
  | lengthOverflow
  deriving DecidableEq, Repr

/-- The library call `memcpy( dst, src, n )`: the first `n` bytes of `dst` become those
of `src`. -/
def memcpy (dst src : List Nat) (n : Nat) : List Nat :=
  src.take n ++ dst.drop n

/-- A freshly declared or allocated buffer of `n` bytes.  Its content is indeterminate in
C; every byte the code reads from such a buffer has been written first. -/
def freshBytes (n : Nat) : List Nat := List.replicate n 0

/-- A freshly declared key schedule array `byte subkeys[ ROUND_COUNT ][ SUBKEY_BYTES ]`. -/
def freshSchedule : List (List Nat) := List.replicate ROUND_COUNT (freshBytes SUBKEY_BYTES)

/-- The values of `blkIdx` in `for ( blkIdx = 0; blkIdx < len; blkIdx += step )`. -/
def blockOffsets (len step : Nat) : List Nat :=
  (List.range ((len + step - 1) / step)).map (fun k => k * step)

/-- The function `encryptTDES` of `TDES.c`: `inputLen` and `keyLen` are the lengths of the
two buffers, the result is the returned buffer (whose length is `*n`).  The padded length
`totalLength` is an `int`: when `inputLen + padCount` is above `INT_MAX` (that is, from
`inputLen = 2147483640` on) the function returns no buffer. -/
def encryptTDES (input key : List Nat) : Except TDESError (List Nat) :=
  let inputLen := input.length
  let keyLen := key.length
  if keyLen ≠ NUM_KEY_PARTS * BLOCK_BYTES then
    Except.error TDESError.invalidKeyLength
  else
    let desBlockSize := BLOCK_BYTES
    let padCount := desBlockSize - (inputLen % desBlockSize)
    let padCount := if inputLen % desBlockSize = 0 then desBlockSize else padCount
    let totalLength := inputLen + padCount
    if totalLength > INT_MAX then
      Except.error TDESError.lengthOverflow
    else
      let paddedData := freshBytes totalLength
      let paddedData := memcpy paddedData input inputLen
      let paddedData := (List.range' inputLen (totalLength - inputLen)).foldl
        (fun pd i => pd.set i (padCount % 256)) paddedData
      let subkeys1 := generateSubkeys freshSchedule key
      let subkeys2 := generateSubkeys freshSchedule (key.drop BLOCK_BYTES)
      let subkeys3 := generateSubkeys freshSchedule (key.drop (NUM_HALVES * BLOCK_BYTES))
      let paddedData := (blockOffsets totalLength desBlockSize).foldl (fun pd blkIdx =>
        let curBlock := pd.drop blkIdx
        let curBlock := encryptBlock curBlock subkeys1
        let curBlock := decryptBlock curBlock subkeys2
        let curBlock := encryptBlock curBlock subkeys3
        pd.take blkIdx ++ curBlock) paddedData
      Except.ok paddedData

/-- The function `decryptTDES` of `TDES.c`. -/
def decryptTDES (input key : List Nat) : Except TDESError (List Nat) :=
  let inputLen := input.length
  let keyLen := key.length
  if keyLen ≠ NUM_KEY_PARTS * BLOCK_BYTES then
    Except.error TDESError.invalidKeyLength
  else
    let desBlockSize := BLOCK_BYTES
    if inputLen = 0 ∨ inputLen % desBlockSize ≠ 0 then
      Except.error TDESError.invalidCiphertextLength
    else
      let cipherBuffer := freshBytes inputLen
      let cipherBuffer := memcpy cipherBuffer input inputLen
      let subkeys1 := generateSubkeys freshSchedule key
      let subkeys2 := generateSubkeys freshSchedule (key.drop BLOCK_BYTES)
      let subkeys3 := generateSubkeys freshSchedule (key.drop (NUM_HALVES * BLOCK_BYTES))
      let cipherBuffer := (blockOffsets inputLen desBlockSize).foldl (fun cb blkIdx =>
        let curBlock := cb.drop blkIdx
        let curBlock := decryptBlock curBlock subkeys3
        let curBlock := encryptBlock curBlock subkeys2
        let curBlock := decryptBlock curBlock subkeys1
        cb.take blkIdx ++ curBlock) cipherBuffer
      let padValue := cipherBuffer.getD (inputLen - 1) 0
      if padValue < 1 ∨ padValue > desBlockSize then
        Except.error TDESError.invalidPadding
      else
        let plainLen := inputLen - padValue
        let plainBuffer := freshBytes plainLen
        let plainBuffer := memcpy plainBuffer cipherBuffer plainLen
        Except.ok plainBuffer

/-! ## Definitions used to state and prove the properties -/

/-- A value is normalised to a bit the way `putBit` reads its `val` argument. -/
def bitOf (v : Nat) : Nat := if v ≠ 0 then 1 else 0

/-- Every entry of the buffer is a byte. -/
def IsBytes (l : List Nat) : Prop := ∀ i, l.getD i 0 < 256

/-- The loop writing the bit of `g i` at position `i + off` for `i = s, ..., s + n - 1`. -/
def putLoop (g : Nat → Nat) (off s n : Nat) (cb : List Nat) : List Nat :=
  (List.range' s n).foldl (fun cb i => putBit cb (i + off) (g i)) cb

/-- The output of the round function on a cleared 4-byte buffer. -/
def fOut (R k : List Nat) : List Nat := fFunction (List.replicate HALF_BLOCK_BYTES 0) R k

/-- Bytewise exclusive or of two 4-byte halves, as the `rNext` loop computes it. -/
def xorHalf (L f : List Nat) : List Nat :=
  (List.range HALF_BLOCK_BYTES).map (fun i => L.getD i 0 ^^^ f.getD i 0)

/-- Both halves of a Feistel state are 4-byte buffers. -/
def IsState (st : List Nat × List Nat) : Prop :=
  (st.1.length = 4 ∧ IsBytes st.1) ∧ (st.2.length = 4 ∧ IsBytes st.2)

/-- The block transformation with an explicit list of round subkeys: initial permutation,
one round per subkey, final swap and permutation. -/
def feistel (ks : List (List Nat)) (block : List Nat) : List Nat :=
  let st := ks.foldl feistelRound
    (permute (List.replicate HALF_BLOCK_BYTES 0) block leftInitialPerm HALF_BLOCK_BITS,
     permute (List.replicate HALF_BLOCK_BYTES 0) block rightInitialPerm HALF_BLOCK_BITS)
  finishBlock block st.1 st.2

/-- The subkeys in the order `encryptBlock` uses them. -/
def encKeys (K : List (List Nat)) : List (List Nat) :=
  (List.range' 1 (ROUND_COUNT - 1)).map (fun round => K.getD round [])

/-- The subkeys in the order `decryptBlock` uses them. -/
def decKeys (K : List (List Nat)) : List (List Nat) :=
  (List.range' 1 (ROUND_COUNT - 1)).map (fun round => K.getD (ROUND_COUNT - round) [])

/-- The 8-byte buffer holding the bits of `R` followed by the bits of `L`. -/
def combine (L R : List Nat) : List Nat :=
  putLoop (getBit L) HALF_BLOCK_BITS 1 HALF_BLOCK_BITS
    (putLoop (getBit R) 0 1 HALF_BLOCK_BITS (List.replicate BLOCK_BYTES 0))

/-- Apply `g` to each of the first `m` 8-byte blocks of a buffer. -/
def mapBlocks (g : List Nat → List Nat) : Nat → List Nat → List Nat
  | 0, buf => buf
  | m + 1, buf => g (buf.take 8) ++ mapBlocks g m (buf.drop 8)

/-- The `i`-th 8-byte block of a buffer. -/
def blockAt (buf : List Nat) (i : Nat) : List Nat := (buf.drop (8 * i)).take 8

/-- The three-stage transformation `encryptTDES` applies to a block. -/
def ede (S1 S2 S3 : List (List Nat)) (b : List Nat) : List Nat :=
  encryptBlock (decryptBlock (encryptBlock b S1) S2) S3

/-- The three-stage transformation `decryptTDES` applies to a block. -/
def ded (S1 S2 S3 : List (List Nat)) (b : List Nat) : List Nat :=
  decryptBlock (encryptBlock (decryptBlock b S3) S2) S1

/-- The number of padding bytes `encryptTDES` appends to an input of length `n`. -/
def padLen (n : Nat) : Nat := 8 - n % 8

/-- The padded plaintext: the input followed by `padLen` bytes of value `padLen`. -/
def padded (P : List Nat) : List Nat := P ++ List.replicate (padLen P.length) (padLen P.length)

/-- The schedule of the `j`-th DES key (bytes `8 j .. 8 j + 7`) of a Triple DES key. -/
def scheduleOf (key : List Nat) (j : Nat) : List (List Nat) :=
  generateSubkeys freshSchedule ((key.drop (8 * j)).take 8)

end TDES

/-! # The command line of `tcrypt` (`src/p5/tcrypt.c`) -/

namespace Tcrypt

/-- Number of command-line arguments expected in decryption mode (`tcrypt.c`). -/
def ARGS_DECRYPT : Nat := 5

/-- Argument index for the input file in encryption mode. -/
def ENCRYPT_INPUT_ARG_INDEX : Nat := 2

/-- Argument index for the output file in encryption mode. -/
def ENCRYPT_OUTPUT_ARG_INDEX : Nat := 3

/-- Argument index for the key file in decryption mode. -/
def DECRYPT_KEY_ARG_INDEX : Nat := 2

/-- Argument index for the input file in decryption mode. -/
def DECRYPT_INPUT_ARG_INDEX : Nat := 3

/-- Argument index for the output file in decryption mode. -/
def DECRYPT_OUTPUT_ARG_INDEX : Nat := 4

/-- What the first statement of `main` leaves behind: the value of `decryptMode` with the
three file names, or the usage message followed by `exit( EXIT_FAILURE )`. -/
inductive Selection where
  /-- The variables after the branch: `decryptMode`, `keyFileName`, `inputFileName`,
  `outputFileName`. -/
  | mode (decryptMode : Bool) (keyFileName inputFileName outputFileName : String)
  /-- The message "usage: tcrypt [-d] KEY_FILE INPUT_FILE OUTPUT_FILE". -/
  | usage
  deriving DecidableEq, Repr

/-- The argument handling at the start of `main` in `tcrypt.c`; `argValues` is the whole
argument vector, program name included, and `numArgs` is its length. -/
def mainSelect (argValues : List String) : Selection :=
  let numArgs := argValues.length
  if numArgs = ARGS_DECRYPT ∧ argValues.getD 1 "" = "-d" then
    Selection.mode true (argValues.getD DECRYPT_KEY_ARG_INDEX "")
      (argValues.getD DECRYPT_INPUT_ARG_INDEX "") (argValues.getD DECRYPT_OUTPUT_ARG_INDEX "")
  else if numArgs = ARGS_DECRYPT - 1 then
    Selection.mode false (argValues.getD 1 "")
      (argValues.getD ENCRYPT_INPUT_ARG_INDEX "") (argValues.getD ENCRYPT_OUTPUT_ARG_INDEX "")
  else
    Selection.usage

end Tcrypt

/-! # The segment tree (`src/p6/segTree.c`)

The generic values of `vSize` bytes are the elements of a type `α`; `vList` is the list of
its `capacity` slots and `tree` the list of its `2 * capacity` integers.  Freshly allocated
slots hold `default` (values) or `0` (tree nodes): their content is indeterminate in C.
The fields `capacity`, `size` and `leafStart` are never negative and are natural numbers;
they stay within `int` because `addST`, the one function that enlarges them, yields no
result when the number of nodes of the doubled tree is above `INT_MAX`.  The parameters
`idx`, `i`, `j` and the tree entries are integers.  A `jmp_buf *env` is `true` when it is
supplied and `false` when it is `NULL`. -/

namespace Seg

/-- Initial capacity of the segment tree. -/
def INITIAL_CAP : Nat := 4

/-- Overhead of the tree, relative to the capacity. -/
def TREE_OVERHEAD : Nat := 2

/-- Error code returned via `longjmp` on invalid operations. -/
def SEGTREE_ERROR : Nat := 100

/-- The parent index of a node. -/
def PARENT (n : Nat) : Nat := n / 2

/-- The left child index of a node. -/
def LEFT (n : Nat) : Nat := n * 2

/-- The right child index of a node. -/
def RIGHT (n : Nat) : Nat := n * 2 + 1

/-- Constant used for left/right child index calculations. -/
def TREE_BRANCH_FACTOR : Nat := 2

/-- Growth factor for the resizing of the arrays. -/
def GROWTH_FACTOR : Nat := 2

/-- The largest value of the type `int` (`limits.h`, 32-bit `int`). -/
def INT_MAX : Nat := 2147483647

/-- The representation `struct SegTreeStruct` of `segTree.h`. -/
structure SegTree (α : Type) where
  /-- Size of an element in bytes. -/
  vSize : Nat
  /-- Number of value slots. -/
  capacity : Nat
  /-- Number of stored values. -/
  size : Nat
  /-- The value slots. -/
  vList : List α
  /-- The tree nodes: indices into `vList`, or -1. -/
  tree : List Int
  /-- Index of the first leaf in `tree`. -/
  leafStart : Nat
  /-- The comparison function: positive when the first value is better. -/
  vComp : α → α → Int

/-- How a call that does not return normally ends. -/
inductive Fault where
  /-- The call `longjmp( *env, code )`. -/
  | longjmp (code : Nat)
  /-- The call `longjmp( *env, ... )` with `env` equal to `NULL`: undefined behaviour. -/
  | nullEnv
  /-- The loop of `queryST` was still running when the fuel of the model ran out. -/
  | noReturn
  /-- A product computed in `int` is above `INT_MAX`: the signed overflow is undefined
  behaviour, the call yields no result. -/
  | intOverflow
  deriving DecidableEq, Repr

/-- The value `( char * ) vList + ( i * vSize )` points to. -/
def valueAt {α : Type} [Inhabited α] (vList : List α) (i : Int) : α :=
  vList.getD i.toNat default

/-- The library call `realloc`: the block keeps its content and has `n` slots. -/
def realloc {α : Type} (block : List α) (n : Nat) (fresh : α) : List α :=
  (block ++ List.replicate (n - block.length) fresh).take n

/-- The function `makeST` of `segTree.c`. -/
def makeST {α : Type} [Inhabited α] (vSize : Nat) (vComp : α → α → Int) : SegTree α :=
  let capacity := INITIAL_CAP
  let size := 0
  let vList : List α := List.replicate capacity default
  let tree : List Int := List.replicate (TREE_OVERHEAD * capacity) 0
  let leafStart := capacity
  let tree := (List.range capacity).foldl (fun tree i => tree.set (leafStart + i) (-1)) tree
  let tree := (List.range' 1 (leafStart - 1)).reverse.foldl (fun tree i => tree.set i (-1)) tree
  { vSize := vSize, capacity := capacity, size := size, vList := vList, tree := tree,
    leafStart := leafStart, vComp := vComp }

/-- The function `sizeST` of `segTree.c`. -/
def sizeST {α : Type} (st : SegTree α) : Int := st.size

/-- The choice of a node value from its two children in the rebuild loop of `addST` and in
the loop of `removeST`: an empty child gives way, otherwise the right child wins when
`vComp( leftVal, rightVal ) < 0`. -/
def pickEither {α : Type} [Inhabited α] (vComp : α → α → Int) (vList : List α)
    (leftChild rightChild : Int) : Int :=
  if leftChild = -1 then rightChild
  else if rightChild = -1 then leftChild
  else
    let leftVal := valueAt vList leftChild
    let rightVal := valueAt vList rightChild
    if vComp leftVal rightVal < 0 then rightChild else leftChild

/-- The choice of a node value in the update loops of `addST` and `setST`, which test only
the right child for -1. -/
def pickRight {α : Type} [Inhabited α] (vComp : α → α → Int) (vList : List α)
    (leftChild rightChild : Int) : Int :=
  if rightChild = -1 then leftChild
  else
    let leftVal := valueAt vList leftChild
    let rightVal := valueAt vList rightChild
    if vComp leftVal rightVal < 0 then rightChild else leftChild

/-- The loop `for ( pos = start; pos >= 1; pos /= TREE_BRANCH_FACTOR ) body`.  The first
argument bounds the number of passes; `start` passes always suffice. -/
def pathLoop (body : List Int → Nat → List Int) : Nat → Nat → List Int → List Int
  | 0, _, tree => tree
  | fuel + 1, pos, tree =>
    if pos ≥ 1 then pathLoop body fuel (pos / TREE_BRANCH_FACTOR) (body tree pos) else tree

/-- The function `addST` of `segTree.c`: the returned index and the tree afterwards.  The
fields `capacity` and `size` are `int` and the number of tree nodes
`TREE_OVERHEAD * newCapacity` is computed in `int`: when it is above `INT_MAX` (a full tree
of 536870912 values is to be doubled) the multiplication overflows and the call yields no
result. -/
def addST {α : Type} [Inhabited α] (st : SegTree α) (valPtr : α) :
    Except Fault (Int × SegTree α) :=
  let grown : Except Fault (SegTree α) :=
    if st.size ≥ st.capacity then
      let newCapacity := st.capacity * GROWTH_FACTOR
      if TREE_OVERHEAD * newCapacity > INT_MAX then
        Except.error Fault.intOverflow
      else
        let newData := realloc st.vList newCapacity default
        let newTree := realloc st.tree (TREE_OVERHEAD * newCapacity) 0
        let leafStart := newCapacity
        let tree := (List.range (TREE_OVERHEAD * newCapacity)).foldl
          (fun tree i => tree.set i (-1)) newTree
        let tree := (List.range st.size).foldl
          (fun tree i => tree.set (leafStart + i) (i : Int)) tree
        let tree := (List.range' 1 (leafStart - 1)).reverse.foldl (fun tree pos =>
          let leftChild := tree.getD (LEFT pos) 0
          let rightChild := tree.getD (RIGHT pos) 0
          tree.set pos (pickEither st.vComp newData leftChild rightChild)) tree
        Except.ok { st with vList := newData, tree := tree, capacity := newCapacity,
                            leafStart := leafStart }
    else Except.ok st
  match grown with
  | Except.error e => Except.error e
  | Except.ok st =>
    let vList := st.vList.set st.size valPtr
    let index := st.leafStart + st.size
    let tree := st.tree.set index (st.size : Int)
    let size := st.size + 1
    let tree := pathLoop (fun tree pos =>
        let leftChild := tree.getD (TREE_BRANCH_FACTOR * pos) 0
        let rightChild := tree.getD (TREE_BRANCH_FACTOR * pos + 1) 0
        tree.set pos (pickRight st.vComp vList leftChild rightChild))
      (index / TREE_BRANCH_FACTOR) (index / TREE_BRANCH_FACTOR) tree
    Except.ok ((size : Int) - 1, { st with vList := vList, tree := tree, size := size })

/-- A run of calls `addST( st, &v )`, one for each value of the list in order, as in the
loops of `sort.c` and `segTreeTest.c`: the tree after the last call, or the fault of the
first call that yields no result. -/
def addValues {α : Type} [Inhabited α] : List α → SegTree α → Except Fault (SegTree α)
  | [], st => Except.ok st
  | v :: rest, st =>
    match addST st v with
    | Except.error e => Except.error e
    | Except.ok (_, st) => addValues rest st

/-- The function `getST` of `segTree.c`; the result is the value behind the returned
pointer. -/
def getST {α : Type} [Inhabited α] (st : SegTree α) (idx : Int) (env : Bool) :
    Except Fault α :=
  if (idx < 0 ∨ idx ≥ st.size) ∧ env = true then
    Except.error (Fault.longjmp SEGTREE_ERROR)
  else
    Except.ok (valueAt st.vList idx)

/-- The function `setST` of `segTree.c`: how the call ends and the tree afterwards. -/
def setST {α : Type} [Inhabited α] (st : SegTree α) (idx : Int) (valPtr : α) (env : Bool) :
    Except Fault Unit × SegTree α :=
  if idx < 0 ∨ idx ≥ st.size then
    (Except.error (if env = true then Fault.longjmp SEGTREE_ERROR else Fault.nullEnv), st)
  else
    let vList := st.vList.set idx.toNat valPtr
    let index := st.leafStart + idx.toNat
    let tree := st.tree.set index idx
    let tree := pathLoop (fun tree pos =>
        let leftChild := tree.getD (LEFT pos) 0
        let rightChild := tree.getD (RIGHT pos) 0
        tree.set pos (pickRight st.vComp vList leftChild rightChild))
      (index / TREE_BRANCH_FACTOR) (index / TREE_BRANCH_FACTOR) tree
    (Except.ok (), { st with vList := vList, tree := tree })

/-- The function `removeST` of `segTree.c`: how the call ends and the tree afterwards. -/
def removeST {α : Type} [Inhabited α] (st : SegTree α) (env : Bool) :
    Except Fault Unit × SegTree α :=
  if st.size ≤ 0 then
    (Except.error (if env = true then Fault.longjmp SEGTREE_ERROR else Fault.nullEnv), st)
  else
    let size := st.size - 1
    let index := st.leafStart + size
    let tree := st.tree.set index (-1)
    let tree := pathLoop (fun tree pos =>
        let leftChild := tree.getD (LEFT pos) 0
        let rightChild := tree.getD (RIGHT pos) 0
        tree.set pos (pickEither st.vComp st.vList leftChild rightChild))
      (index / TREE_BRANCH_FACTOR) (index / TREE_BRANCH_FACTOR) tree
    (Except.ok (), { st with size := size, tree := tree })

/-- The update of `element` when `queryST` processes the node `leaf`. -/
def visit {α : Type} [Inhabited α] (st : SegTree α) (element leaf : Int) : Int :=
  if element = -1 then
    st.tree.getD leaf.toNat 0
  else if st.tree.getD leaf.toNat 0 ≠ -1 then
    let candVal := valueAt st.vList element
    let currVal := valueAt st.vList (st.tree.getD leaf.toNat 0)
    if st.vComp candVal currVal < 0 then st.tree.getD leaf.toNat 0 else element
  else
    element

/-- The loop `while ( i_leaf <= j_leaf )` of `queryST`; C division and remainder truncate.
The first argument bounds the number of passes, `none` means it was not enough. -/
def queryLoop {α : Type} [Inhabited α] (st : SegTree α) :
    Nat → Int → Int → Int → Option Int
  | 0, _, _, _ => none
  | fuel + 1, i_leaf, j_leaf, element =>
    if i_leaf ≤ j_leaf then
      let s1 : Int × Int :=
        if i_leaf.tmod TREE_BRANCH_FACTOR = 1 then (visit st element i_leaf, i_leaf + 1)
        else (element, i_leaf)
      let s2 : Int × Int :=
        if j_leaf.tmod TREE_BRANCH_FACTOR = 0 then (visit st s1.1 j_leaf, j_leaf - 1)
        else (s1.1, j_leaf)
      queryLoop st fuel (s1.2.tdiv TREE_BRANCH_FACTOR) (s2.2.tdiv TREE_BRANCH_FACTOR) s2.1
    else
      some element

/-- The function `queryST` of `segTree.c`.  In a valid range the loop makes fewer than
`j_leaf + 2` passes. -/
def queryST {α : Type} [Inhabited α] (st : SegTree α) (i j : Int) (env : Bool) :
    Except Fault Int :=
  if (i < 0 ∨ j ≥ st.size ∨ i > j) ∧ env = true then
    Except.error (Fault.longjmp SEGTREE_ERROR)
  else
    let i_leaf := (st.leafStart : Int) + i
    let j_leaf := (st.leafStart : Int) + j
    let element : Int := -1
    match queryLoop st (j_leaf.toNat + 2) i_leaf j_leaf element with
    | some element => Except.ok element
    | none => Except.error Fault.noReturn

/-- The comparison function `intComp` of the unit tests (`segTreeTest.c`): -1, 0 or 1 as the
first integer is less than, equal to or greater than the second. -/
def intComp (a b : Int) : Int :=
  if a < b then -1
  else if a > b then 1
  else 0

end Seg

/-! # The sort program (`src/p6/sort.c`)

The `double` values are the elements of a linearly ordered type (the doubles without NaN);
the input file is the list of the values read from it. -/

namespace SortProg

open Seg

/-- The function `compare` of `sort.c`: 1 if `a < b`, -1 if `a > b`, 0 if equal. -/
def compare {α : Type} [LinearOrder α] (a b : α) : Int :=
  if a < b then 1
  else if a > b then -1
  else 0

/-- One pass of the selection loop of `main`: `none` is the `break`, otherwise the tree
and the array `sorted` afterwards. -/
def selectStep {α : Type} [Inhabited α] (st : SegTree α) (sorted : List α) (i : Nat) :
    Except Fault (Option (SegTree α × List α)) :=
  let sz := sizeST st
  if sz ≤ 0 then
    Except.ok none
  else
    match queryST st 0 (sz - 1) false with
    | Except.error e => Except.error e
    | Except.ok idx =>
      match getST st idx false with
      | Except.error e => Except.error e
      | Except.ok pVal =>
        let sorted := sorted.set i pVal
        let last := sz - 1
        let r : Except Fault Unit × SegTree α :=
          if idx ≠ last then
            match getST st last false with
            | Except.error e => (Except.error e, st)
            | Except.ok lastVal => setST st idx lastVal false
          else (Except.ok (), st)
        match r with
        | (Except.error e, _) => Except.error e
        | (Except.ok _, st) =>
          match removeST st false with
          | (Except.error e, _) => Except.error e
          | (Except.ok _, st) => Except.ok (some (st, sorted))

/-- The loop `for ( int i = 0; i < count; i++ )` of `main` that fills `sorted`, over the
list of the remaining values of `i`. -/
def selectLoop {α : Type} [Inhabited α] :
    List Nat → SegTree α → List α → Except Fault (List α)
  | [], _, sorted => Except.ok sorted
  | i :: rest, st, sorted =>
    match selectStep st sorted i with
    | Except.error e => Except.error e
    | Except.ok none => Except.ok sorted
    | Except.ok (some (st, sorted)) => selectLoop rest st sorted

/-- The part of `main` in `sort.c` between reading the values and printing them: the
values are added to a fresh tree and selected into the array `sorted`. -/
def sortValues {α : Type} [LinearOrder α] [Inhabited α] (values : List α) :
    Except Fault (List α) :=
  let count := values.length
  let st : SegTree α := makeST 8 SortProg.compare
  match addValues values st with
  | Except.error e => Except.error e
  | Except.ok st =>
    let sorted : List α := List.replicate count default
    selectLoop (List.range count) st sorted

end SortProg

namespace Seg

/-! ## Definitions used to state and prove the properties of the segment tree -/

/-- The comparison function is the three-way comparison of a total preorder: the signs of
`vComp a b` and `vComp b a` are opposite, and "not better than" is transitive. -/
def IsTotalPreorder {α : Type} (vComp : α → α → Int) : Prop :=
  (∀ a b, vComp a b < 0 ↔ 0 < vComp b a) ∧
  (∀ a b c, vComp a b ≤ 0 → vComp b c ≤ 0 → vComp a c ≤ 0)

/-- The tree of `addST` after the arrays were doubled and the tree rebuilt. -/
def grow {α : Type} [Inhabited α] (st : SegTree α) : SegTree α :=
  { st with
    vList := realloc st.vList (st.capacity * GROWTH_FACTOR) default
    tree := (List.range' 1 (st.capacity * GROWTH_FACTOR - 1)).reverse.foldl (fun tree pos =>
        tree.set pos (pickEither st.vComp (realloc st.vList (st.capacity * GROWTH_FACTOR) default)
          (tree.getD (LEFT pos) 0) (tree.getD (RIGHT pos) 0)))
      ((List.range st.size).foldl
        (fun tree i => tree.set (st.capacity * GROWTH_FACTOR + i) (i : Int))
        ((List.range (TREE_OVERHEAD * (st.capacity * GROWTH_FACTOR))).foldl
          (fun tree i => tree.set i (-1))
          (realloc st.tree (TREE_OVERHEAD * (st.capacity * GROWTH_FACTOR)) 0)))
    capacity := st.capacity * GROWTH_FACTOR
    leafStart := st.capacity * GROWTH_FACTOR }

/-- The second part of `addST`: store the value, set its leaf and update the path. -/
def addCore {α : Type} [Inhabited α] (st : SegTree α) (valPtr : α) : Int × SegTree α :=
  (((st.size + 1 : Nat) : Int) - 1,
    { st with
      vList := st.vList.set st.size valPtr
      tree := pathLoop (fun tree pos =>
          tree.set pos (pickRight st.vComp (st.vList.set st.size valPtr)
            (tree.getD (TREE_BRANCH_FACTOR * pos) 0)
            (tree.getD (TREE_BRANCH_FACTOR * pos + 1) 0)))
        ((st.leafStart + st.size) / TREE_BRANCH_FACTOR)
        ((st.leafStart + st.size) / TREE_BRANCH_FACTOR)
        (st.tree.set (st.leafStart + st.size) (st.size : Int))
      size := st.size + 1 })

/-- The effect of `addST` computed with unbounded integers: the index and the tree that
`addST` yields whenever its `int` arithmetic does not overflow (`addST_ok`), continued to
the trees on which it does. -/
def addUnbounded {α : Type} [Inhabited α] (st : SegTree α) (valPtr : α) : Int × SegTree α :=
  addCore (if st.size ≥ st.capacity then grow st else st) valPtr

/-- The trees built from `makeST` by calls of `addST`, `setST` and `removeST` that return
normally.  The step for `addST` is taken with unbounded integers, so that the set contains
every tree the code can hold (`reachable_addST`) and is not cut off at any size. -/
inductive Reachable {α : Type} [Inhabited α] (vComp : α → α → Int) : SegTree α → Prop where
  /-- The tree returned by `makeST`. -/
  | make (vSize : Nat) : Reachable vComp (makeST vSize vComp)
  /-- The tree after `addST`. -/
  | add (st : SegTree α) (v : α) : Reachable vComp st → Reachable vComp (addUnbounded st v).2
  /-- The tree after a `setST` that returns. -/
  | set (st : SegTree α) (idx : Int) (v : α) (env : Bool) :
      Reachable vComp st → (setST st idx v env).1 = Except.ok () →
      Reachable vComp (setST st idx v env).2
  /-- The tree after a `removeST` that returns. -/
  | remove (st : SegTree α) (env : Bool) :
      Reachable vComp st → (removeST st env).1 = Except.ok () →
      Reachable vComp (removeST st env).2

/-- Node `pos` holds what `pickEither` chooses from its two children. -/
def Rel {α : Type} [Inhabited α] (vComp : α → α → Int) (vList : List α) (tree : List Int)
    (pos : Nat) : Prop :=
  tree.getD pos 0 = pickEither vComp vList (tree.getD (2 * pos) 0) (tree.getD (2 * pos + 1) 0)

/-- Leaf `cap + k` holds `k` when `k < size` and -1 otherwise. -/
def Leaves (cap size : Nat) (tree : List Int) : Prop :=
  ∀ k, k < cap → tree.getD (cap + k) 0 = if k < size then (k : Int) else -1

/-- Node `p`, which spans the leaves `lo .. lo + w - 1`, holds -1 when none of them is
stored and otherwise the index of a stored value that none of the others beats. -/
def Sem {α : Type} [Inhabited α] (vComp : α → α → Int) (vList : List α) (size : Nat)
    (tree : List Int) (p lo w : Nat) : Prop :=
  (tree.getD p 0 = -1 ∧ size ≤ lo) ∨
  (∃ r : Nat, tree.getD p 0 = (r : Int) ∧ lo ≤ r ∧ r < lo + w ∧ r < size ∧
    ∀ k, lo ≤ k → k < lo + w → k < size →
      vComp (vList.getD k default) (vList.getD r default) ≤ 0)

/-- The representation invariant of the segment tree. -/
structure Inv {α : Type} [Inhabited α] (st : SegTree α) : Prop where
  /-- The capacity is a power of two, at least 4. -/
  cap_pow : ∃ h, 2 ≤ h ∧ st.capacity = 2 ^ h
  /-- The leaves start at index `capacity`. -/
  leafStart_eq : st.leafStart = st.capacity
  /-- The stored values fit. -/
  size_le : st.size ≤ st.capacity
  /-- There are `capacity` value slots. -/
  vList_length : st.vList.length = st.capacity
  /-- There are `2 * capacity` tree nodes. -/
  tree_length : st.tree.length = 2 * st.capacity
  /-- The leaves hold the indices of the stored values. -/
  leaves : Leaves st.capacity st.size st.tree
  /-- Every internal node holds the choice between its children. -/
  internal : ∀ pos, 1 ≤ pos → pos < st.capacity → Rel st.vComp st.vList st.tree pos

/-- The nodes on the way from `x` to the root: `x`, `x / 2`, `x / 4`, ... -/
def OnPath (x q : Nat) : Prop := ∃ m, q = x / 2 ^ m

/-- The state of `element` in `queryST` for the range `i .. j`, when the indices below `A`
and from `B` on have been dealt with: -1 if nothing was processed yet, otherwise an index
of the range that none of these indices beats. -/
def Cov {α : Type} [Inhabited α] (vComp : α → α → Int) (vList : List α) (i j : Nat) (e : Int)
    (A B : Nat) : Prop :=
  (e = -1 ∧ A = i ∧ B = j + 1) ∨
  (∃ r : Nat, e = (r : Int) ∧ i ≤ r ∧ r ≤ j ∧
    ∀ k, i ≤ k → k ≤ j → (k < A ∨ B ≤ k) →
      vComp (vList.getD k default) (vList.getD r default) ≤ 0)

/-- The arrays of the tree have the sizes the fields announce. -/
def Shape {α : Type} (st : SegTree α) : Prop :=
  st.vList.length = st.capacity ∧ st.size ≤ st.capacity ∧ 1 ≤ st.capacity

/-- The values the tree stores, in index order. -/
def stored {α : Type} (st : SegTree α) : List α := st.vList.take st.size

/-- Adding a list of values, one step of `addUnbounded` for each: the tree `addValues`
yields when none of its calls overflows (`addValues_ok`). -/
def addAll {α : Type} [Inhabited α] (st : SegTree α) (vs : List α) : SegTree α :=
  vs.foldl (fun st v => (addUnbounded st v).2) st

end Seg

/-! ## Definitions used to state and prove the closed forms of the cipher -/

namespace TDES

/-- The number `bits` that the loop of `sBox` builds from the six input bits of S-box
`idx`. -/
def sBoxBits (input : List Nat) (idx : Nat) : Nat :=
  (List.range SBOX_INPUT_BITS).foldl
    (fun bits i => (bits <<< 1) ||| getBit input (idx * SBOX_INPUT_BITS + 1 + i)) 0

/-- The value of `row` in `sBox`. -/
def sBoxRow (input : List Nat) (idx : Nat) : Nat :=
  (((sBoxBits input idx >>> (SBOX_INPUT_BITS - 1)) &&& 0x1) <<< 1) |||
    (sBoxBits input idx &&& 0x1)

/-- The value of `col` in `sBox`. -/
def sBoxCol (input : List Nat) (idx : Nat) : Nat :=
  (sBoxBits input idx >>> 1) &&& LOWER_MASK

/-- The S-box value `S_i` that the `i`-th 6-bit group of `B` selects: row from the outer
two bits, column from the middle four. -/
def sValue (B : List Nat) (i : Nat) : Nat :=
  ((sBoxTable.getD i []).getD (2 * getBit B (i * 6 + 1) + getBit B (i * 6 + 6)) []).getD
    (8 * getBit B (i * 6 + 2) + 4 * getBit B (i * 6 + 3) + 2 * getBit B (i * 6 + 4) +
      getBit B (i * 6 + 5)) 0

/-- The 32-bit string `N` of the round function as plain nibble packing: byte `j` is
`16 * S_(2j) + S_(2j+1)`. -/
def packNibbles (B : List Nat) : List Nat :=
  (List.range 4).map (fun j => 16 * sValue B (2 * j) + sValue B (2 * j + 1))

/-- The 48-bit string `E(R) XOR K` of the round function. -/
def expandXor (R K : List Nat) : List Nat :=
  (List.range 6).map (fun i =>
    (permute (List.replicate 6 0) R expandedRSelector 48).getD i 0 ^^^ K.getD i 0)

/-- The halves `(L_r, R_r)` of the Feistel network after `r` rounds of encryption:
`(L_0, R_0)` are the two halves of the initial permutation of the block, and
`L_(r+1) = R_r`, `R_(r+1) = L_r XOR f(R_r, K[r+1])`. -/
def halves (B : List Nat) (K : List (List Nat)) : Nat → List Nat × List Nat
  | 0 => (permute (List.replicate 4 0) B leftInitialPerm 32,
      permute (List.replicate 4 0) B rightInitialPerm 32)
  | r + 1 => ((halves B K r).2,
      xorHalf (halves B K r).1 (fOut (halves B K r).2 (K.getD (r + 1) [])))

/-- The first `n` bits of a buffer, bit 1 first. -/
def bitsOf (data : List Nat) (n : Nat) : List Nat := (List.range' 1 n).map (getBit data)

/-- The 28-bit string `C_r` of the key schedule: `C_0` is the left PC-1 projection of the
key and `C_r` is `C_(r-1)` rotated left by the shift amount of round `r`. -/
def halfC (key : List Nat) : Nat → List Nat
  | 0 => bitsOf (permute (List.replicate 4 0) key leftSubkeyPerm 28) 28
  | r + 1 => (halfC key r).rotate (subkeyShiftSchedule.getD (r + 1) 0)

/-- The 28-bit string `D_r` of the key schedule: `D_0` is the right PC-1 projection of the
key and `D_r` is `D_(r-1)` rotated left by the shift amount of round `r`. -/
def halfD (key : List Nat) : Nat → List Nat
  | 0 => bitsOf (permute (List.replicate 4 0) key rightSubkeyPerm 28) 28
  | r + 1 => (halfD key r).rotate (subkeyShiftSchedule.getD (r + 1) 0)

/-- One pass of the outer loop of `rotateLeft`: the first 28 bits rotated left by one. -/
def rotateOnce (bits : List Nat) : List Nat :=
  let first := getBit bits 1
  let bits := (List.range' 1 (HALF_SUBKEY_BITS - 1)).foldl
    (fun bits i => putBit bits i (getBit bits (i + 1))) bits
  putBit bits HALF_SUBKEY_BITS first

/-- One pass of the round loop of `generateSubkeys` on the state `(C, D, K)`. -/
def keyStep (st : List Nat × List Nat × List (List Nat)) (round : Nat) :
    List Nat × List Nat × List (List Nat) :=
  let shift := subkeyShiftSchedule.getD round 0
  let C := rotateLeft st.1 shift
  let D := rotateLeft st.2.1 shift
  let comb := ROUND_TO_BYTES (HALF_SUBKEY_BITS * NUM_HALVES)
  let CD := List.replicate comb 0
  let CD := (List.range' 1 HALF_SUBKEY_BITS).foldl
    (fun CD i => putBit CD i (getBit C i)) CD
  let CD := (List.range' 1 HALF_SUBKEY_BITS).foldl
    (fun CD i => putBit CD (i + HALF_SUBKEY_BITS) (getBit D i)) CD
  (C, D, st.2.2.set round (permute (st.2.2.getD round []) CD subkeyPerm SUBKEY_BITS))

/-- The buffer `C` or `D` of `generateSubkeys` before the first round, for the table
`perm` of its half of PC-1. -/
def keyHalf (key perm : List Nat) : List Nat :=
  (permute (List.replicate HALF_SUBKEY_BYTES 0) key perm HALF_SUBKEY_BITS).set
    (HALF_SUBKEY_BYTES - 1)
    ((permute (List.replicate HALF_SUBKEY_BYTES 0) key perm HALF_SUBKEY_BITS).getD
      (HALF_SUBKEY_BYTES - 1) 0 &&& UPPER_MASK)

end TDES

/-! # Dates of the rental database (`src/p4/database.c`)

The `int` arguments and fields are integers (no overflow: the values are months and days);
`/` and `%` of C truncate towards zero. -/

namespace Database

/-- Minimum valid month for reservations (June). -/
def MIN_VALID_MONTH : Int := 6

/-- Maximum valid month for reservations (November). -/
def MAX_VALID_MONTH : Int := 11

/-- Minimum valid day in a month. -/
def MIN_VALID_DAY : Int := 1

/-- Maximum valid day in a month. -/
def MAX_VALID_DAY : Int := 31

/-- Saturday representation in Zeller's algorithm. -/
def SAT_WEEKDAY : Int := 6

/-- Year used for date calculations. -/
def CURR_YEAR : Int := 2025

/-- Number of days in a week. -/
def DAYS_IN_WEEK : Int := 7

/-- Month offset for Zeller's algorithm. -/
def ZELLER_MONTH : Int := 14

/-- Number of months in a year. -/
def MONTHS_IN_YEAR : Int := 12

/-- Constant used in Zeller's algorithm. -/
def ZELLER_CONSTANT : Int := 2

/-- Number of days in the longest month. -/
def DAYS_IN_LONG_MONTH : Int := 31

/-- Divisor to determine if a year is a leap year. -/
def LEAP_YEAR : Int := 4

/-- Divisor for century years that are not leap years. -/
def NON_LEAP_CENTURY_YEAR : Int := 100

/-- Divisor for century years that are leap years. -/
def LEAP_CENTURY_YEAR : Int := 400

/-- The function `isValidSaturday` of `database.c`. -/
def isValidSaturday (month day : Int) : Bool :=
  if month < MIN_VALID_MONTH ∨ month > MAX_VALID_MONTH ∨ day < MIN_VALID_DAY ∨
      day > MAX_VALID_DAY then
    false
  else
    let year := CURR_YEAR
    let w := year - (ZELLER_MONTH - month).tdiv MONTHS_IN_YEAR
    let x := w + w.tdiv LEAP_YEAR - w.tdiv NON_LEAP_CENTURY_YEAR + w.tdiv LEAP_CENTURY_YEAR
    let z := month + MONTHS_IN_YEAR * ((ZELLER_MONTH - month).tdiv MONTHS_IN_YEAR) -
      ZELLER_CONSTANT
    let dayOfWeek := (day + x + (DAYS_IN_LONG_MONTH * z).tdiv MONTHS_IN_YEAR).tmod DAYS_IN_WEEK
    dayOfWeek == SAT_WEEKDAY

/-- The fields of `struct DateRep` that `sortDates` reads (the e-mail of the customer is
left out). -/
structure Date where
  /-- The month of the date. -/
  month : Int
  /-- The day of the month. -/
  day : Int
  /-- Whether the house is free on that date. -/
  isAvailable : Bool
  deriving DecidableEq, Repr

/-- The function `sortDates` of `database.c`, on the two dates its arguments point to. -/
def sortDates (date1 date2 : Date) : Int :=
  if date1.month ≠ date2.month then
    date1.month - date2.month
  else
    date1.day - date2.day

end Database

/-! # The Gregorian calendar

The calendar the properties of the date functions are stated against: leap years, the
lengths of the months and the day of the week counted from 1 January of year 1, a Monday. -/

namespace Calendar

/-- A year is a leap year when it is a multiple of 4 but not of 100, or a multiple of 400. -/
def isLeap (year : Nat) : Bool :=
  (year % 4 == 0 && year % 100 != 0) || year % 400 == 0

/-- The number of days of a month (1 = January, ..., 12 = December; 0 for any other
number). -/
def daysInMonth (year month : Nat) : Nat :=
  match month with
  | 1 => 31
  | 2 => if isLeap year then 29 else 28
  | 3 => 31
  | 4 => 30
  | 5 => 31
  | 6 => 30
  | 7 => 31
  | 8 => 31
  | 9 => 30
  | 10 => 31
  | 11 => 30
  | 12 => 31
  | _ => 0

/-- The date `month/day` exists in the given year. -/
def isDate (year month day : Nat) : Bool :=
  1 ≤ month && month ≤ 12 && 1 ≤ day && day ≤ daysInMonth year month

/-- The number of the day counted from 1 January of year 1 (which is day 1). -/
def dayNumber (year month day : Nat) : Nat :=
  365 * (year - 1) + (year - 1) / 4 - (year - 1) / 100 + (year - 1) / 400 +
    ((List.range' 1 (month - 1)).map (daysInMonth year)).sum + day

/-- The day of the week, 0 = Sunday, 1 = Monday, ..., 6 = Saturday: day 1 is a Monday. -/
def weekday (year month day : Nat) : Nat := dayNumber year month day % 7

/-- The date `month/day` is a date of 2025, a Saturday, and lies between 7 June and
29 November inclusive. -/
def isSeasonSaturday (month day : Int) : Bool :=
  0 ≤ month && 0 ≤ day && isDate 2025 month.toNat day.toNat &&
    weekday 2025 month.toNat day.toNat == 6 &&
    ((month == 6 && 7 ≤ day) || (6 < month && month < 11) || (month == 11 && day ≤ 29))

end Calendar

/-! # Dates of the data cleaner (`src/p2/data.c`)

A `char` is its character code, a string buffer is the list of its characters including
the terminating 0 (and whatever follows it in the array); a read past the end of the list
yields 0.  `exit( code )` is `Except.error code`.  The `int` values are integers. -/

namespace Data

/-- Invalid date format. -/
def DATE_ERROR : Nat := 104

/-- Not within 100 years. -/
def DATE_ERROR_UNREALISTIC : Nat := 105

/-- Length of the short year. -/
def SHORT_YEAR : Nat := 2

/-- The length of a date string. -/
def DATE_LEN : Nat := 10

/-- Index of the first separator in YYYY-MM-DD. -/
def YYYY_MM_DD_SEP1 : Nat := 4

/-- Index of the second separator in YYYY-MM-DD. -/
def YYYY_MM_DD_SEP2 : Nat := 7

/-- Index of the first separator in MM/DD/YYYY. -/
def MM_DD_YYYY_SEP1 : Nat := 2

/-- Index of the second separator in MM/DD/YYYY. -/
def MM_DD_YYYY_SEP2 : Nat := 5

/-- Index where the year starts in MM/DD/YYYY. -/
def YEAR_START_INDEX : Nat := 6

/-- Index where the day starts in MM/DD/YYYY. -/
def DAY_START_INDEX : Nat := 3

/-- Offset of the tens digit of the year. -/
def YEAR_TENS_PLACE : Nat := 2

/-- Offset of the ones digit of the year. -/
def YEAR_ONES_PLACE : Nat := 3

/-- Index of the first day digit in YYYY-MM-DD. -/
def DAY_DIGIT_FIRST : Nat := 8

/-- Index of the second day digit in YYYY-MM-DD. -/
def DAY_DIGIT_SECOND : Nat := 9

/-- Index of the first month digit in YYYY-MM-DD. -/
def MONTH_DIGIT_FIRST : Nat := 5

/-- Index of the second month digit in YYYY-MM-DD. -/
def MONTH_DIGIT_SECOND : Nat := 6

/-- Index of the string terminator of a date. -/
def STRING_TERMINATE : Nat := 10

/-- Two-digit years up to this value belong to the 2000s. -/
def YEAR_CUTOFF : Int := 25

/-- The earliest year accepted. -/
def YEAR_MIN : Int := 1926

/-- The latest year accepted. -/
def YEAR_MAX : Int := 2025

/-- The number of months. -/
def MONTH_MAX : Int := 12

/-- First divisor of the leap year test. -/
def LEAP_YEAR_CHECK1 : Int := 4

/-- Second divisor of the leap year test. -/
def LEAP_YEAR_CHECK2 : Int := 100

/-- Third divisor of the leap year test. -/
def LEAP_YEAR_CHECK3 : Int := 400

/-- Weight of the thousands digit. -/
def THOUSANDS_DIGIT : Int := 1000

/-- Weight of the hundreds digit. -/
def HUNDREDS_DIGIT : Int := 100

/-- Weight of the tens digit. -/
def TENS_DIGIT : Int := 10

/-- Days of February in a common year. -/
def MONTH_DAYS_1 : Int := 28

/-- Days of a short month. -/
def MONTH_DAYS_2 : Int := 30

/-- Days of a long month. -/
def MONTH_DAYS_3 : Int := 31

/-- Days of February in a leap year. -/
def MONTH_DAYS_4 : Int := 29

/-- The number of February. -/
def FEB_MONTH : Int := 2

/-- Index of the last digit of the full year string. -/
def FULLYEARSTR_1 : Nat := 3

/-- Index of the terminator of the full year string. -/
def FULLYEARSTR_NULL : Nat := 4

/-- Size of the full year string. -/
def FULLYEARSTR_SIZE : Nat := 5

/-- Weight of the first digit of a two-digit number. -/
def TWODIGIT_YEAR : Int := 10

/-- The character at index `i` of a buffer. -/
def charAt (s : List Nat) (i : Nat) : Nat := s.getD i 0

/-- The value of `ch - '0'` in C. -/
def digitValue (ch : Nat) : Int := (ch : Int) - ('0'.toNat : Int)

/-- The function `isDigit` of `data.c`. -/
def isDigit (ch : Nat) : Bool := ch ≥ '0'.toNat && ch ≤ '9'.toNat

/-- The function `isLeapYear` of `data.c`. -/
def isLeapYear (year : Int) : Bool :=
  (year.tmod LEAP_YEAR_CHECK1 == 0 && year.tmod LEAP_YEAR_CHECK2 != 0) ||
    (year.tmod LEAP_YEAR_CHECK3 == 0)

/-- The function `getMaxDays` of `data.c`. -/
def getMaxDays (month year : Int) : Int :=
  let days_in_month : List Int := [MONTH_DAYS_3, MONTH_DAYS_1, MONTH_DAYS_3, MONTH_DAYS_2,
    MONTH_DAYS_3, MONTH_DAYS_2, MONTH_DAYS_3, MONTH_DAYS_3, MONTH_DAYS_2, MONTH_DAYS_3,
    MONTH_DAYS_2, MONTH_DAYS_3]
  if month = FEB_MONTH ∧ isLeapYear year then
    MONTH_DAYS_4
  else
    days_in_month.getD (month - 1).toNat 0

/-- The function `expandTwoDigitYear` of `data.c`: the new content of `fullYearStr`. -/
def expandTwoDigitYear (yearStr fullYearStr : List Nat) : List Nat :=
  let year := digitValue (charAt yearStr 0) * TWODIGIT_YEAR + digitValue (charAt yearStr 1)
  let fullYearStr :=
    if year ≤ YEAR_CUTOFF then
      (fullYearStr.set 0 '2'.toNat).set 1 '0'.toNat
    else
      (fullYearStr.set 0 '1'.toNat).set 1 '9'.toNat
  let fullYearStr := fullYearStr.set (FULLYEARSTR_1 - 1) (charAt yearStr 0)
  let fullYearStr := fullYearStr.set FULLYEARSTR_1 (charAt yearStr 1)
  fullYearStr.set FULLYEARSTR_NULL 0

/-- The test the first loop of `formatDate` makes at index `i`: a separator at the two
separator positions, a digit elsewhere. -/
def formatCheck (date : List Nat) (i : Nat) : Bool :=
  if i = MM_DD_YYYY_SEP1 ∨ i = MM_DD_YYYY_SEP2 then
    !(charAt date i ≠ '/'.toNat ∧ charAt date i ≠ '-'.toNat)
  else
    isDigit (charAt date i)

/-- The function `formatDate` of `data.c`: the result and the new content of `date`, or
the exit status.  The first loop leaves with `exit( DATE_ERROR )` at the first index that
fails its test. -/
def formatDate (date : List Nat) : Except Nat (Bool × List Nat) :=
  if charAt date YYYY_MM_DD_SEP1 = '-'.toNat ∧ charAt date YYYY_MM_DD_SEP2 = '-'.toNat then
    Except.ok (true, date)
  else if (charAt date MM_DD_YYYY_SEP1 = '/'.toNat ∧ charAt date MM_DD_YYYY_SEP2 = '/'.toNat) ∨
      (charAt date MM_DD_YYYY_SEP1 = '-'.toNat ∧ charAt date MM_DD_YYYY_SEP2 = '-'.toNat) then
    if ¬ (List.range DATE_LEN).all (formatCheck date) then
      Except.error DATE_ERROR
    else
      let month := digitValue (charAt date 0) * TWODIGIT_YEAR + digitValue (charAt date 1)
      let day := digitValue (charAt date DAY_START_INDEX) * TWODIGIT_YEAR +
        digitValue (charAt date (DAY_START_INDEX + 1))
      let yearStr : List Nat := List.replicate FULLYEARSTR_SIZE 0
      let year : Option Int :=
        if isDigit (charAt date YEAR_START_INDEX) ∧
            isDigit (charAt date (YEAR_START_INDEX + YEAR_ONES_PLACE)) then
          some (digitValue (charAt date YEAR_START_INDEX) * THOUSANDS_DIGIT +
            digitValue (charAt date (YEAR_START_INDEX + 1)) * HUNDREDS_DIGIT +
            digitValue (charAt date (YEAR_START_INDEX + YEAR_TENS_PLACE)) * TENS_DIGIT +
            digitValue (charAt date (YEAR_START_INDEX + YEAR_ONES_PLACE)))
        else if isDigit (charAt date YEAR_START_INDEX) ∧
            isDigit (charAt date (YEAR_START_INDEX + 1)) then
          let shortYear := [charAt date YEAR_START_INDEX, charAt date (YEAR_START_INDEX + 1)]
          let yearStr := expandTwoDigitYear shortYear yearStr
          some (digitValue (charAt yearStr 0) * THOUSANDS_DIGIT +
            digitValue (charAt yearStr 1) * HUNDREDS_DIGIT +
            digitValue (charAt yearStr YEAR_TENS_PLACE) * TENS_DIGIT +
            digitValue (charAt yearStr YEAR_ONES_PLACE))
        else
          none
      match year with
      | none => Except.error DATE_ERROR
      | some year =>
        if year < YEAR_MIN ∨ year > YEAR_MAX then
          Except.error DATE_ERROR_UNREALISTIC
        else if month < 1 ∨ month > MONTH_MAX then
          Except.error DATE_ERROR_UNREALISTIC
        else if day < 1 ∨ day > getMaxDays month year then
          Except.error DATE_ERROR_UNREALISTIC
        else
          let temp : List Nat := List.replicate (DATE_LEN + 1) 0
          let temp := temp.set 0 (charAt date YEAR_START_INDEX)
          let temp := temp.set 1 (charAt date (YEAR_START_INDEX + 1))
          let temp := temp.set YEAR_TENS_PLACE (charAt date (YEAR_START_INDEX + YEAR_TENS_PLACE))
          let temp := temp.set YEAR_ONES_PLACE (charAt date (YEAR_START_INDEX + YEAR_ONES_PLACE))
          let temp := temp.set YYYY_MM_DD_SEP1 '-'.toNat
          let temp := temp.set MONTH_DIGIT_FIRST (charAt date 0)
          let temp := temp.set MONTH_DIGIT_SECOND (charAt date 1)
          let temp := temp.set YYYY_MM_DD_SEP2 '-'.toNat
          let temp := temp.set DAY_DIGIT_FIRST (charAt date DAY_START_INDEX)
          let temp := temp.set DAY_DIGIT_SECOND (charAt date (DAY_START_INDEX + 1))
          let temp := temp.set STRING_TERMINATE 0
          let date := (List.range (DATE_LEN + 1)).foldl
            (fun date i => date.set i (charAt temp i)) date
          Except.ok (true, date)
  else
    Except.error DATE_ERROR

end Data

namespace Calendar

/-- The two decimal digits of a number below 100, as characters. -/
def digits2 (n : Nat) : List Nat := ['0'.toNat + n / 10, '0'.toNat + n % 10]

/-- The four decimal digits of a number below 10000, as characters. -/
def digits4 (n : Nat) : List Nat :=
  ['0'.toNat + n / 1000, '0'.toNat + n / 100 % 10, '0'.toNat + n / 10 % 10, '0'.toNat + n % 10]

/-- The buffer holding the string `MM sep DD sep YYYY`, its terminator and the rest of
the array. -/
def monthFirst (sep year month day : Nat) (rest : List Nat) : List Nat :=
  digits2 month ++ [sep] ++ digits2 day ++ [sep] ++ digits4 year ++ [0] ++ rest

/-- The buffer holding the string `YYYY-MM-DD`, its terminator and the rest of the array. -/
def yearFirst (year month day : Nat) (rest : List Nat) : List Nat :=
  digits4 year ++ ['-'.toNat] ++ digits2 month ++ ['-'.toNat] ++ digits2 day ++ [0] ++ rest

end Calendar

namespace TDES

/-- The bitwise complement of every byte of a buffer (`~b` on an `unsigned char`). -/
def complement (l : List Nat) : List Nat := l.map (fun b => b ^^^ FULL_BYTE)

end TDES

/-! # Number fields of the data cleaner (`src/p2/data.c`) -/

namespace Data

/-- The `while` loop of `isValidFloat` from index `i` with the flag `hasDecimal`: the value
returned, or `none` when the fuel runs out before the terminator is reached. -/
def floatLoop (str : List Nat) : Nat → Nat → Bool → Option Bool
  | 0, _, _ => none
  | fuel + 1, i, hasDecimal =>
    if charAt str i ≠ 0 then
      if charAt str i = '.'.toNat then
        if hasDecimal then
          some false
        else
          floatLoop str fuel (i + 1) true
      else if charAt str i < '0'.toNat ∨ charAt str i > '9'.toNat then
        some false
      else
        floatLoop str fuel (i + 1) hasDecimal
    else
      some true

/-- The function `isValidFloat` of `data.c`; the loop ends at the latest at the end of the
list, where `charAt` reads the terminator. -/
def isValidFloat (str : List Nat) : Option Bool :=
  let i := if charAt str 0 = '-'.toNat then 1 else 0
  if charAt str i = 0 then
    some false
  else
    floatLoop str (str.length + 1) i false

end Data

/-! # Texts of numbers

The strings the number checks are stated against. -/

namespace Text

/-- A non-empty text of decimal digits and `.` with at most one `.`. -/
def isFloatBody (body : List Nat) : Bool :=
  body ≠ [] &&
    body.all (fun c => ('0'.toNat ≤ c && c ≤ '9'.toNat) || c = '.'.toNat) &&
    body.count '.'.toNat ≤ 1

/-- An optional leading `-` followed by a float body. -/
def isFloatText (s : List Nat) : Bool :=
  isFloatBody s || (s.head? = some '-'.toNat && isFloatBody s.tail)

end Text

/-! # Lemmas -/

set_option maxRecDepth 100000

namespace TDES

/-! ## Bits of a byte -/

theorem shiftRight_and_one (b k : Nat) : (b >>> k) &&& 1 = (b.testBit k).toNat := by
  rw [Nat.and_one_is_mod, Nat.shiftRight_eq_div_pow, Nat.toNat_testBit]

theorem getD_set (l : List Nat) (i j a : Nat) :
    (l.set i a).getD j 0 = if i = j ∧ i < l.length then a else l.getD j 0 := by
  simp only [List.getD_eq_getElem?_getD, List.getElem?_set]
  by_cases h : i = j
  · by_cases h2 : i < l.length
    · simp [h, h2]
      subst h; simp [h2]
    · subst h
      have : l.length ≤ i := by omega
      simp [h2, List.getElem?_eq_none this]
  · simp [h]

theorem getBit_eq (data : List Nat) (idx : Nat) :
    getBit data idx = ((data.getD ((idx - 1) / 8) 0).testBit (7 - (idx - 1) % 8)).toNat := by
  unfold getBit
  simp only [BYTE_SIZE]
  exact shiftRight_and_one _ _

theorem getBit_lt_two (data : List Nat) (idx : Nat) : getBit data idx < 2 := by
  rw [getBit_eq]; cases (data.getD ((idx - 1) / 8) 0).testBit (7 - (idx - 1) % 8) <;> simp

theorem bitOf_getBit (data : List Nat) (idx : Nat) : bitOf (getBit data idx) = getBit data idx := by
  have h := getBit_lt_two data idx
  unfold bitOf
  split <;> omega

theorem length_putBit (data : List Nat) (idx val : Nat) :
    (putBit data idx val).length = data.length := by
  unfold putBit; simp only []; split <;> simp

theorem testBit_setBit (b k j : Nat) :
    (b ||| (1 <<< k)).testBit j = (b.testBit j || decide (k = j)) := by
  rw [Nat.testBit_or, Nat.one_shiftLeft, Nat.testBit_two_pow]

theorem testBit_clearBit (b k j : Nat) (hj : j < 8) :
    (b &&& (255 ^^^ (1 <<< k))).testBit j = (b.testBit j && !decide (k = j)) := by
  rw [Nat.testBit_and, Nat.testBit_xor, Nat.one_shiftLeft, Nat.testBit_two_pow]
  have : (255 : Nat).testBit j = true := by
    have := Nat.testBit_two_pow_sub_one 8 j
    simpa [hj] using this
  rw [this]; cases decide (k = j) <;> simp

theorem getBit_putBit (data : List Nat) (idx val j : Nat) :
    getBit (putBit data idx val) j =
      if j - 1 = idx - 1 ∧ (idx - 1) / 8 < data.length then bitOf val else getBit data j := by
  rw [getBit_eq, getBit_eq]
  unfold putBit bitOf
  simp only [BYTE_SIZE, FULL_BYTE]
  have hj : 7 - (j - 1) % 8 < 8 := by omega
  by_cases hv : val ≠ 0
  · rw [if_pos hv, if_pos hv, getD_set]
    by_cases hb : (idx - 1) / 8 = (j - 1) / 8 ∧ (idx - 1) / 8 < data.length
    · rw [if_pos hb, testBit_setBit]
      by_cases he : j - 1 = idx - 1
      · simp [he, hb.2]
      · have : ¬ (7 - (idx - 1) % 8 = 7 - (j - 1) % 8) := by omega
        simp [he, this, hb.1]
    · rw [if_neg hb]
      have : ¬ (j - 1 = idx - 1 ∧ (idx - 1) / 8 < data.length) := by
        rintro ⟨h1, h2⟩; apply hb; rw [h1]; exact ⟨rfl, h1 ▸ h2⟩
      simp [this]
  · rw [if_neg hv, if_neg hv, getD_set]
    by_cases hb : (idx - 1) / 8 = (j - 1) / 8 ∧ (idx - 1) / 8 < data.length
    · rw [if_pos hb, testBit_clearBit _ _ _ hj]
      by_cases he : j - 1 = idx - 1
      · simp [he, hb.2]
      · have : ¬ (7 - (idx - 1) % 8 = 7 - (j - 1) % 8) := by omega
        simp [he, this, hb.1]
    · rw [if_neg hb]
      have : ¬ (j - 1 = idx - 1 ∧ (idx - 1) / 8 < data.length) := by
        rintro ⟨h1, h2⟩; apply hb; rw [h1]; exact ⟨rfl, h1 ▸ h2⟩
      simp [this]

theorem isBytes_iff (l : List Nat) : IsBytes l ↔ ∀ b ∈ l, b < 256 := by
  constructor
  · intro h b hb
    obtain ⟨i, hi, rfl⟩ := List.getElem_of_mem hb
    have := h i
    rwa [List.getD_eq_getElem _ _ hi] at this
  · intro h i
    by_cases hi : i < l.length
    · rw [List.getD_eq_getElem _ _ hi]; exact h _ (List.getElem_mem _)
    · rw [List.getD_eq_default _ _ (by omega)]; omega

theorem isBytes_replicate (n : Nat) : IsBytes (List.replicate n 0) := by
  rw [isBytes_iff]; intro b hb; rw [List.eq_of_mem_replicate hb]; omega

theorem isBytes_putBit (data : List Nat) (idx val : Nat) (h : IsBytes data) :
    IsBytes (putBit data idx val) := by
  intro i
  unfold putBit
  simp only [BYTE_SIZE, FULL_BYTE]
  have hb := h ((idx - 1) / 8)
  split
  · rw [getD_set]; split
    · apply Nat.or_lt_two_pow (n := 8) hb
      rw [Nat.one_shiftLeft]
      exact Nat.pow_lt_pow_right (by omega) (by omega)
    · exact h i
  · rw [getD_set]; split
    · exact Nat.lt_of_le_of_lt Nat.and_le_left hb
    · exact h i

theorem byte_ext (a b : Nat) (ha : a < 256) (hb : b < 256)
    (h : ∀ k, k < 8 → a.testBit k = b.testBit k) : a = b := by
  apply Nat.eq_of_testBit_eq
  intro i
  by_cases hi : i < 8
  · exact h i hi
  · have h8 : (2:Nat) ^ 8 ≤ 2 ^ i := Nat.pow_le_pow_right (by omega) (by omega)
    rw [Nat.testBit_lt_two_pow (by omega), Nat.testBit_lt_two_pow (by omega)]

/-- Two byte buffers of the same length with the same bits are equal. -/
theorem bytes_ext (a b : List Nat) (hlen : a.length = b.length) (ha : IsBytes a) (hb : IsBytes b)
    (h : ∀ j, 1 ≤ j → j ≤ 8 * a.length → getBit a j = getBit b j) : a = b := by
  apply List.ext_getElem hlen
  intro n h1 h2
  have := byte_ext (a.getD n 0) (b.getD n 0) (ha n) (hb n) (by
    intro k hk
    have hj := h (8 * n + (7 - k) + 1) (by omega) (by omega)
    rw [getBit_eq, getBit_eq] at hj
    have e1 : (8 * n + (7 - k) + 1 - 1) / 8 = n := by omega
    have e2 : 7 - (8 * n + (7 - k) + 1 - 1) % 8 = k := by omega
    rw [e1, e2] at hj
    revert hj
    cases (a.getD n 0).testBit k <;> cases (b.getD n 0).testBit k <;> simp)
  rwa [List.getD_eq_getElem _ _ h1, List.getD_eq_getElem _ _ h2] at this

/-! ## Loops over a buffer -/

theorem setLoop_length (f : Nat → Nat) (m : Nat) (out : List Nat) :
    ((List.range m).foldl (fun out i => out.set i (f i)) out).length = out.length := by
  induction m with
  | zero => rfl
  | succ m ih => rw [List.range_succ, List.foldl_append]; simpa using ih

theorem setLoop_getD (f : Nat → Nat) (m : Nat) (out : List Nat) (j : Nat) :
    ((List.range m).foldl (fun out i => out.set i (f i)) out).getD j 0 =
      if j < m ∧ j < out.length then f j else out.getD j 0 := by
  induction m with
  | zero => simp
  | succ m ih =>
    rw [List.range_succ, List.foldl_append]
    simp only [List.foldl_cons, List.foldl_nil]
    rw [getD_set, setLoop_length, ih]
    by_cases h1 : m = j
    · subst h1
      by_cases h2 : m < out.length
      · simp [h2]
      · simp [h2]
    · have h3 : ¬ (m = j ∧ m < out.length) := fun h => h1 h.1
      rw [if_neg h3]
      by_cases h4 : j < m
      · have : j < m + 1 := by omega
        simp [h4, this]
      · have : ¬ j < m + 1 := by omega
        simp [h4, this]

/-- Copying `n` bytes over a buffer of length `n` yields the source bytes. -/
theorem copyLoop_eq (src dst : List Nat) (n : Nat) (hs : src.length = n) (hd : dst.length = n) :
    (List.range n).foldl (fun d i => d.set i (src.getD i 0)) dst = src := by
  apply List.ext_getElem
  · rw [setLoop_length, hs, hd]
  · intro i h1 h2
    have := setLoop_getD (fun i => src.getD i 0) n dst i
    rw [List.getD_eq_getElem _ _ h1] at this
    rw [this]
    rw [setLoop_length] at h1
    rw [if_pos ⟨by omega, h1⟩, List.getD_eq_getElem _ _ h2]

theorem putBit_getD_lt (data : List Nat) (idx val i : Nat) (h : data.getD i 0 < 256) :
    (putBit data idx val).getD i 0 < 256 := by
  unfold putBit
  simp only [BYTE_SIZE, FULL_BYTE]
  split
  · rw [getD_set]; split
    · rename_i hh
      rw [hh.1]
      apply Nat.or_lt_two_pow (n := 8) h
      rw [Nat.one_shiftLeft]
      exact Nat.pow_lt_pow_right (by omega) (by omega)
    · exact h
  · rw [getD_set]; split
    · rename_i hh
      rw [hh.1]
      exact Nat.lt_of_le_of_lt Nat.and_le_left h
    · exact h

theorem putBit_getD_other (data : List Nat) (idx val i : Nat) (h : i ≠ (idx - 1) / 8) :
    (putBit data idx val).getD i 0 = data.getD i 0 := by
  unfold putBit
  simp only [BYTE_SIZE, FULL_BYTE]
  have h3 : ¬ ((idx - 1) / 8 = i ∧ (idx - 1) / 8 < data.length) := fun hh => h hh.1.symm
  split <;> rw [getD_set, if_neg h3]

theorem putLoop_succ (g : Nat → Nat) (off s n : Nat) (cb : List Nat) :
    putLoop g off s (n + 1) cb = putLoop g off (s + 1) n (putBit cb (s + off) (g s)) := by
  unfold putLoop; rw [List.range'_succ, List.foldl_cons]

theorem putLoop_length (g : Nat → Nat) (off : Nat) : ∀ (n s : Nat) (cb : List Nat),
    (putLoop g off s n cb).length = cb.length := by
  intro n
  induction n with
  | zero => intro s cb; rfl
  | succ n ih => intro s cb; rw [putLoop_succ, ih, length_putBit]

theorem putLoop_getD_lt (g : Nat → Nat) (off i : Nat) : ∀ (n s : Nat) (cb : List Nat),
    cb.getD i 0 < 256 → (putLoop g off s n cb).getD i 0 < 256 := by
  intro n
  induction n with
  | zero => intro s cb h; exact h
  | succ n ih => intro s cb h; rw [putLoop_succ]; exact ih _ _ (putBit_getD_lt _ _ _ _ h)

theorem putLoop_getD_high (g : Nat → Nat) (off i : Nat) : ∀ (n s : Nat) (cb : List Nat),
    1 ≤ s + off → s + off + n ≤ 8 * i + 1 → (putLoop g off s n cb).getD i 0 = cb.getD i 0 := by
  intro n
  induction n with
  | zero => intro s cb _ _; rfl
  | succ n ih =>
    intro s cb h1 h2
    rw [putLoop_succ, ih _ _ (by omega) (by omega), putBit_getD_other _ _ _ _ (by omega)]

theorem putLoop_getD_low (g : Nat → Nat) (off i : Nat) : ∀ (n s : Nat) (cb : List Nat),
    1 ≤ s + off → 8 * i + 8 < s + off → (putLoop g off s n cb).getD i 0 = cb.getD i 0 := by
  intro n
  induction n with
  | zero => intro s cb _ _; rfl
  | succ n ih =>
    intro s cb h1 h2
    rw [putLoop_succ, ih _ _ (by omega) (by omega), putBit_getD_other _ _ _ _ (by omega)]

theorem putLoop_isBytes (g : Nat → Nat) (off n s : Nat) (cb : List Nat) (h : IsBytes cb) :
    IsBytes (putLoop g off s n cb) :=
  fun i => putLoop_getD_lt g off i n s cb (h i)

theorem putLoop_getBit (g : Nat → Nat) (off : Nat) : ∀ (n s : Nat) (cb : List Nat),
    1 ≤ s + off → s + off + n ≤ 8 * cb.length + 1 →
    ∀ j, 1 ≤ j → getBit (putLoop g off s n cb) j =
      if s + off ≤ j ∧ j < s + off + n then bitOf (g (j - off)) else getBit cb j := by
  intro n
  induction n with
  | zero =>
    intro s cb _ _ j _
    have : ¬ (s + off ≤ j ∧ j < s + off + 0) := by omega
    exact (if_neg this).symm
  | succ n ih =>
    intro s cb h1 h2 j hj
    rw [putLoop_succ]
    have hl := length_putBit cb (s + off) (g s)
    rw [ih (s + 1) (putBit cb (s + off) (g s)) (by omega) (by rw [hl]; omega) j hj, getBit_putBit]
    by_cases c1 : s + 1 + off ≤ j ∧ j < s + 1 + off + n
    · have : s + off ≤ j ∧ j < s + off + (n + 1) := by omega
      rw [if_pos c1, if_pos this]
    · rw [if_neg c1]
      by_cases c2 : j = s + off
      · subst c2
        have c3 : s + off - 1 = s + off - 1 ∧ (s + off - 1) / 8 < cb.length := ⟨rfl, by omega⟩
        have c4 : s + off ≤ s + off ∧ s + off < s + off + (n + 1) := by omega
        rw [if_pos c3, if_pos c4]
        congr 2; omega
      · have c3 : ¬ (j - 1 = s + off - 1 ∧ (s + off - 1) / 8 < cb.length) := by omega
        have c4 : ¬ (s + off ≤ j ∧ j < s + off + (n + 1)) := by omega
        rw [if_neg c3, if_neg c4]

theorem getBit_mask (data : List Nat) (index p j : Nat) :
    getBit (data.set index (data.getD index 0 &&& p)) j =
      if (j - 1) / 8 = index then getBit data j * (p.testBit (7 - (j - 1) % 8)).toNat
      else getBit data j := by
  rw [getBit_eq, getBit_eq, getD_set]
  by_cases h : (j - 1) / 8 = index
  · subst h
    by_cases h2 : (j - 1) / 8 < data.length
    · simp only [true_and, h2, if_true, Nat.testBit_and]
      cases (data.getD ((j - 1) / 8) 0).testBit (7 - (j - 1) % 8) <;>
        cases p.testBit (7 - (j - 1) % 8) <;> simp
    · have : data.getD ((j - 1) / 8) 0 = 0 := List.getD_eq_default _ _ (by omega)
      rw [if_neg (fun hh => h2 hh.2), this]
      simp
  · have h3 : ¬ (index = (j - 1) / 8 ∧ index < data.length) := fun hh => h hh.1.symm
    rw [if_neg h3, if_neg h]

theorem testBit_tailMask (bits k : Nat) (hk : k < 8) :
    ((255 <<< (8 - bits)) &&& 255).testBit k = decide (8 - bits ≤ k) := by
  have h255 : ∀ i, (255 : Nat).testBit i = decide (i < 8) := Nat.testBit_two_pow_sub_one 8
  rw [Nat.testBit_and, Nat.testBit_shiftLeft, h255, h255]
  by_cases h : 8 - bits ≤ k
  · have : k - (8 - bits) < 8 := by omega
    simp [h, this, hk]
  · simp [h]

/-! ## What `permute` computes -/

theorem permute_eq (output input perm : List Nat) (n : Nat) :
    permute output input perm n =
      if n % 8 ≠ 0 then
        (putLoop (fun i => getBit input (perm.getD i 0)) 1 0 n
          ((List.range ((n + 7) / 8)).foldl (fun out i => out.set i 0) output)).set ((n - 1) / 8)
          ((putLoop (fun i => getBit input (perm.getD i 0)) 1 0 n
            ((List.range ((n + 7) / 8)).foldl (fun out i => out.set i 0) output)).getD
              ((n - 1) / 8) 0 &&& ((255 <<< (8 - n % 8)) &&& 255))
      else
        putLoop (fun i => getBit input (perm.getD i 0)) 1 0 n
          ((List.range ((n + 7) / 8)).foldl (fun out i => out.set i 0) output) := by
  unfold permute putLoop
  simp only [BYTE_SIZE, FULL_BYTE, List.range_eq_range']
  rfl

theorem permute_length (output input perm : List Nat) (n : Nat) :
    (permute output input perm n).length = output.length := by
  rw [permute_eq]
  split
  · rw [List.length_set, putLoop_length, setLoop_length]
  · rw [putLoop_length, setLoop_length]

theorem zeroLoop_getBit (output : List Nat) (m j : Nat) (h : m ≤ output.length)
    (h1 : 1 ≤ j) (h2 : j ≤ 8 * m) :
    getBit ((List.range m).foldl (fun out i => out.set i 0) output) j = 0 := by
  rw [getBit_eq, setLoop_getD (fun _ => 0), if_pos ⟨by omega, by omega⟩]
  simp

/-- Bits `1 .. n` of the output of `permute` are the selected bits of the input. -/
theorem permute_getBit (output input perm : List Nat) (n : Nat) (h : (n + 7) / 8 ≤ output.length)
    (j : Nat) (h1 : 1 ≤ j) (h2 : j ≤ n) :
    getBit (permute output input perm n) j = getBit input (perm.getD (j - 1) 0) := by
  have hb : getBit (putLoop (fun i => getBit input (perm.getD i 0)) 1 0 n
      ((List.range ((n + 7) / 8)).foldl (fun out i => out.set i 0) output)) j =
      getBit input (perm.getD (j - 1) 0) := by
    rw [putLoop_getBit _ _ _ _ _ (by omega) (by rw [setLoop_length]; omega) j h1,
      if_pos ⟨by omega, by omega⟩]
    exact bitOf_getBit _ _
  rw [permute_eq]
  split
  · rename_i hn
    rw [getBit_mask, hb]
    split
    · rename_i hj
      rw [testBit_tailMask _ _ (by omega)]
      have : 8 - n % 8 ≤ 7 - (j - 1) % 8 := by omega
      simp [this]
    · rfl
  · exact hb

/-- The bits of the last written byte beyond bit `n` are zero. -/
theorem permute_tail (output input perm : List Nat) (n : Nat) (h : (n + 7) / 8 ≤ output.length)
    (j : Nat) (h1 : n < j) (h2 : j ≤ 8 * ((n + 7) / 8)) :
    getBit (permute output input perm n) j = 0 := by
  have hb : getBit (putLoop (fun i => getBit input (perm.getD i 0)) 1 0 n
      ((List.range ((n + 7) / 8)).foldl (fun out i => out.set i 0) output)) j = 0 := by
    rw [putLoop_getBit _ _ _ _ _ (by omega) (by rw [setLoop_length]; omega) j (by omega),
      if_neg (by omega)]
    exact zeroLoop_getBit _ _ _ h (by omega) h2
  rw [permute_eq]
  split
  · rw [getBit_mask, hb]
    split <;> simp
  · exact hb

/-- Bytes of `output` past the `ceil(n/8)` written ones are untouched. -/
theorem permute_getD_high (output input perm : List Nat) (n i : Nat) (h : (n + 7) / 8 ≤ i) :
    (permute output input perm n).getD i 0 = output.getD i 0 := by
  have hb : (putLoop (fun i => getBit input (perm.getD i 0)) 1 0 n
      ((List.range ((n + 7) / 8)).foldl (fun out i => out.set i 0) output)).getD i 0 =
      output.getD i 0 := by
    rw [putLoop_getD_high _ _ _ _ _ _ (by omega) (by omega), setLoop_getD (fun _ => 0),
      if_neg (by omega)]
  rw [permute_eq]
  split
  · rename_i hn
    rw [getD_set, if_neg (by omega), hb]
  · exact hb

/-- The written bytes of the output of `permute` are bytes. -/
theorem permute_getD_lt (output input perm : List Nat) (n i : Nat)
    (h : i < (n + 7) / 8 ∨ output.getD i 0 < 256) :
    (permute output input perm n).getD i 0 < 256 := by
  have hz : ((List.range ((n + 7) / 8)).foldl (fun out i => out.set i 0) output).getD i 0 < 256 := by
    rw [setLoop_getD (fun _ => 0)]
    split
    · omega
    · rename_i hh
      rcases h with h | h
      · have : output.getD i 0 = 0 := List.getD_eq_default _ _ (by omega)
        omega
      · exact h
  have hb := putLoop_getD_lt (fun i => getBit input (perm.getD i 0)) 1 i n 0 _ hz
  rw [permute_eq]
  split
  · rw [getD_set]
    split
    · exact Nat.lt_of_le_of_lt Nat.and_le_left (by rename_i hh; rw [hh.1]; exact hb)
    · exact hb
  · exact hb

theorem permute_isBytes (output input perm : List Nat) (n : Nat) (h : IsBytes output) :
    IsBytes (permute output input perm n) :=
  fun i => permute_getD_lt output input perm n i (Or.inr (h i))

/-! ## The Feistel network -/

theorem HALF_BLOCK_BYTES_eq : HALF_BLOCK_BYTES = 4 := by decide
theorem BLOCK_BYTES_eq : BLOCK_BYTES = 8 := by decide
theorem SUBKEY_BYTES_eq : SUBKEY_BYTES = 6 := by decide
theorem HALF_SUBKEY_BYTES_eq : HALF_SUBKEY_BYTES = 4 := by decide

theorem fFunction_length (result R K : List Nat) :
    (fFunction result R K).length = result.length := by
  unfold fFunction; exact permute_length _ _ _ _

theorem fFunction_isBytes (result R K : List Nat) (h : IsBytes result) :
    IsBytes (fFunction result R K) := by
  unfold fFunction; exact permute_isBytes _ _ _ _ h

theorem fOut_length (R k : List Nat) : (fOut R k).length = 4 := by
  unfold fOut; rw [fFunction_length, List.length_replicate, HALF_BLOCK_BYTES_eq]

theorem fOut_isBytes (R k : List Nat) : IsBytes (fOut R k) :=
  fFunction_isBytes _ _ _ (isBytes_replicate _)

theorem xorHalf_length (L f : List Nat) : (xorHalf L f).length = 4 := by
  unfold xorHalf; rw [List.length_map, List.length_range, HALF_BLOCK_BYTES_eq]

theorem xorHalf_getD (L f : List Nat) (i : Nat) (h : i < 4) :
    (xorHalf L f).getD i 0 = L.getD i 0 ^^^ f.getD i 0 := by
  have hl : i < (xorHalf L f).length := by rw [xorHalf_length]; exact h
  rw [List.getD_eq_getElem _ _ hl]
  unfold xorHalf
  rw [List.getElem_map, List.getElem_range]

theorem xorHalf_isBytes (L f : List Nat) (hL : IsBytes L) (hf : IsBytes f) :
    IsBytes (xorHalf L f) := by
  intro i
  by_cases h : i < 4
  · rw [xorHalf_getD _ _ _ h]
    exact Nat.xor_lt_two_pow (n := 8) (hL i) (hf i)
  · rw [List.getD_eq_default _ _ (by rw [xorHalf_length]; omega)]; omega

theorem xorHalf_cancel (L f : List Nat) (hL : L.length = 4) : xorHalf (xorHalf L f) f = L := by
  apply List.ext_getElem
  · rw [xorHalf_length, hL]
  · intro i h1 h2
    rw [← List.getD_eq_getElem _ 0 h1, ← List.getD_eq_getElem _ 0 h2]
    rw [xorHalf_length] at h1
    rw [xorHalf_getD _ _ _ h1, xorHalf_getD _ _ _ h1, Nat.xor_cancel_right]

theorem feistelRound_eq (L R k : List Nat) (hL : L.length = 4) (hR : R.length = 4) :
    feistelRound (L, R) k = (R, xorHalf L (fOut R k)) := by
  unfold feistelRound
  simp only []
  rw [copyLoop_eq R L HALF_BLOCK_BYTES (by rw [hR, HALF_BLOCK_BYTES_eq]) (by rw [hL, HALF_BLOCK_BYTES_eq])]
  have := copyLoop_eq (xorHalf L (fOut R k)) R HALF_BLOCK_BYTES
    (by rw [xorHalf_length, HALF_BLOCK_BYTES_eq]) (by rw [hR, HALF_BLOCK_BYTES_eq])
  unfold xorHalf fOut at this
  rw [this]
  rfl

theorem feistelRound_isState (st : List Nat × List Nat) (k : List Nat) (h : IsState st) :
    IsState (feistelRound st k) := by
  obtain ⟨L, R⟩ := st
  obtain ⟨⟨h1, h2⟩, h3, h4⟩ := h
  rw [feistelRound_eq L R k h1 h3]
  exact ⟨⟨h3, h4⟩, xorHalf_length _ _, xorHalf_isBytes _ _ h2 (fOut_isBytes _ _)⟩

theorem feistelRound_cancel (st : List Nat × List Nat) (k : List Nat) (h : IsState st) :
    feistelRound (feistelRound st k).swap k = st.swap := by
  obtain ⟨L, R⟩ := st
  obtain ⟨⟨h1, _⟩, h3, _⟩ := h
  rw [feistelRound_eq L R k h1 h3]
  simp only [Prod.swap]
  rw [feistelRound_eq _ R k (xorHalf_length _ _) h3, xorHalf_cancel _ _ h1]

theorem rounds_isState (ks : List (List Nat)) : ∀ st, IsState st →
    IsState (ks.foldl feistelRound st) := by
  induction ks with
  | nil => intro st h; exact h
  | cons k ks ih => intro st h; exact ih _ (feistelRound_isState st k h)

/-- Running the rounds with the subkeys in reverse order on the swapped state undoes them. -/
theorem rounds_cancel (ks : List (List Nat)) : ∀ st, IsState st →
    ks.reverse.foldl feistelRound (ks.foldl feistelRound st).swap = st.swap := by
  induction ks with
  | nil => intro st _; rfl
  | cons k ks ih =>
    intro st h
    rw [List.reverse_cons, List.foldl_append, List.foldl_cons (l := ks),
      ih _ (feistelRound_isState st k h)]
    exact feistelRound_cancel st k h

theorem encryptBlock_eq (block : List Nat) (K : List (List Nat)) :
    encryptBlock block K = feistel (encKeys K) block := by
  unfold encryptBlock feistel encKeys
  simp only [List.foldl_map]

theorem decryptBlock_eq (block : List Nat) (K : List (List Nat)) :
    decryptBlock block K = feistel (decKeys K) block := by
  unfold decryptBlock feistel decKeys
  simp only [List.foldl_map]

theorem decKeys_eq (K : List (List Nat)) : decKeys K = (encKeys K).reverse := by
  unfold decKeys encKeys
  simp [ROUND_COUNT, List.range']

theorem encKeys_eq (K : List (List Nat)) : encKeys K = (decKeys K).reverse := by
  rw [decKeys_eq, List.reverse_reverse]

theorem combine_length (L R : List Nat) : (combine L R).length = 8 := by
  unfold combine
  rw [putLoop_length, putLoop_length, List.length_replicate, BLOCK_BYTES_eq]

theorem combine_getBit (L R : List Nat) (j : Nat) (h1 : 1 ≤ j) (h2 : j ≤ 64) :
    getBit (combine L R) j = if j ≤ 32 then getBit R j else getBit L (j - 32) := by
  unfold combine
  simp only [HALF_BLOCK_BITS, BLOCK_BYTES_eq]
  rw [putLoop_getBit _ _ _ _ _ (by omega)
    (by rw [putLoop_length, List.length_replicate]) j h1]
  by_cases h : j ≤ 32
  · rw [if_neg (by omega), if_pos h,
      putLoop_getBit _ _ _ _ _ (by omega) (by rw [List.length_replicate]; omega) j h1,
      if_pos (by omega)]
    exact bitOf_getBit _ _
  · rw [if_pos (by omega), if_neg h]
    exact bitOf_getBit _ _

theorem finishBlock_eq (block L R : List Nat) (hb : block.length = 8) :
    finishBlock block L R =
      permute (List.replicate BLOCK_BYTES 0) (combine L R) finalPerm BLOCK_BITS := by
  unfold finishBlock
  simp only []
  exact copyLoop_eq _ _ BLOCK_BYTES
    (by rw [permute_length, List.length_replicate]) (by rw [hb, BLOCK_BYTES_eq])

theorem finishBlock_length (block L R : List Nat) (hb : block.length = 8) :
    (finishBlock block L R).length = 8 := by
  rw [finishBlock_eq _ _ _ hb, permute_length, List.length_replicate, BLOCK_BYTES_eq]

theorem finishBlock_isBytes (block L R : List Nat) (hb : block.length = 8) :
    IsBytes (finishBlock block L R) := by
  rw [finishBlock_eq _ _ _ hb]
  exact permute_isBytes _ _ _ _ (isBytes_replicate _)

theorem finalPerm_range : ∀ j, j < 64 →
    1 ≤ finalPerm.getD j 0 ∧ finalPerm.getD j 0 ≤ 64 := by decide

theorem finishBlock_getBit (block L R : List Nat) (hb : block.length = 8) (j : Nat)
    (h1 : 1 ≤ j) (h2 : j ≤ 64) :
    getBit (finishBlock block L R) j =
      if finalPerm.getD (j - 1) 0 ≤ 32 then getBit R (finalPerm.getD (j - 1) 0)
      else getBit L (finalPerm.getD (j - 1) 0 - 32) := by
  rw [finishBlock_eq _ _ _ hb,
    permute_getBit _ _ _ BLOCK_BITS (by rw [List.length_replicate]; decide) j h1 h2]
  have := finalPerm_range (j - 1) (by omega)
  exact combine_getBit L R _ this.1 this.2

/-- The initial permutation maps output bit `leftInitialPerm[j]` of the final permutation
back to combined bit `j + 1`, and `rightInitialPerm[j]` to combined bit `j + 33`. -/
theorem initialPerm_finalPerm : ∀ j, j < 32 →
    (1 ≤ leftInitialPerm.getD j 0 ∧ leftInitialPerm.getD j 0 ≤ 64 ∧
      finalPerm.getD (leftInitialPerm.getD j 0 - 1) 0 = j + 1) ∧
    (1 ≤ rightInitialPerm.getD j 0 ∧ rightInitialPerm.getD j 0 ≤ 64 ∧
      finalPerm.getD (rightInitialPerm.getD j 0 - 1) 0 = j + 33) := by decide

theorem finalPerm_initialPerm : ∀ j, j < 64 →
    (finalPerm.getD j 0 ≤ 32 → leftInitialPerm.getD (finalPerm.getD j 0 - 1) 0 = j + 1) ∧
    (¬ finalPerm.getD j 0 ≤ 32 →
      rightInitialPerm.getD (finalPerm.getD j 0 - 32 - 1) 0 = j + 1) := by decide

/-- The left half of the initial permutation of a finished block is the half `R` it was
built from, and the right half is `L`. -/
theorem initial_finishBlock (block L R : List Nat) (hb : block.length = 8)
    (hL : L.length = 4 ∧ IsBytes L) (hR : R.length = 4 ∧ IsBytes R) :
    permute (List.replicate HALF_BLOCK_BYTES 0) (finishBlock block L R) leftInitialPerm
        HALF_BLOCK_BITS = R ∧
    permute (List.replicate HALF_BLOCK_BYTES 0) (finishBlock block L R) rightInitialPerm
        HALF_BLOCK_BITS = L := by
  have hlen : ((HALF_BLOCK_BITS + 7) / 8) ≤ (List.replicate HALF_BLOCK_BYTES 0).length := by
    rw [List.length_replicate]; decide
  constructor
  · apply bytes_ext
    · rw [permute_length, List.length_replicate, hR.1, HALF_BLOCK_BYTES_eq]
    · exact permute_isBytes _ _ _ _ (isBytes_replicate _)
    · exact hR.2
    · intro j h1 h2
      rw [permute_length, List.length_replicate, HALF_BLOCK_BYTES_eq] at h2
      rw [permute_getBit _ _ _ _ hlen j h1 (by simp only [HALF_BLOCK_BITS]; omega)]
      obtain ⟨⟨t1, t2, t3⟩, _⟩ := initialPerm_finalPerm (j - 1) (by omega)
      rw [finishBlock_getBit _ _ _ hb _ t1 t2, t3, if_pos (by omega)]
      congr 1; omega
  · apply bytes_ext
    · rw [permute_length, List.length_replicate, hL.1, HALF_BLOCK_BYTES_eq]
    · exact permute_isBytes _ _ _ _ (isBytes_replicate _)
    · exact hL.2
    · intro j h1 h2
      rw [permute_length, List.length_replicate, HALF_BLOCK_BYTES_eq] at h2
      rw [permute_getBit _ _ _ _ hlen j h1 (by simp only [HALF_BLOCK_BITS]; omega)]
      obtain ⟨_, t1, t2, t3⟩ := initialPerm_finalPerm (j - 1) (by omega)
      rw [finishBlock_getBit _ _ _ hb _ t1 t2, t3, if_neg (by omega)]
      congr 1; omega

/-- Finishing the initial halves of a block, swapped, gives the block back. -/
theorem finishBlock_initial (block B : List Nat) (hb : block.length = 8)
    (hB : B.length = 8) (hBb : IsBytes B) :
    finishBlock block
      (permute (List.replicate HALF_BLOCK_BYTES 0) B rightInitialPerm HALF_BLOCK_BITS)
      (permute (List.replicate HALF_BLOCK_BYTES 0) B leftInitialPerm HALF_BLOCK_BITS) = B := by
  have hlen : ((HALF_BLOCK_BITS + 7) / 8) ≤ (List.replicate HALF_BLOCK_BYTES 0).length := by
    rw [List.length_replicate]; decide
  apply bytes_ext
  · rw [finishBlock_length _ _ _ hb, hB]
  · exact finishBlock_isBytes _ _ _ hb
  · exact hBb
  · intro j h1 h2
    rw [finishBlock_length _ _ _ hb] at h2
    rw [finishBlock_getBit _ _ _ hb j h1 (by omega)]
    have hr := finalPerm_range (j - 1) (by omega)
    have ht := finalPerm_initialPerm (j - 1) (by omega)
    split
    · rename_i hc
      rw [permute_getBit _ _ _ _ hlen _ hr.1 (by simp only [HALF_BLOCK_BITS]; exact hc), ht.1 hc]
      congr 1; omega
    · rename_i hc
      rw [permute_getBit _ _ _ _ hlen _ (by omega) (by simp only [HALF_BLOCK_BITS]; omega),
        ht.2 hc]
      congr 1; omega

theorem initial_isState (B : List Nat) :
    IsState (permute (List.replicate HALF_BLOCK_BYTES 0) B leftInitialPerm HALF_BLOCK_BITS,
      permute (List.replicate HALF_BLOCK_BYTES 0) B rightInitialPerm HALF_BLOCK_BITS) := by
  have h1 : ∀ perm, (permute (List.replicate HALF_BLOCK_BYTES 0) B perm HALF_BLOCK_BITS).length = 4 ∧
      IsBytes (permute (List.replicate HALF_BLOCK_BYTES 0) B perm HALF_BLOCK_BITS) := by
    intro perm
    refine ⟨?_, permute_isBytes _ _ _ _ (isBytes_replicate _)⟩
    rw [permute_length, List.length_replicate, HALF_BLOCK_BYTES_eq]
  exact ⟨h1 _, h1 _⟩

theorem feistel_length (ks : List (List Nat)) (B : List Nat) (hB : B.length = 8) :
    (feistel ks B).length = 8 := finishBlock_length _ _ _ hB

theorem feistel_isBytes (ks : List (List Nat)) (B : List Nat) (hB : B.length = 8) :
    IsBytes (feistel ks B) := finishBlock_isBytes _ _ _ hB

/-- The Feistel network run with the subkeys reversed undoes itself on 8-byte blocks. -/
theorem feistel_cancel (ks : List (List Nat)) (B : List Nat) (hB : B.length = 8)
    (hBb : IsBytes B) : feistel ks.reverse (feistel ks B) = B := by
  have hst := rounds_isState ks _ (initial_isState B)
  have hcancel := rounds_cancel ks _ (initial_isState B)
  have hinit := initial_finishBlock B _ _ hB hst.1 hst.2
  have hfl : (feistel ks B).length = 8 := feistel_length ks B hB
  unfold feistel at hfl ⊢
  simp only [] at hfl ⊢
  rw [hinit.1, hinit.2]
  have : ((ks.foldl feistelRound
      (permute (List.replicate HALF_BLOCK_BYTES 0) B leftInitialPerm HALF_BLOCK_BITS,
       permute (List.replicate HALF_BLOCK_BYTES 0) B rightInitialPerm HALF_BLOCK_BITS)).2,
      (ks.foldl feistelRound
      (permute (List.replicate HALF_BLOCK_BYTES 0) B leftInitialPerm HALF_BLOCK_BITS,
       permute (List.replicate HALF_BLOCK_BYTES 0) B rightInitialPerm HALF_BLOCK_BITS)).1) =
      (ks.foldl feistelRound
      (permute (List.replicate HALF_BLOCK_BYTES 0) B leftInitialPerm HALF_BLOCK_BITS,
       permute (List.replicate HALF_BLOCK_BYTES 0) B rightInitialPerm HALF_BLOCK_BITS)).swap := rfl
  rw [this, hcancel]
  exact finishBlock_initial _ B hfl hB hBb

theorem decrypt_encrypt_block (B : List Nat) (K : List (List Nat)) (hB : B.length = 8)
    (hBb : IsBytes B) : decryptBlock (encryptBlock B K) K = B := by
  rw [encryptBlock_eq, decryptBlock_eq, decKeys_eq]
  exact feistel_cancel _ B hB hBb

theorem encrypt_decrypt_block (B : List Nat) (K : List (List Nat)) (hB : B.length = 8)
    (hBb : IsBytes B) : encryptBlock (decryptBlock B K) K = B := by
  rw [encryptBlock_eq, decryptBlock_eq, encKeys_eq]
  exact feistel_cancel _ B hB hBb

/-! ## Blocks inside a longer buffer -/

theorem getD_drop (l : List Nat) (n j : Nat) : (l.drop n).getD j 0 = l.getD (n + j) 0 := by
  rw [List.getD_eq_getElem?_getD, List.getD_eq_getElem?_getD, List.getElem?_drop]

theorem getD_take (l : List Nat) (n j : Nat) (h : j < n) : (l.take n).getD j 0 = l.getD j 0 := by
  rw [List.getD_eq_getElem?_getD, List.getD_eq_getElem?_getD, List.getElem?_take_of_lt h]

theorem getBit_take (l : List Nat) (n j : Nat) (h : (j - 1) / 8 < n) :
    getBit (l.take n) j = getBit l j := by
  rw [getBit_eq, getBit_eq, getD_take _ _ _ h]

/-- Copying `n` bytes to the start of a longer buffer leaves the rest of it alone. -/
theorem copyLoop_append (src dst : List Nat) (n : Nat) (hs : src.length = n)
    (hd : n ≤ dst.length) :
    (List.range n).foldl (fun d i => d.set i (src.getD i 0)) dst = src ++ dst.drop n := by
  apply List.ext_getElem
  · rw [setLoop_length, List.length_append, List.length_drop, hs]; omega
  · intro i h1 h2
    rw [← List.getD_eq_getElem _ 0 h1, ← List.getD_eq_getElem _ 0 h2,
      setLoop_getD (fun i => src.getD i 0)]
    rw [setLoop_length] at h1
    by_cases h : i < n
    · rw [if_pos ⟨h, h1⟩, List.getD_append _ _ _ _ (by omega)]
    · rw [if_neg (fun hh => h hh.1), List.getD_append_right _ _ _ _ (by omega), getD_drop, hs]
      congr 1; omega

theorem putLoop_congr (g g' : Nat → Nat) (off : Nat) : ∀ (n s : Nat) (cb : List Nat),
    (∀ i, s ≤ i → i < s + n → g i = g' i) → putLoop g off s n cb = putLoop g' off s n cb := by
  intro n
  induction n with
  | zero => intro s cb _; rfl
  | succ n ih =>
    intro s cb h
    rw [putLoop_succ, putLoop_succ, h s (by omega) (by omega)]
    exact ih _ _ (fun i h1 h2 => h i (by omega) (by omega))

/-- The function `permute` reads only the bits of the input that the table selects. -/
theorem permute_congr (output in1 in2 perm : List Nat) (n : Nat)
    (h : ∀ i, i < n → getBit in1 (perm.getD i 0) = getBit in2 (perm.getD i 0)) :
    permute output in1 perm n = permute output in2 perm n := by
  rw [permute_eq, permute_eq,
    putLoop_congr (fun i => getBit in1 (perm.getD i 0)) (fun i => getBit in2 (perm.getD i 0)) 1 n 0
      _ (fun i _ h2 => h i (by omega))]

theorem initialPerm_range : ∀ i, i < 32 →
    (1 ≤ leftInitialPerm.getD i 0 ∧ leftInitialPerm.getD i 0 ≤ 64) ∧
    (1 ≤ rightInitialPerm.getD i 0 ∧ rightInitialPerm.getD i 0 ≤ 64) := by decide

theorem subkeyPerm_range : ∀ i, i < 28 →
    (1 ≤ leftSubkeyPerm.getD i 0 ∧ leftSubkeyPerm.getD i 0 ≤ 64) ∧
    (1 ≤ rightSubkeyPerm.getD i 0 ∧ rightSubkeyPerm.getD i 0 ≤ 64) := by decide

/-- On a pointer into a longer buffer the block transformation rewrites the first eight
bytes and leaves the following ones alone. -/
theorem feistel_window (ks : List (List Nat)) (X : List Nat) (hX : 8 ≤ X.length) :
    feistel ks X = feistel ks (X.take 8) ++ X.drop 8 := by
  have hl : permute (List.replicate HALF_BLOCK_BYTES 0) X leftInitialPerm HALF_BLOCK_BITS =
      permute (List.replicate HALF_BLOCK_BYTES 0) (X.take 8) leftInitialPerm HALF_BLOCK_BITS :=
    permute_congr _ _ _ _ _ (fun i hi => by
      have := (initialPerm_range i hi).1
      rw [getBit_take _ _ _ (by omega)])
  have hr : permute (List.replicate HALF_BLOCK_BYTES 0) X rightInitialPerm HALF_BLOCK_BITS =
      permute (List.replicate HALF_BLOCK_BYTES 0) (X.take 8) rightInitialPerm HALF_BLOCK_BITS :=
    permute_congr _ _ _ _ _ (fun i hi => by
      have := (initialPerm_range i hi).2
      rw [getBit_take _ _ _ (by omega)])
  have ht : (X.take 8).length = 8 := by rw [List.length_take]; omega
  unfold feistel
  simp only []
  rw [hl, hr, finishBlock_eq (X.take 8) _ _ ht]
  unfold finishBlock
  simp only []
  exact copyLoop_append _ _ BLOCK_BYTES (by rw [permute_length, List.length_replicate])
    (by rw [BLOCK_BYTES_eq]; exact hX)

theorem mapBlocks_length (g : List Nat → List Nat)
    (hg : ∀ b, b.length = 8 → (g b).length = 8) : ∀ (m : Nat) (buf : List Nat),
    buf.length = 8 * m → (mapBlocks g m buf).length = 8 * m := by
  intro m
  induction m with
  | zero => intro buf h; exact h
  | succ m ih =>
    intro buf h
    unfold mapBlocks
    rw [List.length_append, hg _ (by rw [List.length_take]; omega),
      ih _ (by rw [List.length_drop]; omega)]
    omega

theorem blockAt_mapBlocks (g : List Nat → List Nat)
    (hg : ∀ b, b.length = 8 → (g b).length = 8) : ∀ (m : Nat) (buf : List Nat) (i : Nat),
    buf.length = 8 * m → i < m → blockAt (mapBlocks g m buf) i = g (blockAt buf i) := by
  intro m
  induction m with
  | zero => intro buf i _ hi; omega
  | succ m ih =>
    intro buf i h hi
    have h8 : (g (buf.take 8)).length = 8 := hg _ (by rw [List.length_take]; omega)
    unfold mapBlocks
    cases i with
    | zero =>
      unfold blockAt
      simp only [Nat.mul_zero, List.drop_zero]
      rw [List.take_left' h8]
    | succ i =>
      have := ih (buf.drop 8) i (by rw [List.length_drop]; omega) (by omega)
      unfold blockAt at this ⊢
      have e : 8 * (i + 1) = 8 + 8 * i := by omega
      rw [e, ← List.drop_drop, List.drop_left' h8, this, List.drop_drop]

/-- The block loop of `encryptTDES` / `decryptTDES`: when the body acts on the first eight
bytes behind the pointer, the loop applies it to every block. -/
theorem blockLoop_eq (g' g : List Nat → List Nat)
    (hg' : ∀ X, 8 ≤ X.length → g' X = g (X.take 8) ++ X.drop 8)
    (hg : ∀ b, b.length = 8 → (g b).length = 8) : ∀ (m s : Nat) (pre rest : List Nat),
    pre.length = s * 8 → rest.length = 8 * m →
    ((List.range' s m).map (fun k => k * 8)).foldl
      (fun pd blkIdx => pd.take blkIdx ++ g' (pd.drop blkIdx)) (pre ++ rest) =
      pre ++ mapBlocks g m rest := by
  intro m
  induction m with
  | zero => intro s pre rest _ _; rfl
  | succ m ih =>
    intro s pre rest hp hr
    rw [List.range'_succ, List.map_cons, List.foldl_cons, List.take_left' hp,
      List.drop_left' hp, hg' rest (by omega), ← List.append_assoc]
    rw [ih (s + 1) (pre ++ g (rest.take 8)) (rest.drop 8)
      (by rw [List.length_append, hp, hg _ (by rw [List.length_take]; omega)]; omega)
      (by rw [List.length_drop]; omega)]
    rw [List.append_assoc]
    rfl

theorem blockLoop_eq_mapBlocks (g' g : List Nat → List Nat)
    (hg' : ∀ X, 8 ≤ X.length → g' X = g (X.take 8) ++ X.drop 8)
    (hg : ∀ b, b.length = 8 → (g b).length = 8) (m : Nat) (buf : List Nat)
    (h : buf.length = 8 * m) :
    ((List.range' 0 m).map (fun k => k * 8)).foldl
      (fun pd blkIdx => pd.take blkIdx ++ g' (pd.drop blkIdx)) buf = mapBlocks g m buf :=
  blockLoop_eq g' g hg' hg m 0 [] buf rfl h

theorem blockOffsets_eq (m : Nat) :
    blockOffsets (8 * m) 8 = (List.range' 0 m).map (fun k => k * 8) := by
  unfold blockOffsets
  have : (8 * m + 8 - 1) / 8 = m := by omega
  rw [this, List.range_eq_range']

theorem mapBlocks_cancel (f g : List Nat → List Nat)
    (hf : ∀ b, b.length = 8 → (f b).length = 8)
    (hfg : ∀ b, b.length = 8 → IsBytes b → g (f b) = b) : ∀ (m : Nat) (buf : List Nat),
    buf.length = 8 * m → IsBytes buf → mapBlocks g m (mapBlocks f m buf) = buf := by
  intro m
  induction m with
  | zero => intro buf _ _; rfl
  | succ m ih =>
    intro buf h hb
    have ht : (buf.take 8).length = 8 := by rw [List.length_take]; omega
    have hbt : IsBytes (buf.take 8) := by
      rw [isBytes_iff] at hb ⊢
      exact fun b hm => hb b (List.mem_of_mem_take hm)
    have hbd : IsBytes (buf.drop 8) := by
      rw [isBytes_iff] at hb ⊢
      exact fun b hm => hb b (List.mem_of_mem_drop hm)
    show mapBlocks g (m + 1) (f (buf.take 8) ++ mapBlocks f m (buf.drop 8)) = buf
    unfold mapBlocks
    rw [List.take_left' (hf _ ht), List.drop_left' (hf _ ht), hfg _ ht hbt,
      ih _ (by rw [List.length_drop]; omega) hbd, List.take_append_drop]

/-! ## The Triple DES pipeline -/

theorem encryptBlock_length (B : List Nat) (K : List (List Nat)) (h : B.length = 8) :
    (encryptBlock B K).length = 8 := by
  rw [encryptBlock_eq]; exact feistel_length _ _ h

theorem decryptBlock_length (B : List Nat) (K : List (List Nat)) (h : B.length = 8) :
    (decryptBlock B K).length = 8 := by
  rw [decryptBlock_eq]; exact feistel_length _ _ h

theorem encryptBlock_isBytes (B : List Nat) (K : List (List Nat)) (h : B.length = 8) :
    IsBytes (encryptBlock B K) := by
  rw [encryptBlock_eq]; exact feistel_isBytes _ _ h

theorem decryptBlock_isBytes (B : List Nat) (K : List (List Nat)) (h : B.length = 8) :
    IsBytes (decryptBlock B K) := by
  rw [decryptBlock_eq]; exact feistel_isBytes _ _ h

theorem encryptBlock_window (X : List Nat) (K : List (List Nat)) (h : 8 ≤ X.length) :
    encryptBlock X K = encryptBlock (X.take 8) K ++ X.drop 8 := by
  rw [encryptBlock_eq, encryptBlock_eq]; exact feistel_window _ _ h

theorem decryptBlock_window (X : List Nat) (K : List (List Nat)) (h : 8 ≤ X.length) :
    decryptBlock X K = decryptBlock (X.take 8) K ++ X.drop 8 := by
  rw [decryptBlock_eq, decryptBlock_eq]; exact feistel_window _ _ h

theorem ede_length (S1 S2 S3 : List (List Nat)) (b : List Nat) (h : b.length = 8) :
    (ede S1 S2 S3 b).length = 8 :=
  encryptBlock_length _ _ (decryptBlock_length _ _ (encryptBlock_length _ _ h))

theorem ded_length (S1 S2 S3 : List (List Nat)) (b : List Nat) (h : b.length = 8) :
    (ded S1 S2 S3 b).length = 8 :=
  decryptBlock_length _ _ (encryptBlock_length _ _ (decryptBlock_length _ _ h))

theorem ede_window (S1 S2 S3 : List (List Nat)) (X : List Nat) (h : 8 ≤ X.length) :
    encryptBlock (decryptBlock (encryptBlock X S1) S2) S3 =
      ede S1 S2 S3 (X.take 8) ++ X.drop 8 := by
  have ht : (X.take 8).length = 8 := by rw [List.length_take]; omega
  have h1 := encryptBlock_length (X.take 8) S1 ht
  have h2 := decryptBlock_length _ S2 h1
  rw [encryptBlock_window X S1 h,
    decryptBlock_window _ S2 (by rw [List.length_append, h1]; omega),
    List.take_left' h1, List.drop_left' h1,
    encryptBlock_window _ S3 (by rw [List.length_append, h2]; omega),
    List.take_left' h2, List.drop_left' h2]
  rfl

theorem ded_window (S1 S2 S3 : List (List Nat)) (X : List Nat) (h : 8 ≤ X.length) :
    decryptBlock (encryptBlock (decryptBlock X S3) S2) S1 =
      ded S1 S2 S3 (X.take 8) ++ X.drop 8 := by
  have ht : (X.take 8).length = 8 := by rw [List.length_take]; omega
  have h1 := decryptBlock_length (X.take 8) S3 ht
  have h2 := encryptBlock_length _ S2 h1
  rw [decryptBlock_window X S3 h,
    encryptBlock_window _ S2 (by rw [List.length_append, h1]; omega),
    List.take_left' h1, List.drop_left' h1,
    decryptBlock_window _ S1 (by rw [List.length_append, h2]; omega),
    List.take_left' h2, List.drop_left' h2]
  rfl

/-- Decrypt-encrypt-decrypt with the same three schedules undoes encrypt-decrypt-encrypt. -/
theorem ded_ede (S1 S2 S3 : List (List Nat)) (b : List Nat) (h : b.length = 8)
    (hb : IsBytes b) : ded S1 S2 S3 (ede S1 S2 S3 b) = b := by
  unfold ded ede
  have h1 := encryptBlock_length b S1 h
  have h2 := decryptBlock_length _ S2 h1
  rw [decrypt_encrypt_block _ S3 h2 (decryptBlock_isBytes _ _ h1),
    encrypt_decrypt_block _ S2 h1 (encryptBlock_isBytes _ _ h),
    decrypt_encrypt_block _ S1 h hb]

theorem padded_length (P : List Nat) : (padded P).length = 8 * (P.length / 8 + 1) := by
  unfold padded padLen
  rw [List.length_append, List.length_replicate]; omega

theorem fillLoop_eq (v x : Nat) : ∀ (k s : Nat) (pre : List Nat), pre.length = s →
    (List.range' s k).foldl (fun pd i => pd.set i v) (pre ++ List.replicate k x) =
      pre ++ List.replicate k v := by
  intro k
  induction k with
  | zero => intro s pre _; rfl
  | succ k ih =>
    intro s pre hp
    rw [List.range'_succ, List.foldl_cons, List.set_append_right _ _ (by omega), hp,
      Nat.sub_self, List.replicate_succ, List.set_cons_zero]
    have := ih (s + 1) (pre ++ [v]) (by rw [List.length_append, hp]; rfl)
    rw [List.append_assoc] at this
    rw [List.replicate_succ]
    simpa using this

/-- The key schedule reads only the first eight bytes behind the key pointer. -/
theorem generateSubkeys_window (K : List (List Nat)) (key : List Nat) :
    generateSubkeys K key = generateSubkeys K (key.take 8) := by
  have hl : permute (List.replicate HALF_SUBKEY_BYTES 0) key leftSubkeyPerm HALF_SUBKEY_BITS =
      permute (List.replicate HALF_SUBKEY_BYTES 0) (key.take 8) leftSubkeyPerm
        HALF_SUBKEY_BITS :=
    permute_congr _ _ _ _ _ (fun i hi => by
      have := (subkeyPerm_range i hi).1
      rw [getBit_take _ _ _ (by omega)])
  have hr : permute (List.replicate HALF_SUBKEY_BYTES 0) key rightSubkeyPerm HALF_SUBKEY_BITS =
      permute (List.replicate HALF_SUBKEY_BYTES 0) (key.take 8) rightSubkeyPerm
        HALF_SUBKEY_BITS :=
    permute_congr _ _ _ _ _ (fun i hi => by
      have := (subkeyPerm_range i hi).2
      rw [getBit_take _ _ _ (by omega)])
  unfold generateSubkeys
  simp only []
  rw [hl, hr]

/-- From 2147483640 input bytes on, the padded length does not fit an `int` and
`encryptTDES` returns no buffer. -/
theorem encryptTDES_overflow (P key : List Nat) (hk : key.length = 24)
    (hlen : 2147483640 ≤ P.length) :
    encryptTDES P key = Except.error TDESError.lengthOverflow := by
  have hpad : (if P.length % 8 = 0 then 8 else 8 - P.length % 8) = padLen P.length := by
    unfold padLen; split <;> omega
  unfold encryptTDES
  simp only [NUM_KEY_PARTS, BLOCK_BYTES_eq, NUM_HALVES, hk]
  rw [if_neg (by decide)]
  simp only [hpad]
  rw [if_pos (by unfold padLen INT_MAX; omega)]

theorem encryptTDES_eq (P key : List Nat) (hk : key.length = 24)
    (hlen : P.length < 2147483640) :
    encryptTDES P key = Except.ok (mapBlocks
      (ede (scheduleOf key 0) (scheduleOf key 1) (scheduleOf key 2))
      (P.length / 8 + 1) (padded P)) := by
  have hpad : (if P.length % 8 = 0 then 8 else 8 - P.length % 8) = padLen P.length := by
    unfold padLen; split <;> omega
  have hlt : padLen P.length % 256 = padLen P.length := by unfold padLen; omega
  have hoff : blockOffsets (P.length + padLen P.length) 8 =
      (List.range' 0 (P.length / 8 + 1)).map (fun k => k * 8) := by
    rw [← blockOffsets_eq]; congr 1; unfold padLen; omega
  unfold encryptTDES
  simp only [NUM_KEY_PARTS, BLOCK_BYTES_eq, NUM_HALVES, hk]
  rw [if_neg (by decide)]
  simp only [hpad, hlt, hoff]
  rw [if_neg (by unfold padLen INT_MAX; omega)]
  have hfill : (List.range' P.length (P.length + padLen P.length - P.length)).foldl
      (fun pd i => pd.set i (padLen P.length))
      (memcpy (freshBytes (P.length + padLen P.length)) P P.length) = padded P := by
    unfold memcpy freshBytes padded
    rw [List.take_length, List.drop_replicate, Nat.add_sub_cancel_left]
    exact fillLoop_eq _ _ _ _ _ rfl
  rw [hfill]
  have : ((List.range' 0 (P.length / 8 + 1)).map (fun k => k * 8)).foldl
      (fun pd blkIdx => pd.take blkIdx ++ encryptBlock (decryptBlock (encryptBlock
        (pd.drop blkIdx) (generateSubkeys freshSchedule key))
        (generateSubkeys freshSchedule (key.drop 8)))
        (generateSubkeys freshSchedule (key.drop (2 * 8)))) (padded P) =
      mapBlocks (ede (scheduleOf key 0) (scheduleOf key 1) (scheduleOf key 2))
        (P.length / 8 + 1) (padded P) := blockLoop_eq_mapBlocks
    (fun X => encryptBlock (decryptBlock (encryptBlock X
      (generateSubkeys freshSchedule key)) (generateSubkeys freshSchedule (key.drop 8)))
      (generateSubkeys freshSchedule (key.drop (2 * 8))))
    (ede (scheduleOf key 0) (scheduleOf key 1) (scheduleOf key 2))
    (fun X hX => by
      simp only []
      rw [ede_window _ _ _ X hX]
      unfold scheduleOf
      rw [generateSubkeys_window _ key, generateSubkeys_window _ (key.drop 8),
        generateSubkeys_window _ (key.drop (2 * 8))]
      rfl)
    (fun b hb => ede_length _ _ _ b hb) (P.length / 8 + 1) (padded P) (padded_length P)
  rw [this]

theorem decryptTDES_eq (C key : List Nat) (hk : key.length = 24) (m : Nat)
    (hC : C.length = 8 * m) (hm : 0 < m) :
    decryptTDES C key =
      if (mapBlocks (ded (scheduleOf key 0) (scheduleOf key 1) (scheduleOf key 2)) m C).getD
            (C.length - 1) 0 < 1 ∨
          (mapBlocks (ded (scheduleOf key 0) (scheduleOf key 1) (scheduleOf key 2)) m C).getD
            (C.length - 1) 0 > 8 then
        Except.error TDESError.invalidPadding
      else
        Except.ok ((mapBlocks (ded (scheduleOf key 0) (scheduleOf key 1) (scheduleOf key 2))
          m C).take (C.length -
            (mapBlocks (ded (scheduleOf key 0) (scheduleOf key 1) (scheduleOf key 2)) m C).getD
              (C.length - 1) 0)) := by
  have hoff : blockOffsets C.length 8 = (List.range' 0 m).map (fun k => k * 8) := by
    rw [hC, blockOffsets_eq]
  have hloop : ((List.range' 0 m).map (fun k => k * 8)).foldl
      (fun pd blkIdx => pd.take blkIdx ++ decryptBlock (encryptBlock (decryptBlock
        (pd.drop blkIdx) (generateSubkeys freshSchedule (key.drop (2 * 8))))
        (generateSubkeys freshSchedule (key.drop 8)))
        (generateSubkeys freshSchedule key)) C =
      mapBlocks (ded (scheduleOf key 0) (scheduleOf key 1) (scheduleOf key 2)) m C :=
    blockLoop_eq_mapBlocks
    (fun X => decryptBlock (encryptBlock (decryptBlock X
      (generateSubkeys freshSchedule (key.drop (2 * 8))))
      (generateSubkeys freshSchedule (key.drop 8))) (generateSubkeys freshSchedule key))
    (ded (scheduleOf key 0) (scheduleOf key 1) (scheduleOf key 2))
    (fun X hX => by
      simp only []
      rw [ded_window _ _ _ X hX]
      unfold scheduleOf
      rw [generateSubkeys_window _ key, generateSubkeys_window _ (key.drop 8),
        generateSubkeys_window _ (key.drop (2 * 8))]
      rfl)
    (fun b hb => ded_length _ _ _ b hb) m C hC
  have hcpy : memcpy (freshBytes C.length) C C.length = C := by
    unfold memcpy freshBytes
    rw [List.take_length, List.drop_replicate, Nat.sub_self]
    simp
  have hcpy2 : ∀ (T : List Nat) (n : Nat), memcpy (freshBytes n) T n = T.take n := by
    intro T n
    unfold memcpy freshBytes
    rw [List.drop_replicate, Nat.sub_self]
    simp
  unfold decryptTDES
  simp only [NUM_KEY_PARTS, BLOCK_BYTES_eq, NUM_HALVES, hk]
  rw [if_neg (by decide), if_neg (by omega)]
  simp only [hoff, hcpy, hcpy2]
  rw [hloop]

theorem blockAt_zero (T : List Nat) : blockAt T 0 = T.take 8 := rfl

theorem blockAt_succ (T : List Nat) (i : Nat) : blockAt T (i + 1) = blockAt (T.drop 8) i := by
  unfold blockAt
  rw [List.drop_drop]
  congr 2
  omega

/-- A buffer of `m` blocks is determined by its blocks. -/
theorem blocks_ext : ∀ (m : Nat) (T T' : List Nat), T.length = 8 * m → T'.length = 8 * m →
    (∀ i, i < m → blockAt T i = blockAt T' i) → T = T' := by
  intro m
  induction m with
  | zero =>
    intro T T' h1 h2 _
    rw [List.length_eq_zero.mp h1, List.length_eq_zero.mp h2]
  | succ m ih =>
    intro T T' h1 h2 h
    have h0 := h 0 (by omega)
    rw [blockAt_zero, blockAt_zero] at h0
    have hd := ih (T.drop 8) (T'.drop 8) (by rw [List.length_drop]; omega)
      (by rw [List.length_drop]; omega) (fun i hi => by
        rw [← blockAt_succ, ← blockAt_succ]; exact h (i + 1) (by omega))
    rw [← List.take_append_drop 8 T, ← List.take_append_drop 8 T', h0, hd]

theorem padded_isBytes (P : List Nat) (hP : IsBytes P) : IsBytes (padded P) := by
  rw [isBytes_iff] at hP ⊢
  intro b hb
  unfold padded at hb
  rcases List.mem_append.mp hb with h | h
  · exact hP b h
  · rw [List.eq_of_mem_replicate h]; unfold padLen; omega

theorem padded_last (P : List Nat) :
    (padded P).getD ((padded P).length - 1) 0 = padLen P.length := by
  have hp : 1 ≤ padLen P.length := by unfold padLen; omega
  unfold padded
  rw [List.length_append, List.length_replicate,
    List.getD_append_right _ _ _ _ (by omega),
    List.getD_eq_getElem _ _ (by rw [List.length_replicate]; omega), List.getElem_replicate]

theorem padded_take (P : List Nat) :
    (padded P).take ((padded P).length - padLen P.length) = P := by
  unfold padded
  rw [List.length_append, List.length_replicate, Nat.add_sub_cancel]
  exact List.take_left' rfl

/-- Decrypting what `encryptTDES` produced gives the plaintext back. -/
theorem decrypt_encrypt_TDES (P key : List Nat) (hk : key.length = 24) (hP : IsBytes P) :
    decryptTDES (mapBlocks (ede (scheduleOf key 0) (scheduleOf key 1) (scheduleOf key 2))
      (P.length / 8 + 1) (padded P)) key = Except.ok P := by
  have hlen := mapBlocks_length (ede (scheduleOf key 0) (scheduleOf key 1) (scheduleOf key 2))
    (fun b hb => ede_length _ _ _ b hb) (P.length / 8 + 1) (padded P) (padded_length P)
  rw [decryptTDES_eq _ key hk (P.length / 8 + 1) hlen (by omega),
    mapBlocks_cancel _ _ (fun b hb => ede_length _ _ _ b hb)
      (fun b hb hbb => ded_ede _ _ _ b hb hbb) _ _ (padded_length P) (padded_isBytes P hP),
    hlen, ← padded_length P, padded_last, padded_take]
  have : ¬ (padLen P.length < 1 ∨ padLen P.length > 8) := by unfold padLen; omega
  rw [if_neg this]

/-! ## The claims -/

/-- C1, counterexample. The claim read for a plaintext of any length fails: for the
plaintext of 2147483640 zero bytes and the key 00 01 .. 17, `padCount` is 8 and the sum
`inputLen + padCount` is 2147483648, above `INT_MAX`; `encryptTDES` returns no buffer, so
there is no output for `decryptTDES` to take back to the plaintext. -/
theorem C1_counterexample :
    encryptTDES (List.replicate 2147483640 0) (List.range 24) =
        Except.error TDESError.lengthOverflow ∧
      ¬ ∃ C, encryptTDES (List.replicate 2147483640 0) (List.range 24) = Except.ok C ∧
        decryptTDES C (List.range 24) = Except.ok (List.replicate 2147483640 0) := by
  have h := encryptTDES_overflow (List.replicate 2147483640 0) (List.range 24) rfl
    (List.length_replicate _ _).ge
  refine ⟨h, ?_⟩
  rintro ⟨C, hC, _⟩
  rw [h] at hC
  cases hC

/-- C1, amended. Triple DES round trip: for every plaintext of fewer than 2147483640 bytes
(the lengths whose padded length fits the `int totalLength`) and every 24-byte key,
`encryptTDES` succeeds and `decryptTDES` applied to its output with the same key succeeds
and returns exactly the plaintext. -/
theorem C1_tdes_round_trip (P key : List Nat) (hk : key.length = 24)
    (hlen : P.length < 2147483640) (hP : ∀ b ∈ P, b < 256) :
    ∃ C, encryptTDES P key = Except.ok C ∧ decryptTDES C key = Except.ok P :=
  ⟨_, encryptTDES_eq P key hk hlen, decrypt_encrypt_TDES P key hk ((isBytes_iff P).mpr hP)⟩

/-- Witness of C1 at the plaintext 01 02 03 and the key 00 01 .. 17. -/
theorem C1_tdes_round_trip_witness :
    ∃ C, encryptTDES [1, 2, 3] (List.range 24) = Except.ok C ∧
      decryptTDES C (List.range 24) = Except.ok [1, 2, 3] :=
  C1_tdes_round_trip [1, 2, 3] (List.range 24) (by decide) (by decide) (by decide)

/-- C2. Single-block round trip: for every 8-byte block and every key schedule (any
contents of the slots), `decryptBlock` undoes `encryptBlock`. -/
theorem C2_block_round_trip (B : List Nat) (K : List (List Nat)) (hB : B.length = 8)
    (hb : ∀ b ∈ B, b < 256) : decryptBlock (encryptBlock B K) K = B :=
  decrypt_encrypt_block B K hB ((isBytes_iff B).mpr hb)

/-- Witness of C2 at the block 01 .. 08 and the schedule whose 17 slots hold FF bytes. -/
theorem C2_block_round_trip_witness :
    decryptBlock (encryptBlock [1, 2, 3, 4, 5, 6, 7, 8]
      (List.replicate 17 (List.replicate 6 255))) (List.replicate 17 (List.replicate 6 255)) =
      [1, 2, 3, 4, 5, 6, 7, 8] :=
  C2_block_round_trip [1, 2, 3, 4, 5, 6, 7, 8] (List.replicate 17 (List.replicate 6 255))
    (by decide) (by decide)

/-- C3. Known-answer vector: with the schedule of the key 01 23 45 67 89 AB CD EF the
all-zero block encrypts to D5 D4 4F F7 20 68 3D 0D. -/
theorem C3_known_answer :
    encryptBlock [0, 0, 0, 0, 0, 0, 0, 0]
      (generateSubkeys freshSchedule [0x01, 0x23, 0x45, 0x67, 0x89, 0xAB, 0xCD, 0xEF]) =
      [0xD5, 0xD4, 0x4F, 0xF7, 0x20, 0x68, 0x3D, 0x0D] := by
  decide!

/-- C4. Decrypt is encrypt with the subkey order reversed: if `K'[r] = K[17 - r]` for
`r = 1 .. 16` then `decryptBlock B K = encryptBlock B K'`, for every buffer `B`. -/
theorem C4_decrypt_is_reversed_encrypt (B : List Nat) (K K' : List (List Nat))
    (h : ∀ r, 1 ≤ r → r ≤ 16 → K'.getD r [] = K.getD (17 - r) []) :
    decryptBlock B K = encryptBlock B K' := by
  rw [decryptBlock_eq, encryptBlock_eq]
  have : decKeys K = encKeys K' := by
    unfold decKeys encKeys
    apply List.map_congr_left
    intro r hr
    rw [List.mem_range'_1] at hr
    simp only [ROUND_COUNT] at hr ⊢
    exact (h r hr.1 (by omega)).symm
  rw [this]

/-- Witness of C4 at a schedule whose slot `r` holds six bytes of value `r`. -/
theorem C4_decrypt_is_reversed_encrypt_witness :
    decryptBlock [1, 2, 3, 4, 5, 6, 7, 8] ((List.range 17).map (fun r => List.replicate 6 r)) =
      encryptBlock [1, 2, 3, 4, 5, 6, 7, 8]
        ((List.range 17).map (fun r => List.replicate 6 (17 - r))) :=
  C4_decrypt_is_reversed_encrypt _ _ _ (by
    intro r h1 h2
    interval_cases r <;> rfl)

/-- C5, counterexample. The claim read for every plaintext fails: for the plaintext of
2147483640 bytes of value 1 and the key 00 01 .. 17 the padded input has 2147483648 bytes,
more than the `int totalLength` can hold; `encryptTDES` returns no buffer, so there is no
output whose blocks could be the transformed blocks of the padded input. -/
theorem C5_counterexample :
    encryptTDES (List.replicate 2147483640 1) (List.range 24) =
        Except.error TDESError.lengthOverflow ∧
      ¬ ∃ out, encryptTDES (List.replicate 2147483640 1) (List.range 24) = Except.ok out := by
  have h := encryptTDES_overflow (List.replicate 2147483640 1) (List.range 24) rfl
    (List.length_replicate _ _).ge
  refine ⟨h, ?_⟩
  rintro ⟨out, hout⟩
  rw [h] at hout
  cases hout

/-- C5, amended. For a plaintext of fewer than 2147483640 bytes, `encryptTDES` is block-wise
encrypt-decrypt-encrypt over the padded input: the
output has the length of the padded input `P ++ p copies of p` with `p = 8 - len(P) mod 8`,
and its `i`-th block is `encryptBlock(decryptBlock(encryptBlock(padded block i, S1), S2), S3)`
with `Sj` the schedule of key bytes `8 (j - 1) .. 8 j - 1`. -/
theorem C5_encrypt_blockwise_ede (P key : List Nat) (hk : key.length = 24)
    (hP : P.length < 2147483640) :
    ∃ out, encryptTDES P key = Except.ok out ∧
      out.length = P.length + (8 - P.length % 8) ∧
      ∀ i, i < out.length / 8 →
        blockAt out i =
          encryptBlock (decryptBlock (encryptBlock
            (blockAt (P ++ List.replicate (8 - P.length % 8) (8 - P.length % 8)) i)
            (generateSubkeys freshSchedule (key.take 8)))
            (generateSubkeys freshSchedule ((key.drop 8).take 8)))
            (generateSubkeys freshSchedule ((key.drop 16).take 8)) := by
  have hlen := mapBlocks_length (ede (scheduleOf key 0) (scheduleOf key 1) (scheduleOf key 2))
    (fun b hb => ede_length _ _ _ b hb) (P.length / 8 + 1) (padded P) (padded_length P)
  refine ⟨_, encryptTDES_eq P key hk hP, by rw [hlen]; omega, ?_⟩
  intro i hi
  rw [hlen] at hi
  exact blockAt_mapBlocks _ (fun b hb => ede_length _ _ _ b hb) _ _ i (padded_length P)
    (by omega)

/-- Witness of C5 at the plaintext 01 02 03 and the key 00 01 .. 17. -/
theorem C5_encrypt_blockwise_ede_witness :
    ∃ out, encryptTDES [1, 2, 3] (List.range 24) = Except.ok out ∧
      out.length = [1, 2, 3].length + (8 - [1, 2, 3].length % 8) ∧
      ∀ i, i < out.length / 8 →
        blockAt out i =
          encryptBlock (decryptBlock (encryptBlock
            (blockAt ([1, 2, 3] ++ List.replicate (8 - [1, 2, 3].length % 8)
              (8 - [1, 2, 3].length % 8)) i)
            (generateSubkeys freshSchedule ((List.range 24).take 8)))
            (generateSubkeys freshSchedule (((List.range 24).drop 8).take 8)))
            (generateSubkeys freshSchedule (((List.range 24).drop 16).take 8)) :=
  C5_encrypt_blockwise_ede [1, 2, 3] (List.range 24) (by decide) (by decide)

/-- C6. `decryptTDES` mirrors `encryptTDES`: for a 24-byte key and a ciphertext of
non-zero length divisible by 8, if `T` is the buffer whose `i`-th block is
`decryptBlock(encryptBlock(decryptBlock(C block i, S3), S2), S1)` and its last byte `p`
satisfies `1 ≤ p ≤ 8`, the result is the first `len(C) - p` bytes of `T`. -/
theorem C6_decrypt_blockwise_ded (C key T : List Nat) (hk : key.length = 24)
    (h0 : C.length ≠ 0) (h8 : C.length % 8 = 0) (hT : T.length = C.length)
    (hblk : ∀ i, i < C.length / 8 →
      blockAt T i =
        decryptBlock (encryptBlock (decryptBlock (blockAt C i)
          (generateSubkeys freshSchedule ((key.drop 16).take 8)))
          (generateSubkeys freshSchedule ((key.drop 8).take 8)))
          (generateSubkeys freshSchedule (key.take 8)))
    (hp1 : 1 ≤ T.getD (C.length - 1) 0) (hp8 : T.getD (C.length - 1) 0 ≤ 8) :
    decryptTDES C key = Except.ok (T.take (C.length - T.getD (C.length - 1) 0)) := by
  have hC : C.length = 8 * (C.length / 8) := by omega
  have hTm : mapBlocks (ded (scheduleOf key 0) (scheduleOf key 1) (scheduleOf key 2))
      (C.length / 8) C = T := by
    apply blocks_ext (C.length / 8)
    · exact mapBlocks_length _ (fun b hb => ded_length _ _ _ b hb) _ _ hC
    · omega
    · intro i hi
      rw [blockAt_mapBlocks _ (fun b hb => ded_length _ _ _ b hb) _ _ i hC hi, hblk i hi]
      rfl
  rw [decryptTDES_eq C key hk (C.length / 8) hC (by omega), hTm, if_neg (by omega)]

/-- Witness of C6 at the ciphertext of 01 02 03 under the key 00 01 .. 17. -/
theorem C6_decrypt_blockwise_ded_witness :
    decryptTDES [194, 7, 115, 148, 131, 115, 235, 178] (List.range 24) =
      Except.ok [1, 2, 3] :=
  C6_decrypt_blockwise_ded [194, 7, 115, 148, 131, 115, 235, 178] (List.range 24)
    [1, 2, 3, 5, 5, 5, 5, 5] (by decide) (by decide) (by decide) (by decide) (by decide!)
    (by decide) (by decide)

/-- C7, counterexample. The claim read for every plaintext fails: for the plaintext of
2147483647 zero bytes (the largest `int inputLen`) and the key 00 01 .. 17, `padCount` is 1
and the length `len(P) + 8 - (len(P) mod 8)` would be 2147483648, which is not a value of
the `int` behind `n`; `encryptTDES` returns no buffer of any length. -/
theorem C7_counterexample :
    encryptTDES (List.replicate 2147483647 0) (List.range 24) =
        Except.error TDESError.lengthOverflow ∧
      ¬ ∃ C, encryptTDES (List.replicate 2147483647 0) (List.range 24) = Except.ok C ∧
        C.length = 2147483647 + 8 - 2147483647 % 8 := by
  have h := encryptTDES_overflow (List.replicate 2147483647 0) (List.range 24) rfl
    (by rw [List.length_replicate]; decide)
  refine ⟨h, ?_⟩
  rintro ⟨C, hC, _⟩
  rw [h] at hC
  cases hC

/-- C7, amended. Padding invariant: for every plaintext of fewer than 2147483640 bytes and
every 24-byte key the output of `encryptTDES` has length `len(P) + 8 - (len(P) mod 8)`, a
multiple of 8 strictly greater than `len(P)`. -/
theorem C7_padding_invariant (P key : List Nat) (hk : key.length = 24)
    (hP : P.length < 2147483640) :
    ∃ C, encryptTDES P key = Except.ok C ∧
      C.length = P.length + 8 - P.length % 8 ∧ C.length % 8 = 0 ∧ P.length < C.length := by
  have hlen := mapBlocks_length (ede (scheduleOf key 0) (scheduleOf key 1) (scheduleOf key 2))
    (fun b hb => ede_length _ _ _ b hb) (P.length / 8 + 1) (padded P) (padded_length P)
  exact ⟨_, encryptTDES_eq P key hk hP, by rw [hlen]; omega, by rw [hlen]; omega,
    by rw [hlen]; omega⟩

/-- Witness of C7 at a block-aligned plaintext of eight bytes. -/
theorem C7_padding_invariant_witness :
    ∃ C, encryptTDES [1, 2, 3, 4, 5, 6, 7, 8] (List.range 24) = Except.ok C ∧
      C.length = [1, 2, 3, 4, 5, 6, 7, 8].length + 8 - [1, 2, 3, 4, 5, 6, 7, 8].length % 8 ∧
      C.length % 8 = 0 ∧ [1, 2, 3, 4, 5, 6, 7, 8].length < C.length :=
  C7_padding_invariant [1, 2, 3, 4, 5, 6, 7, 8] (List.range 24) (by decide) (by decide)

theorem encryptTDES_ne_keyError (P key : List Nat) (hk : key.length = 24) :
    encryptTDES P key ≠ Except.error TDESError.invalidKeyLength := by
  by_cases hlen : P.length < 2147483640
  · rw [encryptTDES_eq P key hk hlen]; exact fun h => by cases h
  · rw [encryptTDES_overflow P key hk (by omega)]; exact fun h => by cases h

theorem decryptTDES_badKey (C key : List Nat) (hk : key.length ≠ 24) :
    decryptTDES C key = Except.error TDESError.invalidKeyLength := by
  unfold decryptTDES
  simp only [NUM_KEY_PARTS, BLOCK_BYTES_eq]
  rw [if_pos hk]

theorem encryptTDES_badKey (P key : List Nat) (hk : key.length ≠ 24) :
    encryptTDES P key = Except.error TDESError.invalidKeyLength := by
  unfold encryptTDES
  simp only [NUM_KEY_PARTS, BLOCK_BYTES_eq]
  rw [if_pos hk]

theorem decryptTDES_badLength (C key : List Nat) (hk : key.length = 24)
    (h : C.length = 0 ∨ C.length % 8 ≠ 0) :
    decryptTDES C key = Except.error TDESError.invalidCiphertextLength := by
  unfold decryptTDES
  simp only [NUM_KEY_PARTS, BLOCK_BYTES_eq, hk]
  rw [if_neg (by decide), if_pos h]

theorem decryptTDES_cases (C key : List Nat) (hk : key.length = 24)
    (h0 : C.length ≠ 0) (h8 : C.length % 8 = 0) :
    decryptTDES C key = Except.error TDESError.invalidPadding ∨
      ∃ P, decryptTDES C key = Except.ok P := by
  have hC : C.length = 8 * (C.length / 8) := by omega
  rw [decryptTDES_eq C key hk (C.length / 8) hC (by omega)]
  split
  · exact Or.inl rfl
  · exact Or.inr ⟨_, rfl⟩

/-- C8. Key-length validation: `encryptTDES` and `decryptTDES` fail with the invalid key
length error exactly for the keys whose length is not 24, whatever the data buffer is. -/
theorem C8_key_length_validation (data key : List Nat) :
    (encryptTDES data key = Except.error TDESError.invalidKeyLength ↔ key.length ≠ 24) ∧
    (decryptTDES data key = Except.error TDESError.invalidKeyLength ↔ key.length ≠ 24) := by
  constructor
  · constructor
    · intro h hk
      exact encryptTDES_ne_keyError data key hk h
    · exact encryptTDES_badKey data key
  · constructor
    · intro h hk
      by_cases hl : data.length = 0 ∨ data.length % 8 ≠ 0
      · rw [decryptTDES_badLength data key hk hl] at h
        cases h
      · rcases decryptTDES_cases data key hk (by omega) (by omega) with h1 | ⟨P, h1⟩ <;>
          rw [h1] at h <;> cases h
    · exact decryptTDES_badKey data key

/-- C9. Ciphertext-length validation: for a 24-byte key, `decryptTDES` fails with the
invalid ciphertext length error exactly when the length is 0 or not a multiple of 8. -/
theorem C9_ciphertext_length_validation (C key : List Nat) (hk : key.length = 24) :
    decryptTDES C key = Except.error TDESError.invalidCiphertextLength ↔
      (C.length = 0 ∨ C.length % 8 ≠ 0) := by
  constructor
  · intro h
    by_contra hl
    rcases decryptTDES_cases C key hk (by omega) (by omega) with h1 | ⟨P, h1⟩ <;>
      rw [h1] at h <;> cases h
  · exact decryptTDES_badLength C key hk

/-- Witness of C9 at a three-byte ciphertext. -/
theorem C9_ciphertext_length_validation_witness :
    decryptTDES [1, 2, 3] (List.range 24) = Except.error TDESError.invalidCiphertextLength ↔
      ([1, 2, 3].length = 0 ∨ [1, 2, 3].length % 8 ≠ 0) :=
  C9_ciphertext_length_validation [1, 2, 3] (List.range 24) (by decide)

/-- C10. Padding validation: for a 24-byte key and a ciphertext of non-zero length
divisible by 8, with `T` the block-decrypted buffer, `decryptTDES` fails with the invalid
padding error exactly when the last byte of `T` is 0 or greater than 8, and succeeds
otherwise. -/
theorem C10_padding_validation (C key T : List Nat) (hk : key.length = 24)
    (h0 : C.length ≠ 0) (h8 : C.length % 8 = 0) (hT : T.length = C.length)
    (hblk : ∀ i, i < C.length / 8 →
      blockAt T i =
        decryptBlock (encryptBlock (decryptBlock (blockAt C i)
          (generateSubkeys freshSchedule ((key.drop 16).take 8)))
          (generateSubkeys freshSchedule ((key.drop 8).take 8)))
          (generateSubkeys freshSchedule (key.take 8))) :
    (decryptTDES C key = Except.error TDESError.invalidPadding ↔
      (T.getD (C.length - 1) 0 = 0 ∨ 8 < T.getD (C.length - 1) 0)) ∧
    (¬ (T.getD (C.length - 1) 0 = 0 ∨ 8 < T.getD (C.length - 1) 0) →
      ∃ P, decryptTDES C key = Except.ok P) := by
  have hC : C.length = 8 * (C.length / 8) := by omega
  have hTm : mapBlocks (ded (scheduleOf key 0) (scheduleOf key 1) (scheduleOf key 2))
      (C.length / 8) C = T := by
    apply blocks_ext (C.length / 8)
    · exact mapBlocks_length _ (fun b hb => ded_length _ _ _ b hb) _ _ hC
    · omega
    · intro i hi
      rw [blockAt_mapBlocks _ (fun b hb => ded_length _ _ _ b hb) _ _ i hC hi, hblk i hi]
      rfl
  rw [decryptTDES_eq C key hk (C.length / 8) hC (by omega), hTm]
  by_cases hp : T.getD (C.length - 1) 0 = 0 ∨ 8 < T.getD (C.length - 1) 0
  · have hp' : T.getD (C.length - 1) 0 < 1 ∨ T.getD (C.length - 1) 0 > 8 := by omega
    rw [if_pos hp']
    exact ⟨⟨fun _ => hp, fun _ => rfl⟩, fun h => absurd hp h⟩
  · have hp' : ¬ (T.getD (C.length - 1) 0 < 1 ∨ T.getD (C.length - 1) 0 > 8) := by omega
    rw [if_neg hp']
    refine And.intro (Iff.intro (fun h => ?_) (fun h => absurd h hp)) (fun _ => ⟨_, rfl⟩)
    cases h

/-- Witness of C10 at a ciphertext whose block decrypts to 01 02 03 04 05 06 07 09. -/
theorem C10_padding_validation_witness :
    (decryptTDES [87, 177, 20, 226, 33, 100, 4, 190] (List.range 24) =
        Except.error TDESError.invalidPadding ↔
      ([1, 2, 3, 4, 5, 6, 7, 9].getD ([87, 177, 20, 226, 33, 100, 4, 190].length - 1) 0 = 0 ∨
        8 < [1, 2, 3, 4, 5, 6, 7, 9].getD ([87, 177, 20, 226, 33, 100, 4, 190].length - 1) 0)) ∧
    (¬ ([1, 2, 3, 4, 5, 6, 7, 9].getD ([87, 177, 20, 226, 33, 100, 4, 190].length - 1) 0 = 0 ∨
        8 < [1, 2, 3, 4, 5, 6, 7, 9].getD ([87, 177, 20, 226, 33, 100, 4, 190].length - 1) 0) →
      ∃ P, decryptTDES [87, 177, 20, 226, 33, 100, 4, 190] (List.range 24) = Except.ok P) :=
  C10_padding_validation [87, 177, 20, 226, 33, 100, 4, 190] (List.range 24)
    [1, 2, 3, 4, 5, 6, 7, 9] (by decide) (by decide) (by decide) (by decide) (by decide!)

/-! ## Equal keys, and the slots of the schedule that are read -/

theorem encKeys_congr (K K' : List (List Nat))
    (h : ∀ r, 1 ≤ r → r ≤ 16 → K.getD r [] = K'.getD r []) : encKeys K = encKeys K' := by
  unfold encKeys
  apply List.map_congr_left
  intro r hr
  rw [List.mem_range'_1] at hr
  simp only [ROUND_COUNT] at hr
  exact h r hr.1 (by omega)

theorem decKeys_congr (K K' : List (List Nat))
    (h : ∀ r, 1 ≤ r → r ≤ 16 → K.getD r [] = K'.getD r []) : decKeys K = decKeys K' := by
  rw [decKeys_eq, decKeys_eq, encKeys_congr K K' h]

theorem blockAt_length (buf : List Nat) (i m : Nat) (h : buf.length = 8 * m) (hi : i < m) :
    (blockAt buf i).length = 8 := by
  unfold blockAt
  rw [List.length_take, List.length_drop]; omega

theorem blockAt_isBytes (buf : List Nat) (i : Nat) (h : IsBytes buf) : IsBytes (blockAt buf i) := by
  rw [isBytes_iff] at h ⊢
  intro b hb
  unfold blockAt at hb
  exact h b (List.mem_of_mem_drop (List.mem_of_mem_take hb))

/-- C11, counterexample. The claim read for every plaintext fails: for the key
01 23 45 67 89 AB CD EF taken three times and the plaintext of 2147483641 zero bytes the
padded plaintext would have 2147483648 bytes, above `INT_MAX`; `encryptTDES` returns no
buffer, so there are no output blocks. -/
theorem C11_counterexample :
    encryptTDES (List.replicate 2147483641 0)
        ([0x01, 0x23, 0x45, 0x67, 0x89, 0xAB, 0xCD, 0xEF] ++
          [0x01, 0x23, 0x45, 0x67, 0x89, 0xAB, 0xCD, 0xEF] ++
          [0x01, 0x23, 0x45, 0x67, 0x89, 0xAB, 0xCD, 0xEF]) =
        Except.error TDESError.lengthOverflow ∧
      ¬ ∃ out, encryptTDES (List.replicate 2147483641 0)
        ([0x01, 0x23, 0x45, 0x67, 0x89, 0xAB, 0xCD, 0xEF] ++
          [0x01, 0x23, 0x45, 0x67, 0x89, 0xAB, 0xCD, 0xEF] ++
          [0x01, 0x23, 0x45, 0x67, 0x89, 0xAB, 0xCD, 0xEF]) = Except.ok out := by
  have h := encryptTDES_overflow (List.replicate 2147483641 0)
    ([0x01, 0x23, 0x45, 0x67, 0x89, 0xAB, 0xCD, 0xEF] ++
      [0x01, 0x23, 0x45, 0x67, 0x89, 0xAB, 0xCD, 0xEF] ++
      [0x01, 0x23, 0x45, 0x67, 0x89, 0xAB, 0xCD, 0xEF]) (by decide)
    (by rw [List.length_replicate]; decide)
  refine ⟨h, ?_⟩
  rintro ⟨out, hout⟩
  rw [h] at hout
  cases hout

/-- C11, amended. Triple DES with three equal 8-byte keys is single DES: for a plaintext of
fewer than 2147483640 bytes, every output block of
`encryptTDES(P, k || k || k)` is `encryptBlock` applied once, with the schedule of `k`,
to the corresponding block of the padded plaintext. -/
theorem C11_tdes_degenerates_to_des (P k : List Nat) (hk : k.length = 8)
    (hPlen : P.length < 2147483640) (hP : ∀ b ∈ P, b < 256) :
    ∃ out, encryptTDES P (k ++ k ++ k) = Except.ok out ∧
      out.length = P.length + (8 - P.length % 8) ∧
      ∀ i, i < out.length / 8 →
        blockAt out i =
          encryptBlock (blockAt (P ++ List.replicate (8 - P.length % 8) (8 - P.length % 8)) i)
            (generateSubkeys freshSchedule k) := by
  have hkey : (k ++ k ++ k).length = 24 := by
    rw [List.length_append, List.length_append, hk]
  have hs0 : scheduleOf (k ++ k ++ k) 0 = generateSubkeys freshSchedule k := by
    unfold scheduleOf
    rw [Nat.mul_zero, List.drop_zero, List.append_assoc, List.take_left' hk]
  have hs1 : scheduleOf (k ++ k ++ k) 1 = generateSubkeys freshSchedule k := by
    unfold scheduleOf
    rw [List.append_assoc, List.drop_left' (by rw [hk]), List.take_left' hk]
  have hs2 : scheduleOf (k ++ k ++ k) 2 = generateSubkeys freshSchedule k := by
    unfold scheduleOf
    rw [List.drop_left' (by rw [List.length_append, hk]), List.take_of_length_le (by omega)]
  have hlen := mapBlocks_length
    (ede (scheduleOf (k ++ k ++ k) 0) (scheduleOf (k ++ k ++ k) 1) (scheduleOf (k ++ k ++ k) 2))
    (fun b hb => ede_length _ _ _ b hb) (P.length / 8 + 1) (padded P) (padded_length P)
  refine ⟨_, encryptTDES_eq P _ hkey hPlen, by rw [hlen]; omega, ?_⟩
  intro i hi
  rw [hlen] at hi
  have hi' : i < P.length / 8 + 1 := by omega
  rw [blockAt_mapBlocks _ (fun b hb => ede_length _ _ _ b hb) _ _ i (padded_length P) hi',
    hs0, hs1, hs2]
  unfold ede
  rw [decrypt_encrypt_block _ _ (blockAt_length _ i _ (padded_length P) hi')
    (blockAt_isBytes _ i (padded_isBytes P ((isBytes_iff P).mpr hP)))]
  rfl

/-- Witness of C11 at the plaintext 01 02 03 and the key 01 23 45 67 89 AB CD EF. -/
theorem C11_tdes_degenerates_to_des_witness :
    ∃ out, encryptTDES [1, 2, 3]
        ([0x01, 0x23, 0x45, 0x67, 0x89, 0xAB, 0xCD, 0xEF] ++
          [0x01, 0x23, 0x45, 0x67, 0x89, 0xAB, 0xCD, 0xEF] ++
          [0x01, 0x23, 0x45, 0x67, 0x89, 0xAB, 0xCD, 0xEF]) = Except.ok out ∧
      out.length = [1, 2, 3].length + (8 - [1, 2, 3].length % 8) ∧
      ∀ i, i < out.length / 8 →
        blockAt out i =
          encryptBlock (blockAt ([1, 2, 3] ++ List.replicate (8 - [1, 2, 3].length % 8)
            (8 - [1, 2, 3].length % 8)) i)
            (generateSubkeys freshSchedule [0x01, 0x23, 0x45, 0x67, 0x89, 0xAB, 0xCD, 0xEF]) :=
  C11_tdes_degenerates_to_des [1, 2, 3] [0x01, 0x23, 0x45, 0x67, 0x89, 0xAB, 0xCD, 0xEF]
    (by decide) (by decide) (by decide)

/-- C12. No hidden state: two schedules that agree on slots 1..16 give the same output of
`encryptBlock` and of `decryptBlock` on every block, whatever slot 0 (or any further slot)
contains. -/
theorem C12_no_hidden_state (B : List Nat) (K K' : List (List Nat))
    (h : ∀ r, 1 ≤ r → r ≤ 16 → K.getD r [] = K'.getD r []) :
    encryptBlock B K = encryptBlock B K' ∧ decryptBlock B K = decryptBlock B K' := by
  rw [encryptBlock_eq, encryptBlock_eq, decryptBlock_eq, decryptBlock_eq,
    encKeys_congr K K' h, decKeys_congr K K' h]
  exact ⟨rfl, rfl⟩

/-- Witness of C12 at two schedules that differ in slot 0 only. -/
theorem C12_no_hidden_state_witness :
    encryptBlock [1, 2, 3, 4, 5, 6, 7, 8]
        (List.replicate 6 0 :: List.replicate 16 (List.replicate 6 170)) =
      encryptBlock [1, 2, 3, 4, 5, 6, 7, 8]
        (List.replicate 6 255 :: List.replicate 16 (List.replicate 6 170)) ∧
    decryptBlock [1, 2, 3, 4, 5, 6, 7, 8]
        (List.replicate 6 0 :: List.replicate 16 (List.replicate 6 170)) =
      decryptBlock [1, 2, 3, 4, 5, 6, 7, 8]
        (List.replicate 6 255 :: List.replicate 16 (List.replicate 6 170)) :=
  C12_no_hidden_state _ _ _ (by
    intro r h1 h2
    interval_cases r <;> rfl)

end TDES

/-! # The command line of `tcrypt`: properties -/

namespace Tcrypt

theorem mainSelect_four (prog a b c d : String) :
    mainSelect [prog, a, b, c, d] =
      if a = "-d" then Selection.mode true b c d else Selection.usage := by
  unfold mainSelect
  by_cases h : a = "-d" <;> simp [ARGS_DECRYPT, DECRYPT_KEY_ARG_INDEX, DECRYPT_INPUT_ARG_INDEX,
      DECRYPT_OUTPUT_ARG_INDEX, h]

theorem mainSelect_three (prog a b c : String) :
    mainSelect [prog, a, b, c] = Selection.mode false a b c := by
  unfold mainSelect
  simp [ARGS_DECRYPT, ENCRYPT_INPUT_ARG_INDEX, ENCRYPT_OUTPUT_ARG_INDEX]

theorem mainSelect_other (prog : String) (args : List String) (h3 : args.length ≠ 3)
    (h4 : args.length ≠ 4) : mainSelect (prog :: args) = Selection.usage := by
  unfold mainSelect
  simp only [List.length_cons, ARGS_DECRYPT]
  rw [if_neg (by omega), if_neg (by omega)]

/-- C13, counterexample. With the arguments `-d key in` the flag is present but not followed
by three file names; `main` does not report a usage error, it selects encrypt mode with
`-d` as the name of the key file. -/
theorem C13_counterexample :
    mainSelect ["tcrypt", "-d", "key", "in"] = Selection.mode false "-d" "key" "in" ∧
      mainSelect ["tcrypt", "-d", "key", "in"] ≠ Selection.usage := by
  decide

/-- C13, amended. For the arguments after the program name, `main` selects decrypt mode
exactly when there are four of them and the first is `-d`, selects encrypt mode exactly
when there are three of them (whatever they are, a leading `-d` being taken as the key file
name), and reports a usage error for every other argument list. -/
theorem C13_mode_selection (prog : String) (args : List String) :
    (∀ k i o, mainSelect (prog :: args) = Selection.mode true k i o ↔ args = ["-d", k, i, o]) ∧
    (∀ k i o, mainSelect (prog :: args) = Selection.mode false k i o ↔ args = [k, i, o]) ∧
    (mainSelect (prog :: args) = Selection.usage ↔
      args.length ≠ 3 ∧ ¬ (args.length = 4 ∧ args.head? = some "-d")) := by
  match args with
  | [] => simp [mainSelect_other prog [] (by decide) (by decide)]
  | [a] => simp [mainSelect_other prog [a] (by simp) (by simp)]
  | [a, b] => simp [mainSelect_other prog [a, b] (by simp) (by simp)]
  | [a, b, c] =>
    rw [mainSelect_three]
    simp
  | [a, b, c, d] =>
    rw [mainSelect_four]
    by_cases h : a = "-d"
    · subst h; simp
    · simp [h]
  | a :: b :: c :: d :: e :: rest =>
    rw [mainSelect_other prog _ (by simp) (by simp)]
    simp

end Tcrypt

/-! # The segment tree: lemmas -/

namespace Seg

/-! ## Node choice and the meaning of a node -/

theorem valueAt_natCast {α : Type} [Inhabited α] (vList : List α) (r : Nat) :
    valueAt vList (r : Int) = vList.getD r default := by
  unfold valueAt
  rw [Int.toNat_ofNat]

theorem cmp_refl {α : Type} {vComp : α → α → Int} (hc : IsTotalPreorder vComp) (a : α) :
    vComp a a ≤ 0 := by
  have := hc.1 a a
  omega

theorem cmp_flip {α : Type} {vComp : α → α → Int} (hc : IsTotalPreorder vComp) (a b : α)
    (h : ¬ vComp a b < 0) : vComp b a ≤ 0 := by
  have := hc.1 a b
  omega

theorem natCast_ne_neg_one (r : Nat) : (r : Int) ≠ -1 := by omega

/-- A node whose subtree is in order has the meaning `Sem`: by induction on the height. -/
theorem sem_of_rel {α : Type} [Inhabited α] {vComp : α → α → Int} (hc : IsTotalPreorder vComp)
    (vList : List α) (cap size : Nat) (tree : List Int) (bad : Nat → Prop)
    (hbad : ∀ q, bad (2 * q) ∨ bad (2 * q + 1) → bad q)
    (hleaves : Leaves cap size tree)
    (hrel : ∀ q, 1 ≤ q → q < cap → ¬ bad q → Rel vComp vList tree q) :
    ∀ (t p lo : Nat), p * 2 ^ t = cap + lo → lo + 2 ^ t ≤ cap → ¬ bad p →
      Sem vComp vList size tree p lo (2 ^ t) := by
  intro t
  induction t with
  | zero =>
    intro p lo hp hlo _
    simp only [Nat.pow_zero, Nat.mul_one] at hp hlo ⊢
    have hl := hleaves lo (by omega)
    rw [← hp] at hl
    by_cases hs : lo < size
    · rw [if_pos hs] at hl
      exact Or.inr ⟨lo, hl, Nat.le_refl _, by omega, hs, fun k h1 h2 _ => by
        have : k = lo := by omega
        rw [this]; exact cmp_refl hc _⟩
    · rw [if_neg hs] at hl
      exact Or.inl ⟨hl, by omega⟩
  | succ t ih =>
    intro p lo hp hlo hb
    have hW : 2 ^ (t + 1) = 2 * 2 ^ t := by rw [Nat.pow_succ]; omega
    have hWpos : 1 ≤ 2 ^ t := Nat.one_le_two_pow
    rw [hW] at hp hlo ⊢
    have h2p : (2 * p) * 2 ^ t = cap + lo := by rw [← hp]; ring
    have h2p1 : (2 * p + 1) * 2 ^ t = cap + (lo + 2 ^ t) := by
      rw [Nat.add_mul, h2p]; omega
    have hp1 : 1 ≤ p := by
      rcases Nat.eq_zero_or_pos p with h0 | h0
      · rw [h0] at hp; simp at hp; omega
      · exact h0
    have hpc : p < cap := by
      have : 2 * p ≤ (2 * p) * 2 ^ t := Nat.le_mul_of_pos_right _ hWpos
      omega
    have hL := ih (2 * p) lo h2p (by omega) (fun h => hb (hbad p (Or.inl h)))
    have hR := ih (2 * p + 1) (lo + 2 ^ t) h2p1 (by omega) (fun h => hb (hbad p (Or.inr h)))
    have hrp := hrel p hp1 hpc hb
    unfold Rel at hrp
    rcases hL with ⟨hl1, hl2⟩ | ⟨r1, hl1, hl2, hl3, hl4, hl5⟩
    · rcases hR with ⟨hr1, hr2⟩ | ⟨r2, hr1, hr2, hr3, hr4, hr5⟩
      · left
        refine ⟨?_, hl2⟩
        rw [hrp, hl1, hr1]; simp [pickEither]
      · omega
    · rcases hR with ⟨hr1, hr2⟩ | ⟨r2, hr1, hr2, hr3, hr4, hr5⟩
      · right
        refine ⟨r1, ?_, hl2, by omega, hl4, fun k h1 h2 h3 => hl5 k h1 (by omega) h3⟩
        rw [hrp, hl1, hr1]
        unfold pickEither
        rw [if_neg (natCast_ne_neg_one r1), if_pos rfl]
      · right
        rw [hl1, hr1] at hrp
        unfold pickEither at hrp
        rw [if_neg (natCast_ne_neg_one r1), if_neg (natCast_ne_neg_one r2)] at hrp
        simp only [valueAt_natCast] at hrp
        by_cases hcmp : vComp (vList.getD r1 default) (vList.getD r2 default) < 0
        · rw [if_pos hcmp] at hrp
          refine ⟨r2, hrp, by omega, by omega, hr4, fun k h1 h2 h3 => ?_⟩
          by_cases hk : k < lo + 2 ^ t
          · exact hc.2 _ _ _ (hl5 k h1 hk h3) (by omega)
          · exact hr5 k (by omega) (by omega) h3
        · rw [if_neg hcmp] at hrp
          refine ⟨r1, hrp, by omega, by omega, hl4, fun k h1 h2 h3 => ?_⟩
          by_cases hk : k < lo + 2 ^ t
          · exact hl5 k h1 hk h3
          · exact hc.2 _ _ _ (hr5 k (by omega) (by omega) h3) (cmp_flip hc _ _ hcmp)

/-! ## The update loops -/

theorem getD_set_eq {β : Type} (l : List β) (i j : Nat) (a d : β) :
    (l.set i a).getD j d = if i = j ∧ i < l.length then a else l.getD j d := by
  rw [List.getD_eq_getElem?_getD, List.getD_eq_getElem?_getD, List.getElem?_set]
  by_cases h : i = j
  · subst h
    by_cases h2 : i < l.length
    · rw [if_pos rfl, if_pos h2, if_pos ⟨rfl, h2⟩]; rfl
    · rw [if_pos rfl, if_neg h2, if_neg (fun hh => h2 hh.2),
        List.getElem?_eq_none (by omega)]
  · rw [if_neg h, if_neg (fun hh => h hh.1)]

theorem LEFT_eq (pos : Nat) : LEFT pos = 2 * pos := by unfold LEFT; omega

theorem RIGHT_eq (pos : Nat) : RIGHT pos = 2 * pos + 1 := by unfold RIGHT; omega

theorem onPath_parent (x q : Nat) (h : OnPath x (2 * q) ∨ OnPath x (2 * q + 1)) :
    OnPath x q := by
  rcases h with ⟨m, hm⟩ | ⟨m, hm⟩
  · refine ⟨m + 1, ?_⟩
    rw [Nat.pow_succ, ← Nat.div_div_eq_div_mul, ← hm]; omega
  · refine ⟨m + 1, ?_⟩
    rw [Nat.pow_succ, ← Nat.div_div_eq_div_mul, ← hm]; omega

theorem onPath_iff (x q : Nat) : OnPath x q ↔ q = x ∨ OnPath (x / 2) q := by
  constructor
  · rintro ⟨m, hm⟩
    cases m with
    | zero => left; simpa using hm
    | succ m =>
      right
      refine ⟨m, ?_⟩
      rw [hm, Nat.pow_succ, Nat.mul_comm, ← Nat.div_div_eq_div_mul]
  · rintro (h | ⟨m, hm⟩)
    · exact ⟨0, by simpa using h⟩
    · refine ⟨m + 1, ?_⟩
      rw [hm, Nat.pow_succ, Nat.mul_comm, ← Nat.div_div_eq_div_mul]

theorem onPath_zero (q : Nat) (h : OnPath 0 q) : q = 0 := by
  obtain ⟨m, hm⟩ := h
  rw [hm, Nat.zero_div]

theorem onPath_le (x q : Nat) (h : OnPath x q) : q ≤ x := by
  obtain ⟨m, hm⟩ := h
  rw [hm]; exact Nat.div_le_self _ _

/-- Writing the choice of `pos` keeps every other node in order, except the parent. -/
theorem rel_set_other {α : Type} [Inhabited α] (vComp : α → α → Int) (vList : List α)
    (tree : List Int) (pos q : Nat) (x : Int) (hq : q ≠ pos) (hpar : q ≠ pos / 2)
    (h : Rel vComp vList tree q) : Rel vComp vList (tree.set pos x) q := by
  unfold Rel at h ⊢
  rw [getD_set_eq, getD_set_eq, getD_set_eq, if_neg (by omega), if_neg (by omega),
    if_neg (by omega)]
  exact h

theorem rel_set_self {α : Type} [Inhabited α] (vComp : α → α → Int) (vList : List α)
    (tree : List Int) (pos : Nat) (h1 : 1 ≤ pos) (hlen : pos < tree.length) :
    Rel vComp vList (tree.set pos (pickEither vComp vList (tree.getD (2 * pos) 0)
      (tree.getD (2 * pos + 1) 0))) pos := by
  unfold Rel
  rw [getD_set_eq, getD_set_eq, getD_set_eq, if_pos ⟨rfl, hlen⟩, if_neg (by omega),
    if_neg (by omega)]

theorem leaves_set_internal (cap size : Nat) (tree : List Int) (pos : Nat) (x : Int)
    (hpos : pos < cap) (h : Leaves cap size tree) : Leaves cap size (tree.set pos x) := by
  intro k hk
  rw [getD_set_eq, if_neg (by omega)]
  exact h k hk

/-- The update loop from `pos` to the root puts every internal node in order, provided that
all nodes off the path were in order and that the body writes the choice of `pickEither`. -/
theorem pathLoop_spec {α : Type} [Inhabited α] (vComp : α → α → Int) (vList : List α)
    (cap size : Nat) (body : List Int → Nat → List Int)
    (hbody : ∀ tree pos, 1 ≤ pos → pos < cap → tree.length = 2 * cap →
      Leaves cap size tree →
      (∀ q, 1 ≤ q → q < cap → ¬ OnPath pos q → Rel vComp vList tree q) →
      body tree pos = tree.set pos (pickEither vComp vList (tree.getD (2 * pos) 0)
        (tree.getD (2 * pos + 1) 0))) :
    ∀ (fuel pos : Nat) (tree : List Int), pos ≤ fuel → pos < cap → tree.length = 2 * cap →
      Leaves cap size tree →
      (∀ q, 1 ≤ q → q < cap → ¬ OnPath pos q → Rel vComp vList tree q) →
      (pathLoop body fuel pos tree).length = 2 * cap ∧
      Leaves cap size (pathLoop body fuel pos tree) ∧
      ∀ q, 1 ≤ q → q < cap → Rel vComp vList (pathLoop body fuel pos tree) q := by
  intro fuel
  induction fuel with
  | zero =>
    intro pos tree hf _ hlen hleaves hrel
    have hp : pos = 0 := by omega
    subst hp
    exact ⟨hlen, hleaves, fun q h1 h2 => hrel q h1 h2 (fun h => by
      have := onPath_zero q h; omega)⟩
  | succ fuel ih =>
    intro pos tree hf hpc hlen hleaves hrel
    unfold pathLoop
    by_cases hp : pos ≥ 1
    · rw [if_pos hp, hbody tree pos hp hpc hlen hleaves hrel]
      have h2 : pos / TREE_BRANCH_FACTOR = pos / 2 := rfl
      rw [h2]
      apply ih (pos / 2) _ (by omega) (by omega) (by rw [List.length_set]; exact hlen)
        (leaves_set_internal _ _ _ _ _ hpc hleaves)
      intro q hq1 hq2 hnp
      by_cases hqp : q = pos
      · subst hqp
        exact rel_set_self vComp vList tree q hq1 (by omega)
      · have hnp2 : ¬ OnPath pos q := by
          rw [onPath_iff]
          rintro (h | h)
          · exact hqp h
          · exact hnp h
        have hpar : q ≠ pos / 2 := fun h => hnp ⟨0, by simpa using h⟩
        exact rel_set_other vComp vList tree pos q _ hqp hpar (hrel q hq1 hq2 hnp2)
    · rw [if_neg hp]
      have hp0 : pos = 0 := by omega
      subst hp0
      exact ⟨hlen, hleaves, fun q h1 h2 => hrel q h1 h2 (fun h => by
        have := onPath_zero q h; omega)⟩

/-- With more fuel than the start position the update loop gives the same tree: the fuel
`start` that the model passes is enough. -/
theorem pathLoop_fuel (body : List Int → Nat → List Int) :
    ∀ (fuel fuel' pos : Nat) (tree : List Int), pos ≤ fuel → pos ≤ fuel' →
      pathLoop body fuel pos tree = pathLoop body fuel' pos tree := by
  intro fuel
  induction fuel with
  | zero =>
    intro fuel' pos tree h1 _
    have hp : pos = 0 := by omega
    subst hp
    cases fuel' with
    | zero => rfl
    | succ f => unfold pathLoop; simp
  | succ fuel ih =>
    intro fuel' pos tree h1 h2
    cases fuel' with
    | zero =>
      have hp : pos = 0 := by omega
      subst hp
      unfold pathLoop; simp
    | succ f =>
      unfold pathLoop
      by_cases hp : pos ≥ 1
      · rw [if_pos hp, if_pos hp]
        have h2' : pos / TREE_BRANCH_FACTOR = pos / 2 := rfl
        rw [h2']
        exact ih f (pos / 2) _ (by omega) (by omega)
      · rw [if_neg hp, if_neg hp]

/-- The rebuild loop of `addST`, from `n` down to 1, puts the nodes `1 .. n` in order when
the nodes above `n` already are. -/
theorem rebuild_spec {α : Type} [Inhabited α] (vComp : α → α → Int) (vList : List α)
    (cap size : Nat) :
    ∀ (n : Nat) (tree : List Int), n < cap → tree.length = 2 * cap → Leaves cap size tree →
      (∀ q, n < q → q < cap → Rel vComp vList tree q) →
      ((List.range' 1 n).reverse.foldl (fun tree pos =>
          tree.set pos (pickEither vComp vList (tree.getD (LEFT pos) 0)
            (tree.getD (RIGHT pos) 0))) tree).length = 2 * cap ∧
      Leaves cap size ((List.range' 1 n).reverse.foldl (fun tree pos =>
          tree.set pos (pickEither vComp vList (tree.getD (LEFT pos) 0)
            (tree.getD (RIGHT pos) 0))) tree) ∧
      ∀ q, 1 ≤ q → q < cap → Rel vComp vList ((List.range' 1 n).reverse.foldl
        (fun tree pos => tree.set pos (pickEither vComp vList (tree.getD (LEFT pos) 0)
            (tree.getD (RIGHT pos) 0))) tree) q := by
  intro n
  induction n with
  | zero =>
    intro tree _ hlen hleaves hrel
    exact ⟨hlen, hleaves, fun q h1 h2 => hrel q (by omega) h2⟩
  | succ n ih =>
    intro tree hn hlen hleaves hrel
    rw [List.range'_concat, List.reverse_append, List.reverse_singleton, List.singleton_append,
      List.foldl_cons]
    have e : 1 + 1 * n = n + 1 := by omega
    rw [e, LEFT_eq, RIGHT_eq]
    apply ih _ (by omega) (by rw [List.length_set]; exact hlen)
      (leaves_set_internal _ _ _ _ _ hn hleaves)
    intro q hq1 hq2
    by_cases hqp : q = n + 1
    · subst hqp
      exact rel_set_self vComp vList tree _ (by omega) (by omega)
    · exact rel_set_other vComp vList tree (n + 1) q _ hqp (by omega)
        (hrel q (by omega) hq2)

/-! ## Coordinates of a node -/

/-- Every node `1 ≤ p < 2 * 2 ^ h` of the complete tree has a height `t` and a first leaf
`lo` with `p * 2 ^ t = 2 ^ h + lo`. -/
theorem node_coords (h p : Nat) (hp1 : 1 ≤ p) (hp2 : p < 2 * 2 ^ h) :
    ∃ t lo, t ≤ h ∧ p * 2 ^ t = 2 ^ h + lo ∧ lo + 2 ^ t ≤ 2 ^ h := by
  have hd1 : 2 ^ Nat.log 2 p ≤ p := Nat.pow_log_le_self 2 (by omega)
  have hd2 : p < 2 ^ (Nat.log 2 p + 1) := Nat.lt_pow_succ_log_self (by omega) p
  have hdh : Nat.log 2 p ≤ h := by
    by_contra hc
    have : 2 ^ (h + 1) ≤ 2 ^ Nat.log 2 p := Nat.pow_le_pow_right (by omega) (by omega)
    rw [Nat.pow_succ] at this
    omega
  refine ⟨h - Nat.log 2 p, (p - 2 ^ Nat.log 2 p) * 2 ^ (h - Nat.log 2 p), by omega, ?_, ?_⟩
  · have e : 2 ^ h = 2 ^ Nat.log 2 p * 2 ^ (h - Nat.log 2 p) := by
      rw [← Nat.pow_add]; congr 1; omega
    rw [e, ← Nat.add_mul]
    congr 1; omega
  · have e : 2 ^ h = 2 ^ Nat.log 2 p * 2 ^ (h - Nat.log 2 p) := by
      rw [← Nat.pow_add]; congr 1; omega
    have e2 : (p - 2 ^ Nat.log 2 p) * 2 ^ (h - Nat.log 2 p) + 2 ^ (h - Nat.log 2 p) =
        (p - 2 ^ Nat.log 2 p + 1) * 2 ^ (h - Nat.log 2 p) := by
      rw [Nat.add_mul, Nat.one_mul]
    rw [e2, e]
    apply Nat.mul_le_mul_right
    rw [Nat.pow_succ] at hd2
    omega

/-- A leaf index inside the span of a node has that node on its path to the root. -/
theorem onPath_of_span (cap p t lo idx : Nat) (hp : p * 2 ^ t = cap + lo) (h1 : lo ≤ idx)
    (h2 : idx < lo + 2 ^ t) : OnPath (cap + idx) p := by
  refine ⟨t, ?_⟩
  symm
  apply Nat.div_eq_of_lt_le
  · rw [hp]; omega
  · rw [Nat.succ_mul, hp]; omega

/-- In a state whose nodes off a path are in order, a node off the path holds -1 or the
index of a stored value inside its span. -/
theorem entry_of_rel {α : Type} [Inhabited α] {vComp : α → α → Int}
    (hc : IsTotalPreorder vComp) (vList : List α) (h size : Nat) (tree : List Int) (x : Nat)
    (hleaves : Leaves (2 ^ h) size tree)
    (hrel : ∀ q, 1 ≤ q → q < 2 ^ h → ¬ OnPath x q → Rel vComp vList tree q)
    (p : Nat) (hp1 : 1 ≤ p) (hp2 : p < 2 * 2 ^ h) (hnp : ¬ OnPath x p) :
    ∃ t lo, t ≤ h ∧ p * 2 ^ t = 2 ^ h + lo ∧ lo + 2 ^ t ≤ 2 ^ h ∧
      Sem vComp vList size tree p lo (2 ^ t) := by
  obtain ⟨t, lo, ht, h1, h2⟩ := node_coords h p hp1 hp2
  exact ⟨t, lo, ht, h1, h2,
    sem_of_rel hc vList (2 ^ h) size tree (OnPath x) (onPath_parent x) hleaves hrel t p lo h1 h2
      hnp⟩

theorem pickRight_eq {α : Type} [Inhabited α] (vComp : α → α → Int) (vList : List α)
    (l r : Int) (h : r ≠ -1 → l ≠ -1) :
    pickRight vComp vList l r = pickEither vComp vList l r := by
  unfold pickRight pickEither
  by_cases hr : r = -1
  · rw [if_pos hr]
    by_cases hl : l = -1
    · rw [if_pos hl, hl, hr]
    · rw [if_neg hl]
  · rw [if_neg hr, if_neg (h hr)]

theorem pickEither_congr {α : Type} [Inhabited α] (vComp : α → α → Int) (vList vList' : List α)
    (l r : Int) (hl : l ≠ -1 → valueAt vList' l = valueAt vList l)
    (hr : r ≠ -1 → valueAt vList' r = valueAt vList r) :
    pickEither vComp vList' l r = pickEither vComp vList l r := by
  unfold pickEither
  by_cases h1 : l = -1
  · rw [if_pos h1, if_pos h1]
  · by_cases h2 : r = -1
    · rw [if_neg h1, if_neg h1, if_pos h2, if_pos h2]
    · rw [if_neg h1, if_neg h1, if_neg h2, if_neg h2]
      simp only [hl h1, hr h2]

/-- The children of an internal node whose subtrees are in order are filled from the left:
when the right child is not empty, neither is the left one. -/
theorem left_filled_first {α : Type} [Inhabited α] {vComp : α → α → Int}
    (hc : IsTotalPreorder vComp) (vList : List α) (h size : Nat) (tree : List Int)
    (hleaves : Leaves (2 ^ h) size tree) (pos : Nat) (hp1 : 1 ≤ pos) (hp2 : pos < 2 ^ h)
    (hrel : ∀ q, 1 ≤ q → q < 2 ^ h → ¬ OnPath pos q → Rel vComp vList tree q)
    (hr : tree.getD (2 * pos + 1) 0 ≠ -1) : tree.getD (2 * pos) 0 ≠ -1 := by
  obtain ⟨t, lo, ht, h1, h2⟩ := node_coords h pos hp1 (by omega)
  cases t with
  | zero => simp at h1; omega
  | succ t =>
    have hW : 2 ^ (t + 1) = 2 * 2 ^ t := by rw [Nat.pow_succ]; omega
    have hWpos : 1 ≤ 2 ^ t := Nat.one_le_two_pow
    rw [hW] at h1 h2
    have h2p : (2 * pos) * 2 ^ t = 2 ^ h + lo := by rw [← h1]; ring
    have h2p1 : (2 * pos + 1) * 2 ^ t = 2 ^ h + (lo + 2 ^ t) := by
      rw [Nat.add_mul, h2p]; omega
    have hnl : ¬ OnPath pos (2 * pos) := fun hh => by
      have := onPath_le _ _ hh; omega
    have hnr : ¬ OnPath pos (2 * pos + 1) := fun hh => by
      have := onPath_le _ _ hh; omega
    have hL := sem_of_rel hc vList (2 ^ h) size tree (OnPath pos) (onPath_parent pos) hleaves
      hrel t (2 * pos) lo h2p (by omega) hnl
    have hR := sem_of_rel hc vList (2 ^ h) size tree (OnPath pos) (onPath_parent pos) hleaves
      hrel t (2 * pos + 1) (lo + 2 ^ t) h2p1 (by omega) hnr
    rcases hR with ⟨hr1, _⟩ | ⟨r2, _, hr2, _, hr4, _⟩
    · exact absurd hr1 hr
    · rcases hL with ⟨_, hl2⟩ | ⟨r1, hl1, _⟩
      · omega
      · rw [hl1]; exact natCast_ne_neg_one r1

/-- The body of the update loops of `addST` and `setST` writes the choice of `pickEither`
in every state the loop goes through. -/
theorem pickRight_body {α : Type} [Inhabited α] {vComp : α → α → Int}
    (hc : IsTotalPreorder vComp) (vList : List α) (h size : Nat) (tree : List Int) (pos : Nat)
    (hp1 : 1 ≤ pos) (hp2 : pos < 2 ^ h) (hleaves : Leaves (2 ^ h) size tree)
    (hrel : ∀ q, 1 ≤ q → q < 2 ^ h → ¬ OnPath pos q → Rel vComp vList tree q) :
    tree.set pos (pickRight vComp vList (tree.getD (2 * pos) 0) (tree.getD (2 * pos + 1) 0)) =
      tree.set pos (pickEither vComp vList (tree.getD (2 * pos) 0)
        (tree.getD (2 * pos + 1) 0)) := by
  rw [pickRight_eq vComp vList _ _
    (left_filled_first hc vList h size tree hleaves pos hp1 hp2 hrel)]

/-! ## The invariant is established by `makeST` and kept by `removeST` -/

theorem fillLoop_length {β : Type} (f : Nat → β) (off : Nat) : ∀ (n : Nat) (t : List β),
    ((List.range n).foldl (fun t i => t.set (off + i) (f i)) t).length = t.length := by
  intro n
  induction n with
  | zero => intro t; rfl
  | succ n ih =>
    intro t
    rw [List.range_succ, List.foldl_append, List.foldl_cons, List.foldl_nil, List.length_set, ih]

theorem fillLoop_getD {β : Type} (f : Nat → β) (off : Nat) (d : β) :
    ∀ (n : Nat) (t : List β) (j : Nat),
    ((List.range n).foldl (fun t i => t.set (off + i) (f i)) t).getD j d =
      if off ≤ j ∧ j < off + n ∧ j < t.length then f (j - off) else t.getD j d := by
  intro n
  induction n with
  | zero =>
    intro t j
    rw [if_neg (by omega)]; rfl
  | succ n ih =>
    intro t j
    rw [List.range_succ, List.foldl_append, List.foldl_cons, List.foldl_nil, getD_set_eq,
      fillLoop_length, ih]
    by_cases h1 : off + n = j
    · by_cases h2 : j < t.length
      · rw [if_pos ⟨h1, by omega⟩, if_pos ⟨by omega, by omega, h2⟩]
        congr 1; omega
      · rw [if_neg (by omega), if_neg (by omega), if_neg (by omega)]
    · rw [if_neg (fun hh => h1 hh.1)]
      by_cases h3 : off ≤ j ∧ j < off + n ∧ j < t.length
      · rw [if_pos h3, if_pos ⟨h3.1, by omega, h3.2.2⟩]
      · rw [if_neg h3, if_neg (by omega)]

theorem makeST_tree {α : Type} [Inhabited α] (vSize : Nat) (vComp : α → α → Int) :
    (makeST vSize vComp).tree = [0, -1, -1, -1, -1, -1, -1, -1] := rfl

theorem makeST_vList {α : Type} [Inhabited α] (vSize : Nat) (vComp : α → α → Int) :
    (makeST vSize vComp).vList = [default, default, default, default] := rfl

/-- The tree returned by `makeST` satisfies the invariant. -/
theorem inv_makeST {α : Type} [Inhabited α] (vSize : Nat) (vComp : α → α → Int) :
    Inv (makeST vSize vComp) := by
  refine ⟨⟨2, Nat.le_refl _, rfl⟩, rfl, Nat.zero_le _, rfl, rfl, ?_, ?_⟩
  · intro k hk
    have hc : (makeST vSize vComp).capacity = 4 := rfl
    have hs : (makeST vSize vComp).size = 0 := rfl
    rw [hc] at hk
    rw [hc, hs, makeST_tree, if_neg (by omega)]
    interval_cases k <;> rfl
  · intro pos h1 h2
    have hc : (makeST vSize vComp).capacity = 4 := rfl
    rw [hc] at h2
    unfold Rel
    rw [makeST_tree]
    interval_cases pos <;> rfl

theorem removeST_ok {α : Type} [Inhabited α] (st : SegTree α) (env : Bool) (h : 0 < st.size) :
    removeST st env = (Except.ok (),
      { st with
        size := st.size - 1
        tree := pathLoop (fun tree pos =>
          tree.set pos (pickEither st.vComp st.vList (tree.getD (LEFT pos) 0)
            (tree.getD (RIGHT pos) 0)))
          ((st.leafStart + (st.size - 1)) / 2) ((st.leafStart + (st.size - 1)) / 2)
          (st.tree.set (st.leafStart + (st.size - 1)) (-1)) }) := by
  unfold removeST
  rw [if_neg (by omega)]
  rfl

/-- The invariant is kept by a `removeST` that returns. -/
theorem inv_removeST {α : Type} [Inhabited α] (st : SegTree α) (env : Bool) (hinv : Inv st)
    (h : 0 < st.size) : Inv (removeST st env).2 := by
  obtain ⟨⟨hh, hh2, hcap⟩, hls, hsz, hvl, htl, hleaves, hint⟩ := hinv
  rw [removeST_ok st env h]
  simp only [LEFT_eq, RIGHT_eq, hls]
  have hspec := pathLoop_spec st.vComp st.vList st.capacity (st.size - 1)
    (fun tree pos => tree.set pos (pickEither st.vComp st.vList (tree.getD (2 * pos) 0)
      (tree.getD (2 * pos + 1) 0)))
    (fun tree pos _ _ _ _ _ => rfl)
    ((st.capacity + (st.size - 1)) / 2) ((st.capacity + (st.size - 1)) / 2)
    (st.tree.set (st.capacity + (st.size - 1)) (-1)) (Nat.le_refl _) (by omega)
    (by rw [List.length_set]; exact htl)
    (by
      intro k hk
      rw [getD_set_eq]
      by_cases hks : k = st.size - 1
      · subst hks
        rw [if_pos ⟨rfl, by omega⟩, if_neg (by omega)]
      · rw [if_neg (by omega), hleaves k hk]
        by_cases hk2 : k < st.size
        · rw [if_pos hk2, if_pos (by omega)]
        · rw [if_neg hk2, if_neg (by omega)])
    (by
      intro q hq1 hq2 hnp
      have hpar : q ≠ (st.capacity + (st.size - 1)) / 2 := fun hq => hnp ⟨0, by simpa using hq⟩
      exact rel_set_other _ _ _ _ q _ (by omega) hpar (hint q hq1 hq2))
  exact ⟨⟨hh, hh2, hcap⟩, rfl, by show st.size - 1 ≤ st.capacity; omega, hvl, hspec.1,
    hspec.2.1, hspec.2.2⟩

/-! ## The invariant is kept by `setST` and `addST` -/

theorem not_onPath_zero (p : Nat) (hp : 1 ≤ p) : ¬ OnPath 0 p := fun h => by
  have := onPath_zero p h; omega

/-- Under the invariant every node holds -1 or the best stored index of its span. -/
theorem inv_sem {α : Type} [Inhabited α] (st : SegTree α) (hc : IsTotalPreorder st.vComp)
    (hinv : Inv st) (h : Nat) (hcap : st.capacity = 2 ^ h) (p : Nat) (hp1 : 1 ≤ p)
    (hp2 : p < 2 * 2 ^ h) :
    ∃ t lo, t ≤ h ∧ p * 2 ^ t = 2 ^ h + lo ∧ lo + 2 ^ t ≤ 2 ^ h ∧
      Sem st.vComp st.vList st.size st.tree p lo (2 ^ t) := by
  have hl := hinv.leaves
  have hi := hinv.internal
  rw [hcap] at hl hi
  exact entry_of_rel hc st.vList h st.size st.tree 0 hl (fun q h1 h2 _ => hi q h1 h2) p hp1 hp2
    (not_onPath_zero p hp1)

/-- Changing the value slot `i` and the leaf `cap + i` leaves every node off the path of
that leaf in order. -/
theorem rel_frame {α : Type} [Inhabited α] (st : SegTree α) (hc : IsTotalPreorder st.vComp)
    (hinv : Inv st) (h : Nat) (hcap : st.capacity = 2 ^ h) (i : Nat) (v : α) (x : Int)
    (q : Nat) (hq1 : 1 ≤ q) (hq2 : q < 2 ^ h) (hnp : ¬ OnPath ((2 ^ h + i) / 2) q) :
    Rel st.vComp (st.vList.set i v) (st.tree.set (2 ^ h + i) x) q := by
  have hpar : q ≠ (2 ^ h + i) / 2 := fun hq => hnp ⟨0, by simpa using hq⟩
  have hnp2 : ¬ OnPath (2 ^ h + i) q := by
    rw [onPath_iff]
    rintro (hh | hh)
    · omega
    · exact hnp hh
  have hi := hinv.internal q hq1 (by rw [hcap]; exact hq2)
  apply rel_set_other _ _ _ _ q _ (by omega) hpar
  unfold Rel at hi ⊢
  rw [hi]
  symm
  have key : ∀ c, (c = 2 * q ∨ c = 2 * q + 1) → st.tree.getD c 0 ≠ -1 →
      valueAt (st.vList.set i v) (st.tree.getD c 0) = valueAt st.vList (st.tree.getD c 0) := by
    intro c hcq hne
    obtain ⟨t, lo, _, h1, h2, hsem⟩ := inv_sem st hc hinv h hcap c (by omega) (by omega)
    rcases hsem with ⟨he, _⟩ | ⟨r, he, hr1, hr2, _, _⟩
    · exact absurd he hne
    · rw [he, valueAt_natCast, valueAt_natCast, getD_set_eq, if_neg]
      rintro ⟨hir, _⟩
      subst hir
      have hon : OnPath (2 ^ h + i) c := onPath_of_span (2 ^ h) c t lo i h1 hr1 hr2
      apply hnp2
      apply onPath_parent
      rcases hcq with hcq | hcq
      · left; rw [← hcq]; exact hon
      · right; rw [← hcq]; exact hon
  exact pickEither_congr _ _ _ _ _ (key _ (Or.inl rfl)) (key _ (Or.inr rfl))

theorem setST_ok {α : Type} [Inhabited α] (st : SegTree α) (idx : Int) (v : α) (env : Bool)
    (h1 : 0 ≤ idx) (h2 : idx < st.size) :
    setST st idx v env = (Except.ok (),
      { st with
        vList := st.vList.set idx.toNat v
        tree := pathLoop (fun tree pos =>
          tree.set pos (pickRight st.vComp (st.vList.set idx.toNat v) (tree.getD (LEFT pos) 0)
            (tree.getD (RIGHT pos) 0)))
          ((st.leafStart + idx.toNat) / 2) ((st.leafStart + idx.toNat) / 2)
          (st.tree.set (st.leafStart + idx.toNat) idx) }) := by
  unfold setST
  rw [if_neg (by omega)]
  rfl

/-- The state of the tree after the value slot `i` and the leaf `cap + i` were written and
the update loop of `addST` / `setST` has run. -/
theorem pathLoop_pickRight {α : Type} [Inhabited α] (st : SegTree α)
    (hc : IsTotalPreorder st.vComp) (hinv : Inv st) (i size' : Nat) (v : α)
    (hi : i < st.capacity)
    (hleaves : Leaves st.capacity size' (st.tree.set (st.capacity + i) (i : Int))) :
    (pathLoop (fun tree pos =>
        tree.set pos (pickRight st.vComp (st.vList.set i v) (tree.getD (2 * pos) 0)
          (tree.getD (2 * pos + 1) 0)))
        ((st.capacity + i) / 2) ((st.capacity + i) / 2)
        (st.tree.set (st.capacity + i) (i : Int))).length = 2 * st.capacity ∧
    Leaves st.capacity size' (pathLoop (fun tree pos =>
        tree.set pos (pickRight st.vComp (st.vList.set i v) (tree.getD (2 * pos) 0)
          (tree.getD (2 * pos + 1) 0)))
        ((st.capacity + i) / 2) ((st.capacity + i) / 2)
        (st.tree.set (st.capacity + i) (i : Int))) ∧
    ∀ q, 1 ≤ q → q < st.capacity → Rel st.vComp (st.vList.set i v) (pathLoop (fun tree pos =>
        tree.set pos (pickRight st.vComp (st.vList.set i v) (tree.getD (2 * pos) 0)
          (tree.getD (2 * pos + 1) 0)))
        ((st.capacity + i) / 2) ((st.capacity + i) / 2)
        (st.tree.set (st.capacity + i) (i : Int))) q := by
  obtain ⟨h, _, hcap⟩ := hinv.cap_pow
  have htl := hinv.tree_length
  rw [hcap] at hi hleaves htl ⊢
  exact pathLoop_spec st.vComp (st.vList.set i v) (2 ^ h) size'
    (fun tree pos => tree.set pos (pickRight st.vComp (st.vList.set i v)
      (tree.getD (2 * pos) 0) (tree.getD (2 * pos + 1) 0)))
    (fun tree pos hp1 hp2 _ hl hr =>
      pickRight_body hc (st.vList.set i v) h size' tree pos hp1 hp2 hl hr)
    ((2 ^ h + i) / 2) ((2 ^ h + i) / 2) (st.tree.set (2 ^ h + i) (i : Int)) (Nat.le_refl _)
    (by omega) (by rw [List.length_set]; exact htl) hleaves
    (fun q hq1 hq2 hnp => rel_frame st hc hinv h hcap i v (i : Int) q hq1 hq2 hnp)

/-- The invariant is kept by a `setST` that returns. -/
theorem inv_setST {α : Type} [Inhabited α] (st : SegTree α) (hc : IsTotalPreorder st.vComp)
    (idx : Int) (v : α) (env : Bool) (hinv : Inv st) (h1 : 0 ≤ idx) (h2 : idx < st.size) :
    Inv (setST st idx v env).2 := by
  have hsz := hinv.size_le
  have hls := hinv.leafStart_eq
  have hidx : ((idx.toNat : Nat) : Int) = idx := Int.toNat_of_nonneg h1
  have hlt : idx.toNat < st.size := by omega
  rw [setST_ok st idx v env h1 h2]
  simp only [LEFT_eq, RIGHT_eq, hls]
  have hspec := pathLoop_pickRight st hc hinv idx.toNat st.size v (by omega) (by
    intro k hk
    rw [getD_set_eq]
    by_cases hki : k = idx.toNat
    · subst hki
      rw [if_pos ⟨rfl, by rw [hinv.tree_length]; omega⟩, if_pos hlt]
    · rw [if_neg (by omega)]
      exact hinv.leaves k hk)
  rw [hidx] at hspec
  exact ⟨hinv.cap_pow, rfl, hsz, by
    show (st.vList.set idx.toNat v).length = st.capacity
    rw [List.length_set]; exact hinv.vList_length, hspec.1, hspec.2.1, hspec.2.2⟩

theorem addUnbounded_eq {α : Type} [Inhabited α] (st : SegTree α) (v : α) :
    addUnbounded st v = addCore (if st.size ≥ st.capacity then grow st else st) v := rfl

theorem realloc_length {β : Type} (block : List β) (n : Nat) (fresh : β) :
    (realloc block n fresh).length = n := by
  unfold realloc
  rw [List.length_take, List.length_append, List.length_replicate]; omega

/-- The invariant holds after the arrays of a full tree were doubled. -/
theorem inv_grow {α : Type} [Inhabited α] (st : SegTree α) (hinv : Inv st)
    (hfull : st.size ≥ st.capacity) : Inv (grow st) := by
  obtain ⟨⟨h, hh2, hcap⟩, hls, hsz, hvl, htl, hleaves, hint⟩ := hinv
  have hsize : st.size = st.capacity := by omega
  have hcpos : 1 ≤ st.capacity := by rw [hcap]; exact Nat.one_le_two_pow
  have hl0 : ((List.range st.size).foldl
        (fun tree i => tree.set (st.capacity * 2 + i) (i : Int))
        ((List.range (2 * (st.capacity * 2))).foldl
          (fun tree i => tree.set i (-1))
          (realloc st.tree (2 * (st.capacity * 2)) 0))).length = 2 * (st.capacity * 2) := by
    rw [fillLoop_length (fun i => (i : Int)) (st.capacity * 2)]
    have := fillLoop_length (fun _ => (-1 : Int)) 0 (2 * (st.capacity * 2))
      (realloc st.tree (2 * (st.capacity * 2)) 0)
    simp only [Nat.zero_add] at this
    rw [this, realloc_length]
  have hleaves0 : Leaves (st.capacity * 2) st.size ((List.range st.size).foldl
        (fun tree i => tree.set (st.capacity * 2 + i) (i : Int))
        ((List.range (2 * (st.capacity * 2))).foldl
          (fun tree i => tree.set i (-1))
          (realloc st.tree (2 * (st.capacity * 2)) 0))) := by
    intro k hk
    rw [fillLoop_getD (fun i => (i : Int)) (st.capacity * 2) 0]
    have hlen := fillLoop_length (fun _ => (-1 : Int)) 0 (2 * (st.capacity * 2))
      (realloc st.tree (2 * (st.capacity * 2)) 0)
    have hget := fillLoop_getD (fun _ => (-1 : Int)) 0 0 (2 * (st.capacity * 2))
      (realloc st.tree (2 * (st.capacity * 2)) 0) (st.capacity * 2 + k)
    simp only [Nat.zero_add] at hlen hget
    rw [hlen, realloc_length]
    by_cases hks : k < st.size
    · rw [if_pos ⟨by omega, by omega, by omega⟩, if_pos hks]
      congr 1; omega
    · rw [if_neg (by omega), if_neg hks, hget, realloc_length, if_pos ⟨by omega, by omega, by omega⟩]
  have hspec := rebuild_spec st.vComp (realloc st.vList (st.capacity * 2) default)
    (st.capacity * 2) st.size (st.capacity * 2 - 1) _ (by omega) hl0 hleaves0
    (fun q h1 h2 => by omega)
  unfold grow
  simp only [GROWTH_FACTOR, TREE_OVERHEAD]
  exact ⟨⟨h + 1, by omega, by
      show st.capacity * 2 = 2 ^ (h + 1)
      rw [Nat.pow_succ, hcap]⟩, rfl, by
      show st.size ≤ st.capacity * 2
      omega, realloc_length _ _ _, hspec.1, hspec.2.1, hspec.2.2⟩

theorem grow_size {α : Type} [Inhabited α] (st : SegTree α) : (grow st).size = st.size := rfl

theorem grow_capacity {α : Type} [Inhabited α] (st : SegTree α) :
    (grow st).capacity = st.capacity * 2 := rfl

theorem grow_vComp {α : Type} [Inhabited α] (st : SegTree α) : (grow st).vComp = st.vComp := rfl

/-- The invariant is kept by the second part of `addST` when there is a free slot. -/
theorem inv_addCore {α : Type} [Inhabited α] (st : SegTree α) (hc : IsTotalPreorder st.vComp)
    (v : α) (hinv : Inv st) (hfree : st.size < st.capacity) : Inv (addCore st v).2 := by
  have hls := hinv.leafStart_eq
  unfold addCore
  simp only [TREE_BRANCH_FACTOR, hls]
  have hspec := pathLoop_pickRight st hc hinv st.size (st.size + 1) v hfree (by
    intro k hk
    rw [getD_set_eq]
    by_cases hki : k = st.size
    · subst hki
      rw [if_pos ⟨rfl, by rw [hinv.tree_length]; omega⟩, if_pos (by omega)]
    · rw [if_neg (by omega), hinv.leaves k hk]
      by_cases hk2 : k < st.size
      · rw [if_pos hk2, if_pos (by omega)]
      · rw [if_neg hk2, if_neg (by omega)])
  exact ⟨hinv.cap_pow, rfl, by show st.size + 1 ≤ st.capacity; omega, by
    show (st.vList.set st.size v).length = st.capacity
    rw [List.length_set]; exact hinv.vList_length, hspec.1, hspec.2.1, hspec.2.2⟩

/-- The invariant is kept by `addST`. -/
theorem inv_addUnbounded {α : Type} [Inhabited α] (st : SegTree α) (hc : IsTotalPreorder st.vComp)
    (v : α) (hinv : Inv st) : Inv (addUnbounded st v).2 := by
  rw [addUnbounded_eq]
  by_cases hfull : st.size ≥ st.capacity
  · rw [if_pos hfull]
    have hpos : 1 ≤ st.capacity := by
      obtain ⟨h, _, hcap⟩ := hinv.cap_pow
      rw [hcap]; exact Nat.one_le_two_pow
    have hsz := hinv.size_le
    exact inv_addCore (grow st) hc v (inv_grow st hinv hfull) (by
      rw [grow_size, grow_capacity]; omega)
  · rw [if_neg hfull]
    exact inv_addCore st hc v hinv (by omega)

/-! ## Reachable trees satisfy the invariant -/

theorem addUnbounded_vComp {α : Type} [Inhabited α] (st : SegTree α) (v : α) :
    (addUnbounded st v).2.vComp = st.vComp := by
  rw [addUnbounded_eq]
  by_cases h : st.size ≥ st.capacity
  · rw [if_pos h]; rfl
  · rw [if_neg h]; rfl

theorem setST_vComp {α : Type} [Inhabited α] (st : SegTree α) (idx : Int) (v : α) (env : Bool) :
    (setST st idx v env).2.vComp = st.vComp := by
  unfold setST
  split <;> rfl

theorem removeST_vComp {α : Type} [Inhabited α] (st : SegTree α) (env : Bool) :
    (removeST st env).2.vComp = st.vComp := by
  unfold removeST
  split <;> rfl

theorem setST_returns {α : Type} [Inhabited α] (st : SegTree α) (idx : Int) (v : α) (env : Bool)
    (h : (setST st idx v env).1 = Except.ok ()) : 0 ≤ idx ∧ idx < st.size := by
  unfold setST at h
  by_cases hc : idx < 0 ∨ idx ≥ st.size
  · rw [if_pos hc] at h
    cases h
  · omega

theorem removeST_returns {α : Type} [Inhabited α] (st : SegTree α) (env : Bool)
    (h : (removeST st env).1 = Except.ok ()) : 0 < st.size := by
  unfold removeST at h
  by_cases hc : st.size ≤ 0
  · rw [if_pos hc] at h
    cases h
  · omega

theorem reachable_vComp {α : Type} [Inhabited α] (vComp : α → α → Int) (st : SegTree α)
    (h : Reachable vComp st) : st.vComp = vComp := by
  induction h with
  | make vSize => rfl
  | add st v _ ih => rw [addUnbounded_vComp, ih]
  | set st idx v env _ _ ih => rw [setST_vComp, ih]
  | remove st env _ _ ih => rw [removeST_vComp, ih]

/-- Every tree built by the operations with a total-preorder comparison satisfies the
invariant. -/
theorem reachable_inv {α : Type} [Inhabited α] (vComp : α → α → Int)
    (hc : IsTotalPreorder vComp) (st : SegTree α) (h : Reachable vComp st) : Inv st := by
  induction h with
  | make vSize => exact inv_makeST vSize vComp
  | add st v hr ih =>
    exact inv_addUnbounded st (by rw [reachable_vComp vComp st hr]; exact hc) v ih
  | set st idx v env hr hok ih =>
    have := setST_returns st idx v env hok
    exact inv_setST st (by rw [reachable_vComp vComp st hr]; exact hc) idx v env ih this.1 this.2
  | remove st env hr hok ih =>
    exact inv_removeST st env ih (removeST_returns st env hok)

/-! ## The range query -/

theorem queryLoop_exit {α : Type} [Inhabited α] (st : SegTree α) (fuel : Nat) (il jl : Int)
    (e : Int) (h : jl < il) : queryLoop st (fuel + 1) il jl e = some e := by
  unfold queryLoop
  rw [if_neg (by omega)]

theorem queryLoop_step {α : Type} [Inhabited α] (st : SegTree α) (fuel il jl : Nat) (e : Int)
    (h : il ≤ jl) (h1 : 1 ≤ il) :
    queryLoop st (fuel + 1) (il : Int) (jl : Int) e =
      queryLoop st fuel (((if il % 2 = 1 then il + 1 else il) / 2 : Nat) : Int)
        (((if jl % 2 = 0 then jl - 1 else jl) / 2 : Nat) : Int)
        (if jl % 2 = 0 then visit st (if il % 2 = 1 then visit st e il else e) jl
          else (if il % 2 = 1 then visit st e il else e)) := by
  have hi : (il : Int).tmod (TREE_BRANCH_FACTOR : Nat) = ((il % 2 : Nat) : Int) :=
    (Int.ofNat_tmod il 2).symm
  have hj : (jl : Int).tmod (TREE_BRANCH_FACTOR : Nat) = ((jl % 2 : Nat) : Int) :=
    (Int.ofNat_tmod jl 2).symm
  have hd : ∀ n : Nat, (n : Int).tdiv (TREE_BRANCH_FACTOR : Nat) = ((n / 2 : Nat) : Int) :=
    fun n => (Int.ofNat_tdiv n 2).symm
  rw [queryLoop, if_pos (by omega)]
  simp only [hi, hj]
  by_cases c1 : il % 2 = 1
  · by_cases c2 : jl % 2 = 0
    · have e1 : ((il % 2 : Nat) : Int) = 1 := by omega
      have e2 : ((jl % 2 : Nat) : Int) = 0 := by omega
      have e3 : (jl : Int) - 1 = ((jl - 1 : Nat) : Int) := by omega
      have e4 : (il : Int) + 1 = ((il + 1 : Nat) : Int) := by omega
      simp only [if_pos e1, if_pos e2, if_pos c1, if_pos c2, e3, e4, hd]
    · have e1 : ((il % 2 : Nat) : Int) = 1 := by omega
      have e2 : ¬ ((jl % 2 : Nat) : Int) = 0 := by omega
      have e4 : (il : Int) + 1 = ((il + 1 : Nat) : Int) := by omega
      simp only [if_pos e1, if_neg e2, if_pos c1, if_neg c2, e4, hd]
  · by_cases c2 : jl % 2 = 0
    · have e1 : ¬ ((il % 2 : Nat) : Int) = 1 := by omega
      have e2 : ((jl % 2 : Nat) : Int) = 0 := by omega
      have e3 : (jl : Int) - 1 = ((jl - 1 : Nat) : Int) := by omega
      simp only [if_neg e1, if_pos e2, if_neg c1, if_pos c2, e3, hd]
    · have e1 : ¬ ((il % 2 : Nat) : Int) = 1 := by omega
      have e2 : ¬ ((jl % 2 : Nat) : Int) = 0 := by omega
      simp only [if_neg e1, if_neg e2, if_neg c1, if_neg c2, hd]

theorem cov_final {α : Type} [Inhabited α] (vComp : α → α → Int) (vList : List α) (i j : Nat)
    (e : Int) (A B : Nat) (hij : i ≤ j) (hAB : B ≤ A) (h : Cov vComp vList i j e A B) :
    ∃ r : Nat, e = (r : Int) ∧ i ≤ r ∧ r ≤ j ∧
      ∀ k, i ≤ k → k ≤ j → vComp (vList.getD k default) (vList.getD r default) ≤ 0 := by
  rcases h with ⟨_, h1, h2⟩ | ⟨r, h1, h2, h3, h4⟩
  · omega
  · exact ⟨r, h1, h2, h3, fun k hk1 hk2 => h4 k hk1 hk2 (by omega)⟩

/-- Processing a node whose span lies in the range extends what `element` accounts for by
that span. -/
theorem visit_cov {α : Type} [Inhabited α] (st : SegTree α) (hc : IsTotalPreorder st.vComp)
    (i j : Nat) (hj : j < st.size) (e : Int) (A B A' B' p lo w : Nat)
    (hcov : Cov st.vComp st.vList i j e A B)
    (hsem : Sem st.vComp st.vList st.size st.tree p lo w) (hw : 1 ≤ w)
    (hlo : i ≤ lo) (hhi : lo + w ≤ j + 1)
    (hS : ∀ k, i ≤ k → k ≤ j → (k < A' ∨ B' ≤ k) → (k < A ∨ B ≤ k) ∨ (lo ≤ k ∧ k < lo + w)) :
    Cov st.vComp st.vList i j (visit st e (p : Int)) A' B' := by
  rcases hsem with ⟨_, hs⟩ | ⟨r1, ht, hr1, hr2, hr3, hr4⟩
  · omega
  · right
    unfold visit
    rw [Int.toNat_ofNat, ht]
    rcases hcov with ⟨he, hA, hB⟩ | ⟨r0, he, h0a, h0b, h0c⟩
    · rw [if_pos he]
      refine ⟨r1, rfl, by omega, by omega, fun k hk1 hk2 hk3 => ?_⟩
      rcases hS k hk1 hk2 hk3 with hh | hh
      · omega
      · exact hr4 k hh.1 hh.2 (by omega)
    · rw [he, if_neg (natCast_ne_neg_one r0), if_pos (natCast_ne_neg_one r1)]
      simp only [valueAt_natCast]
      by_cases hcmp : st.vComp (st.vList.getD r0 default) (st.vList.getD r1 default) < 0
      · rw [if_pos hcmp]
        refine ⟨r1, rfl, by omega, by omega, fun k hk1 hk2 hk3 => ?_⟩
        rcases hS k hk1 hk2 hk3 with hh | hh
        · exact hc.2 _ _ _ (h0c k hk1 hk2 hh) (by omega)
        · exact hr4 k hh.1 hh.2 (by omega)
      · rw [if_neg hcmp]
        refine ⟨r0, rfl, h0a, h0b, fun k hk1 hk2 hk3 => ?_⟩
        rcases hS k hk1 hk2 hk3 with hh | hh
        · exact h0c k hk1 hk2 hh
        · exact hc.2 _ _ _ (hr4 k hh.1 hh.2 (by omega)) (cmp_flip hc _ _ hcmp)

theorem cov_mono {α : Type} [Inhabited α] (vComp : α → α → Int) (vList : List α) (i j : Nat)
    (e : Int) (A B A' B' : Nat) (hA : A' = A) (hB : B' = B)
    (h : Cov vComp vList i j e A B) : Cov vComp vList i j e A' B' := by
  rw [hA, hB]; exact h

/-- The loop of `queryST`, level by level: from level `t`, where the nodes
`2 ^ (h - t) + a .. 2 ^ (h - t) + b - 1` remain, it returns an index of the range that no
index of the range beats. -/
theorem queryLoop_spec {α : Type} [Inhabited α] (st : SegTree α)
    (hc : IsTotalPreorder st.vComp) (hinv : Inv st) (h : Nat) (hcap : st.capacity = 2 ^ h)
    (i j : Nat) (hij : i ≤ j) (hj : j < st.size) :
    ∀ (fuel t a b : Nat) (e : Int), t ≤ h → h - t + 2 ≤ fuel → a ≤ b → b ≤ 2 ^ (h - t) →
      i ≤ a * 2 ^ t → b * 2 ^ t ≤ j + 1 →
      Cov st.vComp st.vList i j e (a * 2 ^ t) (b * 2 ^ t) →
      ∃ r : Nat, queryLoop st fuel ((2 ^ (h - t) + a : Nat) : Int)
          ((2 ^ (h - t) + b - 1 : Nat) : Int) e = some (r : Int) ∧ i ≤ r ∧ r ≤ j ∧
        ∀ k, i ≤ k → k ≤ j →
          st.vComp (st.vList.getD k default) (st.vList.getD r default) ≤ 0 := by
  have hsz := hinv.size_le
  have hl := hinv.leaves
  have hint := hinv.internal
  rw [hcap] at hsz hl hint
  have hsemAt : ∀ t p lo, p * 2 ^ t = 2 ^ h + lo → lo + 2 ^ t ≤ 2 ^ h →
      1 ≤ p → Sem st.vComp st.vList st.size st.tree p lo (2 ^ t) := fun t p lo h1 h2 hp =>
    sem_of_rel hc st.vList (2 ^ h) st.size st.tree (OnPath 0) (onPath_parent 0) hl
      (fun q hq1 hq2 _ => hint q hq1 hq2) t p lo h1 h2 (not_onPath_zero p hp)
  intro fuel
  induction fuel with
  | zero => intro t a b e _ hf; omega
  | succ f ih =>
    intro t a b e ht hf hab hbD hia hbj hcov
    have hD : 1 ≤ 2 ^ (h - t) := Nat.one_le_two_pow
    have hW : 1 ≤ 2 ^ t := Nat.one_le_two_pow
    have hDW : 2 ^ (h - t) * 2 ^ t = 2 ^ h := by
      rw [← Nat.pow_add]; congr 1; omega
    by_cases hlt : a < b
    · -- one more pass
      have hmul : (a + 1) * 2 ^ t ≤ b * 2 ^ t := Nat.mul_le_mul_right _ hlt
      have hsucc : (a + 1) * 2 ^ t = a * 2 ^ t + 2 ^ t := by rw [Nat.add_mul, Nat.one_mul]
      have hpred : (b - 1) * 2 ^ t + 2 ^ t = b * 2 ^ t := by
        have : (b - 1 + 1) * 2 ^ t = (b - 1) * 2 ^ t + 2 ^ t := by rw [Nat.add_mul, Nat.one_mul]
        rw [← this]; congr 1; omega
      rw [queryLoop_step st f _ _ e (by omega) (by omega)]
      -- the left end
      have hcov1 : ∀ a', a' = (if (2 ^ (h - t) + a) % 2 = 1 then a + 1 else a) →
          Cov st.vComp st.vList i j
            (if (2 ^ (h - t) + a) % 2 = 1 then visit st e ((2 ^ (h - t) + a : Nat) : Int) else e)
            (a' * 2 ^ t) (b * 2 ^ t) := by
        intro a' ha'
        by_cases c1 : (2 ^ (h - t) + a) % 2 = 1
        · rw [if_pos c1] at ha' ⊢
          subst ha'
          apply visit_cov st hc i j hj e (a * 2 ^ t) (b * 2 ^ t) _ _ (2 ^ (h - t) + a)
            (a * 2 ^ t) (2 ^ t) hcov
            (hsemAt t _ _ (by rw [Nat.add_mul, hDW]) (by omega) (by omega)) hW hia (by omega)
          intro k _ _ hk
          omega
        · rw [if_neg c1] at ha' ⊢
          subst ha'
          exact hcov
      obtain ⟨a', ha'⟩ : ∃ a', a' = (if (2 ^ (h - t) + a) % 2 = 1 then a + 1 else a) := ⟨_, rfl⟩
      have hcov1' := hcov1 a' ha'
      have ha'1 : a ≤ a' ∧ a' ≤ a + 1 ∧ a' ≤ b ∧ (2 ^ (h - t) + a') % 2 = 0 := by
        by_cases c1 : (2 ^ (h - t) + a) % 2 = 1
        · rw [if_pos c1] at ha'; omega
        · rw [if_neg c1] at ha'; omega
      have ha'W : a * 2 ^ t ≤ a' * 2 ^ t := Nat.mul_le_mul_right _ ha'1.1
      have ha'W2 : a' * 2 ^ t ≤ b * 2 ^ t := Nat.mul_le_mul_right _ ha'1.2.2.1
      have hil : (if (2 ^ (h - t) + a) % 2 = 1 then 2 ^ (h - t) + a + 1 else 2 ^ (h - t) + a) =
          2 ^ (h - t) + a' := by
        by_cases c1 : (2 ^ (h - t) + a) % 2 = 1
        · rw [if_pos c1] at ha' ⊢; omega
        · rw [if_neg c1] at ha' ⊢; omega
      rw [hil]
      generalize (if (2 ^ (h - t) + a) % 2 = 1 then visit st e ((2 ^ (h - t) + a : Nat) : Int)
        else e) = e1 at hcov1' ⊢
      -- the right end
      obtain ⟨b', hb'⟩ : ∃ b', b' = (if (2 ^ (h - t) + b - 1) % 2 = 0 then b - 1 else b) :=
        ⟨_, rfl⟩
      have hb'1 : a' ≤ b' ∧ b' ≤ b ∧ b - 1 ≤ b' ∧ (2 ^ (h - t) + b') % 2 = 0 := by
        by_cases c2 : (2 ^ (h - t) + b - 1) % 2 = 0
        · rw [if_pos c2] at hb'; omega
        · rw [if_neg c2] at hb'; omega
      have hb'W : a' * 2 ^ t ≤ b' * 2 ^ t := Nat.mul_le_mul_right _ hb'1.1
      have hb'W2 : b' * 2 ^ t ≤ b * 2 ^ t := Nat.mul_le_mul_right _ hb'1.2.1
      have hcov2 : Cov st.vComp st.vList i j
          (if (2 ^ (h - t) + b - 1) % 2 = 0 then visit st e1 ((2 ^ (h - t) + b - 1 : Nat) : Int)
            else e1) (a' * 2 ^ t) (b' * 2 ^ t) := by
        by_cases c2 : (2 ^ (h - t) + b - 1) % 2 = 0
        · rw [if_pos c2] at hb' ⊢
          subst hb'
          have hb1 : 1 ≤ b := by omega
          apply visit_cov st hc i j hj e1 (a' * 2 ^ t) (b * 2 ^ t) _ _ (2 ^ (h - t) + b - 1)
            ((b - 1) * 2 ^ t) (2 ^ t) hcov1'
            (hsemAt t _ _ (by
              have : 2 ^ (h - t) + b - 1 = 2 ^ (h - t) + (b - 1) := by omega
              rw [this, Nat.add_mul, hDW]) (by omega) (by omega)) hW (by omega) (by omega)
          intro k _ _ hk
          omega
        · rw [if_neg c2] at hb' ⊢
          subst hb'
          exact hcov1'
      have hjl : (if (2 ^ (h - t) + b - 1) % 2 = 0 then 2 ^ (h - t) + b - 1 - 1
          else 2 ^ (h - t) + b - 1) = 2 ^ (h - t) + b' - 1 := by
        by_cases c2 : (2 ^ (h - t) + b - 1) % 2 = 0
        · rw [if_pos c2] at hb' ⊢; omega
        · rw [if_neg c2] at hb' ⊢; omega
      rw [hjl]
      generalize (if (2 ^ (h - t) + b - 1) % 2 = 0 then
        visit st e1 ((2 ^ (h - t) + b - 1 : Nat) : Int) else e1) = e2 at hcov2 ⊢
      by_cases hth : t < h
      · -- up one level
        have hD2 : 2 ^ (h - t) = 2 * 2 ^ (h - (t + 1)) := by
          have : h - t = (h - (t + 1)) + 1 := by omega
          rw [this, Nat.pow_succ]; omega
        have hW2 : 2 ^ (t + 1) = 2 * 2 ^ t := by rw [Nat.pow_succ]; omega
        have e1' : (2 ^ (h - t) + a') / 2 = 2 ^ (h - (t + 1)) + a' / 2 := by omega
        have e2' : (2 ^ (h - t) + b' - 1) / 2 = 2 ^ (h - (t + 1)) + b' / 2 - 1 := by
          have : 1 ≤ 2 ^ (h - (t + 1)) := Nat.one_le_two_pow
          omega
        have ea : a' / 2 * 2 ^ (t + 1) = a' * 2 ^ t := by
          rw [hW2, ← Nat.mul_assoc]; congr 1; omega
        have eb : b' / 2 * 2 ^ (t + 1) = b' * 2 ^ t := by
          rw [hW2, ← Nat.mul_assoc]; congr 1; omega
        rw [e1', e2']
        exact ih (t + 1) (a' / 2) (b' / 2) e2 (by omega) (by omega) (by omega) (by omega)
          (by rw [ea]; omega) (by rw [eb]; omega)
          (cov_mono _ _ _ _ _ _ _ _ _ ea eb hcov2)
      · -- the root was processed
        have hth' : h - t = 0 := by omega
        rw [hth'] at hbD ha'1 hb'1 ⊢
        simp only [Nat.pow_zero] at hbD ha'1 hb'1 ⊢
        have hb1 : b = 1 := by omega
        have ha1 : a' = 1 := by omega
        have hb'1' : b' = 1 := by omega
        subst ha1 hb'1'
        cases f with
        | zero => omega
        | succ f' =>
          rw [queryLoop_exit st f' _ _ e2 (by omega)]
          obtain ⟨r, hr1, hr2, hr3, hr4⟩ := cov_final _ _ i j e2 _ _ hij (Nat.le_refl _) hcov2
          exact ⟨r, by rw [hr1], hr2, hr3, hr4⟩
    · -- the loop is left
      rw [queryLoop_exit st f _ _ e (by omega)]
      have hmul : b * 2 ^ t ≤ a * 2 ^ t := Nat.mul_le_mul_right _ (by omega)
      obtain ⟨r, hr1, hr2, hr3, hr4⟩ := cov_final _ _ i j e _ _ hij hmul hcov
      exact ⟨r, by rw [hr1], hr2, hr3, hr4⟩

/-- Under the invariant `queryST` on a valid range returns an index of the range whose
value no value of the range beats. -/
theorem queryST_correct {α : Type} [Inhabited α] (st : SegTree α)
    (hc : IsTotalPreorder st.vComp) (hinv : Inv st) (i j : Nat) (env : Bool) (hij : i ≤ j)
    (hj : j < st.size) :
    ∃ r : Nat, queryST st (i : Int) (j : Int) env = Except.ok (r : Int) ∧ i ≤ r ∧ r ≤ j ∧
      ∀ k, i ≤ k → k ≤ j →
        st.vComp (st.vList.getD k default) (st.vList.getD r default) ≤ 0 := by
  obtain ⟨h, _, hcap⟩ := hinv.cap_pow
  have hls := hinv.leafStart_eq
  have hfuel : h < 2 ^ h := Nat.lt_two_pow h
  obtain ⟨r, hr1, hr2, hr3, hr4⟩ := queryLoop_spec st hc hinv h hcap i j hij hj
    (2 ^ h + j + 2) 0 i (j + 1) (-1) (Nat.zero_le _) (by omega) (by omega)
    (by simp only [Nat.sub_zero]; have := hinv.size_le; omega) (by simp) (by simp)
    (Or.inl ⟨rfl, by simp, by simp⟩)
  refine ⟨r, ?_, hr2, hr3, hr4⟩
  unfold queryST
  rw [if_neg (by omega)]
  simp only [hls, hcap]
  have e1 : ((2 ^ h : Nat) : Int) + (j : Int) = ((2 ^ (h - 0) + (j + 1) - 1 : Nat) : Int) := by
    simp only [Nat.sub_zero]; omega
  have e2 : ((2 ^ h : Nat) : Int) + (i : Int) = ((2 ^ (h - 0) + i : Nat) : Int) := by
    simp only [Nat.sub_zero]; omega
  have e3 : (((2 ^ (h - 0) + (j + 1) - 1 : Nat) : Int)).toNat + 2 = 2 ^ h + j + 2 := by
    rw [Int.toNat_ofNat]; simp only [Nat.sub_zero]; omega
  rw [e1, e2, e3, hr1]

/-! ## The stored values -/

theorem shape_makeST {α : Type} [Inhabited α] (vSize : Nat) (vComp : α → α → Int) :
    Shape (makeST vSize vComp) :=
  ⟨rfl, Nat.zero_le _, by show 1 ≤ 4; omega⟩

theorem addUnbounded_size {α : Type} [Inhabited α] (st : SegTree α) (v : α) :
    (addUnbounded st v).2.size = st.size + 1 := by
  rw [addUnbounded_eq]
  by_cases h : st.size ≥ st.capacity
  · rw [if_pos h]; rfl
  · rw [if_neg h]; rfl

theorem addUnbounded_fst {α : Type} [Inhabited α] (st : SegTree α) (v : α) :
    (addUnbounded st v).1 = (st.size : Int) := by
  rw [addUnbounded_eq]
  by_cases h : st.size ≥ st.capacity
  · rw [if_pos h]
    show (((grow st).size + 1 : Nat) : Int) - 1 = (st.size : Int)
    rw [grow_size]; omega
  · rw [if_neg h]
    show ((st.size + 1 : Nat) : Int) - 1 = (st.size : Int)
    omega

theorem addUnbounded_vList {α : Type} [Inhabited α] (st : SegTree α) (v : α) :
    (addUnbounded st v).2.vList =
      (if st.size ≥ st.capacity then realloc st.vList (st.capacity * 2) default
        else st.vList).set st.size v := by
  rw [addUnbounded_eq]
  by_cases h : st.size ≥ st.capacity
  · rw [if_pos h, if_pos h]; rfl
  · rw [if_neg h, if_neg h]; rfl

theorem addUnbounded_capacity {α : Type} [Inhabited α] (st : SegTree α) (v : α) :
    (addUnbounded st v).2.capacity = if st.size ≥ st.capacity then st.capacity * 2 else st.capacity := by
  rw [addUnbounded_eq]
  by_cases h : st.size ≥ st.capacity
  · rw [if_pos h, if_pos h]; rfl
  · rw [if_neg h, if_neg h]; rfl

theorem shape_addUnbounded {α : Type} [Inhabited α] (st : SegTree α) (v : α) (h : Shape st) :
    Shape (addUnbounded st v).2 := by
  obtain ⟨h1, h2, h3⟩ := h
  unfold Shape
  rw [addUnbounded_vList, addUnbounded_capacity, addUnbounded_size, List.length_set]
  by_cases hf : st.size ≥ st.capacity
  · rw [if_pos hf, if_pos hf, realloc_length]; omega
  · rw [if_neg hf, if_neg hf]; omega

theorem getD_realloc {β : Type} (block : List β) (n k : Nat) (d : β) (hk : k < n) :
    (realloc block n d).getD k d = block.getD k d := by
  unfold realloc
  rw [List.getD_eq_getElem?_getD, List.getD_eq_getElem?_getD, List.getElem?_take_of_lt hk]
  by_cases h : k < block.length
  · rw [List.getElem?_append_left h]
  · rw [List.getElem?_append_right (by omega), List.getElem?_eq_none (show block.length ≤ k by omega)]
    cases hx : (List.replicate (n - block.length) d)[k - block.length]? with
    | none => rfl
    | some x =>
      have := List.getElem?_replicate (n := n - block.length) (a := d) (m := k - block.length)
      rw [hx] at this
      by_cases hm : k - block.length < n - block.length
      · rw [if_pos hm] at this
        rw [this]
        rfl
      · rw [if_neg hm] at this
        cases this

/-- The value `addST` reads afterwards at an index: the new value at the old size, the old
value elsewhere below the new capacity. -/
theorem addUnbounded_getD {α : Type} [Inhabited α] (st : SegTree α) (v : α) (h : Shape st) (k : Nat)
    (hk : k ≤ st.size) :
    (addUnbounded st v).2.vList.getD k default = if k = st.size then v else st.vList.getD k default := by
  obtain ⟨h1, h2, h3⟩ := h
  rw [addUnbounded_vList, getD_set_eq]
  by_cases hf : st.size ≥ st.capacity
  · rw [if_pos hf, realloc_length]
    by_cases hks : k = st.size
    · rw [if_pos ⟨hks.symm, by omega⟩, if_pos hks]
    · rw [if_neg (fun hh => hks hh.1.symm), if_neg hks, getD_realloc _ _ _ _ (by omega)]
  · rw [if_neg hf]
    by_cases hks : k = st.size
    · rw [if_pos ⟨hks.symm, by omega⟩, if_pos hks]
    · rw [if_neg (fun hh => hks hh.1.symm), if_neg hks]

theorem setST_size {α : Type} [Inhabited α] (st : SegTree α) (idx : Int) (v : α) (env : Bool) :
    (setST st idx v env).2.size = st.size := by
  unfold setST
  split <;> rfl

theorem shape_setST {α : Type} [Inhabited α] (st : SegTree α) (idx : Int) (v : α) (env : Bool)
    (h : Shape st) : Shape (setST st idx v env).2 := by
  unfold setST
  split
  · exact h
  · exact ⟨by show (st.vList.set idx.toNat v).length = st.capacity
              rw [List.length_set]; exact h.1, h.2.1, h.2.2⟩

theorem shape_removeST {α : Type} [Inhabited α] (st : SegTree α) (env : Bool) (h : Shape st) :
    Shape (removeST st env).2 := by
  unfold removeST
  split
  · exact h
  · exact ⟨h.1, by show st.size - 1 ≤ st.capacity
                   have := h.2.1; omega, h.2.2⟩

theorem removeST_size {α : Type} [Inhabited α] (st : SegTree α) (env : Bool) (h : 0 < st.size) :
    (removeST st env).2.size = st.size - 1 := by
  rw [removeST_ok st env h]

theorem removeST_vList {α : Type} [Inhabited α] (st : SegTree α) (env : Bool) :
    (removeST st env).2.vList = st.vList := by
  unfold removeST
  split <;> rfl

theorem reachable_shape {α : Type} [Inhabited α] (vComp : α → α → Int) (st : SegTree α)
    (h : Reachable vComp st) : Shape st := by
  induction h with
  | make vSize => exact shape_makeST vSize vComp
  | add st v _ ih => exact shape_addUnbounded st v ih
  | set st idx v env _ _ ih => exact shape_setST st idx v env ih
  | remove st env _ _ ih => exact shape_removeST st env ih

theorem getST_ok {α : Type} [Inhabited α] (st : SegTree α) (idx : Int) (env : Bool)
    (h1 : 0 ≤ idx) (h2 : idx < st.size) :
    getST st idx env = Except.ok (valueAt st.vList idx) := by
  unfold getST
  rw [if_neg (by omega)]

theorem getST_nat {α : Type} [Inhabited α] (st : SegTree α) (k : Nat) (env : Bool)
    (h : k < st.size) : getST st (k : Int) env = Except.ok (st.vList.getD k default) := by
  rw [getST_ok st k env (by omega) (by omega), valueAt_natCast]

theorem addAll_spec {α : Type} [Inhabited α] : ∀ (vs : List α) (st : SegTree α), Shape st →
    Shape (addAll st vs) ∧ (addAll st vs).size = st.size + vs.length ∧
    ∀ k, k < st.size + vs.length → (addAll st vs).vList.getD k default =
      if k < st.size then st.vList.getD k default else vs.getD (k - st.size) default := by
  intro vs
  induction vs with
  | nil =>
    intro st h
    refine ⟨h, rfl, fun k hk => ?_⟩
    rw [if_pos (by simpa using hk)]
    rfl
  | cons v vs ih =>
    intro st h
    obtain ⟨i1, i2, i3⟩ := ih (addUnbounded st v).2 (shape_addUnbounded st v h)
    rw [addUnbounded_size] at i2 i3
    refine ⟨i1, by rw [List.length_cons]; show (addAll (addUnbounded st v).2 vs).size = _; omega, ?_⟩
    intro k hk
    rw [List.length_cons] at hk
    have := i3 k (by omega)
    show (addAll (addUnbounded st v).2 vs).vList.getD k default = _
    rw [this]
    by_cases hk1 : k < st.size
    · rw [if_pos (by omega), if_pos hk1, addUnbounded_getD st v h k (by omega), if_neg (by omega)]
    · rw [if_neg hk1]
      by_cases hk2 : k = st.size
      · rw [if_pos (by omega), addUnbounded_getD st v h k (by omega), if_pos hk2, hk2, Nat.sub_self]
        rfl
      · rw [if_neg (by omega)]
        have e : k - st.size = (k - (st.size + 1)) + 1 := by omega
        rw [e]
        rfl

theorem reachable_addAll {α : Type} [Inhabited α] (vComp : α → α → Int) :
    ∀ (vs : List α) (st : SegTree α), Reachable vComp st → Reachable vComp (addAll st vs) := by
  intro vs
  induction vs with
  | nil => intro st h; exact h
  | cons v vs ih => intro st h; exact ih _ (Reachable.add st v h)

/-! ## The `int` bound of `addST` -/

/-- The two outcomes of `addST`: no result when a full tree of at least 536870912 slots is to
be doubled (the number of nodes of the doubled tree is above `INT_MAX`), and otherwise what
the computation with unbounded integers gives. -/
theorem addST_eq {α : Type} [Inhabited α] (st : SegTree α) (v : α) :
    addST st v = if st.size ≥ st.capacity ∧ 536870912 ≤ st.capacity then
      Except.error Fault.intOverflow else Except.ok (addUnbounded st v) := by
  unfold addST addUnbounded
  by_cases hfull : st.size ≥ st.capacity
  · simp only [if_pos hfull]
    by_cases hcap : 536870912 ≤ st.capacity
    · rw [if_pos (by unfold TREE_OVERHEAD GROWTH_FACTOR INT_MAX; omega), if_pos ⟨hfull, hcap⟩]
    · rw [if_neg (by unfold TREE_OVERHEAD GROWTH_FACTOR INT_MAX; omega),
        if_neg (fun h => hcap h.2)]
      rfl
  · simp only [if_neg hfull]
    rw [if_neg (fun h => hfull h.1)]
    rfl

/-- On a tree of fewer than 536870912 values the `int` arithmetic of `addST` does not
overflow: the call yields what the computation with unbounded integers gives. -/
theorem addST_ok {α : Type} [Inhabited α] (st : SegTree α) (v : α) (h : st.size < 536870912) :
    addST st v = Except.ok (addUnbounded st v) := by
  rw [addST_eq, if_neg (by omega)]

/-- On a full tree of at least 536870912 slots `addST` yields no result. -/
theorem addST_overflow {α : Type} [Inhabited α] (st : SegTree α) (v : α)
    (hfull : st.size ≥ st.capacity) (hcap : 536870912 ≤ st.capacity) :
    addST st v = Except.error Fault.intOverflow := by
  rw [addST_eq, if_pos ⟨hfull, hcap⟩]

/-- Every tree the code can hold is in `Reachable`: a call of `addST` that yields a result
yields the tree of the unbounded computation. -/
theorem reachable_addST {α : Type} [Inhabited α] (vComp : α → α → Int) (st st' : SegTree α)
    (v : α) (r : Int) (hr : Reachable vComp st) (h : addST st v = Except.ok (r, st')) :
    Reachable vComp st' := by
  rw [addST_eq] at h
  split at h
  · cases h
  · have e : (addUnbounded st v).2 = st' := congrArg Prod.snd (Except.ok.inj h)
    rw [← e]
    exact Reachable.add st v hr

theorem addValues_cons {α : Type} [Inhabited α] (v : α) (vs : List α) (st : SegTree α) :
    addValues (v :: vs) st = match addST st v with
      | Except.error e => Except.error e
      | Except.ok (_, st) => addValues vs st := rfl

/-- A run of calls of `addST` that ends with at most 536870912 values in the tree yields
the tree of the unbounded computation. -/
theorem addValues_ok {α : Type} [Inhabited α] : ∀ (vs : List α) (st : SegTree α),
    st.size + vs.length ≤ 536870912 → addValues vs st = Except.ok (addAll st vs) := by
  intro vs
  induction vs with
  | nil => intro st _; rfl
  | cons v vs ih =>
    intro st h
    rw [List.length_cons] at h
    rw [addValues_cons, addST_ok st v (by omega)]
    exact ih (addUnbounded st v).2 (by rw [addUnbounded_size]; omega)

theorem addValues_append {α : Type} [Inhabited α] : ∀ (vs ws : List α) (st : SegTree α),
    addValues (vs ++ ws) st = match addValues vs st with
      | Except.error e => Except.error e
      | Except.ok st => addValues ws st := by
  intro vs
  induction vs with
  | nil => intro ws st; rfl
  | cons v vs ih =>
    intro ws st
    rw [List.cons_append, addValues_cons, addValues_cons]
    cases addST st v with
    | error e => rfl
    | ok x => exact ih ws x.2

/-- After adds alone the capacity is 4 or less than twice the number of values. -/
theorem addAll_capacity {α : Type} [Inhabited α] : ∀ (vs : List α) (st : SegTree α),
    Shape st → (st.capacity ≤ 4 ∨ st.capacity < 2 * st.size) →
    ((addAll st vs).capacity ≤ 4 ∨ (addAll st vs).capacity < 2 * (addAll st vs).size) := by
  intro vs
  induction vs with
  | nil => intro st _ h; exact h
  | cons v vs ih =>
    intro st hs h
    refine ih (addUnbounded st v).2 (shape_addUnbounded st v hs) ?_
    rw [addUnbounded_capacity, addUnbounded_size]
    have := hs.2.1
    split <;> omega

/-- The tree that holds 536870912 values is full: its capacity is 536870912 too. -/
theorem full_tree {α : Type} [Inhabited α] (vSize : Nat) (vComp : α → α → Int)
    (hc : IsTotalPreorder vComp) (a : α) :
    (addAll (makeST vSize vComp) (List.replicate 536870912 a)).size = 536870912 ∧
    (addAll (makeST vSize vComp) (List.replicate 536870912 a)).capacity = 536870912 := by
  have hsz := (addAll_spec (List.replicate 536870912 a) (makeST vSize vComp)
    (shape_makeST vSize vComp)).2.1
  have hs0 : (makeST vSize vComp).size = 0 := rfl
  rw [hs0, List.length_replicate, Nat.zero_add] at hsz
  have hcap := addAll_capacity (List.replicate 536870912 a) (makeST vSize vComp)
    (shape_makeST vSize vComp) (Or.inl (Nat.le_refl 4))
  have hinv := reachable_inv vComp hc _
    (reachable_addAll vComp (List.replicate 536870912 a) _ (Reachable.make vSize))
  obtain ⟨h, _, hpow⟩ := hinv.cap_pow
  have hle := hinv.size_le
  rw [hsz] at hcap hle
  refine ⟨hsz, ?_⟩
  rw [hpow] at hcap hle ⊢
  have e29 : (536870912 : Nat) = 2 ^ 29 := by norm_num
  have h1 : 29 ≤ h := by
    by_contra hlt
    have : 2 ^ h ≤ 2 ^ 28 := Nat.pow_le_pow_right (by decide) (by omega)
    have e28 : (2 : Nat) ^ 28 = 268435456 := by norm_num
    omega
  have h2 : h ≤ 29 := by
    by_contra hgt
    have : 2 ^ 30 ≤ 2 ^ h := Nat.pow_le_pow_right (by decide) (by omega)
    have e30 : (2 : Nat) ^ 30 = 1073741824 := by norm_num
    omega
  have : h = 29 := by omega
  rw [this]
  norm_num

/-- One more `addST` on the tree that holds 536870912 values yields no result. -/
theorem addST_full {α : Type} [Inhabited α] (vSize : Nat) (vComp : α → α → Int)
    (hc : IsTotalPreorder vComp) (a v : α) :
    addST (addAll (makeST vSize vComp) (List.replicate 536870912 a)) v =
      Except.error Fault.intOverflow := by
  obtain ⟨h1, h2⟩ := full_tree vSize vComp hc a
  exact addST_overflow _ v (by rw [h1, h2]) (by rw [h2])

/-- Adding 536870913 values to a fresh tree: the first 536870912 calls of `addST` yield the
full tree, the last one yields no result. -/
theorem addValues_overflow {α : Type} [Inhabited α] (vSize : Nat) (vComp : α → α → Int)
    (hc : IsTotalPreorder vComp) (a : α) :
    addValues (List.replicate 536870913 a) (makeST vSize vComp) =
      Except.error Fault.intOverflow := by
  have e : List.replicate 536870913 a = List.replicate 536870912 a ++ [a] :=
    List.replicate_succ' 536870912 a
  have hs0 : (makeST vSize vComp).size = 0 := rfl
  have hfit : (makeST vSize vComp).size + (List.replicate 536870912 a).length ≤ 536870912 := by
    rw [hs0, List.length_replicate, Nat.zero_add]
  rw [e, addValues_append, addValues_ok _ _ hfit]
  show addValues [a] _ = _
  rw [addValues_cons, addST_full vSize vComp hc a a]

/-! ## Claims about the segment tree -/

theorem isTotalPreorder_intComp : IsTotalPreorder intComp := by
  constructor
  · intro a b
    unfold intComp
    split_ifs <;> omega
  · intro a b c
    unfold intComp
    split_ifs <;> omega

/-- C14. Range query: for every tree built from `makeST` by `addST`, `setST` and `removeST`
with a comparison that is a total preorder, and every range `0 ≤ i ≤ j < size`, `queryST`
returns an index `r` of the range such that no value stored at an index of the range is
strictly better than the value at `r`. -/
theorem C14_query_best {α : Type} [Inhabited α] (vComp : α → α → Int)
    (hc : IsTotalPreorder vComp) (st : SegTree α) (hr : Reachable vComp st) (i j : Int)
    (env : Bool) (h0 : 0 ≤ i) (hij : i ≤ j) (hj : j < st.size) :
    ∃ (r : Int) (vr : α), queryST st i j env = Except.ok r ∧ i ≤ r ∧ r ≤ j ∧
      getST st r env = Except.ok vr ∧
      ∀ k : Int, i ≤ k → k ≤ j → ∃ vk, getST st k env = Except.ok vk ∧ vComp vk vr ≤ 0 := by
  have hv := reachable_vComp vComp st hr
  have hinv := reachable_inv vComp hc st hr
  obtain ⟨r, hr1, hr2, hr3, hr4⟩ := queryST_correct st (by rw [hv]; exact hc) hinv i.toNat
    j.toNat env (by omega) (by omega)
  rw [Int.toNat_of_nonneg h0, Int.toNat_of_nonneg (by omega : 0 ≤ j)] at hr1
  refine ⟨(r : Int), st.vList.getD r default, hr1, by omega, by omega,
    getST_nat st r env (by omega), ?_⟩
  intro k hk1 hk2
  refine ⟨st.vList.getD k.toNat default, ?_, ?_⟩
  · have := getST_nat st k.toNat env (by omega)
    rwa [Int.toNat_of_nonneg (by omega : 0 ≤ k)] at this
  · rw [← hv]
    exact hr4 k.toNat (by omega) (by omega)

/-- Witness of C14 at the tree holding 3, 10, 9, 2 (the first query test) and the range
0 .. 3. -/
theorem C14_query_best_witness :
    ∃ (r : Int) (vr : Int),
      queryST (addAll (makeST 4 intComp) [3, 10, 9, 2]) 0 3 false = Except.ok r ∧
      0 ≤ r ∧ r ≤ 3 ∧ getST (addAll (makeST 4 intComp) [3, 10, 9, 2]) r false = Except.ok vr ∧
      ∀ k : Int, 0 ≤ k → k ≤ 3 →
        ∃ vk, getST (addAll (makeST 4 intComp) [3, 10, 9, 2]) k false = Except.ok vk ∧
          intComp vk vr ≤ 0 :=
  C14_query_best intComp isTotalPreorder_intComp (addAll (makeST 4 intComp) [3, 10, 9, 2])
    (reachable_addAll intComp _ _ (Reachable.make 4)) 0 3 false (by decide) (by decide)
    (by rw [(addAll_spec [3, 10, 9, 2] (makeST 4 intComp) (shape_makeST 4 intComp)).2.1]
        decide)

/-- C15, counterexample. The claim read for a tree of every size fails: 536870912 calls of
`addST` on a fresh tree yield a tree of size 536870912, whose capacity is 536870912 too; on
it `addST` has to double the arrays, the number of nodes `TREE_OVERHEAD * newCapacity` is
2147483648, above `INT_MAX`, and the call yields no result: it does not return 536870912. -/
theorem C15_counterexample :
    addValues (List.replicate 536870912 0) (makeST 4 intComp) =
        Except.ok (addAll (makeST 4 intComp) (List.replicate 536870912 0)) ∧
      sizeST (addAll (makeST 4 intComp) (List.replicate 536870912 0)) = 536870912 ∧
      addST (addAll (makeST 4 intComp) (List.replicate 536870912 0)) 7 =
        Except.error Fault.intOverflow ∧
      ¬ ∃ st, addST (addAll (makeST 4 intComp) (List.replicate 536870912 0)) 7 =
        Except.ok (536870912, st) := by
  have hs0 : (makeST 4 intComp).size = 0 := rfl
  have hfit : (makeST 4 intComp).size + (List.replicate 536870912 (0 : Int)).length ≤
      536870912 := by
    rw [hs0, List.length_replicate, Nat.zero_add]
  have h := addST_full 4 intComp isTotalPreorder_intComp 0 7
  refine ⟨addValues_ok _ _ hfit, ?_, h, ?_⟩
  · unfold sizeST
    rw [(full_tree 4 intComp isTotalPreorder_intComp 0).1]
    rfl
  · rintro ⟨st, hst⟩
    rw [h] at hst
    cases hst

/-- C15, amended. `addST` appends: on every tree of size `n` below 536870912, `addST` returns
`n` and `sizeST` is `n + 1` afterwards, whether or not the arrays had to be doubled. -/
theorem C15_add_appends {α : Type} [Inhabited α] (st : SegTree α) (v : α)
    (h : st.size < 536870912) :
    ∃ st', addST st v = Except.ok (sizeST st, st') ∧ sizeST st' = sizeST st + 1 := by
  refine ⟨(addUnbounded st v).2, ?_, ?_⟩
  · rw [addST_ok st v h]
    unfold sizeST
    rw [← addUnbounded_fst st v]
  · unfold sizeST
    rw [addUnbounded_size]
    omega

/-- Witness of C15 at the full tree holding 5, 6, 7, 8, whose arrays are doubled by the
call. -/
theorem C15_add_appends_witness :
    ∃ st', addST (addAll (makeST 4 intComp) [5, 6, 7, 8]) 9 =
        Except.ok (sizeST (addAll (makeST 4 intComp) [5, 6, 7, 8]), st') ∧
      sizeST st' = sizeST (addAll (makeST 4 intComp) [5, 6, 7, 8]) + 1 :=
  C15_add_appends (addAll (makeST 4 intComp) [5, 6, 7, 8]) 9
    (by rw [(addAll_spec [5, 6, 7, 8] (makeST 4 intComp) (shape_makeST 4 intComp)).2.1]
        decide)

/-- C16, counterexample. The claim read for every number of values fails: of 536870913
calls of `addST` on a fresh tree the last one finds a full tree of 536870912 values and
yields no result, so there is no tree from which `getST` could read the values. -/
theorem C16_counterexample :
    addValues (List.replicate 536870913 1) (makeST 4 intComp) =
        Except.error Fault.intOverflow ∧
      ¬ ∃ st, addValues (List.replicate 536870913 1) (makeST 4 intComp) = Except.ok st ∧
        ∀ i : Nat, i < 536870913 → getST st (i : Int) false = Except.ok 1 := by
  have h := addValues_overflow 4 intComp isTotalPreorder_intComp 1
  refine ⟨h, ?_⟩
  rintro ⟨st, hst, _⟩
  rw [h] at hst
  cases hst

/-- C16, amended. Values are stored in insertion order: the calls of `addST` for at most
536870912 values `v0, v1, ...` in that order on a fresh tree all yield a result, and
afterwards `getST( i )` yields `v_i` for every index `i` below their number. -/
theorem C16_insertion_order {α : Type} [Inhabited α] (vSize : Nat) (vComp : α → α → Int)
    (vs : List α) (env : Bool) (hlen : vs.length ≤ 536870912) :
    ∃ st, addValues vs (makeST vSize vComp) = Except.ok st ∧
      ∀ i : Nat, i < vs.length → getST st (i : Int) env = Except.ok (vs.getD i default) := by
  obtain ⟨_, h2, h3⟩ := addAll_spec vs (makeST vSize vComp) (shape_makeST vSize vComp)
  have hs : (makeST vSize vComp).size = 0 := rfl
  refine ⟨addAll (makeST vSize vComp) vs, addValues_ok vs _ (by rw [hs]; omega), ?_⟩
  intro i hi
  rw [hs, Nat.zero_add] at h2 h3
  have := getST_nat (addAll (makeST vSize vComp) vs) i env (by rw [h2]; exact hi)
  rw [h3 i hi, if_neg (by omega), Nat.sub_zero] at this
  exact this

/-- Witness of C16 at nine values (the arrays are doubled once). -/
theorem C16_insertion_order_witness :
    ∃ st, addValues [2, 1, 4, 3, 6, 5, 7, 8, 10] (makeST 4 intComp) = Except.ok st ∧
      ∀ i : Nat, i < ([2, 1, 4, 3, 6, 5, 7, 8, 10] : List Int).length →
        getST st (i : Int) false =
          Except.ok (([2, 1, 4, 3, 6, 5, 7, 8, 10] : List Int).getD i default) :=
  C16_insertion_order 4 intComp [2, 1, 4, 3, 6, 5, 7, 8, 10] false (by decide)

/-- C17. `setST` replaces exactly one value: on a tree built by the operations and an index
`0 ≤ idx < size`, `setST( idx, v )` returns, `getST( idx )` then yields `v`, `getST( k )` is
unchanged for every other stored index `k`, and `sizeST` is unchanged. -/
theorem C17_set_replaces_one {α : Type} [Inhabited α] (vComp : α → α → Int) (st : SegTree α)
    (hr : Reachable vComp st) (idx : Int) (v : α) (env : Bool) (h0 : 0 ≤ idx)
    (h1 : idx < st.size) :
    (setST st idx v env).1 = Except.ok () ∧
    getST (setST st idx v env).2 idx env = Except.ok v ∧
    (∀ k : Int, 0 ≤ k → k < st.size → k ≠ idx →
      getST (setST st idx v env).2 k env = getST st k env) ∧
    sizeST (setST st idx v env).2 = sizeST st := by
  obtain ⟨s1, s2, _⟩ := reachable_shape vComp st hr
  have hsz := setST_size st idx v env
  have hvl : (setST st idx v env).2.vList = st.vList.set idx.toNat v := by
    rw [setST_ok st idx v env h0 h1]
  refine ⟨by rw [setST_ok st idx v env h0 h1], ?_, ?_, by unfold sizeST; rw [hsz]⟩
  · rw [getST_ok _ idx env h0 (by rw [hsz]; exact h1), hvl]
    unfold valueAt
    rw [getD_set_eq, if_pos ⟨rfl, by omega⟩]
  · intro k hk0 hk1 hne
    rw [getST_ok _ k env hk0 (by rw [hsz]; exact hk1), getST_ok st k env hk0 hk1, hvl]
    unfold valueAt
    rw [getD_set_eq, if_neg (by omega)]

/-- Witness of C17 at the tree holding 100, 200, -100, 0 (the set test), index 2, value 40. -/
theorem C17_set_replaces_one_witness :
    (setST (addAll (makeST 4 intComp) [100, 200, -100, 0]) 2 40 false).1 = Except.ok () ∧
    getST (setST (addAll (makeST 4 intComp) [100, 200, -100, 0]) 2 40 false).2 2 false =
      Except.ok 40 ∧
    (∀ k : Int, 0 ≤ k → k < (addAll (makeST 4 intComp) [100, 200, -100, 0]).size → k ≠ 2 →
      getST (setST (addAll (makeST 4 intComp) [100, 200, -100, 0]) 2 40 false).2 k false =
        getST (addAll (makeST 4 intComp) [100, 200, -100, 0]) k false) ∧
    sizeST (setST (addAll (makeST 4 intComp) [100, 200, -100, 0]) 2 40 false).2 =
      sizeST (addAll (makeST 4 intComp) [100, 200, -100, 0]) :=
  C17_set_replaces_one intComp (addAll (makeST 4 intComp) [100, 200, -100, 0])
    (reachable_addAll intComp _ _ (Reachable.make 4)) 2 40 false (by decide)
    (by rw [(addAll_spec [100, 200, -100, 0] (makeST 4 intComp) (shape_makeST 4 intComp)).2.1]
        decide)

/-- C18, counterexample. The last part of the claim fails on the tree of 536870912 values
built by `addST` from a fresh tree: it is a tree the operations build, and `addST` yields
no result on it, so no `removeST` follows that could restore the size and the values. -/
theorem C18_counterexample :
    Reachable intComp (addAll (makeST 4 intComp) (List.replicate 536870912 2)) ∧
      addValues (List.replicate 536870912 2) (makeST 4 intComp) =
        Except.ok (addAll (makeST 4 intComp) (List.replicate 536870912 2)) ∧
      addST (addAll (makeST 4 intComp) (List.replicate 536870912 2)) 3 =
        Except.error Fault.intOverflow ∧
      ¬ ∃ (r : Int) (st : SegTree Int),
        addST (addAll (makeST 4 intComp) (List.replicate 536870912 2)) 3 = Except.ok (r, st) ∧
        sizeST (removeST st false).2 =
          sizeST (addAll (makeST 4 intComp) (List.replicate 536870912 2)) := by
  have hs0 : (makeST 4 intComp).size = 0 := rfl
  have hfit : (makeST 4 intComp).size + (List.replicate 536870912 (2 : Int)).length ≤
      536870912 := by
    rw [hs0, List.length_replicate, Nat.zero_add]
  have h := addST_full 4 intComp isTotalPreorder_intComp 2 3
  refine ⟨reachable_addAll intComp _ _ (Reachable.make 4), addValues_ok _ _ hfit, h, ?_⟩
  rintro ⟨r, st, hst, _⟩
  rw [h] at hst
  cases hst

/-- C18, amended. `removeST` removes the most recently added value: on a tree built by the
operations with `n > 0` values it returns, `sizeST` is `n - 1` afterwards and `getST( k )` is
unchanged for every `k < n - 1`; and on a tree with fewer than 536870912 values `addST`
followed by `removeST` restores the size and every stored value. -/
theorem C18_remove_last {α : Type} [Inhabited α] (vComp : α → α → Int) (st : SegTree α)
    (hr : Reachable vComp st) (env : Bool) :
    (0 < st.size →
      (removeST st env).1 = Except.ok () ∧
      sizeST (removeST st env).2 = sizeST st - 1 ∧
      ∀ k : Int, 0 ≤ k → k < sizeST st - 1 →
        getST (removeST st env).2 k env = getST st k env) ∧
    (st.size < 536870912 → ∀ v : α, ∃ (r : Int) (st' : SegTree α),
      addST st v = Except.ok (r, st') ∧
      (removeST st' env).1 = Except.ok () ∧
      sizeST (removeST st' env).2 = sizeST st ∧
      ∀ k : Int, 0 ≤ k → k < sizeST st →
        getST (removeST st' env).2 k env = getST st k env) := by
  have hshape := reachable_shape vComp st hr
  unfold sizeST
  constructor
  · intro hpos
    have hsz := removeST_size st env hpos
    refine ⟨by rw [removeST_ok st env hpos], by rw [hsz]; omega, ?_⟩
    intro k hk0 hk1
    rw [getST_ok _ k env hk0 (by rw [hsz]; omega), getST_ok st k env hk0 (by omega),
      removeST_vList]
  · intro hlt v
    refine ⟨(addUnbounded st v).1, (addUnbounded st v).2, addST_ok st v hlt, ?_⟩
    have hpos : 0 < (addUnbounded st v).2.size := by rw [addUnbounded_size]; omega
    have hsz := removeST_size (addUnbounded st v).2 env hpos
    rw [addUnbounded_size] at hsz
    refine ⟨by rw [removeST_ok _ env hpos], by rw [hsz]; omega, ?_⟩
    intro k hk0 hk1
    rw [getST_ok _ k env hk0 (by rw [hsz]; omega), getST_ok st k env hk0 hk1, removeST_vList]
    have := addUnbounded_getD st v hshape k.toNat (by omega)
    rw [if_neg (by omega)] at this
    unfold valueAt
    exact congrArg _ this

/-- Witness of C18 at the tree holding 2, 8, -4, which is not empty. -/
theorem C18_remove_last_witness :
    ((removeST (addAll (makeST 4 intComp) [2, 8, -4]) false).1 = Except.ok () ∧
      sizeST (removeST (addAll (makeST 4 intComp) [2, 8, -4]) false).2 =
        sizeST (addAll (makeST 4 intComp) [2, 8, -4]) - 1 ∧
      ∀ k : Int, 0 ≤ k → k < sizeST (addAll (makeST 4 intComp) [2, 8, -4]) - 1 →
        getST (removeST (addAll (makeST 4 intComp) [2, 8, -4]) false).2 k false =
          getST (addAll (makeST 4 intComp) [2, 8, -4]) k false) ∧
    (∀ v : Int, ∃ (r : Int) (st' : SegTree Int),
      addST (addAll (makeST 4 intComp) [2, 8, -4]) v = Except.ok (r, st') ∧
      (removeST st' false).1 = Except.ok () ∧
      sizeST (removeST st' false).2 = sizeST (addAll (makeST 4 intComp) [2, 8, -4]) ∧
      ∀ k : Int, 0 ≤ k → k < sizeST (addAll (makeST 4 intComp) [2, 8, -4]) →
        getST (removeST st' false).2 k false =
          getST (addAll (makeST 4 intComp) [2, 8, -4]) k false) :=
  ⟨(C18_remove_last intComp (addAll (makeST 4 intComp) [2, 8, -4])
      (reachable_addAll intComp _ _ (Reachable.make 4)) false).1
      (by rw [(addAll_spec [2, 8, -4] (makeST 4 intComp) (shape_makeST 4 intComp)).2.1]
          decide),
    (C18_remove_last intComp (addAll (makeST 4 intComp) [2, 8, -4])
      (reachable_addAll intComp _ _ (Reachable.make 4)) false).2
      (by rw [(addAll_spec [2, 8, -4] (makeST 4 intComp) (shape_makeST 4 intComp)).2.1]
          decide)⟩

/-- C19. Error signalling with an error handler supplied: `removeST` signals
`SEGTREE_ERROR` exactly when the tree is empty, `getST` and `setST` exactly when `idx < 0`
or `idx >= size`, `queryST` exactly when `i < 0` or `j >= size` or `i > j`; a `removeST` or
`setST` that signals leaves the tree as it was (`getST` and `queryST` never write to it). -/
theorem C19_error_signalling {α : Type} [Inhabited α] (st : SegTree α) (idx i j : Int)
    (v : α) :
    ((removeST st true).1 = Except.error (Fault.longjmp SEGTREE_ERROR) ↔ st.size = 0) ∧
    ((removeST st true).1 = Except.error (Fault.longjmp SEGTREE_ERROR) →
      (removeST st true).2 = st) ∧
    (getST st idx true = Except.error (Fault.longjmp SEGTREE_ERROR) ↔
      (idx < 0 ∨ idx ≥ st.size)) ∧
    ((setST st idx v true).1 = Except.error (Fault.longjmp SEGTREE_ERROR) ↔
      (idx < 0 ∨ idx ≥ st.size)) ∧
    ((setST st idx v true).1 = Except.error (Fault.longjmp SEGTREE_ERROR) →
      (setST st idx v true).2 = st) ∧
    (queryST st i j true = Except.error (Fault.longjmp SEGTREE_ERROR) ↔
      (i < 0 ∨ j ≥ st.size ∨ i > j)) := by
  refine ⟨?_, ?_, ?_, ?_, ?_, ?_⟩
  · unfold removeST
    by_cases h : st.size ≤ 0
    · rw [if_pos h]
      simp only [if_true, true_iff]
      omega
    · rw [if_neg h]
      constructor
      · intro hh; cases hh
      · intro hh; omega
  · unfold removeST
    by_cases h : st.size ≤ 0
    · rw [if_pos h]; intro _; rfl
    · rw [if_neg h]; intro hh; cases hh
  · unfold getST
    by_cases h : idx < 0 ∨ idx ≥ st.size
    · rw [if_pos ⟨h, rfl⟩]
      exact ⟨fun _ => h, fun _ => rfl⟩
    · rw [if_neg (fun hh => h hh.1)]
      exact ⟨fun hh => (by cases hh), fun hh => absurd hh h⟩
  · unfold setST
    by_cases h : idx < 0 ∨ idx ≥ st.size
    · rw [if_pos h]
      exact ⟨fun _ => h, fun _ => rfl⟩
    · rw [if_neg h]
      exact ⟨fun hh => (by cases hh), fun hh => absurd hh h⟩
  · unfold setST
    by_cases h : idx < 0 ∨ idx ≥ st.size
    · rw [if_pos h]; intro _; rfl
    · rw [if_neg h]; intro hh; cases hh
  · unfold queryST
    by_cases h : i < 0 ∨ j ≥ st.size ∨ i > j
    · rw [if_pos ⟨h, rfl⟩]
      exact ⟨fun _ => h, fun _ => rfl⟩
    · rw [if_neg (fun hh => h hh.1)]
      constructor
      · intro hh
        simp only [] at hh
        split at hh <;> cases hh
      · intro hh; exact absurd hh h

end Seg

/-! # The sort program: lemmas -/

namespace SortProg

open Seg

/-! ## The selection loop of the sort program -/

/-- Taking the value at `r` out of the first `s + 1` values by moving the last one into its
place leaves a permutation of the others. -/
theorem perm_swap_remove {α : Type} (l : List α) (d : α) (r s : Nat) (hr : r ≤ s)
    (hs : s < l.length) :
    (l.getD r d :: (if r = s then l else l.set r (l.getD s d)).take s).Perm (l.take (s + 1)) := by
  have hts : l.take (s + 1) = l.take s ++ [l.getD s d] := by
    rw [List.take_succ, List.getElem?_eq_getElem hs, List.getD_eq_getElem _ _ hs]
    rfl
  rw [hts]
  by_cases hrs : r = s
  · rw [if_pos hrs, hrs]
    exact (List.perm_append_singleton _ _).symm
  · rw [if_neg hrs, List.set_take]
    have hrl : r < (l.take s).length := by rw [List.length_take]; omega
    have hgr : l.getD r d = (l.take s)[r] := by
      rw [List.getD_eq_getElem _ _ (by omega), List.getElem_take]
    rw [hgr]
    generalize l.getD s d = x
    generalize l.take s = a at hrl ⊢
    have ha : a = a.take r ++ a[r] :: a.drop (r + 1) := by
      rw [← List.drop_eq_getElem_cons hrl, List.take_append_drop]
    have hset : a.set r x = a.take r ++ x :: a.drop (r + 1) := List.set_eq_take_cons_drop x hrl
    rw [hset]
    generalize a[r] = y at ha ⊢
    generalize a.take r = T at ha ⊢
    generalize a.drop (r + 1) = D at ha ⊢
    rw [ha]
    have h1 : (y :: (T ++ x :: D)).Perm (x :: y :: (T ++ D)) :=
      ((@List.perm_middle _ x T D).cons y).trans (List.Perm.swap x y _)
    have h2 : ((T ++ y :: D) ++ [x]).Perm (x :: y :: (T ++ D)) :=
      (List.perm_append_singleton x _).trans ((@List.perm_middle _ y T D).cons x)
    exact h1.trans h2.symm

theorem mem_take_getD {α : Type} (l : List α) (d x : α) (n : Nat) (hn : n ≤ l.length)
    (hx : x ∈ l.take n) : ∃ k, k < n ∧ l.getD k d = x := by
  obtain ⟨k, hk, hkx⟩ := List.getElem_of_mem hx
  have hk' : k < n := by rw [List.length_take] at hk; omega
  refine ⟨k, hk', ?_⟩
  rw [List.getD_eq_getElem _ _ (by omega), ← hkx, List.getElem_take]

/-- One pass of the selection loop on a tree with `s + 1` values: it selects an index `r`
that no stored value beats, writes its value to `sorted[ i ]` and removes it from the tree. -/
theorem selectStep_spec {α : Type} [Inhabited α] (st : SegTree α)
    (hc : IsTotalPreorder st.vComp) (hinv : Inv st) (sorted : List α) (m s : Nat)
    (hs : st.size = s + 1) :
    ∃ (r : Nat) (st2 : SegTree α), r ≤ s ∧
      selectStep st sorted m =
        Except.ok (some (st2, sorted.set m (st.vList.getD r default))) ∧
      Inv st2 ∧ st2.vComp = st.vComp ∧ st2.size = s ∧
      st2.vList = (if r = s then st.vList else st.vList.set r (st.vList.getD s default)) ∧
      ∀ k, k ≤ s → st.vComp (st.vList.getD k default) (st.vList.getD r default) ≤ 0 := by
  obtain ⟨r, hq, _, hr2, hbest⟩ := queryST_correct st hc hinv 0 s false (Nat.zero_le _)
    (by omega)
  have hsz : sizeST st = ((s : Nat) : Int) + 1 := by unfold sizeST; rw [hs]; omega
  have hq' : queryST st 0 (sizeST st - 1) false = Except.ok (r : Int) := by
    rw [hsz]
    have e : ((s : Nat) : Int) + 1 - 1 = (s : Int) := by omega
    rw [e]; exact hq
  have hg : getST st (r : Int) false = Except.ok (st.vList.getD r default) :=
    getST_nat st r false (by omega)
  have hnz : ¬ sizeST st ≤ 0 := by rw [hsz]; omega
  by_cases hrs : r = s
  · -- the selected value is the last one
    have hcond : ¬ ((r : Int) ≠ sizeST st - 1) := by rw [hsz]; omega
    have hrem := removeST_ok st false (by omega : 0 < st.size)
    refine ⟨r, (removeST st false).2, hr2, ?_, inv_removeST st false hinv (by omega),
      removeST_vComp st false, by rw [hrem]; show st.size - 1 = s; omega, ?_,
      fun k hk => hbest k (Nat.zero_le _) hk⟩
    · unfold selectStep
      simp only [if_neg hnz, hq', hg, if_neg hcond]
      rw [hrem]
    · rw [if_pos hrs, hrem]
  · -- the last value takes the place of the selected one
    have hcond : (r : Int) ≠ sizeST st - 1 := by rw [hsz]; omega
    have hgl : getST st (sizeST st - 1) false = Except.ok (st.vList.getD s default) := by
      rw [hsz]
      have e : ((s : Nat) : Int) + 1 - 1 = (s : Int) := by omega
      rw [e]
      exact getST_nat st s false (by omega)
    have hset := setST_ok st (r : Int) (st.vList.getD s default) false (by omega) (by omega)
    have hinv1 := inv_setST st hc (r : Int) (st.vList.getD s default) false hinv (by omega)
      (by omega)
    have hsz1 : (setST st (r : Int) (st.vList.getD s default) false).2.size = s + 1 := by
      rw [setST_size]; exact hs
    have hrem := removeST_ok (setST st (r : Int) (st.vList.getD s default) false).2 false
      (by omega)
    refine ⟨r, (removeST (setST st (r : Int) (st.vList.getD s default) false).2 false).2, hr2,
      ?_, inv_removeST _ false hinv1 (by omega),
      by rw [removeST_vComp, setST_vComp], by rw [removeST_size _ _ (by omega), hsz1]; rfl, ?_,
      fun k hk => hbest k (Nat.zero_le _) hk⟩
    · unfold selectStep
      simp only [if_neg hnz, hq', hg, if_pos hcond, hgl]
      have h1 : (setST st (r : Int) (st.vList.getD s default) false).1 = Except.ok () := by
        rw [hset]
      have h2 : (removeST (setST st (r : Int) (st.vList.getD s default) false).2 false).1 =
          Except.ok () := by rw [hrem]
      generalize setST st (r : Int) (st.vList.getD s default) false = p1 at h1 h2 ⊢
      obtain ⟨p1a, p1b⟩ := p1
      simp only at h1 h2
      subst h1
      simp only
      generalize removeST p1b false = p2 at h2 ⊢
      obtain ⟨p2a, p2b⟩ := p2
      simp only at h2
      subst h2
      rfl
    · rw [if_neg hrs, removeST_vList, hset]
      simp only [Int.toNat_ofNat]

theorem take_set_self {α : Type} (l : List α) (m : Nat) (a : α) :
    (l.set m a).take m = l.take m := by
  apply List.ext_getElem?
  intro i
  rw [List.getElem?_take, List.getElem?_take]
  split
  · rw [List.getElem?_set_ne (by omega)]
  · rfl

theorem stored_perm_step {α : Type} [Inhabited α] (st st2 : SegTree α) (r s : Nat)
    (hr : r ≤ s) (hs : st.size = s + 1) (hlen : s < st.vList.length) (hs2 : st2.size = s)
    (hv2 : st2.vList = (if r = s then st.vList else st.vList.set r (st.vList.getD s default))) :
    (st.vList.getD r default :: stored st2).Perm (stored st) := by
  unfold stored
  rw [hs2, hv2, hs]
  exact perm_swap_remove st.vList default r s hr hlen

/-- The selection loop on a tree with `n` values fills `sorted[ m ]`, ..., `sorted[ m + n - 1 ]`
with the stored values, each followed only by values that do not beat it. -/
theorem selectLoop_spec {α : Type} [Inhabited α] (vComp : α → α → Int)
    (hc : IsTotalPreorder vComp) :
    ∀ (n m : Nat) (st : SegTree α) (sorted : List α), Inv st → st.vComp = vComp →
      st.size = n → sorted.length = m + n →
      ∃ final, selectLoop (List.range' m n) st sorted = Except.ok final ∧
        final.length = m + n ∧ final.take m = sorted.take m ∧
        List.Sorted (fun x y => vComp y x ≤ 0) (final.drop m) ∧
        (final.drop m).Perm (stored st) := by
  intro n
  induction n with
  | zero =>
    intro m st sorted _ _ hs hl
    refine ⟨sorted, rfl, hl, rfl, ?_, ?_⟩
    · rw [List.drop_of_length_le (by omega)]
      exact List.sorted_nil
    · rw [List.drop_of_length_le (by omega)]
      unfold stored
      rw [hs, List.take_zero]
  | succ n ih =>
    intro m st sorted hinv hv hs hl
    have hc' : IsTotalPreorder st.vComp := by rw [hv]; exact hc
    obtain ⟨r, st2, hr, hstep, hinv2, hv2, hs2, hvl2, hbest⟩ :=
      selectStep_spec st hc' hinv sorted m n hs
    obtain ⟨final, hf1, hf2, hf3, hf4, hf5⟩ := ih (m + 1) st2
      (sorted.set m (st.vList.getD r default)) hinv2 (by rw [hv2, hv]) hs2
      (by rw [List.length_set]; omega)
    have hlen : n < st.vList.length := by
      rw [hinv.vList_length]
      have := hinv.size_le
      omega
    have hperm := stored_perm_step st st2 r n hr hs hlen hs2 hvl2
    have hm : m < final.length := by omega
    have hfm : final[m] = st.vList.getD r default := by
      have h1 : final[m]? = some (st.vList.getD r default) := by
        rw [← List.getElem?_take_of_lt (Nat.lt_succ_self m), hf3,
          List.getElem?_take_of_lt (Nat.lt_succ_self m), List.getElem?_set_self (by omega)]
      rw [List.getElem?_eq_getElem hm] at h1
      exact Option.some.inj h1
    have hdrop : final.drop m = st.vList.getD r default :: final.drop (m + 1) := by
      rw [List.drop_eq_getElem_cons hm, hfm]
    refine ⟨final, ?_, by omega, ?_, ?_, ?_⟩
    · rw [List.range'_succ]
      unfold selectLoop
      rw [hstep]
      exact hf1
    · have hmin : min m (m + 1) = m := by omega
      have h1 : final.take m = (final.take (m + 1)).take m := by
        rw [List.take_take, hmin]
      rw [h1, hf3, List.take_take, hmin]
      exact take_set_self sorted m _
    · rw [hdrop, List.sorted_cons]
      refine ⟨?_, hf4⟩
      intro y hy
      have hy2 : y ∈ stored st := by
        apply hperm.subset
        exact List.mem_cons_of_mem _ (hf5.subset hy)
      unfold stored at hy2
      rw [hs] at hy2
      obtain ⟨k, hk, hky⟩ := mem_take_getD st.vList default y (n + 1) (by omega) hy2
      rw [← hky, ← hv]
      exact hbest k (by omega)
    · rw [hdrop]
      exact (hf5.cons _).trans hperm

theorem isTotalPreorder_compare {α : Type} [LinearOrder α] :
    IsTotalPreorder (SortProg.compare : α → α → Int) := by
  constructor
  · intro a b
    unfold SortProg.compare
    rcases lt_trichotomy a b with h | h | h
    · have h2 : ¬ b < a := not_lt.mpr (le_of_lt h)
      simp [h, h2]
    · subst h; simp
    · have h2 : ¬ a < b := not_lt.mpr (le_of_lt h)
      simp [h, h2]
  · intro a b c
    unfold SortProg.compare
    intro h1 h2
    have hab : ¬ a < b := by
      intro h; rw [if_pos h] at h1; omega
    have hbc : ¬ b < c := by
      intro h; rw [if_pos h] at h2; omega
    have hac : ¬ a < c := fun h => hab (lt_of_lt_of_le h (not_lt.mp hbc))
    rw [if_neg hac]
    split <;> omega

theorem compare_le {α : Type} [LinearOrder α] (x y : α)
    (h : (SortProg.compare y x : Int) ≤ 0) : x ≤ y := by
  unfold SortProg.compare at h
  by_cases h1 : y < x
  · rw [if_pos h1] at h; omega
  · exact not_lt.mp h1

theorem stored_addAll {α : Type} [Inhabited α] (vSize : Nat) (vComp : α → α → Int)
    (vs : List α) : stored (addAll (makeST vSize vComp) vs) = vs := by
  obtain ⟨h1, h2, h3⟩ := addAll_spec vs (makeST vSize vComp) (shape_makeST vSize vComp)
  have hs : (makeST vSize vComp).size = 0 := rfl
  rw [hs, Nat.zero_add] at h2 h3
  unfold stored
  rw [h2]
  apply List.ext_getElem
  · rw [List.length_take]
    have := h1.1
    have := h1.2.1
    omega
  · intro k hk1 hk2
    have := h3 k hk2
    rw [if_neg (by omega), Nat.sub_zero, List.getD_eq_getElem _ _ hk2,
      List.getD_eq_getElem _ _ (by rw [List.length_take] at hk1; omega)] at this
    rw [List.getElem_take]
    exact this

/-- When a call of `addST` in the reading loop yields no result, neither does the program. -/
theorem sortValues_error {α : Type} [LinearOrder α] [Inhabited α] (values : List α)
    (e : Fault) (h : addValues values (makeST 8 SortProg.compare) = Except.error e) :
    sortValues values = Except.error e := by
  unfold sortValues
  simp only []
  split
  · next e' heq =>
    rw [h] at heq
    rw [Except.error.inj heq]
  · next st heq =>
    rw [h] at heq
    cases heq

/-- When the reading loop yields the tree `st`, the program runs the selection loop on it. -/
theorem sortValues_ok {α : Type} [LinearOrder α] [Inhabited α] (values : List α)
    (st : SegTree α) (h : addValues values (makeST 8 SortProg.compare) = Except.ok st) :
    sortValues values =
      selectLoop (List.range values.length) st (List.replicate values.length default) := by
  unfold sortValues
  simp only []
  split
  · next e' heq =>
    rw [h] at heq
    cases heq
  · next st' heq =>
    rw [h] at heq
    rw [Except.ok.inj heq]

/-- C20, counterexample. The claim read for every finite input fails: for the input of
536870913 values 0 the reading loop of `main` calls `addST` 536870913 times; the last call
finds a full tree of 536870912 values, the number of nodes of the doubled tree is above
`INT_MAX` and the call yields no result, so no sorted array is produced. -/
theorem C20_counterexample :
    sortValues (List.replicate 536870913 (0 : Int)) = Except.error Fault.intOverflow ∧
      ¬ ∃ sorted, sortValues (List.replicate 536870913 (0 : Int)) = Except.ok sorted ∧
        List.Sorted (fun x y => x ≤ y) sorted ∧
        sorted.Perm (List.replicate 536870913 (0 : Int)) := by
  have h : sortValues (List.replicate 536870913 (0 : Int)) =
      Except.error Fault.intOverflow :=
    sortValues_error _ _ (addValues_overflow 8 SortProg.compare isTotalPreorder_compare 0)
  refine ⟨h, ?_⟩
  rintro ⟨sorted, hs, _⟩
  rw [h] at hs
  cases hs

/-- C20, amended. The selection loop of the sort program sorts: for every input list of at
most 536870912 linearly ordered values, the array `sorted` that `main` fills by repeated
`queryST( 0, size - 1 )`, `setST` with the last value and `removeST` is in non-decreasing
order and is a permutation of the input. -/
theorem C20_sort_sorts {α : Type} [LinearOrder α] [Inhabited α] (values : List α)
    (hlen : values.length ≤ 536870912) :
    ∃ sorted, sortValues values = Except.ok sorted ∧
      List.Sorted (fun x y => x ≤ y) sorted ∧ sorted.Perm values := by
  have hreach : Reachable (SortProg.compare : α → α → Int)
      (addAll (makeST 8 SortProg.compare) values) :=
    reachable_addAll _ values _ (Reachable.make 8)
  have hinv := reachable_inv _ isTotalPreorder_compare _ hreach
  have hv := reachable_vComp _ _ hreach
  have hsz := (addAll_spec values (makeST 8 (SortProg.compare : α → α → Int))
    (shape_makeST 8 _)).2.1
  have hs0 : (makeST 8 (SortProg.compare : α → α → Int)).size = 0 := rfl
  rw [hs0, Nat.zero_add] at hsz
  obtain ⟨final, hf1, _, _, hf4, hf5⟩ := selectLoop_spec (SortProg.compare : α → α → Int)
    isTotalPreorder_compare values.length 0 (addAll (makeST 8 SortProg.compare) values)
    (List.replicate values.length default) hinv hv hsz
    (by rw [List.length_replicate, Nat.zero_add])
  rw [List.drop_zero] at hf4 hf5
  rw [stored_addAll] at hf5
  refine ⟨final, ?_, ?_, hf5⟩
  · rw [sortValues_ok values _ (addValues_ok values _ (by rw [hs0]; omega)),
      List.range_eq_range']
    exact hf1
  · exact List.Pairwise.imp (fun {x y} h => compare_le x y h) hf4

/-- Witness of C20 at the input 3, 1, 2, 1. -/
theorem C20_sort_sorts_witness :
    ∃ sorted, sortValues ([3, 1, 2, 1] : List Int) = Except.ok sorted ∧
      List.Sorted (fun x y => x ≤ y) sorted ∧ sorted.Perm [3, 1, 2, 1] :=
  C20_sort_sorts [3, 1, 2, 1] (by decide)

end SortProg

/-! # The date functions: properties -/

namespace Calendar

theorem daysInMonth_le (year month : Nat) : daysInMonth year month ≤ 31 := by
  unfold daysInMonth
  split
  all_goals first | omega | (split <;> omega)

end Calendar

namespace Database

open Calendar

theorem isValidSaturday_outside (month day : Int)
    (h : month < 6 ∨ month > 11 ∨ day < 1 ∨ day > 31) : isValidSaturday month day = false := by
  unfold isValidSaturday MIN_VALID_MONTH MAX_VALID_MONTH MIN_VALID_DAY MAX_VALID_DAY
  rw [if_pos h]

theorem isSeasonSaturday_outside (month day : Int)
    (h : month < 6 ∨ month > 11 ∨ day < 1 ∨ day > 31) : isSeasonSaturday month day = false := by
  by_contra hne
  have ht : isSeasonSaturday month day = true := by
    cases hh : isSeasonSaturday month day
    · exact absurd hh hne
    · rfl
  unfold isSeasonSaturday isDate at ht
  simp only [Bool.and_eq_true, Bool.or_eq_true, decide_eq_true_eq, beq_iff_eq] at ht
  obtain ⟨⟨⟨⟨hm0, hd0⟩, ⟨⟨⟨_, _⟩, hd1⟩, hd2⟩⟩, _⟩, hrange⟩ := ht
  have hdim := daysInMonth_le 2025 month.toNat
  omega

theorem isValidSaturday_table :
    ∀ m, m < 6 → ∀ d, d < 31 →
      isValidSaturday ((m + 6 : Nat) : Int) ((d + 1 : Nat) : Int) =
        isSeasonSaturday ((m + 6 : Nat) : Int) ((d + 1 : Nat) : Int) := by
  decide

/-- C21. For all integers `month` and `day`, `isValidSaturday` is true exactly when
`month/day` is a date of the calendar of 2025 that is a Saturday and lies between 7 June and
29 November inclusive. -/
theorem C21_valid_saturday (month day : Int) :
    isValidSaturday month day = isSeasonSaturday month day := by
  by_cases h : month < 6 ∨ month > 11 ∨ day < 1 ∨ day > 31
  · rw [isValidSaturday_outside month day h, isSeasonSaturday_outside month day h]
  · have hm : month = (((month.toNat - 6) + 6 : Nat) : Int) := by omega
    have hd : day = (((day.toNat - 1) + 1 : Nat) : Int) := by omega
    rw [hm, hd]
    exact isValidSaturday_table (month.toNat - 6) (by omega) (day.toNat - 1) (by omega)

/-- C23. The value of `sortDates` on 7 June and 7 August is -2: the first date is earlier
and the result is not -1. -/
theorem C23_sortDates_difference :
    sortDates ⟨6, 7, true⟩ ⟨8, 7, true⟩ = -2 ∧ sortDates ⟨8, 7, true⟩ ⟨6, 7, true⟩ = 2 ∧
    sortDates ⟨6, 7, true⟩ ⟨8, 7, true⟩ ≠ -1 := by
  decide

end Database

namespace Data

open Calendar

theorem tmod_natCast (y n : Nat) : ((y : Int).tmod (n : Int) == 0) = (y % n == 0) := by
  rw [Int.tmod_eq_emod (Int.ofNat_nonneg y) (Int.ofNat_nonneg n)]
  have h : ((y : Int) % (n : Int) = 0) ↔ (y % n = 0) := by
    constructor
    · intro h; exact_mod_cast h
    · intro h; exact_mod_cast h
  by_cases hh : y % n = 0
  · simp [hh, h.mpr hh]
  · have : ¬ ((y : Int) % (n : Int) = 0) := fun h2 => hh (h.mp h2)
    simp [hh, this]

theorem isLeapYear_eq (y : Nat) : isLeapYear (y : Int) = isLeap y := by
  unfold isLeapYear isLeap LEAP_YEAR_CHECK1 LEAP_YEAR_CHECK2 LEAP_YEAR_CHECK3
  have h4 := tmod_natCast y 4
  have h100 := tmod_natCast y 100
  have h400 := tmod_natCast y 400
  simp only [Nat.cast_ofNat] at h4 h100 h400
  simp only [bne, h4, h100, h400]

theorem getMaxDays_eq (y m : Nat) (h1 : 1 ≤ m) (h2 : m ≤ 12) :
    getMaxDays (m : Int) (y : Int) = (daysInMonth y m : Int) := by
  unfold getMaxDays
  rw [isLeapYear_eq]
  interval_cases m <;> simp [FEB_MONTH, MONTH_DAYS_1, MONTH_DAYS_2, MONTH_DAYS_3, MONTH_DAYS_4,
    daysInMonth]

theorem digitValue_add (k : Nat) : digitValue ('0'.toNat + k) = (k : Int) := by
  unfold digitValue
  push_cast
  omega

theorem isDigit_add (k : Nat) (h : k ≤ 9) : isDigit ('0'.toNat + k) = true := by
  unfold isDigit
  have e0 : '0'.toNat = 48 := rfl
  have e9 : '9'.toNat = 57 := rfl
  rw [e0, e9]
  simp only [Bool.and_eq_true, decide_eq_true_eq]
  omega

/-- What `formatDate` does with a buffer that holds ten characters of the form
`MM sep DD sep YYYY` given by their digits. -/
theorem formatDate_digits (m1 m2 d1 d2 y1 y2 y3 y4 sep : Nat) (rest : List Nat)
    (hm1 : m1 ≤ 9) (hm2 : m2 ≤ 9) (hd1 : d1 ≤ 9) (hd2 : d2 ≤ 9)
    (hy1 : y1 ≤ 9) (hy2 : y2 ≤ 9) (hy3 : y3 ≤ 9) (hy4 : y4 ≤ 9)
    (hsep : sep = '/'.toNat ∨ sep = '-'.toNat)
    (hyear : 1926 ≤ y1 * 1000 + y2 * 100 + y3 * 10 + y4 ∧
      y1 * 1000 + y2 * 100 + y3 * 10 + y4 ≤ 2025)
    (hmonth : 1 ≤ m1 * 10 + m2 ∧ m1 * 10 + m2 ≤ 12)
    (hday : 1 ≤ d1 * 10 + d2 ∧ d1 * 10 + d2 ≤
      daysInMonth (y1 * 1000 + y2 * 100 + y3 * 10 + y4) (m1 * 10 + m2)) :
    formatDate (['0'.toNat + m1, '0'.toNat + m2, sep, '0'.toNat + d1, '0'.toNat + d2, sep,
        '0'.toNat + y1, '0'.toNat + y2, '0'.toNat + y3, '0'.toNat + y4, 0] ++ rest) =
      Except.ok (true, ['0'.toNat + y1, '0'.toNat + y2, '0'.toNat + y3, '0'.toNat + y4,
        '-'.toNat, '0'.toNat + m1, '0'.toNat + m2, '-'.toNat, '0'.toNat + d1, '0'.toNat + d2,
        0] ++ rest) := by
  generalize hL : (['0'.toNat + m1, '0'.toNat + m2, sep, '0'.toNat + d1, '0'.toNat + d2, sep,
    '0'.toNat + y1, '0'.toNat + y2, '0'.toNat + y3, '0'.toNat + y4, 0] ++ rest) = L
  have c0 : charAt L 0 = '0'.toNat + m1 := by rw [← hL]; rfl
  have c1 : charAt L 1 = '0'.toNat + m2 := by rw [← hL]; rfl
  have c2 : charAt L 2 = sep := by rw [← hL]; rfl
  have c3 : charAt L 3 = '0'.toNat + d1 := by rw [← hL]; rfl
  have c4 : charAt L 4 = '0'.toNat + d2 := by rw [← hL]; rfl
  have c5 : charAt L 5 = sep := by rw [← hL]; rfl
  have c6 : charAt L 6 = '0'.toNat + y1 := by rw [← hL]; rfl
  have c7 : charAt L 7 = '0'.toNat + y2 := by rw [← hL]; rfl
  have c8 : charAt L 8 = '0'.toNat + y3 := by rw [← hL]; rfl
  have c9 : charAt L 9 = '0'.toNat + y4 := by rw [← hL]; rfl
  have e0 : '0'.toNat = 48 := rfl
  have eD : '-'.toNat = 45 := rfl
  have eS : '/'.toNat = 47 := rfl
  have hcheck : (List.range DATE_LEN).all (formatCheck L) = true := by
    rw [List.all_eq_true]
    intro i hi
    rw [List.mem_range] at hi
    unfold DATE_LEN at hi
    unfold formatCheck MM_DD_YYYY_SEP1 MM_DD_YYYY_SEP2
    interval_cases i
    · rw [if_neg (by omega), c0]; exact isDigit_add m1 hm1
    · rw [if_neg (by omega), c1]; exact isDigit_add m2 hm2
    · rw [if_pos (by omega), c2]
      rcases hsep with h | h <;> simp [h]
    · rw [if_neg (by omega), c3]; exact isDigit_add d1 hd1
    · rw [if_neg (by omega), c4]; exact isDigit_add d2 hd2
    · rw [if_pos (by omega), c5]
      rcases hsep with h | h <;> simp [h]
    · rw [if_neg (by omega), c6]; exact isDigit_add y1 hy1
    · rw [if_neg (by omega), c7]; exact isDigit_add y2 hy2
    · rw [if_neg (by omega), c8]; exact isDigit_add y3 hy3
    · rw [if_neg (by omega), c9]; exact isDigit_add y4 hy4
  have hmax := getMaxDays_eq (y1 * 1000 + y2 * 100 + y3 * 10 + y4) (m1 * 10 + m2) hmonth.1
    hmonth.2
  push_cast at hmax
  unfold formatDate
  simp only [YYYY_MM_DD_SEP1, YYYY_MM_DD_SEP2, MM_DD_YYYY_SEP1, MM_DD_YYYY_SEP2,
    YEAR_START_INDEX, YEAR_ONES_PLACE, YEAR_TENS_PLACE, DAY_START_INDEX, Nat.reduceAdd]
  rw [if_neg (by rw [c4, e0, eD]; omega), if_pos (by rw [c2, c5]; tauto),
    if_neg (by rw [hcheck]; simp)]
  simp only [c0, c1, c2, c3, c4, c5, c6, c7, c8, c9, digitValue_add, isDigit_add _ hy1,
    isDigit_add _ hy4, and_self, if_true, TWODIGIT_YEAR, THOUSANDS_DIGIT, HUNDREDS_DIGIT,
    TENS_DIGIT, YEAR_MIN, YEAR_MAX, MONTH_MAX]
  rw [if_neg (by omega), if_neg (by omega), if_neg (by rw [hmax]; omega)]
  rw [← hL]
  rfl

theorem formatDate_yearFirst (date : List Nat) (h4 : charAt date 4 = '-'.toNat)
    (h7 : charAt date 7 = '-'.toNat) : formatDate date = Except.ok (true, date) := by
  unfold formatDate YYYY_MM_DD_SEP1 YYYY_MM_DD_SEP2
  rw [if_pos ⟨h4, h7⟩]

/-- C22. `formatDate` normalises dates: for every date of the calendar with a year in
1926..2025, written `MM/DD/YYYY` or `MM-DD-YYYY` (the same separator twice), `formatDate`
returns true and the buffer then holds `YYYY-MM-DD` with the same digits; and a buffer
with `-` at the indices 4 and 7 is returned as it is, with result true. -/
theorem C22_formatDate_normalises (year month day sep : Nat) (rest : List Nat)
    (hy1 : 1926 ≤ year) (hy2 : year ≤ 2025) (hdate : isDate year month day = true)
    (hsep : sep = '/'.toNat ∨ sep = '-'.toNat) :
    formatDate (monthFirst sep year month day rest) =
      Except.ok (true, yearFirst year month day rest) ∧
    ∀ date : List Nat, charAt date 4 = '-'.toNat → charAt date 7 = '-'.toNat →
      formatDate date = Except.ok (true, date) := by
  refine ⟨?_, fun date h4 h7 => formatDate_yearFirst date h4 h7⟩
  unfold isDate at hdate
  simp only [Bool.and_eq_true, decide_eq_true_eq] at hdate
  obtain ⟨⟨⟨hm1, hm2⟩, hd1⟩, hd2⟩ := hdate
  have hd3 := daysInMonth_le year month
  have ey : year / 1000 * 1000 + year / 100 % 10 * 100 + year / 10 % 10 * 10 + year % 10 =
    year := by omega
  have em : month / 10 * 10 + month % 10 = month := by omega
  have ed : day / 10 * 10 + day % 10 = day := by omega
  exact formatDate_digits (month / 10) (month % 10) (day / 10) (day % 10) (year / 1000)
    (year / 100 % 10) (year / 10 % 10) (year % 10) sep rest (by omega) (by omega) (by omega)
    (by omega) (by omega) (by omega) (by omega) (by omega) hsep (by rw [ey]; omega)
    (by rw [em]; omega) (by rw [ey, em, ed]; omega)

/-- Witness of C22 at 29 February 2024 written with slashes. -/
theorem C22_formatDate_normalises_witness :
    formatDate (monthFirst '/'.toNat 2024 2 29 []) =
      Except.ok (true, yearFirst 2024 2 29 []) ∧
    ∀ date : List Nat, charAt date 4 = '-'.toNat → charAt date 7 = '-'.toNat →
      formatDate date = Except.ok (true, date) :=
  C22_formatDate_normalises 2024 2 29 '/'.toNat [] (by decide) (by decide) (by decide)
    (Or.inl rfl)

end Data

/-! # Triple DES: closed forms of the components -/

namespace TDES

/-! ## The key schedule in closed form -/

theorem rotateLeft_eq (bits : List Nat) (shift : Nat) :
    rotateLeft bits shift = (List.range shift).foldl (fun bits _ => rotateOnce bits) bits := rfl

theorem generateSubkeys_eq (K : List (List Nat)) (key : List Nat) :
    generateSubkeys K key =
      ((List.range' 1 16).foldl keyStep
        (keyHalf key leftSubkeyPerm, keyHalf key rightSubkeyPerm, K)).2.2 := rfl

theorem shiftLoop_spec (bits : List Nat) (hlen : 4 ≤ bits.length) : ∀ m, m ≤ 27 →
    ((List.range' 1 m).foldl (fun bits i => putBit bits i (getBit bits (i + 1))) bits).length =
      bits.length ∧
    ∀ j, 1 ≤ j →
      getBit ((List.range' 1 m).foldl (fun bits i => putBit bits i (getBit bits (i + 1))) bits) j =
        if j ≤ m then getBit bits (j + 1) else getBit bits j := by
  intro m
  induction m with
  | zero =>
    intro _
    refine ⟨rfl, ?_⟩
    intro j hj
    rw [if_neg (by omega)]
    rfl
  | succ m ih =>
    intro hm
    obtain ⟨h1, h2⟩ := ih (by omega)
    rw [List.range'_concat, List.foldl_append]
    simp only [List.foldl_cons, List.foldl_nil]
    refine ⟨by rw [length_putBit, h1], ?_⟩
    intro j hj
    have e : 1 + 1 * m = m + 1 := by omega
    have hget : getBit ((List.range' 1 m).foldl
        (fun bits i => putBit bits i (getBit bits (i + 1))) bits) (m + 1 + 1) =
        getBit bits (m + 1 + 1) := by
      rw [h2 (m + 1 + 1) (by omega), if_neg (by omega)]
    rw [e, getBit_putBit, bitOf_getBit, hget, h2 j hj]
    by_cases hc : j - 1 = m + 1 - 1 ∧ (m + 1 - 1) / 8 < ((List.range' 1 m).foldl
        (fun bits i => putBit bits i (getBit bits (i + 1))) bits).length
    · rw [if_pos hc, if_pos (by omega)]
      have : j = m + 1 := by omega
      rw [this]
    · rw [if_neg hc]
      have hne : j ≠ m + 1 := by
        intro hj2
        apply hc
        rw [h1]
        constructor <;> omega
      by_cases hj2 : j ≤ m
      · rw [if_pos hj2, if_pos (by omega)]
      · rw [if_neg hj2, if_neg (by omega)]

theorem rotateOnce_length (bits : List Nat) (hlen : 4 ≤ bits.length) :
    (rotateOnce bits).length = bits.length := by
  unfold rotateOnce
  simp only [HALF_SUBKEY_BITS]
  rw [length_putBit, (shiftLoop_spec bits hlen 27 (Nat.le_refl 27)).1]

theorem rotateOnce_getBit (bits : List Nat) (hlen : 4 ≤ bits.length) (j : Nat) (hj : 1 ≤ j) :
    getBit (rotateOnce bits) j =
      if j < 28 then getBit bits (j + 1) else if j = 28 then getBit bits 1
      else getBit bits j := by
  obtain ⟨h1, h2⟩ := shiftLoop_spec bits hlen 27 (Nat.le_refl 27)
  unfold rotateOnce
  simp only [HALF_SUBKEY_BITS]
  rw [getBit_putBit, bitOf_getBit, h2 j hj, h1]
  by_cases hc : j = 28
  · rw [if_pos ⟨by omega, by omega⟩, if_neg (by omega), if_pos hc]
  · rw [if_neg (fun hh => hc (by omega))]
    by_cases hj2 : j < 28
    · rw [if_pos (by omega), if_pos hj2]
    · rw [if_neg (by omega), if_neg hj2, if_neg hc]

theorem bitsOf_length (data : List Nat) (n : Nat) : (bitsOf data n).length = n := by
  unfold bitsOf
  rw [List.length_map, List.length_range']

theorem bitsOf_getElem (data : List Nat) (n k : Nat) (h : k < (bitsOf data n).length) :
    (bitsOf data n)[k] = getBit data (k + 1) := by
  unfold bitsOf
  rw [List.getElem_map, List.getElem_range']
  congr 1
  omega

theorem bitsOf_getD (data : List Nat) (n k : Nat) (h : k < n) :
    (bitsOf data n).getD k 0 = getBit data (k + 1) := by
  rw [List.getD_eq_getElem _ _ (by rw [bitsOf_length]; exact h), bitsOf_getElem]

theorem bitsOf_congr (a b : List Nat) (n : Nat)
    (h : ∀ j, 1 ≤ j → j ≤ n → getBit a j = getBit b j) : bitsOf a n = bitsOf b n := by
  unfold bitsOf
  apply List.map_congr_left
  intro j hj
  rw [List.mem_range'_1] at hj
  exact h j hj.1 (by omega)

theorem bitsOf_rotateOnce (bits : List Nat) (hlen : 4 ≤ bits.length) :
    bitsOf (rotateOnce bits) 28 = (bitsOf bits 28).rotate 1 := by
  apply List.ext_getElem
  · rw [List.length_rotate, bitsOf_length, bitsOf_length]
  · intro k hk1 hk2
    have hk : k < 28 := by rw [bitsOf_length] at hk1; exact hk1
    rw [List.getElem_rotate, bitsOf_getElem, bitsOf_getElem, rotateOnce_getBit bits hlen _ (by omega)]
    simp only [bitsOf_length]
    by_cases hc : k + 1 < 28
    · rw [if_pos hc]
      have : (k + 1) % 28 = k + 1 := Nat.mod_eq_of_lt hc
      rw [this]
    · rw [if_neg hc, if_pos (by omega)]
      have : (k + 1) % 28 = 0 := by omega
      rw [this]

theorem rotateLeft_spec (shift : Nat) : ∀ (bits : List Nat), 4 ≤ bits.length →
    (rotateLeft bits shift).length = bits.length ∧
    bitsOf (rotateLeft bits shift) 28 = (bitsOf bits 28).rotate shift := by
  induction shift with
  | zero =>
    intro bits _
    exact ⟨rfl, by rw [List.rotate_zero]; rfl⟩
  | succ s ih =>
    intro bits hlen
    obtain ⟨h1, h2⟩ := ih bits hlen
    have e : rotateLeft bits (s + 1) = rotateOnce (rotateLeft bits s) := by
      rw [rotateLeft_eq, rotateLeft_eq, List.range_succ, List.foldl_append]
      rfl
    rw [e]
    refine ⟨by rw [rotateOnce_length _ (by omega), h1], ?_⟩
    rw [bitsOf_rotateOnce _ (by omega), h2, List.rotate_rotate]

theorem cd_getBit (C D : List Nat) (p : Nat) (h1 : 1 ≤ p) (h2 : p ≤ 56) :
    getBit ((List.range' 1 HALF_SUBKEY_BITS).foldl
      (fun CD i => putBit CD (i + HALF_SUBKEY_BITS) (getBit D i))
      ((List.range' 1 HALF_SUBKEY_BITS).foldl (fun CD i => putBit CD i (getBit C i))
        (List.replicate (ROUND_TO_BYTES (HALF_SUBKEY_BITS * NUM_HALVES)) 0))) p =
      if p ≤ 28 then getBit C p else getBit D (p - 28) := by
  show getBit (putLoop (getBit D) 28 1 28 (putLoop (getBit C) 0 1 28 (List.replicate 7 0))) p =
    if p ≤ 28 then getBit C p else getBit D (p - 28)
  rw [putLoop_getBit _ _ _ _ _ (by omega)
    (by rw [putLoop_length, List.length_replicate]) p h1]
  by_cases h : p ≤ 28
  · rw [if_neg (by omega), if_pos h,
      putLoop_getBit _ _ _ _ _ (by omega) (by rw [List.length_replicate]; omega) p h1,
      if_pos (by omega)]
    exact bitOf_getBit _ _
  · rw [if_pos (by omega), if_neg h]
    exact bitOf_getBit _ _

theorem pc2_range : ∀ t, t < 48 → 1 ≤ subkeyPerm.getD t 0 ∧ subkeyPerm.getD t 0 ≤ 56 := by
  decide

theorem slot_getD_set (K : List (List Nat)) (i j : Nat) (a : List Nat) :
    (K.set i a).getD j [] = if i = j ∧ i < K.length then a else K.getD j [] := by
  rw [List.getD_eq_getElem?_getD, List.getD_eq_getElem?_getD, List.getElem?_set]
  by_cases h : i = j
  · subst h
    by_cases h2 : i < K.length
    · rw [if_pos rfl, if_pos h2, if_pos ⟨rfl, h2⟩]; rfl
    · rw [if_pos rfl, if_neg h2, if_neg (fun hh => h2 hh.2),
        List.getElem?_eq_none (Nat.le_of_not_lt h2)]
  · rw [if_neg h, if_neg (fun hh => h hh.1)]

theorem append_bits_getD (C D : List Nat) (p : Nat) (h1 : 1 ≤ p) (h2 : p ≤ 56) :
    (bitsOf C 28 ++ bitsOf D 28).getD (p - 1) 0 =
      if p ≤ 28 then getBit C p else getBit D (p - 28) := by
  rw [List.getD_eq_getElem?_getD]
  by_cases h : p ≤ 28
  · rw [if_pos h, List.getElem?_append_left (by rw [bitsOf_length]; omega),
      ← List.getD_eq_getElem?_getD, bitsOf_getD _ _ _ (by omega)]
    congr 1
    omega
  · rw [if_neg h, List.getElem?_append_right (by rw [bitsOf_length]; omega), bitsOf_length,
      ← List.getD_eq_getElem?_getD, bitsOf_getD _ _ _ (by omega)]
    congr 1
    omega

/-- The subkey one round stores: six bytes whose 48 bits are the PC-2 selection from the
rotated `C` followed by the rotated `D`. -/
theorem keyStep_slot (C D slot : List Nat) (hs : slot.length = 6) :
    (permute slot ((List.range' 1 HALF_SUBKEY_BITS).foldl
      (fun CD i => putBit CD (i + HALF_SUBKEY_BITS) (getBit D i))
      ((List.range' 1 HALF_SUBKEY_BITS).foldl (fun CD i => putBit CD i (getBit C i))
        (List.replicate (ROUND_TO_BYTES (HALF_SUBKEY_BITS * NUM_HALVES)) 0)))
      subkeyPerm SUBKEY_BITS).length = 6 ∧
    IsBytes (permute slot ((List.range' 1 HALF_SUBKEY_BITS).foldl
      (fun CD i => putBit CD (i + HALF_SUBKEY_BITS) (getBit D i))
      ((List.range' 1 HALF_SUBKEY_BITS).foldl (fun CD i => putBit CD i (getBit C i))
        (List.replicate (ROUND_TO_BYTES (HALF_SUBKEY_BITS * NUM_HALVES)) 0)))
      subkeyPerm SUBKEY_BITS) ∧
    ∀ t, 1 ≤ t → t ≤ 48 →
      getBit (permute slot ((List.range' 1 HALF_SUBKEY_BITS).foldl
        (fun CD i => putBit CD (i + HALF_SUBKEY_BITS) (getBit D i))
        ((List.range' 1 HALF_SUBKEY_BITS).foldl (fun CD i => putBit CD i (getBit C i))
          (List.replicate (ROUND_TO_BYTES (HALF_SUBKEY_BITS * NUM_HALVES)) 0)))
        subkeyPerm SUBKEY_BITS) t =
      (bitsOf C 28 ++ bitsOf D 28).getD (subkeyPerm.getD (t - 1) 0 - 1) 0 := by
  refine ⟨by rw [permute_length, hs], ?_, ?_⟩
  · intro i
    apply permute_getD_lt
    by_cases hi : i < 6
    · exact Or.inl hi
    · right
      rw [List.getD_eq_default _ _ (by omega)]
      omega
  · intro t ht1 ht2
    have hr := pc2_range (t - 1) (by omega)
    simp only [SUBKEY_BITS]
    rw [permute_getBit _ _ _ _ (by rw [hs]) t ht1 ht2, cd_getBit C D _ hr.1 hr.2,
      append_bits_getD C D _ hr.1 hr.2]

theorem keyHalf_length (key perm : List Nat) : (keyHalf key perm).length = 4 := by
  unfold keyHalf
  rw [List.length_set, permute_length, List.length_replicate]
  rfl

theorem bitsOf_keyHalf (key perm : List Nat) :
    bitsOf (keyHalf key perm) 28 = bitsOf (permute (List.replicate 4 0) key perm 28) 28 := by
  apply bitsOf_congr
  intro j hj1 hj2
  unfold keyHalf
  rw [getBit_mask]
  by_cases h : (j - 1) / 8 = HALF_SUBKEY_BYTES - 1
  · rw [if_pos h]
    have h3 : (j - 1) / 8 = 3 := h
    have ht : UPPER_MASK.testBit (7 - (j - 1) % 8) = true := by
      have hm : (j - 1) % 8 < 4 := by omega
      have : ∀ k, k < 4 → UPPER_MASK.testBit (7 - k) = true := by decide
      exact this _ hm
    rw [ht]
    show getBit _ j * 1 = _
    rw [Nat.mul_one]
    rfl
  · rw [if_neg h]
    rfl

theorem keySteps_spec (K : List (List Nat)) (key : List Nat) (hK : K.length = 17)
    (hslots : ∀ r, 1 ≤ r → r ≤ 16 → (K.getD r []).length = 6) : ∀ r, r ≤ 16 →
    ((List.range' 1 r).foldl keyStep
      (keyHalf key leftSubkeyPerm, keyHalf key rightSubkeyPerm, K)).1.length = 4 ∧
    ((List.range' 1 r).foldl keyStep
      (keyHalf key leftSubkeyPerm, keyHalf key rightSubkeyPerm, K)).2.1.length = 4 ∧
    bitsOf ((List.range' 1 r).foldl keyStep
      (keyHalf key leftSubkeyPerm, keyHalf key rightSubkeyPerm, K)).1 28 = halfC key r ∧
    bitsOf ((List.range' 1 r).foldl keyStep
      (keyHalf key leftSubkeyPerm, keyHalf key rightSubkeyPerm, K)).2.1 28 = halfD key r ∧
    ((List.range' 1 r).foldl keyStep
      (keyHalf key leftSubkeyPerm, keyHalf key rightSubkeyPerm, K)).2.2.length = 17 ∧
    ∀ i, (1 ≤ i ∧ i ≤ r →
        (((List.range' 1 r).foldl keyStep
          (keyHalf key leftSubkeyPerm, keyHalf key rightSubkeyPerm, K)).2.2.getD i []).length = 6 ∧
        IsBytes (((List.range' 1 r).foldl keyStep
          (keyHalf key leftSubkeyPerm, keyHalf key rightSubkeyPerm, K)).2.2.getD i []) ∧
        ∀ t, 1 ≤ t → t ≤ 48 →
          getBit (((List.range' 1 r).foldl keyStep
            (keyHalf key leftSubkeyPerm, keyHalf key rightSubkeyPerm, K)).2.2.getD i []) t =
          (halfC key i ++ halfD key i).getD (subkeyPerm.getD (t - 1) 0 - 1) 0) ∧
      (¬ (1 ≤ i ∧ i ≤ r) →
        ((List.range' 1 r).foldl keyStep
          (keyHalf key leftSubkeyPerm, keyHalf key rightSubkeyPerm, K)).2.2.getD i [] =
          K.getD i []) := by
  intro r
  induction r with
  | zero =>
    intro _
    refine ⟨keyHalf_length _ _, keyHalf_length _ _, bitsOf_keyHalf _ _, bitsOf_keyHalf _ _, hK,
      ?_⟩
    intro i
    exact ⟨fun h => by omega, fun _ => rfl⟩
  | succ r ih =>
    intro hr
    obtain ⟨h1, h2, h3, h4, h5, h6⟩ := ih (by omega)
    rw [List.range'_concat, List.foldl_append]
    simp only [List.foldl_cons, List.foldl_nil]
    have e : 1 + 1 * r = r + 1 := by omega
    rw [e]
    generalize hst : (List.range' 1 r).foldl keyStep
      (keyHalf key leftSubkeyPerm, keyHalf key rightSubkeyPerm, K) = st at h1 h2 h3 h4 h5 h6
    have hC := rotateLeft_spec (subkeyShiftSchedule.getD (r + 1) 0) st.1 (by omega)
    have hD := rotateLeft_spec (subkeyShiftSchedule.getD (r + 1) 0) st.2.1 (by omega)
    have hslot : (st.2.2.getD (r + 1) []).length = 6 := by
      rw [(h6 (r + 1)).2 (by omega)]
      exact hslots (r + 1) (by omega) hr
    have hnew := keyStep_slot (rotateLeft st.1 (subkeyShiftSchedule.getD (r + 1) 0))
      (rotateLeft st.2.1 (subkeyShiftSchedule.getD (r + 1) 0)) (st.2.2.getD (r + 1) []) hslot
    rw [hC.2, hD.2, h3, h4] at hnew
    unfold keyStep
    simp only []
    refine ⟨by rw [hC.1, h1], by rw [hD.1, h2], by rw [hC.2, h3]; rfl, by rw [hD.2, h4]; rfl,
      by rw [List.length_set, h5], ?_⟩
    intro i
    rw [slot_getD_set]
    by_cases hi : r + 1 = i
    · subst hi
      rw [if_pos ⟨rfl, by omega⟩]
      exact ⟨fun _ => hnew, fun h => by omega⟩
    · rw [if_neg (fun hh => hi hh.1)]
      constructor
      · intro h
        exact (h6 i).1 ⟨h.1, by omega⟩
      · intro h
        exact (h6 i).2 (by omega)

/-- C24. Key schedule in closed form: for a schedule array of 17 slots of 6 bytes and every
round `r` in 1..16, `generateSubkeys` leaves in slot `r` six bytes whose bit `t`, for `t` in
1..48, is the bit at position `PC-2[ t ]` of `C_r || D_r`, where `C_0`, `D_0` are the left
and right PC-1 projections of the key and `C_r`, `D_r` are `C_(r-1)`, `D_(r-1)` rotated left
as 28-bit strings by the shift amount of round `r`; slot 0 is left as it was. -/
theorem C24_key_schedule (K : List (List Nat)) (key : List Nat) (hK : K.length = 17)
    (hslots : ∀ r, 1 ≤ r → r ≤ 16 → (K.getD r []).length = 6) :
    (∀ r, 1 ≤ r → r ≤ 16 →
      ((generateSubkeys K key).getD r []).length = 6 ∧
      IsBytes ((generateSubkeys K key).getD r []) ∧
      ∀ t, 1 ≤ t → t ≤ 48 →
        getBit ((generateSubkeys K key).getD r []) t =
          (halfC key r ++ halfD key r).getD (subkeyPerm.getD (t - 1) 0 - 1) 0) ∧
    (generateSubkeys K key).getD 0 [] = K.getD 0 [] := by
  obtain ⟨_, _, _, _, _, h6⟩ := keySteps_spec K key hK hslots 16 (Nat.le_refl 16)
  rw [generateSubkeys_eq]
  exact ⟨fun r hr1 hr2 => (h6 r).1 ⟨hr1, hr2⟩, (h6 0).2 (by omega)⟩

/-- Witness of C24 at a fresh schedule array and the test key. -/
theorem C24_key_schedule_witness :
    (∀ r, 1 ≤ r → r ≤ 16 →
      ((generateSubkeys freshSchedule
        [0x01, 0x23, 0x45, 0x67, 0x89, 0xAB, 0xCD, 0xEF]).getD r []).length = 6 ∧
      IsBytes ((generateSubkeys freshSchedule
        [0x01, 0x23, 0x45, 0x67, 0x89, 0xAB, 0xCD, 0xEF]).getD r []) ∧
      ∀ t, 1 ≤ t → t ≤ 48 →
        getBit ((generateSubkeys freshSchedule
          [0x01, 0x23, 0x45, 0x67, 0x89, 0xAB, 0xCD, 0xEF]).getD r []) t =
          (halfC [0x01, 0x23, 0x45, 0x67, 0x89, 0xAB, 0xCD, 0xEF] r ++
            halfD [0x01, 0x23, 0x45, 0x67, 0x89, 0xAB, 0xCD, 0xEF] r).getD
            (subkeyPerm.getD (t - 1) 0 - 1) 0) ∧
    (generateSubkeys freshSchedule [0x01, 0x23, 0x45, 0x67, 0x89, 0xAB, 0xCD, 0xEF]).getD 0 [] =
      freshSchedule.getD 0 [] :=
  C24_key_schedule freshSchedule [0x01, 0x23, 0x45, 0x67, 0x89, 0xAB, 0xCD, 0xEF] (by decide)
    (by decide)

/-! ## The Feistel structure in closed form -/

theorem halves_isState (B : List Nat) (K : List (List Nat)) : ∀ r, IsState (halves B K r) := by
  intro r
  induction r with
  | zero => exact initial_isState B
  | succ r ih =>
    obtain ⟨⟨_, h2⟩, h3, h4⟩ := ih
    exact ⟨⟨h3, h4⟩, xorHalf_length _ _, xorHalf_isBytes _ _ h2 (fOut_isBytes _ _)⟩

theorem halves_rounds (B : List Nat) (K : List (List Nat)) : ∀ r,
    ((List.range' 1 r).map (fun round => K.getD round [])).foldl feistelRound
      (halves B K 0) = halves B K r := by
  intro r
  induction r with
  | zero => rfl
  | succ r ih =>
    rw [List.range'_concat, List.map_append, List.foldl_append, ih]
    obtain ⟨⟨h1, _⟩, h3, _⟩ := halves_isState B K r
    simp only [List.map_cons, List.map_nil, List.foldl_cons, List.foldl_nil]
    have e : (halves B K r) = ((halves B K r).1, (halves B K r).2) := rfl
    rw [e, feistelRound_eq _ _ _ h1 h3]
    have e1 : 1 + 1 * r = r + 1 := by omega
    rw [e1]
    rfl

theorem getBit_append_left (a b : List Nat) (j : Nat) (h1 : 1 ≤ j) (h2 : j ≤ 8 * a.length) :
    getBit (a ++ b) j = getBit a j := by
  rw [getBit_eq, getBit_eq]
  have hk : (j - 1) / 8 < a.length := by omega
  rw [List.getD_eq_getElem _ _ hk,
    List.getD_eq_getElem _ _ (by rw [List.length_append]; omega), List.getElem_append_left hk]

theorem getBit_append_right (a b : List Nat) (j : Nat) (h : 8 * a.length < j) :
    getBit (a ++ b) j = getBit b (j - 8 * a.length) := by
  rw [getBit_eq, getBit_eq]
  have e1 : (j - 8 * a.length - 1) / 8 = (j - 1) / 8 - a.length := by omega
  have e2 : (j - 8 * a.length - 1) % 8 = (j - 1) % 8 := by omega
  rw [e1, e2, List.getD_eq_getElem?_getD, List.getD_eq_getElem?_getD,
    List.getElem?_append_right (by omega)]

theorem combine_eq_append_bits (L R : List Nat) (hR : R.length = 4) (j : Nat)
    (h1 : 1 ≤ j) (h2 : j ≤ 64) : getBit (combine L R) j = getBit (R ++ L) j := by
  rw [combine_getBit L R j h1 h2]
  by_cases hj : j ≤ 32
  · rw [if_pos hj, getBit_append_left R L j h1 (by omega)]
  · rw [if_neg hj, getBit_append_right R L j (by omega), hR]

/-- C25. Feistel structure: for every 8-byte block `B` and schedule `K`,
`encryptBlock( B, K )` is the final permutation of `R16 || L16`, where `(L0, R0)` are the left
and right halves of the initial permutation of `B` and `L_r = R_(r-1)`,
`R_r = L_(r-1) XOR fFunction( R_(r-1), K[ r ] )` for `r = 1..16`. -/
theorem C25_feistel_structure (B : List Nat) (K : List (List Nat)) (hB : B.length = 8) :
    encryptBlock B K =
      permute (List.replicate 8 0) ((halves B K 16).2 ++ (halves B K 16).1) finalPerm 64 := by
  rw [encryptBlock_eq]
  unfold feistel encKeys
  have h := halves_rounds B K 16
  have e : (List.map (fun round => K.getD round []) (List.range' 1 (ROUND_COUNT - 1))).foldl
      feistelRound
      (permute (List.replicate HALF_BLOCK_BYTES 0) B leftInitialPerm HALF_BLOCK_BITS,
        permute (List.replicate HALF_BLOCK_BYTES 0) B rightInitialPerm HALF_BLOCK_BITS) =
      halves B K 16 := h
  simp only [e]
  rw [finishBlock_eq _ _ _ hB]
  obtain ⟨_, h3, _⟩ := halves_isState B K 16
  apply permute_congr
  intro i hi
  have hr := finalPerm_range i hi
  exact combine_eq_append_bits _ _ h3 _ hr.1 hr.2

/-- Witness of C25 at the all-zero block and the schedule of the test key. -/
theorem C25_feistel_structure_witness :
    encryptBlock [0, 0, 0, 0, 0, 0, 0, 0]
        (generateSubkeys freshSchedule [0x01, 0x23, 0x45, 0x67, 0x89, 0xAB, 0xCD, 0xEF]) =
      permute (List.replicate 8 0)
        ((halves [0, 0, 0, 0, 0, 0, 0, 0]
            (generateSubkeys freshSchedule [0x01, 0x23, 0x45, 0x67, 0x89, 0xAB, 0xCD, 0xEF]) 16).2 ++
          (halves [0, 0, 0, 0, 0, 0, 0, 0]
            (generateSubkeys freshSchedule [0x01, 0x23, 0x45, 0x67, 0x89, 0xAB, 0xCD, 0xEF]) 16).1)
        finalPerm 64 :=
  C25_feistel_structure [0, 0, 0, 0, 0, 0, 0, 0]
    (generateSubkeys freshSchedule [0x01, 0x23, 0x45, 0x67, 0x89, 0xAB, 0xCD, 0xEF]) rfl

/-! ## The S-boxes and the round function -/

theorem sBox_eq (output input : List Nat) (idx : Nat) :
    sBox output input idx = output.set 0
      ((((sBoxTable.getD idx []).getD (sBoxRow input idx) []).getD (sBoxCol input idx) 0
        <<< SBOX_OUTPUT_BITS) % 256) := rfl

theorem sBoxBits_eq (input : List Nat) (idx : Nat) :
    sBoxBits input idx =
      ((((((0 <<< 1 ||| getBit input (idx * 6 + 1)) <<< 1 ||| getBit input (idx * 6 + 2)) <<< 1
        ||| getBit input (idx * 6 + 3)) <<< 1 ||| getBit input (idx * 6 + 4)) <<< 1
        ||| getBit input (idx * 6 + 5)) <<< 1 ||| getBit input (idx * 6 + 6)) := rfl

theorem sBox_select : ∀ b1, b1 < 2 → ∀ b2, b2 < 2 → ∀ b3, b3 < 2 → ∀ b4, b4 < 2 →
    ∀ b5, b5 < 2 → ∀ b6, b6 < 2 →
    ((((((((0 <<< 1 ||| b1) <<< 1 ||| b2) <<< 1 ||| b3) <<< 1 ||| b4) <<< 1 ||| b5) <<< 1 ||| b6)
        >>> 5) &&& 1) <<< 1 |||
      (((((((0 <<< 1 ||| b1) <<< 1 ||| b2) <<< 1 ||| b3) <<< 1 ||| b4) <<< 1 ||| b5) <<< 1 ||| b6)
        &&& 1) = 2 * b1 + b6 ∧
    ((((((0 <<< 1 ||| b1) <<< 1 ||| b2) <<< 1 ||| b3) <<< 1 ||| b4) <<< 1 ||| b5) <<< 1 ||| b6)
        >>> 1 &&& 15 = 8 * b2 + 4 * b3 + 2 * b4 + b5 := by
  intro b1 h1 b2 h2 b3 h3 b4 h4 b5 h5 b6 h6
  interval_cases b1 <;> interval_cases b2 <;> interval_cases b3 <;> interval_cases b4 <;>
    interval_cases b5 <;> interval_cases b6 <;> exact ⟨rfl, rfl⟩

theorem sBoxRow_eq (input : List Nat) (idx : Nat) :
    sBoxRow input idx = 2 * getBit input (idx * 6 + 1) + getBit input (idx * 6 + 6) := by
  unfold sBoxRow
  rw [sBoxBits_eq]
  exact (sBox_select _ (getBit_lt_two _ _) _ (getBit_lt_two _ _) _ (getBit_lt_two _ _) _
    (getBit_lt_two _ _) _ (getBit_lt_two _ _) _ (getBit_lt_two _ _)).1

theorem sBoxCol_eq (input : List Nat) (idx : Nat) :
    sBoxCol input idx = 8 * getBit input (idx * 6 + 2) + 4 * getBit input (idx * 6 + 3) +
      2 * getBit input (idx * 6 + 4) + getBit input (idx * 6 + 5) := by
  unfold sBoxCol
  rw [sBoxBits_eq]
  exact (sBox_select _ (getBit_lt_two _ _) _ (getBit_lt_two _ _) _ (getBit_lt_two _ _) _
    (getBit_lt_two _ _) _ (getBit_lt_two _ _) _ (getBit_lt_two _ _)).2

theorem sBoxTable_range : ∀ idx, idx < 8 → ∀ row, row < 4 → ∀ col, col < 16 →
    row < (sBoxTable.getD idx []).length ∧
    col < ((sBoxTable.getD idx []).getD row []).length ∧
    ((sBoxTable.getD idx []).getD row []).getD col 0 < 16 := by
  decide

theorem shiftLeft_four_mod (v : Nat) (h : v < 16) : (v <<< SBOX_OUTPUT_BITS) % 256 = 16 * v := by
  unfold SBOX_OUTPUT_BITS
  rw [Nat.shiftLeft_eq]
  omega

/-- C27. S-box lookup: for `idx` in 0..7 and `b1 .. b6` the bits of the input at the
positions `idx * 6 + 1 .. idx * 6 + 6`, `sBox` computes `row = 2 * b1 + b6`, below 4, and
`col = 8 * b2 + 4 * b3 + 2 * b4 + b5`, below 16, both inside the table, and stores
`16 * sBoxTable[ idx ][ row ][ col ]` in `output[ 0 ]`, a byte whose low four bits are
zero; an input with the same six bits gives the same result. -/
theorem C27_sbox_lookup (output input : List Nat) (idx : Nat) (hidx : idx < 8) :
    sBoxRow input idx = 2 * getBit input (idx * 6 + 1) + getBit input (idx * 6 + 6) ∧
    sBoxCol input idx = 8 * getBit input (idx * 6 + 2) + 4 * getBit input (idx * 6 + 3) +
      2 * getBit input (idx * 6 + 4) + getBit input (idx * 6 + 5) ∧
    sBoxRow input idx < 4 ∧ sBoxCol input idx < 16 ∧
    idx < sBoxTable.length ∧ sBoxRow input idx < (sBoxTable.getD idx []).length ∧
    sBoxCol input idx < ((sBoxTable.getD idx []).getD (sBoxRow input idx) []).length ∧
    sBox output input idx = output.set 0
      (16 * ((sBoxTable.getD idx []).getD (sBoxRow input idx) []).getD (sBoxCol input idx) 0) ∧
    16 * ((sBoxTable.getD idx []).getD (sBoxRow input idx) []).getD (sBoxCol input idx) 0
      < 256 ∧
    (16 * ((sBoxTable.getD idx []).getD (sBoxRow input idx) []).getD (sBoxCol input idx) 0)
      % 16 = 0 ∧
    ∀ other : List Nat,
      (∀ k, 1 ≤ k → k ≤ 6 → getBit other (idx * 6 + k) = getBit input (idx * 6 + k)) →
      sBox output other idx = sBox output input idx := by
  have hrow := sBoxRow_eq input idx
  have hcol := sBoxCol_eq input idx
  have hr4 : sBoxRow input idx < 4 := by
    rw [hrow]
    have := getBit_lt_two input (idx * 6 + 1)
    have := getBit_lt_two input (idx * 6 + 6)
    omega
  have hc16 : sBoxCol input idx < 16 := by
    rw [hcol]
    have := getBit_lt_two input (idx * 6 + 2)
    have := getBit_lt_two input (idx * 6 + 3)
    have := getBit_lt_two input (idx * 6 + 4)
    have := getBit_lt_two input (idx * 6 + 5)
    omega
  obtain ⟨t1, t2, t3⟩ := sBoxTable_range idx hidx _ hr4 _ hc16
  refine ⟨hrow, hcol, hr4, hc16, hidx, t1, t2, ?_, by omega, by omega, ?_⟩
  · rw [sBox_eq, shiftLeft_four_mod _ t3]
  · intro other hsame
    have e1 : sBoxRow other idx = sBoxRow input idx := by
      rw [sBoxRow_eq, sBoxRow_eq, hsame 1 (by omega) (by omega), hsame 6 (by omega) (by omega)]
    have e2 : sBoxCol other idx = sBoxCol input idx := by
      rw [sBoxCol_eq, sBoxCol_eq, hsame 2 (by omega) (by omega), hsame 3 (by omega) (by omega),
        hsame 4 (by omega) (by omega), hsame 5 (by omega) (by omega)]
    rw [sBox_eq, sBox_eq, e1, e2]

/-- Witness of C27 at S-box 3 and a 48-bit input. -/
theorem C27_sbox_lookup_witness :
    sBoxRow [97, 23, 186, 134, 101, 39] 3 = 2 * getBit [97, 23, 186, 134, 101, 39] (3 * 6 + 1) + getBit [97, 23, 186, 134, 101, 39] (3 * 6 + 6) ∧
    sBoxCol [97, 23, 186, 134, 101, 39] 3 = 8 * getBit [97, 23, 186, 134, 101, 39] (3 * 6 + 2) + 4 * getBit [97, 23, 186, 134, 101, 39] (3 * 6 + 3) +
      2 * getBit [97, 23, 186, 134, 101, 39] (3 * 6 + 4) + getBit [97, 23, 186, 134, 101, 39] (3 * 6 + 5) ∧
    sBoxRow [97, 23, 186, 134, 101, 39] 3 < 4 ∧ sBoxCol [97, 23, 186, 134, 101, 39] 3 < 16 ∧
    3 < sBoxTable.length ∧ sBoxRow [97, 23, 186, 134, 101, 39] 3 < (sBoxTable.getD 3 []).length ∧
    sBoxCol [97, 23, 186, 134, 101, 39] 3 < ((sBoxTable.getD 3 []).getD (sBoxRow [97, 23, 186, 134, 101, 39] 3) []).length ∧
    sBox ([7] : List Nat) [97, 23, 186, 134, 101, 39] 3 = ([7] : List Nat).set 0
      (16 * ((sBoxTable.getD 3 []).getD (sBoxRow [97, 23, 186, 134, 101, 39] 3) []).getD (sBoxCol [97, 23, 186, 134, 101, 39] 3) 0) ∧
    16 * ((sBoxTable.getD 3 []).getD (sBoxRow [97, 23, 186, 134, 101, 39] 3) []).getD (sBoxCol [97, 23, 186, 134, 101, 39] 3) 0
      < 256 ∧
    (16 * ((sBoxTable.getD 3 []).getD (sBoxRow [97, 23, 186, 134, 101, 39] 3) []).getD (sBoxCol [97, 23, 186, 134, 101, 39] 3) 0)
      % 16 = 0 ∧
    ∀ other : List Nat,
      (∀ k, 1 ≤ k → k ≤ 6 → getBit other (3 * 6 + k) = getBit [97, 23, 186, 134, 101, 39] (3 * 6 + k)) →
      sBox ([7] : List Nat) other 3 = sBox ([7] : List Nat) [97, 23, 186, 134, 101, 39] 3 :=
  C27_sbox_lookup [7] [97, 23, 186, 134, 101, 39] 3 (by decide)

theorem sValue_lt (B : List Nat) (i : Nat) (hi : i < 8) : sValue B i < 16 := by
  unfold sValue
  have := getBit_lt_two B (i * 6 + 1)
  have := getBit_lt_two B (i * 6 + 2)
  have := getBit_lt_two B (i * 6 + 3)
  have := getBit_lt_two B (i * 6 + 4)
  have := getBit_lt_two B (i * 6 + 5)
  have := getBit_lt_two B (i * 6 + 6)
  exact (sBoxTable_range i hi _ (by omega) _ (by omega)).2.2

/-- The nibble `n` that `fFunction` reads back from the byte `sBox` stored. -/
theorem sBox_nibble (B : List Nat) (i : Nat) (hi : i < 8) :
    (sBox [0] B i).getD 0 0 >>> SBOX_OUTPUT_BITS = sValue B i := by
  have hv := sValue_lt B i hi
  have e : ((sBoxTable.getD i []).getD (sBoxRow B i) []).getD (sBoxCol B i) 0 = sValue B i := by
    rw [sBoxRow_eq, sBoxCol_eq]; rfl
  rw [sBox_eq, e, shiftLeft_four_mod _ hv]
  unfold SBOX_OUTPUT_BITS
  rw [Nat.shiftRight_eq_div_pow]
  show (16 * sValue B i) / 2 ^ 4 = sValue B i
  omega

/-- The inner loop of `fFunction` writes the four bits of `n` at the positions of group
`i`. -/
theorem nibbleLoop_eq (out : List Nat) (i n : Nat) :
    (List.range SBOX_OUTPUT_BITS).foldl (fun sBoxOutput j =>
      putBit sBoxOutput (i * SBOX_OUTPUT_BITS + j + 1) ((n >>> (SBOX_OUTPUT_BITS - 1 - j)) &&& 1))
      out = putLoop (fun j => (n >>> (3 - j)) &&& 1) (i * 4 + 1) 0 4 out := by
  unfold putLoop SBOX_OUTPUT_BITS
  rw [List.range_eq_range']
  have e : (fun (sBoxOutput : List Nat) j =>
      putBit sBoxOutput (i * 4 + j + 1) ((n >>> (4 - 1 - j)) &&& 1)) =
      (fun cb j => putBit cb (j + (i * 4 + 1)) ((n >>> (3 - j)) &&& 1)) := by
    funext cb j
    have : i * 4 + j + 1 = j + (i * 4 + 1) := by omega
    rw [this]
  rw [e]

theorem nibbles_spec (v : Nat → Nat) : ∀ m, m ≤ 8 →
    ((List.range m).foldl (fun out i => putLoop (fun j => (v i >>> (3 - j)) &&& 1) (i * 4 + 1) 0 4
      out) (List.replicate 4 0)).length = 4 ∧
    IsBytes ((List.range m).foldl (fun out i =>
      putLoop (fun j => (v i >>> (3 - j)) &&& 1) (i * 4 + 1) 0 4 out) (List.replicate 4 0)) ∧
    ∀ j, 1 ≤ j → getBit ((List.range m).foldl (fun out i =>
      putLoop (fun j => (v i >>> (3 - j)) &&& 1) (i * 4 + 1) 0 4 out) (List.replicate 4 0)) j =
      if j ≤ 4 * m then ((v ((j - 1) / 4)).testBit (3 - (j - 1) % 4)).toNat else 0 := by
  intro m
  induction m with
  | zero =>
    intro _
    refine ⟨rfl, isBytes_replicate 4, ?_⟩
    intro j hj
    rw [if_neg (by omega)]
    show getBit (List.replicate 4 0) j = 0
    rw [getBit_eq]
    have : (List.replicate 4 0).getD ((j - 1) / 8) 0 = 0 := by
      rw [List.getD_eq_getElem?_getD, List.getElem?_replicate]
      split <;> rfl
    rw [this, Nat.zero_testBit]
    rfl
  | succ m ih =>
    intro hm
    obtain ⟨h1, h2, h3⟩ := ih (by omega)
    rw [List.range_succ, List.foldl_append]
    simp only [List.foldl_cons, List.foldl_nil]
    refine ⟨by rw [putLoop_length, h1], putLoop_isBytes _ _ _ _ _ h2, ?_⟩
    intro j hj
    rw [putLoop_getBit _ _ 4 0 _ (by omega) (by rw [h1]; omega) j hj, h3 j hj]
    by_cases hc : 0 + (m * 4 + 1) ≤ j ∧ j < 0 + (m * 4 + 1) + 4
    · rw [if_pos hc, if_pos (by omega), shiftRight_and_one]
      have e1 : (j - 1) / 4 = m := by omega
      have e2 : j - (m * 4 + 1) = (j - 1) % 4 := by omega
      rw [e1, e2]
      unfold bitOf
      cases (v m).testBit (3 - (j - 1) % 4) <;> rfl
    · rw [if_neg hc]
      by_cases hj2 : j ≤ 4 * m
      · rw [if_pos hj2, if_pos (by omega)]
      · rw [if_neg hj2, if_neg (by omega)]

theorem testBit_nibbles : ∀ a, a < 16 → ∀ b, b < 16 → ∀ t, t < 8 →
    (16 * a + b).testBit t = if 4 ≤ t then a.testBit (t - 4) else b.testBit t := by
  intro a ha b hb t ht
  have h := Nat.testBit_mul_pow_two_add a (i := 4) (by omega : b < 2 ^ 4) t
  have e : 2 ^ 4 * a + b = 16 * a + b := by omega
  rw [e] at h
  rw [h]
  by_cases h4 : t < 4
  · rw [if_pos h4, if_neg (by omega)]
  · rw [if_neg h4, if_pos (by omega)]

theorem packNibbles_getBit (B : List Nat) (j : Nat) (h1 : 1 ≤ j) (h2 : j ≤ 32) :
    getBit (packNibbles B) j = ((sValue B ((j - 1) / 4)).testBit (3 - (j - 1) % 4)).toNat := by
  have hk : (j - 1) / 8 < 4 := by omega
  have hlen : (packNibbles B).length = 4 := by
    unfold packNibbles; rw [List.length_map, List.length_range]
  have hget : (packNibbles B).getD ((j - 1) / 8) 0 =
      16 * sValue B (2 * ((j - 1) / 8)) + sValue B (2 * ((j - 1) / 8) + 1) := by
    rw [List.getD_eq_getElem _ _ (by rw [hlen]; exact hk)]
    unfold packNibbles
    rw [List.getElem_map, List.getElem_range]
  rw [getBit_eq, hget, testBit_nibbles _ (sValue_lt B _ (by omega)) _ (sValue_lt B _ (by omega))
    _ (by omega)]
  by_cases hc : 4 ≤ 7 - (j - 1) % 8
  · rw [if_pos hc]
    have e1 : (j - 1) / 4 = 2 * ((j - 1) / 8) := by omega
    have e2 : 7 - (j - 1) % 8 - 4 = 3 - (j - 1) % 4 := by omega
    rw [e1, e2]
  · rw [if_neg hc]
    have e1 : (j - 1) / 4 = 2 * ((j - 1) / 8) + 1 := by omega
    have e2 : 7 - (j - 1) % 8 = 3 - (j - 1) % 4 := by omega
    rw [e1, e2]

theorem packNibbles_isBytes (B : List Nat) : IsBytes (packNibbles B) := by
  rw [isBytes_iff]
  intro b hb
  unfold packNibbles at hb
  rw [List.mem_map] at hb
  obtain ⟨j, hj, rfl⟩ := hb
  rw [List.mem_range] at hj
  have := sValue_lt B (2 * j) (by omega)
  have := sValue_lt B (2 * j + 1) (by omega)
  omega

/-- The S-box stage of `fFunction`, bit by bit, is the plain nibble packing. -/
theorem sBoxLoop_eq (B : List Nat) :
    (List.range SBOX_COUNT).foldl (fun sBoxOutput i =>
      (List.range SBOX_OUTPUT_BITS).foldl (fun sBoxOutput j =>
        putBit sBoxOutput (i * SBOX_OUTPUT_BITS + j + 1)
          ((((sBox [0] B i).getD 0 0 >>> SBOX_OUTPUT_BITS) >>> (SBOX_OUTPUT_BITS - 1 - j)) &&& 1))
        sBoxOutput) (List.replicate HALF_BLOCK_BYTES 0) = packNibbles B := by
  have hstep : ∀ (out : List Nat) (i : Nat), i ∈ List.range SBOX_COUNT →
      (List.range SBOX_OUTPUT_BITS).foldl (fun sBoxOutput j =>
        putBit sBoxOutput (i * SBOX_OUTPUT_BITS + j + 1)
          ((((sBox [0] B i).getD 0 0 >>> SBOX_OUTPUT_BITS) >>> (SBOX_OUTPUT_BITS - 1 - j)) &&& 1))
        out = putLoop (fun j => (sValue B i >>> (3 - j)) &&& 1) (i * 4 + 1) 0 4 out := by
    intro out i hi
    rw [List.mem_range] at hi
    rw [sBox_nibble B i hi]
    exact nibbleLoop_eq out i (sValue B i)
  have hfold : ∀ (l : List Nat) (out : List Nat), (∀ i ∈ l, i ∈ List.range SBOX_COUNT) →
      l.foldl (fun sBoxOutput i =>
        (List.range SBOX_OUTPUT_BITS).foldl (fun sBoxOutput j =>
          putBit sBoxOutput (i * SBOX_OUTPUT_BITS + j + 1)
            ((((sBox [0] B i).getD 0 0 >>> SBOX_OUTPUT_BITS) >>> (SBOX_OUTPUT_BITS - 1 - j)) &&& 1))
          sBoxOutput) out =
      l.foldl (fun out i => putLoop (fun j => (sValue B i >>> (3 - j)) &&& 1) (i * 4 + 1) 0 4
        out) out := by
    intro l
    induction l with
    | nil => intro out _; rfl
    | cons a l ih =>
      intro out hl
      rw [List.foldl_cons, List.foldl_cons, hstep out a (hl a (List.mem_cons_self _ _))]
      exact ih _ (fun i hi => hl i (List.mem_cons_of_mem _ hi))
  rw [hfold _ _ (fun i hi => hi)]
  obtain ⟨h1, h2, h3⟩ := nibbles_spec (sValue B) 8 (Nat.le_refl 8)
  have hlen : (packNibbles B).length = 4 := by
    unfold packNibbles; rw [List.length_map, List.length_range]
  apply bytes_ext _ _ (by rw [hlen]; exact h1) h2 (packNibbles_isBytes B)
  intro j hj1 hj2
  have hj3 : j ≤ 32 := by
    rw [h1] at hj2
    omega
  rw [packNibbles_getBit B j hj1 hj3]
  have := h3 j hj1
  rw [if_pos (by omega)] at this
  exact this

/-- C26. Round function: `fFunction( R, K ) = P( N )`, where `B = E( R ) XOR K` and `N` is
the nibble packing of the eight S-box values that the 6-bit groups of `B` select (byte `j`
of `N` is `16 * S_(2j) + S_(2j+1)`); the bit-by-bit assembly of the code equals it. -/
theorem C26_round_function (result R K : List Nat) :
    fFunction result R K =
      permute result (packNibbles (expandXor R K)) fFunctionPerm HALF_BLOCK_BITS := by
  have h := sBoxLoop_eq (expandXor R K)
  unfold fFunction
  exact congrArg (fun N => permute result N fFunctionPerm HALF_BLOCK_BITS) h

/-! ## Bit addressing and `permute` -/

/-- C28. `permute` projects bits through the table: when `output` holds the `ceil(n/8)`
bytes the function writes, then for every `i` in `1..n` bit `i` of the result is the bit
of `input` at the position given by the `i`-th table entry (`perm[ i - 1 ]` in C), whatever
`output` held before. -/
theorem C28_permute_projects (output input table : List Nat) (n : Nat)
    (hout : (n + 7) / 8 ≤ output.length) (i : Nat) (h1 : 1 ≤ i) (h2 : i ≤ n) :
    getBit (permute output input table n) i = getBit input (table.getD (i - 1) 0) :=
  permute_getBit output input table n hout i h1 h2

/-- Witness of C28: bit 3 of the left initial permutation of a block, into a buffer that
held other bytes before. -/
theorem C28_permute_projects_witness :
    getBit (permute [255, 255, 255, 255] [1, 35, 69, 103, 137, 171, 205, 239]
      leftInitialPerm 32) 3 =
      getBit [1, 35, 69, 103, 137, 171, 205, 239] (leftInitialPerm.getD (3 - 1) 0) :=
  C28_permute_projects [255, 255, 255, 255] [1, 35, 69, 103, 137, 171, 205, 239]
    leftInitialPerm 32 (by decide) 3 (by decide) (by decide)

/-- C29. Tail-zero invariant of `permute`: for every `n` and an `output` buffer holding the
`ceil(n/8)` bytes the function writes, every bit of the result at a position
`n + 1 .. 8 * ceil(n/8)` is zero, and the bytes at index `ceil(n/8)` and beyond are the
bytes `output` held before, whatever they were. -/
theorem C29_permute_tail_zero (output input table : List Nat) (n : Nat)
    (hout : (n + 7) / 8 ≤ output.length) :
    (∀ j, n < j → j ≤ 8 * ((n + 7) / 8) → getBit (permute output input table n) j = 0) ∧
    (∀ i, (n + 7) / 8 ≤ i → (permute output input table n).getD i 0 = output.getD i 0) ∧
    (permute output input table n).length = output.length :=
  ⟨fun j h1 h2 => permute_tail output input table n hout j h1 h2,
    fun i hi => permute_getD_high output input table n i hi,
    permute_length output input table n⟩

/-- Witness of C29 at `n = 28`, the left half of the key schedule, with an output buffer of
five bytes that were all `0xFF` before. -/
theorem C29_permute_tail_zero_witness :
    (∀ j, 28 < j → j ≤ 8 * ((28 + 7) / 8) →
      getBit (permute [255, 255, 255, 255, 255] [19, 52, 87, 121, 155, 188, 223, 241]
        leftSubkeyPerm 28) j = 0) ∧
    (∀ i, (28 + 7) / 8 ≤ i →
      (permute [255, 255, 255, 255, 255] [19, 52, 87, 121, 155, 188, 223, 241]
        leftSubkeyPerm 28).getD i 0 = ([255, 255, 255, 255, 255] : List Nat).getD i 0) ∧
    (permute [255, 255, 255, 255, 255] [19, 52, 87, 121, 155, 188, 223, 241]
      leftSubkeyPerm 28).length = ([255, 255, 255, 255, 255] : List Nat).length :=
  C29_permute_tail_zero [255, 255, 255, 255, 255] [19, 52, 87, 121, 155, 188, 223, 241]
    leftSubkeyPerm 28 (by decide)

/-- C30. `getBit` addressing: for an index `idx = 8 * k + j` with `1 ≤ j ≤ 8` and byte `k`
inside the buffer, `getBit` is `floor( data[ k ] / 2 ^ (8 - j) ) mod 2`, so bit 1 is the most
significant bit of byte 0, and the result is 0 or 1. -/
theorem C30_getBit_addressing (data : List Nat) (k j : Nat) (h1 : 1 ≤ j) (h2 : j ≤ 8)
    (hk : k < data.length) :
    getBit data (8 * k + j) = data.get ⟨k, hk⟩ / 2 ^ (8 - j) % 2 ∧
    (getBit data (8 * k + j) = 0 ∨ getBit data (8 * k + j) = 1) := by
  have hb : getBit data (8 * k + j) = data.get ⟨k, hk⟩ / 2 ^ (8 - j) % 2 := by
    rw [getBit_eq, Nat.testBit_to_div_mod]
    have e1 : (8 * k + j - 1) / 8 = k := by omega
    have e2 : 7 - (8 * k + j - 1) % 8 = 8 - j := by omega
    rw [e1, e2, List.getD_eq_getElem _ _ hk]
    have hlt : data[k] / 2 ^ (8 - j) % 2 < 2 := Nat.mod_lt _ (by decide)
    rcases Nat.lt_succ_iff.mp hlt |>.lt_or_eq with h | h
    · have h0 : data[k] / 2 ^ (8 - j) % 2 = 0 := by omega
      simp [h0]
    · simp [h]
  refine ⟨hb, ?_⟩
  have := getBit_lt_two data (8 * k + j)
  omega

/-- Witness of C30: bit 1 is the most significant bit of byte 0, and bit 12 is bit 4 from
the left of byte 1. -/
theorem C30_getBit_addressing_witness :
    getBit [128, 16] (8 * 1 + 4) = ([128, 16] : List Nat).get ⟨1, by decide⟩ / 2 ^ (8 - 4) % 2 ∧
    (getBit [128, 16] (8 * 1 + 4) = 0 ∨ getBit [128, 16] (8 * 1 + 4) = 1) :=
  C30_getBit_addressing [128, 16] 1 4 (by decide) (by decide) (by decide)

end TDES

/-! # Triple DES: further properties of the components -/

namespace TDES

/-! ## Single bits and rotation -/

/-- C31. `putBit` writes exactly one bit: for an index `idx` inside the buffer, after
`putBit( data, idx, val )` bit `idx` is 1 if `val` is non-zero and 0 otherwise, every other
bit is what it was, and writing back the bit already there leaves a buffer of bytes
unchanged. -/
theorem C31_putBit_one_bit (data : List Nat) (idx val : Nat) (h1 : 1 ≤ idx)
    (h2 : idx ≤ 8 * data.length) :
    getBit (putBit data idx val) idx = (if val ≠ 0 then 1 else 0) ∧
    (∀ j, 1 ≤ j → j ≠ idx → getBit (putBit data idx val) j = getBit data j) ∧
    (IsBytes data → putBit data idx (getBit data idx) = data) := by
  have hin : (idx - 1) / 8 < data.length := by omega
  refine ⟨?_, ?_, ?_⟩
  · rw [getBit_putBit, if_pos ⟨rfl, hin⟩]
    rfl
  · intro j hj hne
    rw [getBit_putBit, if_neg (fun hh => hne (by omega))]
  · intro hb
    apply bytes_ext _ _ (length_putBit _ _ _) (isBytes_putBit _ _ _ hb) hb
    intro j hj1 _
    rw [getBit_putBit]
    by_cases hc : j - 1 = idx - 1 ∧ (idx - 1) / 8 < data.length
    · rw [if_pos hc, bitOf_getBit]
      have : j = idx := by omega
      rw [this]
    · rw [if_neg hc]

/-- Witness of C31 at bit 12 of a two-byte buffer. -/
theorem C31_putBit_one_bit_witness :
    getBit (putBit [128, 16] 12 5) 12 = (if 5 ≠ 0 then 1 else 0) ∧
    (∀ j, 1 ≤ j → j ≠ 12 → getBit (putBit [128, 16] 12 5) j = getBit [128, 16] j) ∧
    (IsBytes [128, 16] → putBit [128, 16] 12 (getBit [128, 16] 12) = [128, 16]) :=
  C31_putBit_one_bit [128, 16] 12 5 (by decide) (by decide)

theorem rotateLeft_high (shift : Nat) : ∀ (bits : List Nat), 4 ≤ bits.length →
    ∀ j, 28 < j → getBit (rotateLeft bits shift) j = getBit bits j := by
  induction shift with
  | zero => intro bits _ j _; rfl
  | succ s ih =>
    intro bits hlen j hj
    have e : rotateLeft bits (s + 1) = rotateOnce (rotateLeft bits s) := by
      rw [rotateLeft_eq, rotateLeft_eq, List.range_succ, List.foldl_append]
      rfl
    have hl := (rotateLeft_spec s bits hlen).1
    rw [e, rotateOnce_getBit _ (by omega) j (by omega), if_neg (by omega), if_neg (by omega)]
    exact ih bits hlen j hj

theorem rotateLeft_getBit (bits : List Nat) (s : Nat) (hlen : 4 ≤ bits.length) (i : Nat)
    (h1 : 1 ≤ i) (h2 : i ≤ 28) :
    getBit (rotateLeft bits s) i = getBit bits ((i - 1 + s) % 28 + 1) := by
  have h := (rotateLeft_spec s bits hlen).2
  have hk : i - 1 < (bitsOf (rotateLeft bits s) 28).length := by rw [bitsOf_length]; omega
  have hk2 : i - 1 < ((bitsOf bits 28).rotate s).length := by
    rw [List.length_rotate, bitsOf_length]; omega
  have e : (bitsOf (rotateLeft bits s) 28)[i - 1] = ((bitsOf bits 28).rotate s)[i - 1] := by
    simp only [h]
  rw [bitsOf_getElem, List.getElem_rotate, bitsOf_getElem] at e
  simp only [bitsOf_length] at e
  have e1 : i - 1 + 1 = i := by omega
  rw [e1] at e
  exact e

/-- C32. `rotateLeft` is a cyclic rotation of the first 28 bits: for every 4-byte buffer and
every shift `s`, bit `i` of the result, `1 ≤ i ≤ 28`, is the original bit
`((i - 1 + s) mod 28) + 1`, and the bits 29..32 are unchanged. -/
theorem C32_rotateLeft_cyclic (bits : List Nat) (s : Nat) (hlen : bits.length = 4) :
    (∀ i, 1 ≤ i → i ≤ 28 →
      getBit (rotateLeft bits s) i = getBit bits ((i - 1 + s) % 28 + 1)) ∧
    (∀ i, 29 ≤ i → i ≤ 32 → getBit (rotateLeft bits s) i = getBit bits i) ∧
    (rotateLeft bits s).length = 4 := by
  refine ⟨fun i h1 h2 => rotateLeft_getBit bits s (by omega) i h1 h2,
    fun i h1 _ => rotateLeft_high s bits (by omega) i (by omega), ?_⟩
  rw [(rotateLeft_spec s bits (by omega)).1, hlen]

/-- Witness of C32 at a buffer with the last four bits set and a shift of 2. -/
theorem C32_rotateLeft_cyclic_witness :
    (∀ i, 1 ≤ i → i ≤ 28 →
      getBit (rotateLeft [240, 204, 170, 255] 2) i =
        getBit [240, 204, 170, 255] ((i - 1 + 2) % 28 + 1)) ∧
    (∀ i, 29 ≤ i → i ≤ 32 →
      getBit (rotateLeft [240, 204, 170, 255] 2) i = getBit [240, 204, 170, 255] i) ∧
    (rotateLeft [240, 204, 170, 255] 2).length = 4 :=
  C32_rotateLeft_cyclic [240, 204, 170, 255] 2 rfl

/-! ## The halves of the key schedule -/

theorem and_upper_mod : ∀ x, x < 256 → (x &&& UPPER_MASK) % 16 = 0 ∧ x &&& UPPER_MASK < 256 := by
  decide

theorem keyHalf_isBytes (key perm : List Nat) : IsBytes (keyHalf key perm) := by
  intro i
  unfold keyHalf
  rw [getD_set]
  have hp : ∀ j, (permute (List.replicate HALF_SUBKEY_BYTES 0) key perm HALF_SUBKEY_BITS).getD j 0
      < 256 := permute_isBytes _ _ _ _ (isBytes_replicate _)
  split
  · exact (and_upper_mod _ (hp _)).2
  · exact hp i

theorem keyHalf_getBit (key perm : List Nat) (i : Nat) (h1 : 1 ≤ i) (h2 : i ≤ 28) :
    getBit (keyHalf key perm) i = getBit key (perm.getD (i - 1) 0) := by
  have h := bitsOf_keyHalf key perm
  have e : (bitsOf (keyHalf key perm) 28).getD (i - 1) 0 =
      (bitsOf (permute (List.replicate 4 0) key perm 28) 28).getD (i - 1) 0 := by rw [h]
  rw [bitsOf_getD _ _ _ (by omega), bitsOf_getD _ _ _ (by omega)] at e
  have e1 : i - 1 + 1 = i := by omega
  rw [e1] at e
  rw [e, permute_getBit _ _ _ _ (by decide) i h1 h2]

theorem keyHalf_low_nibble (key perm : List Nat) : (keyHalf key perm).getD 3 0 % 16 = 0 := by
  unfold keyHalf
  have hl : (permute (List.replicate HALF_SUBKEY_BYTES 0) key perm HALF_SUBKEY_BITS).length = 4 := by
    rw [permute_length, List.length_replicate]; rfl
  have e : HALF_SUBKEY_BYTES - 1 = 3 := rfl
  rw [e, getD_set, if_pos ⟨rfl, by rw [hl]; decide⟩]
  exact (and_upper_mod _ (permute_isBytes _ _ _ _ (isBytes_replicate _) _)).1

/-- The claim of C33 read literally fails: for the key `13 34 57 79 9B BC DF F1` the fourth
byte of the initial `C` is `0xF0`, so its high nibble is not zero (it holds the bits 25..28
of `C`). -/
theorem C33_counterexample :
    (keyHalf [0x13, 0x34, 0x57, 0x79, 0x9B, 0xBC, 0xDF, 0xF1] leftSubkeyPerm).getD 3 0 = 0xF0 ∧
    (keyHalf [0x13, 0x34, 0x57, 0x79, 0x9B, 0xBC, 0xDF, 0xF1] leftSubkeyPerm).getD 3 0 / 16 ≠ 0 := by
  decide

/-- C33, amended. In `generateSubkeys` the initial `C` and `D`, obtained from the two halves
of PC-1, are 4-byte buffers whose first 28 bits are the selected key bits and in which the
low nibble of the fourth byte (the bits 29..32) is zero. -/
theorem C33_initial_halves (key : List Nat) :
    (∀ K, generateSubkeys K key = ((List.range' 1 16).foldl keyStep
      (keyHalf key leftSubkeyPerm, keyHalf key rightSubkeyPerm, K)).2.2) ∧
    ((keyHalf key leftSubkeyPerm).length = 4 ∧ IsBytes (keyHalf key leftSubkeyPerm) ∧
      (keyHalf key leftSubkeyPerm).getD 3 0 % 16 = 0 ∧
      ∀ i, 1 ≤ i → i ≤ 28 →
        getBit (keyHalf key leftSubkeyPerm) i = getBit key (leftSubkeyPerm.getD (i - 1) 0)) ∧
    ((keyHalf key rightSubkeyPerm).length = 4 ∧ IsBytes (keyHalf key rightSubkeyPerm) ∧
      (keyHalf key rightSubkeyPerm).getD 3 0 % 16 = 0 ∧
      ∀ i, 1 ≤ i → i ≤ 28 →
        getBit (keyHalf key rightSubkeyPerm) i = getBit key (rightSubkeyPerm.getD (i - 1) 0)) :=
  ⟨fun K => generateSubkeys_eq K key,
    ⟨keyHalf_length _ _, keyHalf_isBytes _ _, keyHalf_low_nibble _ _,
      fun i h1 h2 => keyHalf_getBit _ _ i h1 h2⟩,
    ⟨keyHalf_length _ _, keyHalf_isBytes _ _, keyHalf_low_nibble _ _,
      fun i h1 h2 => keyHalf_getBit _ _ i h1 h2⟩⟩

theorem rotateOnce_isBytes (bits : List Nat) (h : IsBytes bits) : IsBytes (rotateOnce bits) := by
  unfold rotateOnce
  apply isBytes_putBit
  have : ∀ (l : List Nat) (b : List Nat), IsBytes b →
      IsBytes (l.foldl (fun bits i => putBit bits i (getBit bits (i + 1))) b) := by
    intro l
    induction l with
    | nil => intro b hb; exact hb
    | cons a l ih => intro b hb; exact ih _ (isBytes_putBit _ _ _ hb)
  exact this _ _ h

theorem rotateLeft_succ (bits : List Nat) (s : Nat) :
    rotateLeft bits (s + 1) = rotateOnce (rotateLeft bits s) := by
  rw [rotateLeft_eq, rotateLeft_eq, List.range_succ, List.foldl_append]
  rfl

theorem rotateLeft_isBytes (s : Nat) (bits : List Nat) (h : IsBytes bits) :
    IsBytes (rotateLeft bits s) := by
  induction s with
  | zero => exact h
  | succ s ih => rw [rotateLeft_succ]; exact rotateOnce_isBytes _ ih

theorem rotateLeft_add (bits : List Nat) (s t : Nat) :
    rotateLeft (rotateLeft bits s) t = rotateLeft bits (s + t) := by
  induction t with
  | zero => rfl
  | succ t ih => rw [rotateLeft_succ, ih, ← Nat.add_assoc, rotateLeft_succ]

/-- Rotating a 4-byte buffer left by 28 gives the buffer back. -/
theorem rotateLeft_full (bits : List Nat) (hlen : bits.length = 4) (hb : IsBytes bits) :
    rotateLeft bits 28 = bits := by
  apply bytes_ext _ _ (rotateLeft_spec 28 bits (by omega)).1 (rotateLeft_isBytes 28 bits hb) hb
  intro j hj1 _
  by_cases hj : j ≤ 28
  · rw [rotateLeft_getBit bits 28 (by omega) j hj1 hj]
    have : (j - 1 + 28) % 28 + 1 = j := by omega
    rw [this]
  · exact rotateLeft_high 28 bits (by omega) j (by omega)

/-- The shift amounts of the rounds 1..16 add up to 28. -/
theorem shiftTotal_sixteen :
    ((List.range' 1 16).map (fun round => subkeyShiftSchedule.getD round 0)).sum = 28 := by
  decide

theorem keySteps_halves (K : List (List Nat)) (C D : List Nat) : ∀ r,
    ((List.range' 1 r).foldl keyStep (C, D, K)).1 =
      rotateLeft C ((List.range' 1 r).map (fun round => subkeyShiftSchedule.getD round 0)).sum ∧
    ((List.range' 1 r).foldl keyStep (C, D, K)).2.1 =
      rotateLeft D ((List.range' 1 r).map (fun round => subkeyShiftSchedule.getD round 0)).sum := by
  intro r
  induction r with
  | zero => exact ⟨rfl, rfl⟩
  | succ r ih =>
    rw [List.range'_concat, List.foldl_append, List.map_append, List.sum_append]
    simp only [List.foldl_cons, List.foldl_nil, List.map_cons, List.map_nil, List.sum_cons,
      List.sum_nil, Nat.add_zero]
    constructor
    · show rotateLeft ((List.range' 1 r).foldl keyStep (C, D, K)).1 _ = _
      rw [ih.1, rotateLeft_add]
    · show rotateLeft ((List.range' 1 r).foldl keyStep (C, D, K)).2.1 _ = _
      rw [ih.2, rotateLeft_add]

theorem halfC_rotate (key : List Nat) : ∀ r,
    halfC key r = (halfC key 0).rotate
      ((List.range' 1 r).map (fun round => subkeyShiftSchedule.getD round 0)).sum ∧
    halfD key r = (halfD key 0).rotate
      ((List.range' 1 r).map (fun round => subkeyShiftSchedule.getD round 0)).sum := by
  intro r
  induction r with
  | zero => exact ⟨(List.rotate_zero _).symm, (List.rotate_zero _).symm⟩
  | succ r ih =>
    rw [List.range'_concat, List.map_append, List.sum_append]
    simp only [List.map_cons, List.map_nil, List.sum_cons, List.sum_nil, Nat.add_zero]
    have e : 1 + 1 * r = r + 1 := by omega
    rw [e]
    constructor
    · show (halfC key r).rotate _ = _
      rw [ih.1, List.rotate_rotate]
    · show (halfD key r).rotate _ = _
      rw [ih.2, List.rotate_rotate]

theorem halfC_sixteen (key : List Nat) :
    halfC key 16 = halfC key 0 ∧ halfD key 16 = halfD key 0 := by
  have h := halfC_rotate key 16
  rw [shiftTotal_sixteen] at h
  have hc : (halfC key 0).length = 28 := bitsOf_length _ _
  have hd : (halfD key 0).length = 28 := bitsOf_length _ _
  constructor
  · rw [h.1]
    have := List.rotate_length (halfC key 0)
    rw [hc] at this
    exact this
  · rw [h.2]
    have := List.rotate_length (halfD key 0)
    rw [hd] at this
    exact this

/-- C34. The rotations of the key schedule close up: the shift amounts of the rounds 1..16
total 28 and `rotateLeft` by 28 is the identity on every 4-byte buffer, so for every key the
buffers `C` and `D` after round 16 are the initial `C` and `D`, and the bits of `K[ 16 ]` are
the PC-2 selection from `C_0 || D_0`. -/
theorem C34_rotations_close_up (K : List (List Nat)) (key : List Nat) (hK : K.length = 17)
    (hslots : ∀ r, 1 ≤ r → r ≤ 16 → (K.getD r []).length = 6) :
    ((List.range' 1 16).map (fun round => subkeyShiftSchedule.getD round 0)).sum = 28 ∧
    (∀ bits : List Nat, bits.length = 4 → IsBytes bits → rotateLeft bits 28 = bits) ∧
    ((List.range' 1 16).foldl keyStep
      (keyHalf key leftSubkeyPerm, keyHalf key rightSubkeyPerm, K)).1 =
        keyHalf key leftSubkeyPerm ∧
    ((List.range' 1 16).foldl keyStep
      (keyHalf key leftSubkeyPerm, keyHalf key rightSubkeyPerm, K)).2.1 =
        keyHalf key rightSubkeyPerm ∧
    halfC key 16 = halfC key 0 ∧ halfD key 16 = halfD key 0 ∧
    ∀ t, 1 ≤ t → t ≤ 48 →
      getBit ((generateSubkeys K key).getD 16 []) t =
        (halfC key 0 ++ halfD key 0).getD (subkeyPerm.getD (t - 1) 0 - 1) 0 := by
  have hh := keySteps_halves K (keyHalf key leftSubkeyPerm) (keyHalf key rightSubkeyPerm) 16
  rw [shiftTotal_sixteen] at hh
  have h16 := halfC_sixteen key
  refine ⟨shiftTotal_sixteen, fun bits h1 h2 => rotateLeft_full bits h1 h2, ?_, ?_, h16.1, h16.2,
    ?_⟩
  · rw [hh.1]
    exact rotateLeft_full _ (keyHalf_length _ _) (keyHalf_isBytes _ _)
  · rw [hh.2]
    exact rotateLeft_full _ (keyHalf_length _ _) (keyHalf_isBytes _ _)
  · intro t ht1 ht2
    obtain ⟨_, _, _, _, _, h6⟩ := keySteps_spec K key hK hslots 16 (Nat.le_refl 16)
    have := ((h6 16).1 ⟨by omega, by omega⟩).2.2 t ht1 ht2
    rw [h16.1, h16.2] at this
    rw [generateSubkeys_eq]
    exact this

/-- Witness of C34 at a fresh schedule array and the test key. -/
theorem C34_rotations_close_up_witness :
    ((List.range' 1 16).map (fun round => subkeyShiftSchedule.getD round 0)).sum = 28 ∧
    (∀ bits : List Nat, bits.length = 4 → IsBytes bits → rotateLeft bits 28 = bits) ∧
    ((List.range' 1 16).foldl keyStep
      (keyHalf [0x01, 0x23, 0x45, 0x67, 0x89, 0xAB, 0xCD, 0xEF] leftSubkeyPerm,
        keyHalf [0x01, 0x23, 0x45, 0x67, 0x89, 0xAB, 0xCD, 0xEF] rightSubkeyPerm,
        freshSchedule)).1 =
        keyHalf [0x01, 0x23, 0x45, 0x67, 0x89, 0xAB, 0xCD, 0xEF] leftSubkeyPerm ∧
    ((List.range' 1 16).foldl keyStep
      (keyHalf [0x01, 0x23, 0x45, 0x67, 0x89, 0xAB, 0xCD, 0xEF] leftSubkeyPerm,
        keyHalf [0x01, 0x23, 0x45, 0x67, 0x89, 0xAB, 0xCD, 0xEF] rightSubkeyPerm,
        freshSchedule)).2.1 =
        keyHalf [0x01, 0x23, 0x45, 0x67, 0x89, 0xAB, 0xCD, 0xEF] rightSubkeyPerm ∧
    halfC [0x01, 0x23, 0x45, 0x67, 0x89, 0xAB, 0xCD, 0xEF] 16 =
      halfC [0x01, 0x23, 0x45, 0x67, 0x89, 0xAB, 0xCD, 0xEF] 0 ∧
    halfD [0x01, 0x23, 0x45, 0x67, 0x89, 0xAB, 0xCD, 0xEF] 16 =
      halfD [0x01, 0x23, 0x45, 0x67, 0x89, 0xAB, 0xCD, 0xEF] 0 ∧
    ∀ t, 1 ≤ t → t ≤ 48 →
      getBit ((generateSubkeys freshSchedule
        [0x01, 0x23, 0x45, 0x67, 0x89, 0xAB, 0xCD, 0xEF]).getD 16 []) t =
        (halfC [0x01, 0x23, 0x45, 0x67, 0x89, 0xAB, 0xCD, 0xEF] 0 ++
          halfD [0x01, 0x23, 0x45, 0x67, 0x89, 0xAB, 0xCD, 0xEF] 0).getD
          (subkeyPerm.getD (t - 1) 0 - 1) 0 :=
  C34_rotations_close_up freshSchedule [0x01, 0x23, 0x45, 0x67, 0x89, 0xAB, 0xCD, 0xEF]
    (by decide) (by decide)

/-! ## Parity bits, inverse directions and depadding -/

theorem pc1_no_parity : ∀ i, i < 28 →
    leftSubkeyPerm.getD i 0 % 8 ≠ 0 ∧ rightSubkeyPerm.getD i 0 % 8 ≠ 0 := by
  decide

/-- The key schedule reads no bit at a position that is a multiple of 8. -/
theorem generateSubkeys_parity (K : List (List Nat)) (k1 k2 : List Nat)
    (h : ∀ j, 1 ≤ j → j ≤ 64 → j % 8 ≠ 0 → getBit k1 j = getBit k2 j) :
    generateSubkeys K k1 = generateSubkeys K k2 := by
  have hl : permute (List.replicate HALF_SUBKEY_BYTES 0) k1 leftSubkeyPerm HALF_SUBKEY_BITS =
      permute (List.replicate HALF_SUBKEY_BYTES 0) k2 leftSubkeyPerm HALF_SUBKEY_BITS :=
    permute_congr _ _ _ _ _ (fun i hi => by
      have h1 := (subkeyPerm_range i hi).1
      exact h _ h1.1 h1.2 (pc1_no_parity i hi).1)
  have hr : permute (List.replicate HALF_SUBKEY_BYTES 0) k1 rightSubkeyPerm HALF_SUBKEY_BITS =
      permute (List.replicate HALF_SUBKEY_BYTES 0) k2 rightSubkeyPerm HALF_SUBKEY_BITS :=
    permute_congr _ _ _ _ _ (fun i hi => by
      have h1 := (subkeyPerm_range i hi).2
      exact h _ h1.1 h1.2 (pc1_no_parity i hi).2)
  unfold generateSubkeys
  simp only []
  rw [hl, hr]

theorem getBit_drop (l : List Nat) (n j : Nat) (hj : 1 ≤ j) :
    getBit (l.drop n) j = getBit l (8 * n + j) := by
  rw [getBit_eq, getBit_eq, getD_drop]
  have e1 : (8 * n + j - 1) / 8 = n + (j - 1) / 8 := by omega
  have e2 : (8 * n + j - 1) % 8 = (j - 1) % 8 := by omega
  rw [e1, e2]

/-- C35. Parity bits of the key are ignored: two keys that agree on every bit of the first
eight bytes except the positions 8, 16, ..., 64 give the same key schedule, in all slots; and
two Triple DES keys of the same length that agree on every bit of the first 24 bytes except
the positions that are multiples of 8 give the same `encryptTDES` and `decryptTDES`
results. -/
theorem C35_parity_ignored (k1 k2 key1 key2 : List Nat)
    (h8 : ∀ j, 1 ≤ j → j ≤ 64 → j % 8 ≠ 0 → getBit k1 j = getBit k2 j)
    (hlen : key1.length = key2.length)
    (h24 : ∀ j, 1 ≤ j → j ≤ 192 → j % 8 ≠ 0 → getBit key1 j = getBit key2 j) :
    (∀ K : List (List Nat), generateSubkeys K k1 = generateSubkeys K k2) ∧
    (∀ input : List Nat, encryptTDES input key1 = encryptTDES input key2 ∧
      decryptTDES input key1 = decryptTDES input key2) := by
  refine ⟨fun K => generateSubkeys_parity K k1 k2 h8, ?_⟩
  intro input
  have h1 : generateSubkeys freshSchedule key1 = generateSubkeys freshSchedule key2 :=
    generateSubkeys_parity _ _ _ (fun j hj1 hj2 hj3 => h24 j hj1 (by omega) hj3)
  have h2 : generateSubkeys freshSchedule (key1.drop BLOCK_BYTES) =
      generateSubkeys freshSchedule (key2.drop BLOCK_BYTES) :=
    generateSubkeys_parity _ _ _ (fun j hj1 hj2 hj3 => by
      rw [getBit_drop _ _ _ hj1, getBit_drop _ _ _ hj1]
      have e : BLOCK_BYTES = 8 := rfl
      rw [e]
      exact h24 _ (by omega) (by omega) (by omega))
  have h3 : generateSubkeys freshSchedule (key1.drop (NUM_HALVES * BLOCK_BYTES)) =
      generateSubkeys freshSchedule (key2.drop (NUM_HALVES * BLOCK_BYTES)) :=
    generateSubkeys_parity _ _ _ (fun j hj1 hj2 hj3 => by
      rw [getBit_drop _ _ _ hj1, getBit_drop _ _ _ hj1]
      have e : NUM_HALVES * BLOCK_BYTES = 16 := rfl
      rw [e]
      exact h24 _ (by omega) (by omega) (by omega))
  constructor
  · unfold encryptTDES
    simp only [hlen, h1, h2, h3]
  · unfold decryptTDES
    simp only [hlen, h1, h2, h3]

/-- Witness of C35: the test key and the same key with every parity bit flipped, and the
24-byte keys `0, 1, ..., 23` and `1, 0, 3, 2, ..., 23, 22`. -/
theorem C35_parity_ignored_witness :
    (∀ K : List (List Nat),
      generateSubkeys K [0x01, 0x23, 0x45, 0x67, 0x89, 0xAB, 0xCD, 0xEF] =
        generateSubkeys K [0x00, 0x22, 0x44, 0x66, 0x88, 0xAA, 0xCC, 0xEE]) ∧
    (∀ input : List Nat,
      encryptTDES input (List.range 24) =
        encryptTDES input ((List.range 24).map (fun b => b ^^^ 1)) ∧
      decryptTDES input (List.range 24) =
        decryptTDES input ((List.range 24).map (fun b => b ^^^ 1))) :=
  C35_parity_ignored [0x01, 0x23, 0x45, 0x67, 0x89, 0xAB, 0xCD, 0xEF]
    [0x00, 0x22, 0x44, 0x66, 0x88, 0xAA, 0xCC, 0xEE] (List.range 24)
    ((List.range 24).map (fun b => b ^^^ 1)) (by decide) (by decide) (by decide)

/-- C37. `encryptBlock` undoes `decryptBlock`, and the other way round, on every 8-byte
block of bytes and for every key schedule; both results are 8-byte blocks of bytes, so both
operations are bijections on the 8-byte blocks: each is injective and reaches every block. -/
theorem C37_encrypt_undoes_decrypt (B : List Nat) (K : List (List Nat)) (hB : B.length = 8)
    (hb : IsBytes B) :
    encryptBlock (decryptBlock B K) K = B ∧ decryptBlock (encryptBlock B K) K = B ∧
    ((encryptBlock B K).length = 8 ∧ IsBytes (encryptBlock B K)) ∧
    ((decryptBlock B K).length = 8 ∧ IsBytes (decryptBlock B K)) ∧
    (∀ X : List Nat, X.length = 8 → IsBytes X →
      (encryptBlock X K = encryptBlock B K → X = B) ∧
      (decryptBlock X K = decryptBlock B K → X = B)) ∧
    (∃ X : List Nat, X.length = 8 ∧ IsBytes X ∧ encryptBlock X K = B) ∧
    (∃ X : List Nat, X.length = 8 ∧ IsBytes X ∧ decryptBlock X K = B) := by
  refine ⟨encrypt_decrypt_block B K hB hb, decrypt_encrypt_block B K hB hb,
    ⟨encryptBlock_length B K hB, encryptBlock_isBytes B K hB⟩,
    ⟨decryptBlock_length B K hB, decryptBlock_isBytes B K hB⟩, ?_,
    ⟨decryptBlock B K, decryptBlock_length B K hB, decryptBlock_isBytes B K hB,
      encrypt_decrypt_block B K hB hb⟩,
    ⟨encryptBlock B K, encryptBlock_length B K hB, encryptBlock_isBytes B K hB,
      decrypt_encrypt_block B K hB hb⟩⟩
  intro X hX hXb
  constructor
  · intro h
    rw [← decrypt_encrypt_block X K hX hXb, h, decrypt_encrypt_block B K hB hb]
  · intro h
    rw [← encrypt_decrypt_block X K hX hXb, h, encrypt_decrypt_block B K hB hb]

/-- Witness of C37 at the block `00 11 22 33 44 55 66 77` and the schedule of the test key. -/
theorem C37_encrypt_undoes_decrypt_witness :
    encryptBlock (decryptBlock [0, 17, 34, 51, 68, 85, 102, 119]
        (generateSubkeys freshSchedule [0x01, 0x23, 0x45, 0x67, 0x89, 0xAB, 0xCD, 0xEF]))
      (generateSubkeys freshSchedule [0x01, 0x23, 0x45, 0x67, 0x89, 0xAB, 0xCD, 0xEF]) =
      [0, 17, 34, 51, 68, 85, 102, 119] :=
  (C37_encrypt_undoes_decrypt [0, 17, 34, 51, 68, 85, 102, 119]
    (generateSubkeys freshSchedule [0x01, 0x23, 0x45, 0x67, 0x89, 0xAB, 0xCD, 0xEF]) rfl
    ((isBytes_iff _).mpr (by decide))).1

/-- What `decryptTDES` returns on the ciphertext of one block `T`: the block without its
last `T[ 7 ]` bytes, whatever the other bytes are. -/
theorem decryptTDES_one_block (key T : List Nat) (hk : key.length = 24) (hT : T.length = 8)
    (hTb : IsBytes T) (h1 : 1 ≤ T.getD 7 0) (h2 : T.getD 7 0 ≤ 8) :
    decryptTDES (mapBlocks (ede (scheduleOf key 0) (scheduleOf key 1) (scheduleOf key 2)) 1 T)
      key = Except.ok (T.take (8 - T.getD 7 0)) := by
  have hlen : (mapBlocks (ede (scheduleOf key 0) (scheduleOf key 1) (scheduleOf key 2)) 1
      T).length = 8 * 1 := mapBlocks_length _ (fun b hb => ede_length _ _ _ b hb) 1 T hT
  have hcancel := mapBlocks_cancel (ede (scheduleOf key 0) (scheduleOf key 1) (scheduleOf key 2))
    (ded (scheduleOf key 0) (scheduleOf key 1) (scheduleOf key 2))
    (fun b hb => ede_length _ _ _ b hb) (fun b hb hbb => ded_ede _ _ _ b hb hbb) 1 T hT hTb
  rw [decryptTDES_eq _ key hk 1 hlen (by omega), hcancel, hlen]
  have e : 8 * 1 - 1 = 7 := rfl
  rw [e, if_neg (by omega)]

/-- No plaintext is encrypted to the ciphertext of a block whose last byte is 2 and whose
byte before it is not. -/
theorem encryptTDES_ne_block (key T P : List Nat) (hk : key.length = 24) (hT : T.length = 8)
    (hTb : IsBytes T) (hP : IsBytes P) (h7 : T.getD 7 0 = 2) (h6 : T.getD 6 0 ≠ 2) :
    encryptTDES P key ≠ Except.ok
      (mapBlocks (ede (scheduleOf key 0) (scheduleOf key 1) (scheduleOf key 2)) 1 T) := by
  intro h
  by_cases hlen : P.length < 2147483640
  swap
  · rw [encryptTDES_overflow P key hk (by omega)] at h
    cases h
  rw [encryptTDES_eq P key hk hlen] at h
  have heq := Except.ok.inj h
  have hl1 := mapBlocks_length (ede (scheduleOf key 0) (scheduleOf key 1) (scheduleOf key 2))
    (fun b hb => ede_length _ _ _ b hb) (P.length / 8 + 1) (padded P) (padded_length P)
  have hl2 := mapBlocks_length (ede (scheduleOf key 0) (scheduleOf key 1) (scheduleOf key 2))
    (fun b hb => ede_length _ _ _ b hb) 1 T hT
  have hm : P.length / 8 + 1 = 1 := by
    rw [heq, hl2] at hl1
    omega
  rw [hm] at heq
  have hpl : (padded P).length = 8 * 1 := by rw [padded_length, hm]
  have hpb : IsBytes (padded P) := padded_isBytes P hP
  have hc1 := mapBlocks_cancel (ede (scheduleOf key 0) (scheduleOf key 1) (scheduleOf key 2))
    (ded (scheduleOf key 0) (scheduleOf key 1) (scheduleOf key 2))
    (fun b hb => ede_length _ _ _ b hb) (fun b hb hbb => ded_ede _ _ _ b hb hbb) 1 (padded P)
    hpl hpb
  have hc2 := mapBlocks_cancel (ede (scheduleOf key 0) (scheduleOf key 1) (scheduleOf key 2))
    (ded (scheduleOf key 0) (scheduleOf key 1) (scheduleOf key 2))
    (fun b hb => ede_length _ _ _ b hb) (fun b hb hbb => ded_ede _ _ _ b hb hbb) 1 T hT hTb
  rw [heq, hc2] at hc1
  have hlast := padded_last P
  rw [← hc1, hT] at hlast
  have hpad : padLen P.length = 2 := by rw [← hlast]; exact h7
  have hplen : P.length = 6 := by unfold padLen at hpad; omega
  have h6p : (padded P).getD 6 0 = 2 := by
    unfold padded
    rw [hpad, List.getD_eq_getElem?_getD, List.getElem?_append_right (by omega), hplen]
    rfl
  rw [← hc1] at h6p
  exact h6 h6p

/-- C38. Depadding checks only the last byte: for the key `0, 1, ..., 23` there is a
ciphertext `C` of one block whose decrypted buffer `T` ends in `7, 2`, so that its last two
bytes are not both the pad length 2; `decryptTDES` nevertheless succeeds on `C` with the
first six bytes of `T`, `encryptTDES` of that result is not `C`, and no plaintext of bytes
at all is encrypted to `C`. -/
theorem C38_depad_last_byte_only :
    ∃ (K C P T : List Nat), K.length = 24 ∧ C.length = 8 ∧
      mapBlocks (ded (scheduleOf K 0) (scheduleOf K 1) (scheduleOf K 2)) 1 C = T ∧
      T.getD 7 0 = 2 ∧ T.getD 6 0 ≠ 2 ∧
      decryptTDES C K = Except.ok P ∧ P = T.take 6 ∧
      encryptTDES P K ≠ Except.ok C ∧
      ∀ Q : List Nat, IsBytes Q → encryptTDES Q K ≠ Except.ok C := by
  have hT : ([1, 2, 3, 4, 5, 6, 7, 2] : List Nat).length = 8 := rfl
  have hTb : IsBytes [1, 2, 3, 4, 5, 6, 7, 2] := (isBytes_iff _).mpr (by decide)
  have hk : (List.range 24).length = 24 := rfl
  refine ⟨List.range 24,
    mapBlocks (ede (scheduleOf (List.range 24) 0) (scheduleOf (List.range 24) 1)
      (scheduleOf (List.range 24) 2)) 1 [1, 2, 3, 4, 5, 6, 7, 2],
    [1, 2, 3, 4, 5, 6], [1, 2, 3, 4, 5, 6, 7, 2], hk, ?_, ?_, rfl, by decide, ?_, rfl, ?_, ?_⟩
  · exact mapBlocks_length _ (fun b hb => ede_length _ _ _ b hb) 1 _ hT
  · exact mapBlocks_cancel _ _ (fun b hb => ede_length _ _ _ b hb)
      (fun b hb hbb => ded_ede _ _ _ b hb hbb) 1 _ hT hTb
  · exact decryptTDES_one_block _ _ hk hT hTb (by decide) (by decide)
  · exact encryptTDES_ne_block _ _ _ hk hT hTb ((isBytes_iff _).mpr (by decide)) rfl (by decide)
  · intro Q hQ
    exact encryptTDES_ne_block _ _ _ hk hT hTb hQ rfl (by decide)

/-! ## The complementation property -/

theorem complement_length (l : List Nat) : (complement l).length = l.length := by
  unfold complement
  rw [List.length_map]

theorem complement_getD (l : List Nat) (i : Nat) (h : i < l.length) :
    (complement l).getD i 0 = l.getD i 0 ^^^ 255 := by
  rw [List.getD_eq_getElem _ _ (by rw [complement_length]; exact h), List.getD_eq_getElem _ _ h]
  unfold complement
  rw [List.getElem_map]
  rfl

theorem complement_isBytes (l : List Nat) (h : IsBytes l) : IsBytes (complement l) := by
  intro i
  by_cases hi : i < l.length
  · rw [complement_getD l i hi]
    exact Nat.xor_lt_two_pow (n := 8) (h i) (by decide)
  · rw [List.getD_eq_default _ _ (by rw [complement_length]; omega)]
    omega

theorem getBit_complement (l : List Nat) (j : Nat) (h1 : 1 ≤ j) (h2 : j ≤ 8 * l.length) :
    getBit (complement l) j = 1 - getBit l j := by
  have hk : (j - 1) / 8 < l.length := by omega
  rw [getBit_eq, getBit_eq, complement_getD l _ hk, Nat.testBit_xor]
  have h255 : (255 : Nat).testBit (7 - (j - 1) % 8) = true := by
    have := Nat.testBit_two_pow_sub_one 8 (7 - (j - 1) % 8)
    simp only [Nat.reducePow, Nat.reduceSub] at this
    rw [this]
    exact decide_eq_true (by omega)
  rw [h255]
  cases (l.getD ((j - 1) / 8) 0).testBit (7 - (j - 1) % 8) <;> rfl

/-- A permutation that fills whole bytes maps complemented input bits to the complement of
its output. -/
theorem permute_complement (in1 in2 perm : List Nat) (m : Nat)
    (h : ∀ i, i < 8 * m → getBit in2 (perm.getD i 0) = 1 - getBit in1 (perm.getD i 0)) :
    permute (List.replicate m 0) in2 perm (8 * m) =
      complement (permute (List.replicate m 0) in1 perm (8 * m)) := by
  have hb1 : IsBytes (permute (List.replicate m 0) in1 perm (8 * m)) :=
    permute_isBytes _ _ _ _ (isBytes_replicate _)
  have hb2 : IsBytes (permute (List.replicate m 0) in2 perm (8 * m)) :=
    permute_isBytes _ _ _ _ (isBytes_replicate _)
  have hl1 : (permute (List.replicate m 0) in1 perm (8 * m)).length = m := by
    rw [permute_length, List.length_replicate]
  have hl2 : (permute (List.replicate m 0) in2 perm (8 * m)).length = m := by
    rw [permute_length, List.length_replicate]
  apply bytes_ext _ _ (by rw [hl2, complement_length, hl1]) hb2 (complement_isBytes _ hb1)
  intro j hj1 hj2
  rw [hl2] at hj2
  have hout : (8 * m + 7) / 8 ≤ (List.replicate m 0).length := by
    rw [List.length_replicate]; omega
  rw [getBit_complement _ j hj1 (by rw [hl1]; exact hj2),
    permute_getBit _ _ _ _ hout j hj1 hj2, permute_getBit _ _ _ _ hout j hj1 hj2]
  exact h (j - 1) (by omega)

theorem xor_complement (a b : Nat) : (a ^^^ 255) ^^^ (b ^^^ 255) = a ^^^ b := by
  rw [Nat.xor_assoc, Nat.xor_comm b 255, ← Nat.xor_assoc 255 255 b, Nat.xor_self, Nat.zero_xor]

theorem xor_complement_left (a b : Nat) : (a ^^^ 255) ^^^ b = (a ^^^ b) ^^^ 255 := by
  rw [Nat.xor_assoc, Nat.xor_comm 255 b, ← Nat.xor_assoc]

theorem expansion_range : ∀ i, i < 48 →
    1 ≤ expandedRSelector.getD i 0 ∧ expandedRSelector.getD i 0 ≤ 32 := by
  decide

/-- The round function gives the same output on a complemented half and a complemented
subkey. -/
theorem fFunction_complement (result R k : List Nat) (hR : R.length = 4) (hk : k.length = 6) :
    fFunction result (complement R) (complement k) = fFunction result R k := by
  have hE : permute (List.replicate SUBKEY_BYTES 0) (complement R) expandedRSelector SUBKEY_BITS =
      complement (permute (List.replicate SUBKEY_BYTES 0) R expandedRSelector SUBKEY_BITS) :=
    permute_complement R (complement R) expandedRSelector 6 (fun i hi => by
      have hr := expansion_range i hi
      exact getBit_complement R _ hr.1 (by rw [hR]; omega))
  have hlen : (permute (List.replicate SUBKEY_BYTES 0) R expandedRSelector SUBKEY_BITS).length
      = 6 := by rw [permute_length, List.length_replicate]; rfl
  have hB : (List.range SUBKEY_BYTES).map (fun i =>
      (permute (List.replicate SUBKEY_BYTES 0) (complement R) expandedRSelector
        SUBKEY_BITS).getD i 0 ^^^ (complement k).getD i 0) =
      (List.range SUBKEY_BYTES).map (fun i =>
      (permute (List.replicate SUBKEY_BYTES 0) R expandedRSelector SUBKEY_BITS).getD i 0 ^^^
        k.getD i 0) := by
    apply List.map_congr_left
    intro i hi
    rw [List.mem_range] at hi
    have hi6 : i < 6 := hi
    rw [hE, complement_getD _ i (by rw [hlen]; exact hi6),
      complement_getD k i (by rw [hk]; exact hi6), xor_complement]
  unfold fFunction
  simp only []
  rw [hB]

theorem xorHalf_complement (L f : List Nat) (hL : L.length = 4) :
    xorHalf (complement L) f = complement (xorHalf L f) := by
  unfold xorHalf complement
  rw [List.map_map]
  apply List.map_congr_left
  intro i hi
  rw [List.mem_range] at hi
  have hi4 : i < 4 := hi
  have := complement_getD L i (by rw [hL]; exact hi4)
  unfold complement at this
  rw [this]
  exact xor_complement_left _ _

theorem rounds_complement : ∀ (ks : List (List Nat)) (L R : List Nat),
    (∀ k ∈ ks, k.length = 6) → L.length = 4 → R.length = 4 →
    (ks.map complement).foldl feistelRound (complement L, complement R) =
      (complement (ks.foldl feistelRound (L, R)).1, complement (ks.foldl feistelRound (L, R)).2) := by
  intro ks
  induction ks with
  | nil => intro L R _ _ _; rfl
  | cons k ks ih =>
    intro L R hks hL hR
    have hk : k.length = 6 := hks k (List.mem_cons_self _ _)
    rw [List.map_cons, List.foldl_cons, List.foldl_cons,
      feistelRound_eq _ _ _ (by rw [complement_length]; exact hL)
        (by rw [complement_length]; exact hR),
      feistelRound_eq _ _ _ hL hR]
    have hf : fOut (complement R) (complement k) = fOut R k := by
      unfold fOut
      exact fFunction_complement _ R k hR hk
    rw [hf, xorHalf_complement _ _ hL]
    exact ih R (xorHalf L (fOut R k)) (fun x hx => hks x (List.mem_cons_of_mem _ hx)) hR
      (xorHalf_length _ _)

theorem bitsOf_complement (in1 perm : List Nat) (hin : in1.length = 8)
    (hperm : ∀ i, i < 28 → 1 ≤ perm.getD i 0 ∧ perm.getD i 0 ≤ 64) :
    bitsOf (permute (List.replicate 4 0) (complement in1) perm 28) 28 =
      (bitsOf (permute (List.replicate 4 0) in1 perm 28) 28).map (fun b => 1 - b) := by
  apply List.ext_getElem
  · rw [List.length_map, bitsOf_length, bitsOf_length]
  · intro i h1 _
    have hi : i < 28 := by rw [bitsOf_length] at h1; exact h1
    rw [List.getElem_map, bitsOf_getElem, bitsOf_getElem,
      permute_getBit _ _ _ _ (by decide) (i + 1) (by omega) (by omega),
      permute_getBit _ _ _ _ (by decide) (i + 1) (by omega) (by omega)]
    have hr := hperm i hi
    exact getBit_complement in1 _ hr.1 (by rw [hin]; exact hr.2)

theorem halves_complement (key : List Nat) (hk : key.length = 8) : ∀ r,
    halfC (complement key) r = (halfC key r).map (fun b => 1 - b) ∧
    halfD (complement key) r = (halfD key r).map (fun b => 1 - b) := by
  intro r
  induction r with
  | zero =>
    exact ⟨bitsOf_complement key leftSubkeyPerm hk (fun i hi => (subkeyPerm_range i hi).1),
      bitsOf_complement key rightSubkeyPerm hk (fun i hi => (subkeyPerm_range i hi).2)⟩
  | succ r ih =>
    constructor
    · show (halfC (complement key) r).rotate _ = ((halfC key r).rotate _).map _
      rw [ih.1, List.map_rotate]
    · show (halfD (complement key) r).rotate _ = ((halfD key r).rotate _).map _
      rw [ih.2, List.map_rotate]

theorem halfC_length (key : List Nat) : ∀ r,
    (halfC key r).length = 28 ∧ (halfD key r).length = 28 := by
  intro r
  induction r with
  | zero => exact ⟨bitsOf_length _ _, bitsOf_length _ _⟩
  | succ r ih =>
    constructor
    · show ((halfC key r).rotate _).length = 28
      rw [List.length_rotate, ih.1]
    · show ((halfD key r).rotate _).length = 28
      rw [List.length_rotate, ih.2]

theorem getD_map_flip (l : List Nat) (i : Nat) (h : i < l.length) :
    (l.map (fun b => 1 - b)).getD i 0 = 1 - l.getD i 0 := by
  rw [List.getD_eq_getElem?_getD, List.getD_eq_getElem?_getD, List.getElem?_map,
    List.getElem?_eq_getElem h]
  rfl

/-- The subkeys of the complemented key are the complements of the subkeys. -/
theorem generateSubkeys_complement (K : List (List Nat)) (key : List Nat) (hK : K.length = 17)
    (hslots : ∀ r, 1 ≤ r → r ≤ 16 → (K.getD r []).length = 6) (hk : key.length = 8) (r : Nat)
    (hr1 : 1 ≤ r) (hr2 : r ≤ 16) :
    ((generateSubkeys K key).getD r []).length = 6 ∧
    (generateSubkeys K (complement key)).getD r [] =
      complement ((generateSubkeys K key).getD r []) := by
  obtain ⟨_, _, _, _, _, h6⟩ := keySteps_spec K key hK hslots 16 (Nat.le_refl 16)
  obtain ⟨_, _, _, _, _, h6c⟩ := keySteps_spec K (complement key) hK hslots 16 (Nat.le_refl 16)
  obtain ⟨a1, a2, a3⟩ := (h6 r).1 ⟨hr1, hr2⟩
  obtain ⟨b1, b2, b3⟩ := (h6c r).1 ⟨hr1, hr2⟩
  rw [generateSubkeys_eq, generateSubkeys_eq]
  refine ⟨a1, ?_⟩
  apply bytes_ext _ _ (by rw [b1, complement_length, a1]) b2 (complement_isBytes _ a2)
  intro t ht1 ht2
  rw [b1] at ht2
  rw [getBit_complement _ t ht1 (by rw [a1]; exact ht2), b3 t ht1 ht2, a3 t ht1 ht2,
    (halves_complement key hk r).1, (halves_complement key hk r).2, ← List.map_append]
  have hp := pc2_range (t - 1) (by omega)
  have hlen : (halfC key r ++ halfD key r).length = 56 := by
    rw [List.length_append, (halfC_length key r).1, (halfC_length key r).2]
  exact getD_map_flip _ _ (by rw [hlen]; omega)

theorem combine_complement (L R : List Nat) (hL : L.length = 4) (hR : R.length = 4) (j : Nat)
    (h1 : 1 ≤ j) (h2 : j ≤ 64) :
    getBit (combine (complement L) (complement R)) j = 1 - getBit (combine L R) j := by
  rw [combine_getBit _ _ j h1 h2, combine_getBit _ _ j h1 h2]
  by_cases hj : j ≤ 32
  · rw [if_pos hj, if_pos hj, getBit_complement R j h1 (by rw [hR]; omega)]
  · rw [if_neg hj, if_neg hj, getBit_complement L (j - 32) (by omega) (by rw [hL]; omega)]

theorem encryptBlock_complement (b : List Nat) (S S' : List (List Nat)) (hb : b.length = 8)
    (hS : ∀ r, 1 ≤ r → r ≤ 16 → (S.getD r []).length = 6 ∧
      S'.getD r [] = complement (S.getD r [])) :
    encryptBlock (complement b) S' = complement (encryptBlock b S) := by
  have hkeys : encKeys S' = (encKeys S).map complement := by
    unfold encKeys
    rw [List.map_map]
    apply List.map_congr_left
    intro r hr
    rw [List.mem_range'_1] at hr
    exact (hS r hr.1 (by have := hr.2; simp only [ROUND_COUNT] at this; omega)).2
  have hlen6 : ∀ k ∈ encKeys S, k.length = 6 := by
    intro k hk
    unfold encKeys at hk
    rw [List.mem_map] at hk
    obtain ⟨r, hr, rfl⟩ := hk
    rw [List.mem_range'_1] at hr
    exact (hS r hr.1 (by have := hr.2; simp only [ROUND_COUNT] at this; omega)).1
  have hinitL : permute (List.replicate HALF_BLOCK_BYTES 0) (complement b) leftInitialPerm
      HALF_BLOCK_BITS = complement (permute (List.replicate HALF_BLOCK_BYTES 0) b
        leftInitialPerm HALF_BLOCK_BITS) :=
    permute_complement b (complement b) leftInitialPerm 4 (fun i hi => by
      have hr := (initialPerm_range i hi).1
      exact getBit_complement b _ hr.1 (by rw [hb]; exact hr.2))
  have hinitR : permute (List.replicate HALF_BLOCK_BYTES 0) (complement b) rightInitialPerm
      HALF_BLOCK_BITS = complement (permute (List.replicate HALF_BLOCK_BYTES 0) b
        rightInitialPerm HALF_BLOCK_BITS) :=
    permute_complement b (complement b) rightInitialPerm 4 (fun i hi => by
      have hr := (initialPerm_range i hi).2
      exact getBit_complement b _ hr.1 (by rw [hb]; exact hr.2))
  obtain ⟨⟨hl0, _⟩, hr0, _⟩ := initial_isState b
  rw [encryptBlock_eq, encryptBlock_eq]
  unfold feistel
  simp only []
  rw [hkeys, hinitL, hinitR, rounds_complement _ _ _ hlen6 hl0 hr0]
  obtain ⟨⟨hl, _⟩, hr, _⟩ := rounds_isState (encKeys S) _ (initial_isState b)
  simp only []
  rw [finishBlock_eq _ _ _ (by rw [complement_length]; exact hb), finishBlock_eq _ _ _ hb]
  exact permute_complement _ _ finalPerm 8 (fun i hi => by
    have hrange := finalPerm_range i hi
    exact combine_complement _ _ hl hr _ hrange.1 hrange.2)

/-- C36. Complementation property of DES: for every 8-byte key `k`, every 8-byte block `b`
and a schedule array of 17 slots of 6 bytes, `encryptBlock` of the complemented block under
the schedule of the complemented key is the complement of `encryptBlock( b )` under the
schedule of `k`. -/
theorem C36_complementation (K : List (List Nat)) (k b : List Nat) (hK : K.length = 17)
    (hslots : ∀ r, 1 ≤ r → r ≤ 16 → (K.getD r []).length = 6) (hk : k.length = 8)
    (hb : b.length = 8) :
    encryptBlock (complement b) (generateSubkeys K (complement k)) =
      complement (encryptBlock b (generateSubkeys K k)) :=
  encryptBlock_complement b _ _ hb
    (fun r hr1 hr2 => generateSubkeys_complement K k hK hslots hk r hr1 hr2)

/-- Witness of C36 at the test key and the block `00 11 22 33 44 55 66 77`. -/
theorem C36_complementation_witness :
    encryptBlock (complement [0, 17, 34, 51, 68, 85, 102, 119])
        (generateSubkeys freshSchedule
          (complement [0x01, 0x23, 0x45, 0x67, 0x89, 0xAB, 0xCD, 0xEF])) =
      complement (encryptBlock [0, 17, 34, 51, 68, 85, 102, 119]
        (generateSubkeys freshSchedule [0x01, 0x23, 0x45, 0x67, 0x89, 0xAB, 0xCD, 0xEF])) :=
  C36_complementation freshSchedule [0x01, 0x23, 0x45, 0x67, 0x89, 0xAB, 0xCD, 0xEF]
    [0, 17, 34, 51, 68, 85, 102, 119] (by decide) (by decide) rfl rfl

end TDES

/-! # The segment tree: the invariant -/

namespace Seg

/-! ## The representation invariant, spelled out -/

/-- C39. Representation invariant of the segment tree: in every state built from `makeST`
by `addST`, `setST` and `removeST` with a comparison that is a total preorder, the capacity
is a power of two and at least 4, `leafStart` is the capacity, `size ≤ capacity`, leaf
`leafStart + k` holds `k` for `k < size` and -1 for the other `k < capacity`, and every
internal node `pos` in `1 .. leafStart - 1` holds -1 if both children hold -1, the index of
the other child if one child holds -1, and otherwise the index held by the child whose value
is better, the left child's on ties. -/
theorem C39_representation_invariant {α : Type} [Inhabited α] (vComp : α → α → Int)
    (hc : IsTotalPreorder vComp) (st : SegTree α) (hr : Reachable vComp st) :
    (∃ h, st.capacity = 2 ^ h) ∧ 4 ≤ st.capacity ∧ st.leafStart = st.capacity ∧
    st.size ≤ st.capacity ∧ st.vList.length = st.capacity ∧
    st.tree.length = 2 * st.capacity ∧
    (∀ k, k < st.capacity →
      st.tree.getD (st.leafStart + k) 0 = if k < st.size then (k : Int) else -1) ∧
    ∀ pos, 1 ≤ pos → pos < st.leafStart →
      (st.tree.getD (LEFT pos) 0 = -1 → st.tree.getD (RIGHT pos) 0 = -1 →
        st.tree.getD pos 0 = -1) ∧
      (st.tree.getD (LEFT pos) 0 = -1 → st.tree.getD pos 0 = st.tree.getD (RIGHT pos) 0) ∧
      (st.tree.getD (RIGHT pos) 0 = -1 → st.tree.getD pos 0 = st.tree.getD (LEFT pos) 0) ∧
      (st.tree.getD (LEFT pos) 0 ≠ -1 → st.tree.getD (RIGHT pos) 0 ≠ -1 →
        st.tree.getD pos 0 =
          if vComp (valueAt st.vList (st.tree.getD (LEFT pos) 0))
              (valueAt st.vList (st.tree.getD (RIGHT pos) 0)) < 0 then
            st.tree.getD (RIGHT pos) 0
          else st.tree.getD (LEFT pos) 0) := by
  have hinv := reachable_inv vComp hc st hr
  have hv := reachable_vComp vComp st hr
  obtain ⟨h, hh2, hcap⟩ := hinv.cap_pow
  have h4 : 4 ≤ st.capacity := by
    rw [hcap]
    calc 4 = 2 ^ 2 := rfl
      _ ≤ 2 ^ h := Nat.pow_le_pow_right (by decide) hh2
  refine ⟨⟨h, hcap⟩, h4, hinv.leafStart_eq, hinv.size_le, hinv.vList_length, hinv.tree_length,
    ?_, ?_⟩
  · intro k hk
    rw [hinv.leafStart_eq]
    exact hinv.leaves k hk
  · intro pos h1 h2
    rw [hinv.leafStart_eq] at h2
    have hrel := hinv.internal pos h1 h2
    unfold Rel pickEither at hrel
    rw [hv] at hrel
    rw [LEFT_eq, RIGHT_eq]
    refine ⟨?_, ?_, ?_, ?_⟩
    · intro hl hrr
      rw [hrel, if_pos hl, hrr]
    · intro hl
      rw [hrel, if_pos hl]
    · intro hrr
      rw [hrel]
      by_cases hl : st.tree.getD (2 * pos) 0 = -1
      · rw [if_pos hl, hrr, hl]
      · rw [if_neg hl, if_pos hrr]
    · intro hl hrr
      rw [hrel, if_neg hl, if_neg hrr]

/-- Witness of C39 at the tree holding 2, 1, 4, 3, 6 (the arrays were doubled once). -/
theorem C39_representation_invariant_witness :
    (addAll (makeST 4 intComp) [2, 1, 4, 3, 6]).leafStart =
      (addAll (makeST 4 intComp) [2, 1, 4, 3, 6]).capacity :=
  (C39_representation_invariant intComp isTotalPreorder_intComp
    (addAll (makeST 4 intComp) [2, 1, 4, 3, 6])
    (reachable_addAll intComp _ _ (Reachable.make 4))).2.2.1

end Seg

/-! # The float check: properties -/

namespace Data

open Text

/-! ## The float check -/

theorem charAt_append (pre : List Nat) (c : Nat) (post : List Nat) :
    charAt (pre ++ c :: post) pre.length = c := by
  unfold charAt
  rw [List.getD_eq_getElem?_getD, List.getElem?_append_right (Nat.le_refl _), Nat.sub_self]
  simp

theorem floatLoop_spec : ∀ (b pre rest : List Nat) (fuel : Nat) (hd : Bool),
    (∀ c ∈ b, c ≠ 0) → b.length < fuel →
    floatLoop (pre ++ (b ++ 0 :: rest)) fuel pre.length hd =
      some (b.all (fun c => ('0'.toNat ≤ c && c ≤ '9'.toNat) || c = '.'.toNat) &&
        decide (b.count '.'.toNat + hd.toNat ≤ 1)) := by
  intro b
  induction b with
  | nil =>
    intro pre rest fuel hd _ hf
    obtain ⟨f, rfl⟩ : ∃ f, fuel = f + 1 := ⟨fuel - 1, by simp at hf; omega⟩
    unfold floatLoop
    rw [List.nil_append, charAt_append, if_neg (by simp)]
    cases hd <;> rfl
  | cons c b ih =>
    intro pre rest fuel hd hb hf
    obtain ⟨f, rfl⟩ : ∃ f, fuel = f + 1 := ⟨fuel - 1, by simp at hf; omega⟩
    have hc0 : c ≠ 0 := hb c (List.mem_cons_self _ _)
    have hb2 : ∀ x ∈ b, x ≠ 0 := fun x hx => hb x (List.mem_cons_of_mem _ hx)
    have hf2 : b.length < f := by simp at hf; omega
    have hrec := fun hd2 => ih (pre ++ [c]) rest f hd2 hb2 hf2
    have e1 : pre ++ [c] ++ (b ++ 0 :: rest) = pre ++ (c :: b ++ 0 :: rest) := by simp
    have e2 : (pre ++ [c]).length = pre.length + 1 := by simp
    simp only [e1, e2] at hrec
    unfold floatLoop
    rw [List.cons_append, charAt_append, if_pos hc0]
    have eD : '.'.toNat = 46 := rfl
    have e0 : '0'.toNat = 48 := rfl
    have e9 : '9'.toNat = 57 := rfl
    rw [eD] at *
    rw [e0, e9]
    by_cases hdot : c = 46
    · rw [if_pos hdot]
      subst hdot
      cases hd
      · rw [if_neg (by simp), ← List.cons_append, hrec true]
        simp
      · rw [if_pos rfl]
        simp
    · rw [if_neg hdot]
      have hne : ¬ (46 = c) := fun h => hdot h.symm
      by_cases hdig : c < 48 ∨ c > 57
      · rw [if_pos hdig]
        have hno : ¬ (48 ≤ c ∧ c ≤ 57) := by omega
        simp [hno, hdot]
      · rw [if_neg hdig, ← List.cons_append, hrec hd]
        have hyes : 48 ≤ c ∧ c ≤ 57 := by omega
        simp [hyes, List.count_cons, hne]

theorem isValidFloat_text (s rest : List Nat) (hs : ∀ c ∈ s, c ≠ 0) :
    isValidFloat (s ++ 0 :: rest) = some (isFloatText s) := by
  have eM : '-'.toNat = 45 := rfl
  cases s with
  | nil => rfl
  | cons c t =>
    have hc0 : c ≠ 0 := hs c (List.mem_cons_self _ _)
    have ht : ∀ x ∈ t, x ≠ 0 := fun x hx => hs x (List.mem_cons_of_mem _ hx)
    have h0 : charAt (c :: t ++ 0 :: rest) 0 = c := rfl
    unfold isValidFloat
    simp only [h0]
    by_cases hm : c = '-'.toNat
    · rw [if_pos hm]
      have hbody : isFloatBody (c :: t) = false := by
        unfold isFloatBody
        rw [List.all_cons, hm]
        rfl
      have htext : isFloatText (c :: t) = isFloatBody t := by
        unfold isFloatText
        rw [hbody, hm]
        simp
      rw [htext]
      cases t with
      | nil => rfl
      | cons d u =>
        have h1 : charAt (c :: (d :: u) ++ 0 :: rest) 1 = d := rfl
        have hd0 : d ≠ 0 := ht d (List.mem_cons_self _ _)
        rw [h1, if_neg hd0]
        have := floatLoop_spec (d :: u) [c] rest ((c :: (d :: u) ++ 0 :: rest).length + 1) false ht
          (by simp; omega)
        rw [show [c] ++ (d :: u ++ 0 :: rest) = c :: (d :: u) ++ 0 :: rest from rfl] at this
        rw [show ([c] : List Nat).length = 1 from rfl] at this
        rw [this]
        unfold isFloatBody
        simp
    · rw [if_neg hm, h0, if_neg hc0]
      have htext : isFloatText (c :: t) = isFloatBody (c :: t) := by
        unfold isFloatText
        have hm2 : ¬ c = 45 := hm
        simp [hm2]
      rw [htext]
      have := floatLoop_spec (c :: t) [] rest ((c :: t ++ 0 :: rest).length + 1) false hs
        (by simp; omega)
      rw [show [] ++ (c :: t ++ 0 :: rest) = c :: t ++ 0 :: rest from rfl] at this
      rw [show ([] : List Nat).length = 0 from rfl] at this
      rw [this]
      unfold isFloatBody
      simp

/-- C40. `isValidFloat` returns, and accepts exactly the strings made of an optional leading
`-` followed by at least one character, each a decimal digit or `.`, with at most one `.`:
on the buffer holding the string `s`, its terminator and anything after it, the result is
`isFloatText s`.  In particular it is true for `.` and `-.` and false for the empty string
and for `-`. -/
theorem C40_isValidFloat_accepts (s rest : List Nat) (hs : ∀ c ∈ s, c ≠ 0) :
    isValidFloat (s ++ 0 :: rest) = some (isFloatText s) ∧
    isValidFloat (['.'.toNat] ++ 0 :: rest) = some true ∧
    isValidFloat (['-'.toNat, '.'.toNat] ++ 0 :: rest) = some true ∧
    isValidFloat ([] ++ 0 :: rest) = some false ∧
    isValidFloat (['-'.toNat] ++ 0 :: rest) = some false :=
  ⟨isValidFloat_text s rest hs,
    isValidFloat_text ['.'.toNat] rest (by decide),
    isValidFloat_text ['-'.toNat, '.'.toNat] rest (by decide),
    isValidFloat_text [] rest (by decide),
    isValidFloat_text ['-'.toNat] rest (by decide)⟩

/-- Witness of C40 at the string `-12.5`. -/
theorem C40_isValidFloat_accepts_witness :
    isValidFloat (['-'.toNat, '1'.toNat, '2'.toNat, '.'.toNat, '5'.toNat] ++ 0 :: []) =
      some (isFloatText ['-'.toNat, '1'.toNat, '2'.toNat, '.'.toNat, '5'.toNat]) ∧
    isFloatText ['-'.toNat, '1'.toNat, '2'.toNat, '.'.toNat, '5'.toNat] = true :=
  ⟨(C40_isValidFloat_accepts ['-'.toNat, '1'.toNat, '2'.toNat, '.'.toNat, '5'.toNat] []
    (by decide)).1, by decide⟩

end Data
